import Mathlib

/-! # goqs: the query-string decoder of `parse.go`

A shallow embedding of `parse.go` and a verification of its decode pipeline
`DecodeQuery = EscapeQueryString → parseValues → parseKeys → parseObject →
Merge → Compact → PostProcessParsedObject`.

Conventions of the embedding

* A Go `string` is its sequence of bytes, `Str = List Nat` (each byte below 256);
  `bytes "a[0]=x"` writes an ASCII literal.
* A Go `interface{}` value of the decoder is a `Value`; a `map[string]interface{}`
  is an association list with pairwise distinct keys, kept in order of first
  insertion.  Go map equality does not look at the order, and every loop of
  `parse.go` over a map whose outcome is observed is independent of the order.
* A Go `int` is an `Int`; the one addition that can leave the 64-bit range
  (`limit+1`, `index+1`) is wrapped or reported explicitly.
* A recovered panic is an `Except.error`; `DecodeQuery` turns it into the pair
  (nil result, non-nil error) exactly as the deferred `recover` does.
-/

namespace GoQs

/-- A Go string: the list of its bytes. -/
abbrev Str := List Nat

/-- The bytes of an ASCII literal. -/
def bytes (s : String) : Str := s.toList.map Char.toNat

/-! ## The parts of the Go standard library that `parse.go` calls -/

/-- Go `strings.HasPrefix`. -/
def hasPrefix (s p : Str) : Bool := p.isPrefixOf s

/-- Go `strings.HasSuffix`. -/
def hasSuffix (s p : Str) : Bool := p.reverse.isPrefixOf s.reverse

/-- Go `strings.Index`: the position of the first occurrence of `sub`, `none` for -1. -/
def index (sub : Str) : Str → Option Nat
  | [] => if sub.isPrefixOf [] then some 0 else none
  | c :: cs => if sub.isPrefixOf (c :: cs) then some 0 else (index sub cs).map (· + 1)

/-- Go `strings.Contains`. -/
def contains (s sub : Str) : Bool := (index sub s).isSome

/-- The scan of `strings.ReplaceAll`: `skip` counts the bytes of a matched
occurrence of `old` still to be passed over. -/
def replaceAllAux (old new : Str) : Nat → Str → Str
  | _, [] => []
  | skip + 1, _ :: cs => replaceAllAux old new skip cs
  | 0, c :: cs =>
    if old.isPrefixOf (c :: cs) then new ++ replaceAllAux old new (old.length - 1) cs
    else c :: replaceAllAux old new 0 cs

/-- Go `strings.ReplaceAll` for a non-empty `old` (every call site passes a
non-empty constant): the non-overlapping occurrences, leftmost first. -/
def replaceAll (s old new : Str) : Str := replaceAllAux old new 0 s

/-- Puts a byte in front of the first piece of a split. -/
def consHead (c : Nat) : List Str → List Str
  | [] => [[c]]
  | p :: ps => (c :: p) :: ps

/-- The scan of `strings.SplitN`: `cuts` is the number of cuts still allowed,
`skip` the bytes of a matched separator still to be passed over.  The result
is never empty; its head is the piece being read. -/
def splitAux (sep : Str) : Nat → Nat → Str → List Str
  | _, _, [] => [[]]
  | skip + 1, cuts, _ :: cs => splitAux sep skip cuts cs
  | 0, cuts, c :: cs =>
    if 0 < cuts ∧ sep.isPrefixOf (c :: cs) then [] :: splitAux sep (sep.length - 1) (cuts - 1) cs
    else consHead c (splitAux sep 0 cuts cs)

/-- Go `strings.SplitN` for a non-empty separator (`normalizeParseOptions`
replaces an empty delimiter): `n = 0` gives no piece, `n < 0` every piece,
`n > 0` at most `n` pieces, the last one holding the unsplit rest. -/
def splitN (s sep : Str) (n : Int) : List Str :=
  if n = 0 then []
  else if n < 0 then splitAux sep 0 s.length s
  else splitAux sep 0 (n.toNat - 1) s

/-- Go `strings.Split`. -/
def split (s sep : Str) : List Str := splitN s sep (-1)

/-- Go `strings.Join`. -/
def join (sep : Str) : List Str → Str
  | [] => []
  | [p] => p
  | p :: q :: rest => p ++ sep ++ join sep (q :: rest)

/-- Go `strings.TrimPrefix`. -/
def trimPrefix (s p : Str) : Str := if hasPrefix s p then s.drop p.length else s

/-- The test `ishex` of `net/url`. -/
def ishex (c : Nat) : Bool :=
  (48 ≤ c && c ≤ 57) || (97 ≤ c && c ≤ 102) || (65 ≤ c && c ≤ 70)

/-- The value `unhex` of `net/url`. -/
def unhex (c : Nat) : Nat :=
  if 48 ≤ c ∧ c ≤ 57 then c - 48
  else if 97 ≤ c ∧ c ≤ 102 then c - 97 + 10
  else if 65 ≤ c ∧ c ≤ 70 then c - 65 + 10
  else 0

/-- The scan of `url.QueryUnescape`: `skip` counts the hex digits of a decoded
escape still to be passed over; `none` is the error return. -/
def unescapeAux : Nat → Str → Option Str
  | _, [] => some []
  | skip + 1, _ :: cs => unescapeAux skip cs
  | 0, c :: cs =>
    if c = 37 then
      match cs with
      | h1 :: h2 :: _ =>
        if ishex h1 && ishex h2 then
          (unescapeAux 2 cs).map (fun t => (unhex h1 * 16 + unhex h2) :: t)
        else none
      | _ => none
    else if c = 43 then (unescapeAux 0 cs).map (fun t => 32 :: t)
    else (unescapeAux 0 cs).map (fun t => c :: t)

/-- Go `url.QueryUnescape`: `none` is the error return (a `%` that is not
followed by two hex digits); `+` becomes a space. -/
def queryUnescape (s : Str) : Option Str := unescapeAux 0 s

/-- An ASCII letter. -/
def isLetter (c : Nat) : Bool := (65 ≤ c && c ≤ 90) || (97 ≤ c && c ≤ 122)

/-- An ASCII decimal digit. -/
def isDigit (c : Nat) : Bool := 48 ≤ c && c ≤ 57

/-- An ASCII letter or digit. -/
def isAlnum (c : Nat) : Bool := isLetter c || isDigit c

/-- The bytes `url.QueryEscape` leaves alone: letters, digits and `-`, `_`, `.`, `~`. -/
def isUnreserved (c : Nat) : Bool := isAlnum c || c = 45 || c = 95 || c = 46 || c = 126

/-- The digit of `"0123456789ABCDEF"` for a value below 16. -/
def upperhex (n : Nat) : Nat := if n < 10 then 48 + n else 55 + n

/-- Go `url.QueryEscape`: a space becomes `+`, every other byte that is not
unreserved becomes `%XX` in upper-case hex. -/
def queryEscape : Str → Str
  | [] => []
  | c :: rest =>
    if isUnreserved c then c :: queryEscape rest
    else if c = 32 then 43 :: queryEscape rest
    else 37 :: upperhex (c / 16 % 16) :: upperhex (c % 16) :: queryEscape rest

/-- The largest Go `int` (64 bits). -/
def maxInt : Int := 9223372036854775807

/-- The smallest Go `int` (64 bits). -/
def minInt : Int := -9223372036854775808

/-- Go runtime (64-bit platforms with 48 address bits, linux/amd64): `maxAlloc`,
the largest number of bytes that `makeslice` accepts. -/
def maxAlloc : Int := 281474976710656

/-- The size in bytes of an `interface{}` value on a 64-bit platform. -/
def ifaceSize : Int := 16

/-- The largest length that `make([]interface{}, n)` accepts: `maxAlloc` divided
by the size of an element, 2^44. -/
def maxSliceLen : Int := 17592186044416

/-- Two's-complement wrap of an `int` result. -/
def wrapInt (x : Int) : Int := (x + 9223372036854775808) % 18446744073709551616 - 9223372036854775808

/-- The value of a run of decimal digits, `none` when a byte is not a digit. -/
def parseDigits : Nat → Str → Option Nat
  | acc, [] => some acc
  | acc, c :: cs => if isDigit c then parseDigits (acc * 10 + (c - 48)) cs else none

/-- Go `strconv.Atoi`: an optional sign and at least one decimal digit, the
value inside the 64-bit range; `none` is the error return. -/
def atoi (s : Str) : Option Int :=
  match s with
  | [] => none
  | c :: r =>
    let body : Str := if c = 43 ∨ c = 45 then r else c :: r
    if body = [] then none
    else
      match parseDigits 0 body with
      | none => none
      | some n =>
        let v : Int := if c = 45 then -(n : Int) else (n : Int)
        if minInt ≤ v ∧ v ≤ maxInt then some v else none

/-- The decimal digits of `n` in front of `acc`; `fuel` bounds the number of digits. -/
def itoaAux : Nat → Nat → Str → Str
  | 0, _, acc => acc
  | fuel + 1, n, acc =>
    if n < 10 then (48 + n) :: acc else itoaAux fuel (n / 10) ((48 + n % 10) :: acc)

/-- Go `strconv.Itoa` on a non-negative `int`: the canonical decimal numeral. -/
def itoaNat (n : Nat) : Str := itoaAux (n + 1) n []

/-- Go `strconv.Itoa`. -/
def itoa (i : Int) : Str :=
  match i with
  | Int.ofNat n => itoaNat n
  | Int.negSucc n => 45 :: itoaNat (n + 1)

/-- Go `string(rune(n))` for the `int` n: the UTF-8 encoding of the code point
that remains after the conversion to a 32-bit rune, U+FFFD when it is not a
Unicode scalar value. -/
def runeString (n : Int) : Str :=
  let r : Int := (n + 2147483648) % 4294967296 - 2147483648
  if r < 0 ∨ 1114111 < r ∨ (55296 ≤ r ∧ r ≤ 57343) then [239, 191, 189]
  else
    let c : Nat := r.toNat
    if c < 128 then [c]
    else if c < 2048 then [192 + c / 64, 128 + c % 64]
    else if c < 65536 then [224 + c / 4096, 128 + c / 64 % 64, 128 + c % 64]
    else [240 + c / 262144, 128 + c / 4096 % 64, 128 + c / 64 % 64, 128 + c % 64]

/-! ## The regular expressions of `parse.go` -/

/-- After a `[`: the length of `[^[\]]*]`, when the text goes on that way. -/
def closeLen : Str → Option Nat
  | [] => none
  | c :: rest =>
    if c = 93 then some 1
    else if c = 91 then none
    else (closeLen rest).map (· + 1)

/-- The leftmost match of the expression `(\[[^[\]]*])` as
`FindStringSubmatchIndex` reports it: the pair (start, end), `none` for nil. -/
def findBracket : Str → Option (Nat × Nat)
  | [] => none
  | c :: rest =>
    match (if c = 91 then closeLen rest else none) with
    | some n => some (0, n + 1)
    | none => (findBracket rest).map (fun se => (se.1 + 1, se.2 + 1))

/-- Whether the text after a `.` starts a match of `[^.[]+`. -/
def dotStarts : Str → Bool
  | [] => false
  | d :: _ => d ≠ 46 && d ≠ 91

/-- The scan of `ReplaceAllString` for the expression `\.([^.[]+)` and the
template `[$1]`; the flag tells that a match is being copied. -/
def dotsAux : Bool → Str → Str
  | inRun, [] => if inRun then [93] else []
  | inRun, c :: cs =>
    let close : Str := if inRun then [93] else []
    if inRun ∧ c ≠ 46 ∧ c ≠ 91 then c :: dotsAux true cs
    else if c = 46 ∧ dotStarts cs then close ++ 91 :: dotsAux true cs
    else close ++ c :: dotsAux false cs

/-- The rewriting `re.ReplaceAllString(key, "[$1]")` of `parseKeys`. -/
def dotsToBrackets (key : Str) : Str := dotsAux false key

/-- After `&#`: the digits of `(\d+);` and the length of the match behind `&#`. -/
def entityDigits : Str → Option (Str × Nat)
  | [] => none
  | c :: rest =>
    if isDigit c then
      match rest with
      | 59 :: _ => some ([c], 2)
      | _ => (entityDigits rest).map (fun dn => (c :: dn.1, dn.2 + 1))
    else none

/-- The value `n, _ := strconv.Atoi(m[1])` on a run of digits: the largest
`int` when the digits leave the 64-bit range. -/
def atoiDigits (ds : Str) : Int := (atoi ds).getD maxInt

/-- The scan of `interpretNumericEntities`. -/
def entitiesAux : Nat → Str → Str
  | _, [] => []
  | skip + 1, _ :: cs => entitiesAux skip cs
  | 0, c :: cs =>
    match (if c = 38 then (match cs with | 35 :: r => entityDigits r | _ => none) else none) with
    | some dn => runeString (atoiDigits dn.1) ++ entitiesAux (dn.2 + 1) cs
    | none => c :: entitiesAux 0 cs

/-- Source: `interpretNumericEntities`: every `&#NN;` becomes the code point NN. -/
def interpretNumericEntities (str : Str) : Str := entitiesAux 0 str

/-! ## Options -/

/-- Source: `DecodeFunc`. -/
abbrev DecodeFunc := Str → Str

/-- Source: `DecoderFunc`. -/
abbrev DecoderFunc := Str → DecodeFunc → Str → Str → Str

/-- Source: `ParseOptions`. -/
structure ParseOptions where
  AllowDots : Bool
  AllowEmptyArrays : Bool
  AllowPrototypes : Bool
  AllowSparse : Bool
  ParseNumbers : Bool
  ArrayLimit : Int
  Charset : Str
  CharsetSentinel : Bool
  Comma : Bool
  DecodeDotInKeys : Bool
  Decoder : Option DecoderFunc
  Delimiter : Str
  Depth : Int
  Duplicates : Str
  IgnoreQueryPrefix : Bool
  InterpretNumericEntities : Bool
  ParameterLimit : Int
  ParseArrays : Bool
  PlainObjects : Bool
  StrictDepth : Bool
  StrictNullHandling : Bool
  AllowNilArrayValues : Bool
  ThrowOnLimitExceeded : Bool

/-- Source: the package variable `defaults`. -/
def defaults : ParseOptions where
  AllowDots := false
  AllowEmptyArrays := false
  AllowPrototypes := false
  ParseNumbers := false
  AllowSparse := false
  ArrayLimit := 20
  Charset := bytes "utf-8"
  CharsetSentinel := false
  Comma := false
  DecodeDotInKeys := false
  Decoder := none
  Delimiter := bytes "&"
  Depth := 5
  Duplicates := bytes "combine"
  IgnoreQueryPrefix := false
  InterpretNumericEntities := false
  ParameterLimit := 1000
  ParseArrays := true
  PlainObjects := false
  StrictDepth := false
  StrictNullHandling := false
  AllowNilArrayValues := false
  ThrowOnLimitExceeded := false

/-- Source: `defaultDecoder`. -/
def defaultDecoder : DecoderFunc := fun s decodeFunc _ _ => decodeFunc s

/-- Source: `normalizeParseOptions`; `none` is the nil pointer. -/
def normalizeParseOptions (opts : Option ParseOptions) : ParseOptions :=
  match opts with
  | none => { defaults with Decoder := some (defaults.Decoder.getD defaultDecoder) }
  | some o =>
    { o with
      Charset := if o.Charset = [] then defaults.Charset else o.Charset
      Duplicates := if o.Duplicates = [] then defaults.Duplicates else o.Duplicates
      Delimiter := if o.Delimiter = [] then defaults.Delimiter else o.Delimiter
      Decoder := some (o.Decoder.getD defaultDecoder) }

/-- The panics that `DecodeQuery` recovers and the errors it returns. -/
inductive DecodeError where
  /-- "Array limit exceeded. Only %d element(s) allowed in an array." -/
  | arrayLimitExceeded (limit : Int)
  /-- "Parameter limit exceeded. Only %d parameter(s) allowed." -/
  | parameterLimitExceeded (limit : Int)
  /-- "Input depth exceeded depth option of %d and strictDepth is true" -/
  | depthExceeded (depth : Int)
  /-- The run-time panic of a nil pointer dereference (`options.AllowNilArrayValues`). -/
  | nilDereference
  /-- The run-time panic of `make` for a negative length. -/
  | makesliceLen
  /-- "failed to merge objects" -/
  | mergeFailed
  /-- "failed to compact object" -/
  | compactFailed
  deriving DecidableEq, Repr

/-! ## Values -/

/-- The dynamic values the decoder builds. -/
inductive Value where
  /-- The nil interface: a hole of a sequence, a dropped key. -/
  | null
  /-- A `string`. -/
  | str (s : Str)
  /-- A `bool`. -/
  | bool (b : Bool)
  /-- A `[]string` (the comma split of `parseArrayValue`). -/
  | strs (xs : List Str)
  /-- A `[]interface{}`. -/
  | arr (xs : List Value)
  /-- A `map[string]interface{}`. -/
  | obj (kvs : List (Str × Value))
  /-- A `map[int]interface{}` (the result of `ArrayToObject`), keyed by slice indices. -/
  | iobj (kvs : List (Nat × Value))
  deriving Repr

mutual
/-- Structural equality of values, as a test. -/
def Value.beq : Value → Value → Bool
  | .null, .null => true
  | .str a, .str b => decide (a = b)
  | .bool a, .bool b => decide (a = b)
  | .strs a, .strs b => decide (a = b)
  | .arr a, .arr b => Value.beqList a b
  | .obj a, .obj b => Value.beqObj a b
  | .iobj a, .iobj b => Value.beqIObj a b
  | _, _ => false
/-- Equality test of two slices. -/
def Value.beqList : List Value → List Value → Bool
  | [], [] => true
  | x :: xs, y :: ys => Value.beq x y && Value.beqList xs ys
  | _, _ => false
/-- Equality test of two string-keyed association lists. -/
def Value.beqObj : List (Str × Value) → List (Str × Value) → Bool
  | [], [] => true
  | (k, x) :: xs, (l, y) :: ys => decide (k = l) && Value.beq x y && Value.beqObj xs ys
  | _, _ => false
/-- Equality test of two integer-keyed association lists. -/
def Value.beqIObj : List (Nat × Value) → List (Nat × Value) → Bool
  | [], [] => true
  | (k, x) :: xs, (l, y) :: ys => decide (k = l) && Value.beq x y && Value.beqIObj xs ys
  | _, _ => false
end

/-- A string-keyed Go map. -/
abbrev Obj := List (Str × Value)

/-- The map read `m[k]`. -/
def mapGet : Obj → Str → Option Value
  | [], _ => none
  | (k', v) :: rest, k => if k' = k then some v else mapGet rest k

/-- The map write `m[k] = v`: an existing key keeps its place. -/
def mapSet : Obj → Str → Value → Obj
  | [], k, v => [(k, v)]
  | (k', v') :: rest, k, v => if k' = k then (k, v) :: rest else (k', v') :: mapSet rest k v

/-- The comparison `v == nil`. -/
def Value.isNull : Value → Bool
  | .null => true
  | _ => false

/-- The comparison `v == ""`. -/
def Value.isEmptyString : Value → Bool
  | .str [] => true
  | _ => false

/-- The type test `v.(map[string]interface{})`. -/
def Value.isObj : Value → Bool
  | .obj _ => true
  | _ => false

/-- The test `b, ok := v.(bool); ok && b`. -/
def Value.isTrueBool : Value → Bool
  | .bool true => true
  | _ => false

/-- The test `reflect.ValueOf(v).Kind() == reflect.Map`. -/
def Value.isMap : Value → Bool
  | .obj _ => true
  | .iobj _ => true
  | _ => false

/-- Source: `AsString`, on the values it is called with (a string, a bool or
nil); a slice or a map would be printed by `fmt.Sprintf("%v")` and is not
rendered here. -/
def AsString : Value → Str
  | .str s => s
  | .bool true => bytes "true"
  | .bool false => bytes "false"
  | .null => bytes "<nil>"
  | _ => []

/-! ## The decoder -/

/-- Source: `parseArrayValue`. -/
def parseArrayValue (val : Str) (options : ParseOptions) (currentArrayLength : Int) :
    Except DecodeError Value :=
  if val = bytes "true" ∨ val = bytes "false" then .ok (.str val)
  else if val ≠ [] ∧ options.Comma ∧ contains val (bytes ",") then
    .ok (.strs (split val (bytes ",")))
  else if options.ThrowOnLimitExceeded ∧ currentArrayLength ≥ options.ArrayLimit then
    .error (.arrayLimitExceeded options.ArrayLimit)
  else .ok (.str val)

/-- Source: the loop of `ArrayToObject`, from slice index `i` on: a nil element
is left out and a bool is stored as its text. -/
def arrayToObjectFrom : Nat → List Value → List (Nat × Value)
  | _, [] => []
  | i, .null :: rest => arrayToObjectFrom (i + 1) rest
  | i, .bool b :: rest => (i, .str (AsString (.bool b))) :: arrayToObjectFrom (i + 1) rest
  | i, v :: rest => (i, v) :: arrayToObjectFrom (i + 1) rest

/-- Source: `ArrayToObject` (the flag `plainObjects` is not read). -/
def ArrayToObject (source : List Value) (_plainObjects : Bool) : List (Nat × Value) :=
  arrayToObjectFrom 0 source

/-- Source: the loop `result[strconv.Itoa(k)] = v` of `Merge`. -/
def stringifyKeys (mt : List (Nat × Value)) : Obj :=
  mt.foldl (fun result kv => mapSet result (itoaNat kv.1) kv.2) []

mutual
/-- Source: `Merge`. -/
def Merge (options : ParseOptions) (target : Value) : Value → Value
  | .null => target
  | .str s =>
    match target with
    | .arr t => .arr (t ++ [.str s])
    | .obj t =>
      if options.PlainObjects || options.AllowPrototypes then
        .obj (mapSet t (AsString (.str s)) (.bool true))
      else .obj t
    | _ => .arr [target, .str s]
  | .bool b =>
    match target with
    | .arr t => .arr (t ++ [.bool b])
    | .obj t =>
      if options.PlainObjects || options.AllowPrototypes then
        .obj (mapSet t (AsString (.bool b)) (.bool true))
      else .obj t
    | _ => .arr [target, .bool b]
  | .strs xs =>
    match target with
    | .null => .arr [target, .strs xs]
    | .str _ => .arr [target, .strs xs]
    | .bool _ => .arr [target, .strs xs]
    | .arr t => .obj (stringifyKeys (ArrayToObject t options.PlainObjects))
    | .iobj mt => .obj (stringifyKeys mt)
    | _ => target
  | .iobj kvs =>
    match target with
    | .null => .arr [target, .iobj kvs]
    | .str _ => .arr [target, .iobj kvs]
    | .bool _ => .arr [target, .iobj kvs]
    | .arr t => .obj (stringifyKeys (ArrayToObject t options.PlainObjects))
    | .iobj mt => .obj (stringifyKeys mt)
    | _ => target
  | .arr sourceArr =>
    match target with
    | .null => .arr [target, .arr sourceArr]
    | .str _ => .arr [target, .arr sourceArr]
    | .bool _ => .arr [target, .arr sourceArr]
    | .arr targetArr => .arr (mergeItems options targetArr 0 sourceArr)
    | .iobj mt => .obj (stringifyKeys mt)
    | _ => target
  | .obj s =>
    match target with
    | .null => .arr [target, .obj s]
    | .str _ => .arr [target, .obj s]
    | .bool _ => .arr [target, .obj s]
    | .strs _ => target
    | .arr t => .obj (mergeEntries options (stringifyKeys (ArrayToObject t options.PlainObjects)) s)
    | .obj mt => .obj (mergeEntries options mt s)
    | .iobj mt => .obj (mergeEntries options (stringifyKeys mt) s)
/-- Source: the loop `for key, value := range s` of `Merge` on the target map `mt`. -/
def mergeEntries (options : ParseOptions) (mt : Obj) : Obj → Obj
  | [] => mt
  | (key, value) :: rest =>
    if value.isNull then mergeEntries options mt rest
    else
      match mapGet mt key with
      | some existingVal => mergeEntries options (mapSet mt key (Merge options existingVal value)) rest
      | none => mergeEntries options (mapSet mt key value) rest
/-- Source: the loop `for i, item := range sourceArr` of `Merge`, from position
`i` on, on the current `targetArr`. -/
def mergeItems (options : ParseOptions) (targetArr : List Value) (i : Nat) :
    List Value → List Value
  | [] => targetArr
  | item :: rest =>
    if item.isNull then mergeItems options targetArr (i + 1) rest
    else
      match targetArr.get? i with
      | some targetItem =>
        if targetItem.isMap && item.isMap then
          mergeItems options (targetArr.set i (Merge options targetItem item)) (i + 1) rest
        else mergeItems options (targetArr ++ [item]) (i + 1) rest
      | none => mergeItems options (targetArr ++ [item]) (i + 1) rest
end

/-- The loop of `Compact` on a slice: the trailing nil elements go. -/
def trimTrailingNil (arr : List Value) : List Value :=
  (arr.reverse.dropWhile Value.isNull).reverse

mutual
/-- Source: `Compact`. -/
def Compact : Value → Value
  | .arr arr => .arr (trimTrailingNil arr)
  | .obj m => .obj (compactEntries m)
  | v => v
/-- Source: the loop `m[k] = Compact(v)` of `Compact`. -/
def compactEntries : Obj → Obj
  | [] => []
  | (k, v) :: rest => (k, Compact v) :: compactEntries rest
end

/-- The keys that `needsToBeObject` looks for. -/
def isSpecificProperty (k : Str) : Bool :=
  k = bytes "contains" || k = bytes "some" || k = bytes "every" || k = bytes "none" ||
    k = bytes "length"

/-- Source: the inner loop of `needsToBeObject` on one element: a string-keyed
map with one of the specific properties. -/
def hasSpecificProperty : Value → Bool
  | .obj m => m.any (fun kv => isSpecificProperty kv.1)
  | _ => false

/-- Source: `needsToBeObject`: some element is a string-keyed map (`hasMapElements`)
and one of them has a specific property (`hasSpecificProperties`). -/
def needsToBeObject (arr : List Value) : Bool :=
  let hasMapElements : Bool := arr.any Value.isObj
  let hasSpecificProperties : Bool := arr.any hasSpecificProperty
  hasMapElements && hasSpecificProperties

/-- The operator keys of `convertToQsArrayFormat`. -/
def isOperatorKey (k : Str) : Bool :=
  k = bytes "lt" || k = bytes "gt" || k = bytes "like" || k = bytes "neq" || k = bytes "in" ||
    k = bytes "between"

/-- Source: `convertToQsArrayFormat`; the map is walked in the order of the
association list (Go leaves the order of the numeric keys open). -/
def convertToQsArrayFormat (m : Obj) : List Value :=
  let result : List Value :=
    (m.filter (fun kv => (atoi kv.1).isSome && kv.2.isTrueBool)).map (fun kv => Value.str kv.1)
  let opMap : Obj := m.filter (fun kv => isOperatorKey kv.1)
  if 0 < opMap.length then result ++ [.obj opMap] else result

/-- Source: `shouldConvertToArray`. -/
def shouldConvertToArray (m : Obj) : Bool :=
  let hasNum : Bool := m.any (fun kv => (atoi kv.1).isSome)
  let hasOps : Bool := false
  let hasBool : Bool := m.any (fun kv => kv.2.isTrueBool)
  let hasObj : Bool := m.any (fun kv => kv.2.isObj)
  (hasNum && hasOps) || (hasBool && hasObj)

mutual
/-- Source: `processNestedStructures`; `options` is the pointer the caller
passed, `none` for nil, and reading a field of nil panics. -/
def processNestedStructures (options : Option ParseOptions) : Value → Except DecodeError Value
  | .null => .ok .null
  | .obj m =>
    match processEntries options m with
    | .error e => .error e
    | .ok m' => if shouldConvertToArray m' then .ok (.arr (convertToQsArrayFormat m')) else .ok (.obj m')
  | .arr arr =>
    match processItems options arr with
    | .error e => .error e
    | .ok newArr => if needsToBeObject newArr then .ok (.iobj (ArrayToObject newArr true)) else .ok (.arr newArr)
  | .bool b => .ok (.str (AsString (.bool b)))
  | v => .ok v
/-- Source: the loop `m[k] = processNestedStructures(v, options)`. -/
def processEntries (options : Option ParseOptions) : Obj → Except DecodeError Obj
  | [] => .ok []
  | (k, v) :: rest =>
    match processNestedStructures options v with
    | .error e => .error e
    | .ok v' =>
      match processEntries options rest with
      | .error e => .error e
      | .ok rest' => .ok ((k, v') :: rest')
/-- Source: the loop over `arr` of `processNestedStructures` that fills `newArr`. -/
def processItems (options : Option ParseOptions) : List Value → Except DecodeError (List Value)
  | [] => .ok []
  | v :: rest =>
    match v with
    | .null =>
      match options with
      | none => .error .nilDereference
      | some o =>
        if !o.AllowNilArrayValues then processItems options rest
        else
          match processItems options rest with
          | .error e => .error e
          | .ok rest' => .ok (.null :: rest')
    | _ =>
      match processNestedStructures options v with
      | .error e => .error e
      | .ok v' =>
        match processItems options rest with
        | .error e => .error e
        | .ok rest' => .ok (v' :: rest')
end

/-- Source: `PostProcessParsedObject`: when the processed value is no longer a
string-keyed map the caller gets `obj` back, whose entries the walk has
already replaced in place. -/
def PostProcessParsedObject (obj : Obj) (options : Option ParseOptions) : Except DecodeError Obj :=
  match processEntries options obj with
  | .error e => .error e
  | .ok m' =>
    match (if shouldConvertToArray m' then Value.arr (convertToQsArrayFormat m') else Value.obj m') with
    | .obj m => .ok m
    | _ => .ok m'

/-- Source: `Decode`; both branches on the package variable `charset` do the same. -/
def Decode (str : Str) : Str :=
  let str := replaceAll str (bytes "+") (bytes " ")
  match queryUnescape str with
  | some decoded => decoded
  | none => str

/-- Source: the loop body of `EscapeQueryString` on one part. -/
def escapePart (part : Str) : Str :=
  match index (bytes "=") part with
  | some idx =>
    let key := part.take idx
    let value := part.drop (idx + 1)
    let value := match queryUnescape value with
      | some unescapedValue => unescapedValue
      | none => value
    let escapedValue := queryEscape value
    let key := (queryUnescape key).getD []
    key ++ bytes "=" ++ escapedValue
  | none => part

/-- Source: `EscapeQueryString`. -/
def EscapeQueryString (rawQuery : Str) : Str :=
  let rawQuery := replaceAll rawQuery (bytes "\t") []
  let rawQuery := replaceAll rawQuery (bytes "\n") []
  let parts := split rawQuery (bytes "&")
  join (bytes "&") (parts.map escapePart)

/-- Source: the search of `parseValues` for the charset sentinel: the index of
the first part that starts with `utf8=`. -/
def sentinelIndex : Nat → List Str → Option (Nat × Str)
  | _, [] => none
  | i, part :: rest =>
    if hasPrefix part (bytes "utf8=") then some (i, part) else sentinelIndex (i + 1) rest

/-- Source: the split point `pos` of `parseValues` in one part: behind the
first `]=`, else at the first `=`; `none` for -1. -/
def splitPos (part : Str) : Option Nat :=
  match index (bytes "]=") part with
  | none => index (bytes "=") part
  | some bracketEqualsPos => some (bracketEqualsPos + 1)

/-- Source: the body of the second loop of `parseValues` on one part: the key
and the value stored for it. -/
def parsePart (options : ParseOptions) (decoder : DecoderFunc) (charset : Str) (part : Str) :
    Str × Str :=
  let kv : Str × Value :=
    match splitPos part with
    | none =>
      (decoder part Decode charset (bytes "key"),
        if options.StrictNullHandling then Value.null else Value.str [])
    | some pos =>
      let key := decoder (part.take pos) Decode charset (bytes "key")
      if key ≠ [] then
        let rawVal := part.drop (pos + 1)
        let val := decoder rawVal Decode charset (bytes "value")
        if options.InterpretNumericEntities ∧ charset = bytes "iso-8859-1" then
          (key, Value.str (interpretNumericEntities val))
        else (key, Value.str val)
      else (key, Value.null)
  (kv.1, if kv.2.isNull then [] else AsString kv.2)

/-- Source: the second loop of `parseValues`, from part `i` on. -/
def parseValuesLoop (options : ParseOptions) (decoder : DecoderFunc) (charset : Str)
    (skipIndex : Option Nat) : Nat → Nat → List Str → List (List Str)
  | _, _, [] => []
  | i, paramIndex, part :: rest =>
    if skipIndex = some i then parseValuesLoop options decoder charset skipIndex (i + 1) paramIndex rest
    else
      let kv := parsePart options decoder charset part
      if kv.1 ≠ [] then
        [itoaNat paramIndex, kv.1, kv.2] ::
          parseValuesLoop options decoder charset skipIndex (i + 1) (paramIndex + 1) rest
      else parseValuesLoop options decoder charset skipIndex (i + 1) paramIndex rest

/-- Source: `parseValues`. -/
def parseValues (str : Str) (options : ParseOptions) : Except DecodeError (List (List Str)) :=
  let cleanStr := if options.IgnoreQueryPrefix then trimPrefix str (bytes "?") else str
  let cleanStr := replaceAll cleanStr (bytes "%5B") (bytes "[")
  let cleanStr := replaceAll cleanStr (bytes "%5D") (bytes "]")
  let limit : Int := if options.ParameterLimit = 0 then 1000 else options.ParameterLimit
  let parts := splitN cleanStr options.Delimiter (wrapInt (limit + 1))
  if options.ThrowOnLimitExceeded ∧ (parts.length : Int) > limit then
    .error (.parameterLimitExceeded limit)
  else
    let sentinel : Option (Nat × Str) :=
      if options.CharsetSentinel then sentinelIndex 0 parts else none
    let charset : Str :=
      match sentinel with
      | some (_, part) =>
        if part = [] then bytes "utf-8"
        else if part = [] then bytes "iso-8859-1"
        else options.Charset
      | none => options.Charset
    let decoder : DecoderFunc := options.Decoder.getD defaultDecoder
    .ok (parseValuesLoop options decoder charset (sentinel.map Prod.fst) 0 0 parts)

/-- Source: `parseObject`, the second half of one round of its loop: the
decoded name of a segment becomes a slot of a sparse slice, the key of a
one-entry map, or nothing. `make([]interface{}, index+1)` panics with
`makeslice: len out of range` when `index+1` wraps to a negative length or the
slice would take more than `maxAlloc` bytes. -/
def placeSegment (options : ParseOptions) (decodedRoot : Str) (leaf : Value) :
    Except DecodeError Value :=
  match atoi decodedRoot with
  | some index =>
    if options.ParseArrays ∧ index ≥ 0 ∧ index ≤ options.ArrayLimit then
      if index + 1 > maxInt ∨ ifaceSize * (index + 1) > maxAlloc then .error .makesliceLen
      else .ok (.arr (List.replicate index.toNat Value.null ++ [leaf]))
    else if decodedRoot ≠ bytes "__proto__" then .ok (.obj [(decodedRoot, leaf)])
    else .ok .null
  | none =>
    if decodedRoot ≠ bytes "__proto__" then .ok (.obj [(decodedRoot, leaf)])
    else .ok .null

/-- Source: `parseObject`, one round of its loop: the segment `root` wrapped
around `leaf`. -/
def wrapSegment (options : ParseOptions) (root : Str) (leaf : Value) : Except DecodeError Value :=
  if root = bytes "[]" ∧ options.ParseArrays then
    if options.AllowEmptyArrays && (leaf.isEmptyString || (options.StrictNullHandling && leaf.isNull)) then
      .ok (.arr [])
    else
      match leaf with
      | .arr arr => .ok (.arr arr)
      | _ => .ok (.arr [leaf])
  else
    let cleanRoot : Str :=
      if hasPrefix root (bytes "[") ∧ hasSuffix root (bytes "]") then
        (root.drop 1).take (root.length - 2)
      else root
    let decodedRoot : Str :=
      if options.DecodeDotInKeys then replaceAll cleanRoot (bytes "%2E") (bytes ".") else cleanRoot
    placeSegment options decodedRoot leaf

/-- Source: the loop of `parseObject` from the last segment of the chain to the first. -/
def wrapChain (options : ParseOptions) : List Str → Value → Except DecodeError Value
  | [], leaf => .ok leaf
  | root :: rest, leaf =>
    match wrapChain options rest leaf with
    | .error e => .error e
    | .ok inner => wrapSegment options root inner

/-- Source: `parseObject`. -/
def parseObject (chain : List Str) (val : Value) (options : ParseOptions) (valuesParsed : Bool) :
    Except DecodeError Value :=
  let currentArrayLength : Int :=
    if chain.getLast? = some (bytes "[]") then
      let parentKey : Str := (chain.take (chain.length - 1)).flatten
      match val with
      | .obj m =>
        match mapGet m parentKey with
        | some (.arr arr) => (arr.length : Int)
        | _ => 0
      | _ => 0
    else 0
  let leaf : Except DecodeError Value :=
    if valuesParsed then .ok val
    else
      match val with
      | .str strVal => parseArrayValue strVal options currentArrayLength
      | _ => .ok val
  match leaf with
  | .error e => .error e
  | .ok leaf => wrapChain options chain leaf

/-- Source: the `for` loop of `parseKeys`, with `n` rounds left before `i`
reaches `options.Depth`: `none` is the early `return nil` of the prototype
guard, otherwise the rest of the key and the segments it collected. -/
def parseKeysLoop (options : ParseOptions) : Nat → Str → List Str → Option (Str × List Str)
  | 0, key, keys => some (key, keys)
  | n + 1, key, keys =>
    match findBracket key with
    | none => some (key, keys)
    | some seg =>
      let segmentStr : Str := (key.take seg.2).drop seg.1
      if !options.PlainObjects ∧ segmentStr.length > 2 ∧
          (segmentStr.take (segmentStr.length - 1)).drop 1 = bytes "__proto__" ∧
          !options.AllowPrototypes then none
      else parseKeysLoop options n (key.drop seg.2) (keys ++ [segmentStr])

/-- Source: the `parent` of `parseKeys`: the text in front of the first
bracket group, the whole key when there is none. -/
def keyParent (key : Str) : Str :=
  match findBracket key with
  | some segment => key.take segment.1
  | none => key

/-- Source: `parseKeys`. -/
def parseKeys (givenKey : Str) (val : Value) (options : ParseOptions) (valuesParsed : Bool) :
    Except DecodeError Value :=
  if givenKey = [] then .ok .null
  else
    let key : Str := if options.AllowDots then dotsToBrackets givenKey else givenKey
    let parent : Str := keyParent key
    if parent ≠ [] ∧ !options.PlainObjects ∧ parent = bytes "__proto__" ∧ !options.AllowPrototypes then
      .ok .null
    else
      let keys : List Str := if parent ≠ [] then [parent] else []
      match parseKeysLoop options options.Depth.toNat key keys with
      | none => .ok .null
      | some (key, keys) =>
        if (findBracket key).isSome ∧ key.length > 0 then
          if options.StrictDepth then .error (.depthExceeded options.Depth)
          else parseObject (keys ++ [bytes "[" ++ key ++ bytes "]"]) val options valuesParsed
        else parseObject keys val options valuesParsed

/-- Source: the loop `for _, pair := range urlValues` of `DecodeQuery` on the
accumulator `obj`. -/
def decodeLoop (options : ParseOptions) : Obj → List (List Str) → Except DecodeError Obj
  | obj, [] => .ok obj
  | obj, pair :: rest =>
    match pair with
    | [_, key, value] =>
      match parseKeys key (.str value) options true with
      | .error e => .error e
      | .ok newObj =>
        match Merge options (.obj obj) newObj with
        | .obj m => decodeLoop options m rest
        | _ => .error .mergeFailed
    | _ => decodeLoop options obj rest

/-- Source: the body of `DecodeQuery`, a panic being an error. -/
def decodeBody (str : Str) (opts : Option ParseOptions) : Except DecodeError Obj :=
  let str := EscapeQueryString str
  let options := normalizeParseOptions opts
  if str = [] then .ok []
  else
    match parseValues str options with
    | .error e => .error e
    | .ok urlValues =>
      match decodeLoop options [] urlValues with
      | .error e => .error e
      | .ok obj =>
        match Compact (.obj obj) with
        | .obj compacted => PostProcessParsedObject compacted opts
        | _ => .error .compactFailed

/-- Source: `DecodeQuery`: the pair (`result`, `err`) it returns; the deferred
function sets `result = nil` when it recovers a panic. -/
def DecodeQuery (str : Str) (opts : Option ParseOptions) : Option Obj × Option DecodeError :=
  match decodeBody str opts with
  | .ok processed => (some processed, none)
  | .error e => (none, some e)

/-! ## Vocabulary of the statements -/

/-- Every byte is an ASCII letter. -/
@[reducible]
def Letters (s : Str) : Prop := ∀ c ∈ s, isLetter c = true

/-- Every byte is an ASCII letter or digit. -/
@[reducible]
def Alnum (s : Str) : Prop := ∀ c ∈ s, isAlnum c = true

/-- The text `key=value` of one pair. -/
def pairText (kv : Str × Str) : Str := kv.1 ++ bytes "=" ++ kv.2

/-- The query `k1=v1&...&kn=vn`. -/
def queryOf (pairs : List (Str × Str)) : Str := join (bytes "&") (pairs.map pairText)

/-- The bracket group `[g]`. -/
def group (g : Str) : Str := bytes "[" ++ g ++ bytes "]"

/-- The run of bracket groups `[g1]...[gn]`. -/
def groups (gs : List Str) : Str := (gs.map group).flatten

/-- The nesting `k1 -> k2 -> ... -> leaf` of single-entry mappings. -/
def nest : List Str → Value → Value
  | [], leaf => leaf
  | k :: ks, leaf => .obj [(k, nest ks leaf)]

/-- The fold of `DecodeQuery` over key and value pairs: `decodeLoop` without
the ordinals that it does not read. -/
def foldPairs (options : ParseOptions) : Obj → List (Str × Str) → Except DecodeError Obj
  | obj, [] => .ok obj
  | obj, (key, value) :: rest =>
    match parseKeys key (.str value) options true with
    | .error e => .error e
    | .ok newObj =>
      match Merge options (.obj obj) newObj with
      | .obj m => foldPairs options m rest
      | _ => .error .mergeFailed

/-- The options that leave the splitter at its defaults, after
`normalizeParseOptions`. -/
structure StdSplit (o : ParseOptions) : Prop where
  delimiter : o.Delimiter = bytes "&"
  decoder : o.Decoder = some defaultDecoder
  sentinel : o.CharsetSentinel = false
  queryPrefix : o.IgnoreQueryPrefix = false
  entities : o.InterpretNumericEntities = false
  limit : o.ParameterLimit = 1000

/-- A key text that the escaping and splitting steps pass through unchanged:
not empty and free of tab, line feed, `%`, `&`, `+` and `=`. -/
def KeyOK (k : Str) : Prop := k ≠ [] ∧ ∀ c ∈ k, c ≠ 9 ∧ c ≠ 10 ∧ c ≠ 37 ∧ c ≠ 38 ∧ c ≠ 43 ∧ c ≠ 61

/-- The values whose decoding and post-processing is the identity: strings,
slices of strings, and string-keyed maps of such values. -/
inductive Settled : Value → Prop where
  | str (s : Str) : Settled (.str s)
  | arr (xs : List Str) : Settled (.arr (xs.map Value.str))
  | obj (kvs : Obj) : (∀ kv ∈ kvs, Settled kv.2) → Settled (.obj kvs)

/-- A name that can stand in a bracket group: free of brackets, not the protected name. -/
def GroupName (g : Str) : Prop := 91 ∉ g ∧ 93 ∉ g ∧ g ≠ bytes "__proto__"

/-- A root of a key: not empty, without `[`, and the prototype guard of
`parseKeys` does not fire on it. -/
structure RootOK (o : ParseOptions) (root : Str) : Prop where
  ne : root ≠ []
  noOpen : 91 ∉ root
  guard : root ≠ bytes "__proto__" ∨ o.PlainObjects = true ∨ o.AllowPrototypes = true

/-- Source: the options that `TestDecodeQueryFormats` passes. -/
def testOptions : ParseOptions :=
  { defaults with Depth := 10, StrictNullHandling := true }

/-- The first byte is an ASCII letter. -/
def startsWithLetter : Str → Bool
  | [] => false
  | c :: _ => isLetter c

/-- The flat mapping `{k1: v1, ..., kn: vn}`. -/
def flatMapping (pairs : List (Str × Str)) : Obj := pairs.map (fun kv => (kv.1, Value.str kv.2))

/-- The pairs `u[f1]=v1, ..., u[fn]=vn` for the fields `(f1, v1), ..., (fn, vn)`. -/
def fieldPairs (u : Str) (fields : List (Str × Str)) : List (Str × Str) :=
  fields.map (fun fv => (u ++ group fv.1, fv.2))

/-- Equality of two results of `DecodeQuery`, as a test. -/
def sameResult (r s : Option Obj × Option DecodeError) : Bool :=
  (match r.1, s.1 with
    | some a, some b => Value.beqObj a b
    | none, none => true
    | _, _ => false) && decide (r.2 = s.2)

/-- A letter for every number below 52: `A`..`Z`, then `a`..`z`. -/
def letterOf (j : Nat) : Nat := if j % 52 < 26 then 65 + j % 52 else 71 + j % 52

/-- Pairwise distinct two-letter names, one for every number below 2704. -/
def nameOf (i : Nat) : Str := [letterOf (i / 52), letterOf i]

/-- The fields `(name 0, "1"), ..., (name (n-1), "1")` with pairwise distinct names. -/
def manyFields (n : Nat) : List (Str × Str) := (List.range n).map (fun i => (nameOf i, bytes "1"))

/-- A pair whose text the splitter of `parseValues` reads back as it is: the
key passes through unchanged, the value holds no `%` and no `+`, and the first
`]=` of the text, if there is one, ends the key. -/
def PartOK (kv : Str × Str) : Prop :=
  KeyOK kv.1 ∧ 37 ∉ kv.2 ∧ 43 ∉ kv.2 ∧ (93 ∉ kv.2 ∨ kv.1.getLast? = some 93)

/-- The pair that `parseValues` reads from the last part when the query has
more parts than the parameter limit allows: the value keeps the text of the
pairs behind it. -/
def lumpPair : List (Str × Str) → Str × Str
  | [] => ([], [])
  | [kv] => kv
  | (k, v) :: kv :: rest => (k, v ++ bytes "&" ++ queryOf (kv :: rest))

/-- The pairs that `parseValues` reads from a query of more than
ParameterLimit + 1 = 1001 pairs. -/
def lumpPairs (pairs : List (Str × Str)) : List (Str × Str) :=
  pairs.take 1000 ++ [lumpPair (pairs.drop 1000)]

/-- The end of `DecodeQuery` on the accumulator of the loop: `Compact`, then
`PostProcessParsedObject`. -/
def finish (opts : Option ParseOptions) (r : Except DecodeError Obj) : Except DecodeError Obj :=
  match r with
  | .error e => .error e
  | .ok obj =>
    match Compact (.obj obj) with
    | .obj compacted => PostProcessParsedObject compacted opts
    | _ => .error .compactFailed

/-- The text inside the brackets of a sequence segment: nothing for the append
marker `[]`, the canonical decimal numeral for an explicit index. -/
def slotName : Option Nat → Str
  | none => []
  | some i => itoaNat i

/-- The pairs `a[s1]=v1, ..., a[sn]=vn` for sequence segments `s1, ..., sn`. -/
def slotPairs (a : Str) (slots : List (Option Nat × Str)) : List (Str × Str) :=
  fieldPairs a (slots.map (fun s => (slotName s.1, s.2)))

/-- The explicit slots `[i]=x0, [i+1]=x1, ...` in that order. -/
def explicitSlots : Nat → List Str → List (Option Nat × Str)
  | _, [] => []
  | i, x :: xs => (some i, x) :: explicitSlots (i + 1) xs

/-- The append slots `[]=y1, ..., []=yp`. -/
def appendSlots (ys : List Str) : List (Option Nat × Str) := ys.map (fun y => (none, y))

/-- The slots `[i1]=x1, ..., [in]=xn` for indices and values in the order given. -/
def indexSlots (ixs : List (Nat × Str)) : List (Option Nat × Str) :=
  ixs.map (fun ix => (some ix.1, ix.2))

/-- The options under which a slot is placed in a sequence. -/
structure SlotOpts (o : ParseOptions) : Prop where
  dots : o.AllowDots = false
  decodeDots : o.DecodeDotInKeys = false
  depth : 1 ≤ o.Depth
  arrays : o.ParseArrays = true
  emptyArrays : o.AllowEmptyArrays = false

/-- The pairs `k=v1, ..., k=vn` for one key. -/
def dupPairs (k : Str) (vs : List Str) : List (Str × Str) := vs.map (fun v => (k, v))

/-- The value under a top-level key of a result of `DecodeQuery`, if there is one. -/
def topLevel (r : Option Obj × Option DecodeError) (k : Str) : Option Value :=
  match r.1 with
  | some m => mapGet m k
  | none => none

mutual
/-- No string-keyed mapping inside the value, at any depth, has the key `__proto__`. -/
def NoProto : Value → Prop
  | .obj kvs => NoProtoEntries kvs
  | .arr xs => NoProtoItems xs
  | .iobj kvs => NoProtoSlots kvs
  | _ => True
/-- No key of the mapping is `__proto__`, and its values are free of that key. -/
def NoProtoEntries : List (Str × Value) → Prop
  | [] => True
  | (k, v) :: rest => k ≠ bytes "__proto__" ∧ NoProto v ∧ NoProtoEntries rest
/-- The elements of the sequence are free of the key `__proto__`. -/
def NoProtoItems : List Value → Prop
  | [] => True
  | v :: rest => NoProto v ∧ NoProtoItems rest
/-- The values of the integer-keyed mapping are free of the key `__proto__`. -/
def NoProtoSlots : List (Nat × Value) → Prop
  | [] => True
  | (_, v) :: rest => NoProto v ∧ NoProtoSlots rest
end

/-- The number of segments into which a text splits on `&`: the length of
`strings.Split(s, "&")`. -/
def segments (s : Str) : Nat := (split s (bytes "&")).length

/-- The options under which the parameter limit L is enforced on the delimiter `&`. -/
structure LimitOpts (o : ParseOptions) (L : Int) : Prop where
  delimiter : o.Delimiter = bytes "&"
  queryPrefix : o.IgnoreQueryPrefix = false
  limit : o.ParameterLimit = L
  throw : o.ThrowOnLimitExceeded = true

/-- The scan of the rewriting as the specification words it: a `.token` is
replaced by `[token]` only outside the bracket groups, and the text from a `[`
to the next `]` is copied as it is.  The first flag tells that the scan is
inside a bracket group, the second that a token is being copied. -/
def specDotsAux : Bool → Bool → Str → Str
  | _, inRun, [] => if inRun then [93] else []
  | inGroup, inRun, c :: cs =>
    if inGroup then c :: specDotsAux (decide (c ≠ 93)) false cs
    else
      let close : Str := if inRun then [93] else []
      if inRun ∧ c ≠ 46 ∧ c ≠ 91 then c :: specDotsAux false true cs
      else if c = 46 ∧ dotStarts cs then close ++ 91 :: specDotsAux false true cs
      else close ++ c :: specDotsAux (decide (c = 91)) false cs

/-- The rewriting of dot notation as the specification words it ("every
`.token` that is not inside a bracket group is replaced by `[token]`, dots
inside bracket groups are left untouched"), to be compared with
`dotsToBrackets`, the rewriting of the source. -/
def specDotsToBrackets (key : Str) : Str := specDotsAux false false key

mutual
/-- The values that the loop of `DecodeQuery` builds before post-processing:
nil, strings, booleans, sequences and string-keyed mappings of such values.
A nil is the value of a mapping entry only when `nils` allows it. -/
def Raw (nils : Bool) : Value → Prop
  | .null => True
  | .str _ => True
  | .bool _ => True
  | .strs _ => False
  | .iobj _ => False
  | .arr xs => RawItems nils xs
  | .obj kvs => RawEntries nils kvs
/-- The entries of a mapping before post-processing. -/
def RawEntries (nils : Bool) : List (Str × Value) → Prop
  | [] => True
  | (_, v) :: rest => (v.isNull = true → nils = true) ∧ Raw nils v ∧ RawEntries nils rest
/-- The elements of a sequence before post-processing; holes are allowed. -/
def RawItems (nils : Bool) : List Value → Prop
  | [] => True
  | v :: rest => Raw nils v ∧ RawItems nils rest
end

mutual
/-- The shape of a node of a result: a string, a string-keyed mapping, a
sequence without nil holes, or an integer-keyed mapping, recursively; never a
boolean. A nil is the value of a mapping entry only when `nils` allows it. -/
def Shaped (nils : Bool) : Value → Prop
  | .null => True
  | .str _ => True
  | .bool _ => False
  | .strs _ => False
  | .arr xs => ShapedItems nils xs
  | .obj kvs => ShapedEntries nils kvs
  | .iobj kvs => ShapedSlots nils kvs
/-- The entries of a string-keyed mapping of a result. -/
def ShapedEntries (nils : Bool) : List (Str × Value) → Prop
  | [] => True
  | (_, v) :: rest => (v.isNull = true → nils = true) ∧ Shaped nils v ∧ ShapedEntries nils rest
/-- The elements of a sequence of a result: none is nil. -/
def ShapedItems (nils : Bool) : List Value → Prop
  | [] => True
  | v :: rest => v.isNull = false ∧ Shaped nils v ∧ ShapedItems nils rest
/-- The entries of an integer-keyed mapping of a result: none is nil. -/
def ShapedSlots (nils : Bool) : List (Nat × Value) → Prop
  | [] => True
  | (_, v) :: rest => v.isNull = false ∧ Shaped nils v ∧ ShapedSlots nils rest
end

/-- Source: the `decodedRoot` of `parseObject` for a segment: the text between
the brackets when the segment has both, with `%2E` read as a dot when
DecodeDotInKeys is on. -/
def segmentName (options : ParseOptions) (root : Str) : Str :=
  let cleanRoot : Str :=
    if hasPrefix root (bytes "[") ∧ hasSuffix root (bytes "]") then
      (root.drop 1).take (root.length - 2)
    else root
  if options.DecodeDotInKeys then replaceAll cleanRoot (bytes "%2E") (bytes ".") else cleanRoot

/-! ## The encoder -/

/-- Source: the package variable `hexTable`, filled by `init`: `%` and the two
upper-case hex digits of a byte. -/
def hexTable (i : Nat) : Str :=
  if i < 16 then [37, 48, upperhex i] else [37, upperhex (i / 16 % 16), upperhex (i % 16)]

/-- A continuation byte of UTF-8 within the bounds `lo` and `hi`. -/
def inRange (lo hi b : Nat) : Bool := lo ≤ b && b ≤ hi

/-- The step of Go's `for _, r := range s` on a non-empty string: the rune that
starts the string and the number of bytes it takes; an invalid or incomplete
encoding is the rune U+FFFD of width 1. -/
def decodeRune : Str → Nat × Nat
  | [] => (65533, 0)
  | b0 :: rest =>
    if b0 < 128 then (b0, 1)
    else
      let lo : Nat := if b0 = 224 then 160 else if b0 = 240 then 144 else 128
      let hi : Nat := if b0 = 237 then 159 else if b0 = 244 then 143 else 191
      if 194 ≤ b0 ∧ b0 ≤ 223 then
        match rest with
        | b1 :: _ => if inRange lo hi b1 then ((b0 % 32) * 64 + b1 % 64, 2) else (65533, 1)
        | _ => (65533, 1)
      else if 224 ≤ b0 ∧ b0 ≤ 239 then
        match rest with
        | b1 :: b2 :: _ =>
          if inRange lo hi b1 && inRange 128 191 b2 then
            ((b0 % 16) * 4096 + (b1 % 64) * 64 + b2 % 64, 3)
          else (65533, 1)
        | _ => (65533, 1)
      else if 240 ≤ b0 ∧ b0 ≤ 244 then
        match rest with
        | b1 :: b2 :: b3 :: _ =>
          if inRange lo hi b1 && inRange 128 191 b2 && inRange 128 191 b3 then
            ((b0 % 8) * 262144 + (b1 % 64) * 4096 + (b2 % 64) * 64 + b3 % 64, 4)
          else (65533, 1)
        | _ => (65533, 1)
      else (65533, 1)

/-- Source: the body of the inner loop of `Encode` on one rune. -/
def encodeRune (format : Str) (c : Nat) : Str :=
  if c = 45 ∨ c = 46 ∨ c = 95 ∨ c = 126 ∨ (48 ≤ c ∧ c ≤ 57) ∨ (65 ≤ c ∧ c ≤ 90) ∨
      (97 ≤ c ∧ c ≤ 122) ∨ (format = bytes "RFC1738" ∧ (c = 40 ∨ c = 41)) then [c]
  else if c < 128 then hexTable c
  else (runeString (c : Int)).flatMap hexTable

/-- Source: the inner loop `for _, r := range segment` of `Encode`; `skip` counts
the bytes of a decoded rune still to be passed over. -/
def encodeSegment (format : Str) : Nat → Str → Str
  | _, [] => []
  | skip + 1, _ :: cs => encodeSegment format skip cs
  | 0, c :: cs =>
    encodeRune format (decodeRune (c :: cs)).1 ++
      encodeSegment format ((decodeRune (c :: cs)).2 - 1) cs

/-- Source: the outer loop of `Encode` for a string of at least `limit` = 1024
bytes, on the text from position `j` on; `fuel` bounds the number of rounds. -/
def encodeFrom (format : Str) : Nat → Str → Str
  | 0, _ => []
  | fuel + 1, rest =>
    if rest = [] then []
    else encodeSegment format 0 (rest.take 1024) ++ encodeFrom format fuel (rest.drop 1024)

/-- Source: `Encode`; `charset` and `kind` are not read. -/
def Encode (str _charset _kind format : Str) : Str :=
  if str.length = 0 then str
  else if str.length ≥ 1024 then encodeFrom format str.length str
  else encodeSegment format 0 str

/-- Every byte is printable ASCII, from the space to `~`. -/
@[reducible]
def Printable (s : Str) : Prop := ∀ c ∈ s, 32 ≤ c ∧ c ≤ 126

/-- The text that stands for one byte in a percent-encoded string: the byte
itself when it is unreserved or one of `keep`, the text `sp` for a space, and
`%XX` otherwise. `Encode`, `url.QueryEscape` and the replacements of
`parseValues` and `Decode` differ in `sp` and `keep` only. -/
def escByte (sp : Str) (keep : List Nat) (c : Nat) : Str :=
  if isUnreserved c ∨ c ∈ keep then [c] else if c = 32 then sp else hexTable c

/-- A key text that survives encoding and decoding: printable ASCII without
`[`, `]`, `.`, `%`, `&`, `+` and `=`. -/
@[reducible]
def PlainKey (t : Str) : Prop :=
  ∀ c ∈ t, 32 ≤ c ∧ c ≤ 126 ∧ c ≠ 91 ∧ c ≠ 93 ∧ c ≠ 46 ∧ c ≠ 37 ∧ c ≠ 38 ∧ c ≠ 43 ∧ c ≠ 61

/-! # Theorems -/

/-! ## Decidable equality of values -/

mutual
theorem Value.beq_sound : ∀ (a b : Value), Value.beq a b = true → a = b
  | .null, b, h => by cases b <;> simp_all [Value.beq]
  | .str s, b, h => by cases b <;> simp_all [Value.beq]
  | .bool s, b, h => by cases b <;> simp_all [Value.beq]
  | .strs s, b, h => by cases b <;> simp_all [Value.beq]
  | .arr xs, b, h => by
    cases b <;> simp [Value.beq] at h
    rename_i ys
    rw [Value.beqList_sound xs ys h]
  | .obj xs, b, h => by
    cases b <;> simp [Value.beq] at h
    rename_i ys
    rw [Value.beqObj_sound xs ys h]
  | .iobj xs, b, h => by
    cases b <;> simp [Value.beq] at h
    rename_i ys
    rw [Value.beqIObj_sound xs ys h]
theorem Value.beqList_sound : ∀ (a b : List Value), Value.beqList a b = true → a = b
  | [], b, h => by cases b <;> simp_all [Value.beqList]
  | x :: xs, b, h => by
    cases b with
    | nil => simp [Value.beqList] at h
    | cons y ys =>
      simp [Value.beqList] at h
      rw [Value.beq_sound x y h.1, Value.beqList_sound xs ys h.2]
theorem Value.beqObj_sound : ∀ (a b : List (Str × Value)), Value.beqObj a b = true → a = b
  | [], b, h => by cases b <;> simp_all [Value.beqObj]
  | (k, x) :: xs, b, h => by
    cases b with
    | nil => simp [Value.beqObj] at h
    | cons y ys =>
      obtain ⟨l, y⟩ := y
      simp [Value.beqObj] at h
      rw [h.1.1, Value.beq_sound x y h.1.2, Value.beqObj_sound xs ys h.2]
theorem Value.beqIObj_sound : ∀ (a b : List (Nat × Value)), Value.beqIObj a b = true → a = b
  | [], b, h => by cases b <;> simp_all [Value.beqIObj]
  | (k, x) :: xs, b, h => by
    cases b with
    | nil => simp [Value.beqIObj] at h
    | cons y ys =>
      obtain ⟨l, y⟩ := y
      simp [Value.beqIObj] at h
      rw [h.1.1, Value.beq_sound x y h.1.2, Value.beqIObj_sound xs ys h.2]
end

mutual
theorem Value.beq_refl : ∀ (a : Value), Value.beq a a = true
  | .null => by simp [Value.beq]
  | .str s => by simp [Value.beq]
  | .bool s => by simp [Value.beq]
  | .strs s => by simp [Value.beq]
  | .arr xs => by simp [Value.beq, Value.beqList_refl xs]
  | .obj xs => by simp [Value.beq, Value.beqObj_refl xs]
  | .iobj xs => by simp [Value.beq, Value.beqIObj_refl xs]
theorem Value.beqList_refl : ∀ (a : List Value), Value.beqList a a = true
  | [] => by simp [Value.beqList]
  | x :: xs => by simp [Value.beqList, Value.beq_refl x, Value.beqList_refl xs]
theorem Value.beqObj_refl : ∀ (a : List (Str × Value)), Value.beqObj a a = true
  | [] => by simp [Value.beqObj]
  | (k, x) :: xs => by simp [Value.beqObj, Value.beq_refl x, Value.beqObj_refl xs]
theorem Value.beqIObj_refl : ∀ (a : List (Nat × Value)), Value.beqIObj a a = true
  | [] => by simp [Value.beqIObj]
  | (k, x) :: xs => by simp [Value.beqIObj, Value.beq_refl x, Value.beqIObj_refl xs]
end

instance : DecidableEq Value := fun a b =>
  if h : Value.beq a b = true then isTrue (Value.beq_sound a b h)
  else isFalse (fun e => h (e ▸ Value.beq_refl a))

/-! ## Literals -/

theorem bytes_amp : bytes "&" = [38] := by decide
theorem bytes_eq : bytes "=" = [61] := by decide
theorem bytes_tab : bytes "\t" = [9] := by decide
theorem bytes_nl : bytes "\n" = [10] := by decide
theorem bytes_plus : bytes "+" = [43] := by decide
theorem bytes_space : bytes " " = [32] := by decide
theorem bytes_brEq : bytes "]=" = [93, 61] := by decide
theorem bytes_open : bytes "[" = [91] := by decide
theorem bytes_close : bytes "]" = [93] := by decide
theorem bytes_empty : bytes "[]" = [91, 93] := by decide
theorem bytes_pct5B : bytes "%5B" = [37, 53, 66] := by decide
theorem bytes_pct5D : bytes "%5D" = [37, 53, 68] := by decide
theorem bytes_proto : bytes "__proto__" = [95, 95, 112, 114, 111, 116, 111, 95, 95] := by decide

/-! ## Strings -/

theorem replaceAllAux_absent (c : Nat) (old new : Str) :
    ∀ s : Str, c ∉ s → replaceAllAux (c :: old) new 0 s = s
  | [], _ => by simp [replaceAllAux]
  | x :: xs, h => by
    have hx : c ≠ x := fun e => h (by simp [e])
    have hxs : c ∉ xs := fun e => h (List.mem_cons_of_mem _ e)
    simp [replaceAllAux, List.isPrefixOf, hx, replaceAllAux_absent c old new xs hxs]

theorem replaceAll_absent (c : Nat) (old new s : Str) (h : c ∉ s) :
    replaceAll s (c :: old) new = s := replaceAllAux_absent c old new s h

theorem index_absent (c : Nat) (sub : Str) : ∀ s : Str, c ∉ s → index (c :: sub) s = none
  | [], _ => by simp [index, List.isPrefixOf]
  | x :: xs, h => by
    have hx : c ≠ x := fun e => h (by simp [e])
    have hxs : c ∉ xs := fun e => h (List.mem_cons_of_mem _ e)
    simp [index, List.isPrefixOf, hx, index_absent c sub xs hxs]

theorem index_single (c : Nat) : ∀ (k v : Str), c ∉ k → index [c] (k ++ c :: v) = some k.length
  | [], v, _ => by simp [index, List.isPrefixOf]
  | x :: xs, v, h => by
    have hx : c ≠ x := fun e => h (by simp [e])
    have hxs : c ∉ xs := fun e => h (List.mem_cons_of_mem _ e)
    simp [index, List.isPrefixOf, hx, index_single c xs v hxs]

theorem index_bracketEq : ∀ (k v : Str), 61 ∉ k → index [93, 61] (k ++ 93 :: 61 :: v) = some k.length
  | [], v, _ => by simp [index, List.isPrefixOf]
  | x :: xs, v, h => by
    have hxs : 61 ∉ xs := fun e => h (List.mem_cons_of_mem _ e)
    have ih := index_bracketEq xs v hxs
    have hp : List.isPrefixOf [93, 61] (x :: (xs ++ 93 :: 61 :: v)) = false := by
      cases xs with
      | nil => simp [List.isPrefixOf]
      | cons y ys =>
        have hy : y ≠ 61 := fun e => h (by simp [e])
        simp [List.isPrefixOf, hy]
        intro _ e; exact absurd e.symm hy
    rw [List.cons_append, index, hp, ih]
    rfl

theorem consHead_cons (c : Nat) (p : Str) (ps : List Str) : consHead c (p :: ps) = (c :: p) :: ps := rfl

theorem splitAux_absent (c : Nat) (cuts : Nat) : ∀ p : Str, c ∉ p → splitAux [c] 0 cuts p = [p]
  | [], _ => by simp [splitAux]
  | x :: xs, h => by
    have hx : c ≠ x := fun e => h (by simp [e])
    have hxs : c ∉ xs := fun e => h (List.mem_cons_of_mem _ e)
    simp [splitAux, List.isPrefixOf, hx, splitAux_absent c cuts xs hxs, consHead]

theorem splitAux_cut (c : Nat) (cuts : Nat) (rest : Str) :
    ∀ p : Str, c ∉ p → splitAux [c] 0 (cuts + 1) (p ++ c :: rest) = p :: splitAux [c] 0 cuts rest
  | [], _ => by simp [splitAux, List.isPrefixOf]
  | x :: xs, h => by
    have hx : c ≠ x := fun e => h (by simp [e])
    have hxs : c ∉ xs := fun e => h (List.mem_cons_of_mem _ e)
    simp [splitAux, List.isPrefixOf, hx, splitAux_cut c cuts rest xs hxs, consHead]

theorem splitAux_join (c : Nat) :
    ∀ (parts : List Str) (cuts : Nat), parts ≠ [] → parts.length ≤ cuts + 1 →
      (∀ p ∈ parts, c ∉ p) → splitAux [c] 0 cuts (join [c] parts) = parts
  | [], _, h, _, _ => absurd rfl h
  | [p], cuts, _, _, hp => by
    simpa [join] using splitAux_absent c cuts p (hp p (by simp))
  | p :: q :: rest, cuts, _, hl, hp => by
    obtain ⟨cuts, rfl⟩ : ∃ k, cuts = k + 1 := ⟨cuts - 1, by simp at hl; omega⟩
    have h1 : c ∉ p := hp p (by simp)
    have ih := splitAux_join c (q :: rest) cuts (by simp) (by simp at hl ⊢; omega)
      (fun r hr => hp r (List.mem_cons_of_mem _ hr))
    simp only [join, List.append_assoc, List.singleton_append]
    rw [splitAux_cut c cuts _ p h1, ih]

theorem length_le_join (sep : Str) : ∀ parts : List Str, parts.length ≤ (join (38 :: sep) parts).length + 1
  | [] => by simp
  | [p] => by simp [join]
  | p :: q :: rest => by
    have := length_le_join sep (q :: rest)
    simp only [join, List.length_append, List.length_cons] at this ⊢
    omega

theorem unescapeAux_plain : ∀ s : Str, 37 ∉ s → 43 ∉ s → unescapeAux 0 s = some s
  | [], _, _ => by simp [unescapeAux]
  | x :: xs, h1, h2 => by
    have a1 : x ≠ 37 := fun e => h1 (by simp [e])
    have a2 : x ≠ 43 := fun e => h2 (by simp [e])
    have ih := unescapeAux_plain xs (fun e => h1 (List.mem_cons_of_mem _ e))
      (fun e => h2 (List.mem_cons_of_mem _ e))
    simp [unescapeAux, a1, a2, ih]

theorem queryUnescape_plain (s : Str) (h1 : 37 ∉ s) (h2 : 43 ∉ s) : queryUnescape s = some s :=
  unescapeAux_plain s h1 h2

theorem queryEscape_unreserved : ∀ s : Str, (∀ c ∈ s, isUnreserved c = true) → queryEscape s = s
  | [], _ => by simp [queryEscape]
  | x :: xs, h => by
    have ih := queryEscape_unreserved xs (fun c hc => h c (List.mem_cons_of_mem _ hc))
    simp [queryEscape, h x (by simp), ih]

theorem isAlnum_facts {c : Nat} (h : isAlnum c = true) :
    isUnreserved c = true ∧ c ≠ 9 ∧ c ≠ 10 ∧ c ≠ 37 ∧ c ≠ 38 ∧ c ≠ 43 ∧ c ≠ 61 ∧ c ≠ 91 ∧ c ≠ 93 ∧
      c ≠ 95 ∧ c ≠ 46 ∧ c ≠ 45 ∧ c ≠ 63 := by
  simp only [isUnreserved, isAlnum, isLetter, isDigit, Bool.or_eq_true, Bool.and_eq_true,
    decide_eq_true_eq] at h ⊢
  omega

theorem isLetter_alnum {c : Nat} (h : isLetter c = true) : isAlnum c = true := by
  simp [isAlnum, h]

theorem isLetter_not_digit {c : Nat} (h : isLetter c = true) : isDigit c = false := by
  cases hd : isDigit c with
  | false => rfl
  | true =>
    simp only [isLetter, isDigit, Bool.or_eq_true, Bool.and_eq_true, decide_eq_true_eq] at h hd
    omega

theorem Letters.alnum {s : Str} (h : Letters s) : Alnum s := fun c hc => isLetter_alnum (h c hc)

theorem mem_join {sep : Str} {c : Nat} : ∀ {parts : List Str}, c ∈ join sep parts →
    c ∈ sep ∨ ∃ p ∈ parts, c ∈ p
  | [], h => by simp [join] at h
  | [p], h => by simp [join] at h; exact Or.inr ⟨p, by simp, h⟩
  | p :: q :: rest, h => by
    simp only [join, List.mem_append] at h
    rcases h with (h | h) | h
    · exact Or.inr ⟨p, by simp, h⟩
    · exact Or.inl h
    · rcases mem_join h with h | ⟨r, hr, hc⟩
      · exact Or.inl h
      · exact Or.inr ⟨r, List.mem_cons_of_mem _ hr, hc⟩

theorem mem_pairText {kv : Str × Str} {c : Nat} (h : c ∈ pairText kv) :
    c ∈ kv.1 ∨ c = 61 ∨ c ∈ kv.2 := by
  simpa [pairText, bytes_eq, or_assoc] using h

theorem queryOf_clean {pairs : List (Str × Str)} (hk : ∀ kv ∈ pairs, KeyOK kv.1)
    (hv : ∀ kv ∈ pairs, Alnum kv.2) {c : Nat} (hc : c = 9 ∨ c = 10 ∨ c = 37 ∨ c = 43) :
    c ∉ queryOf pairs := by
  intro h
  rcases mem_join h with h | ⟨p, hp, hcp⟩
  · rw [bytes_amp] at h; simp at h; omega
  · obtain ⟨kv, hkv, rfl⟩ := List.mem_map.1 hp
    rcases mem_pairText hcp with h1 | h1 | h1
    · have := (hk kv hkv).2 c h1; omega
    · omega
    · have := isAlnum_facts (hv kv hkv c h1); omega

theorem pairText_no_amp {kv : Str × Str} (hk : KeyOK kv.1) (hv : Alnum kv.2) : 38 ∉ pairText kv := by
  intro h
  rcases mem_pairText h with h1 | h1 | h1
  · have := (hk.2 38 h1); omega
  · omega
  · have := isAlnum_facts (hv 38 h1); omega

theorem escapePart_pairText {kv : Str × Str} (hk : KeyOK kv.1) (hv : Alnum kv.2) :
    escapePart (pairText kv) = pairText kv := by
  have h61 : 61 ∉ kv.1 := fun h => by have := hk.2 61 h; omega
  have hk37 : 37 ∉ kv.1 := fun h => by have := hk.2 37 h; omega
  have hk43 : 43 ∉ kv.1 := fun h => by have := hk.2 43 h; omega
  have hv37 : 37 ∉ kv.2 := fun h => by have := isAlnum_facts (hv 37 h); omega
  have hv43 : 43 ∉ kv.2 := fun h => by have := isAlnum_facts (hv 43 h); omega
  have hidx : index (bytes "=") (pairText kv) = some kv.1.length := by
    simpa [pairText, bytes_eq] using index_single 61 kv.1 kv.2 h61
  have htake : (pairText kv).take kv.1.length = kv.1 := by simp [pairText]
  have hdrop : (pairText kv).drop (kv.1.length + 1) = kv.2 := by
    simp [pairText, bytes_eq]
  simp only [escapePart, hidx, htake, hdrop, queryUnescape_plain _ hv37 hv43,
    queryUnescape_plain _ hk37 hk43, Option.getD_some,
    queryEscape_unreserved _ (fun c hc => (isAlnum_facts (hv c hc)).1)]
  rfl

theorem queryOf_ne_nil {pairs : List (Str × Str)} (h : pairs ≠ []) : queryOf pairs ≠ [] := by
  cases pairs with
  | nil => exact absurd rfl h
  | cons kv rest =>
    cases rest with
    | nil => simp [queryOf, join, pairText, bytes_eq]
    | cons kv2 rest => simp [queryOf, join, pairText, bytes_eq]

theorem split_queryOf {pairs : List (Str × Str)} (hne : pairs ≠ [])
    (hk : ∀ kv ∈ pairs, KeyOK kv.1) (hv : ∀ kv ∈ pairs, Alnum kv.2) (cuts : Nat)
    (hl : pairs.length ≤ cuts + 1) :
    splitAux [38] 0 cuts (queryOf pairs) = pairs.map pairText := by
  rw [queryOf, bytes_amp]
  apply splitAux_join 38 _ cuts (by simpa using hne) (by simpa using hl)
  intro p hp
  obtain ⟨kv, hkv, rfl⟩ := List.mem_map.1 hp
  exact pairText_no_amp (hk kv hkv) (hv kv hkv)

theorem EscapeQueryString_queryOf {pairs : List (Str × Str)} (hne : pairs ≠ [])
    (hk : ∀ kv ∈ pairs, KeyOK kv.1) (hv : ∀ kv ∈ pairs, Alnum kv.2) :
    EscapeQueryString (queryOf pairs) = queryOf pairs := by
  have h9 : 9 ∉ queryOf pairs := queryOf_clean hk hv (by simp)
  have h10 : 10 ∉ queryOf pairs := queryOf_clean hk hv (by simp)
  have hs : split (queryOf pairs) (bytes "&") = pairs.map pairText := by
    rw [split, splitN, bytes_amp]
    simp only [show ¬ ((-1 : Int) = 0) by decide, show ((-1 : Int) < 0) by decide, if_true, if_false]
    apply split_queryOf hne hk hv
    have := length_le_join [] (pairs.map pairText)
    simpa [queryOf, bytes_amp] using this
  have hm : (pairs.map pairText).map escapePart = pairs.map pairText := by
    rw [List.map_map]
    apply List.map_congr_left
    intro kv hkv
    exact escapePart_pairText (hk kv hkv) (hv kv hkv)
  rw [EscapeQueryString, bytes_tab, bytes_nl, replaceAll_absent 9 [] [] _ h9,
    replaceAll_absent 10 [] [] _ h10, hs, hm]
  rfl

theorem splitPos_pair : ∀ (k v : Str), 61 ∉ k → 93 ∉ v → splitPos (k ++ 61 :: v) = some k.length
  | [], v, _, hv => by
    simp [splitPos, bytes_brEq, bytes_eq, index, List.isPrefixOf, index_absent 93 [61] v hv]
  | x :: xs, v, hk, hv => by
    have hx : x ≠ 61 := fun e => hk (by simp [e])
    have hxs : 61 ∉ xs := fun e => hk (List.mem_cons_of_mem _ e)
    have ih := splitPos_pair xs v hxs hv
    have h61 : index [61] (x :: (xs ++ 61 :: v)) = (index [61] (xs ++ 61 :: v)).map (· + 1) := by
      simp [index, List.isPrefixOf, Ne.symm hx]
    by_cases hp : List.isPrefixOf [93, 61] (x :: (xs ++ 61 :: v)) = true
    · cases xs with
      | nil =>
        have hx93 : 93 = x := by simpa [List.isPrefixOf] using hp
        subst hx93
        simp [splitPos, bytes_brEq, index, List.isPrefixOf]
      | cons y ys =>
        have hy : y ≠ 61 := fun e => hk (by simp [e])
        simp [List.isPrefixOf, Ne.symm hy] at hp
    · have h2 : index [93, 61] (x :: (xs ++ 61 :: v)) =
          (index [93, 61] (xs ++ 61 :: v)).map (· + 1) := by
        rw [index, if_neg hp]
      simp only [splitPos, bytes_brEq, bytes_eq, List.cons_append, h2, h61] at ih ⊢
      cases h3 : index [93, 61] (xs ++ 61 :: v) with
      | none =>
        rw [h3] at ih
        simp only [Option.map_none'] at ih ⊢
        simp [ih]
      | some p =>
        rw [h3] at ih
        simp only [Option.map_some', Option.some.injEq] at ih ⊢
        simp [ih]

theorem splitPos_bracket (k v : Str) (hk : 61 ∉ k) :
    splitPos (k ++ 93 :: 61 :: v) = some (k.length + 1) := by
  simp [splitPos, bytes_brEq, index_bracketEq k v hk]

theorem getLast?_eq_some_iff_append {k : Str} {c : Nat} (h : k.getLast? = some c) :
    ∃ k2, k = k2 ++ [c] := by
  rcases List.eq_nil_or_concat k with rfl | ⟨k2, d, rfl⟩
  · simp at h
  · simp at h
    exact ⟨k2, by rw [h]; simp⟩

theorem splitPos_pairText {kv : Str × Str} (h : PartOK kv) :
    splitPos (pairText kv) = some kv.1.length := by
  have h61 : 61 ∉ kv.1 := fun e => by have := h.1.2 61 e; omega
  rcases h.2.2.2 with h93 | hlast
  · simpa [pairText, bytes_eq] using splitPos_pair kv.1 kv.2 h61 h93
  · obtain ⟨k2, hk2⟩ := getLast?_eq_some_iff_append hlast
    have h61b : 61 ∉ k2 := fun e => h61 (by rw [hk2]; simp [e])
    have := splitPos_bracket k2 kv.2 h61b
    simpa [pairText, bytes_eq, hk2] using this

theorem Decode_plain (s : Str) (h37 : 37 ∉ s) (h43 : 43 ∉ s) : Decode s = s := by
  simp [Decode, bytes_plus, replaceAll_absent 43 [] _ s h43, queryUnescape_plain s h37 h43]

theorem parsePart_pairText (o : ParseOptions) (cs : Str) (ho : o.InterpretNumericEntities = false)
    {kv : Str × Str} (h : PartOK kv) :
    parsePart o defaultDecoder cs (pairText kv) = kv := by
  have hk37 : 37 ∉ kv.1 := fun e => by have := h.1.2 37 e; omega
  have hk43 : 43 ∉ kv.1 := fun e => by have := h.1.2 43 e; omega
  have hpos := splitPos_pairText h
  have htake : (pairText kv).take kv.1.length = kv.1 := by simp [pairText]
  have hdrop : (pairText kv).drop (kv.1.length + 1) = kv.2 := by
    simp [pairText, bytes_eq]
  simp only [parsePart, hpos, htake, hdrop, defaultDecoder, Decode_plain _ hk37 hk43,
    Decode_plain _ h.2.1 h.2.2.1, ho]
  simp [h.1.1, Value.isNull, AsString]

theorem partOK_of_alnum {kv : Str × Str} (hk : KeyOK kv.1) (hv : Alnum kv.2) : PartOK kv :=
  ⟨hk, fun e => by have := isAlnum_facts (hv 37 e); omega,
    fun e => by have := isAlnum_facts (hv 43 e); omega,
    Or.inl (fun e => by have := isAlnum_facts (hv 93 e); omega)⟩

theorem parseValuesLoop_pairs (o : ParseOptions) (cs : Str) (ho : o.InterpretNumericEntities = false) :
    ∀ (pairs : List (Str × Str)) (i p : Nat) (acc : Obj), (∀ kv ∈ pairs, PartOK kv) →
      decodeLoop o acc (parseValuesLoop o defaultDecoder cs none i p (pairs.map pairText)) =
        foldPairs o acc pairs
  | [], _, _, _, _ => by simp [parseValuesLoop, decodeLoop, foldPairs]
  | kv :: rest, i, p, acc, hk => by
    have h1 := parsePart_pairText o cs ho (hk kv (by simp))
    have hne : kv.1 ≠ [] := (hk kv (by simp)).1.1
    have ih := fun acc2 => parseValuesLoop_pairs o cs ho rest (i + 1) (p + 1) acc2
      (fun x hx => hk x (List.mem_cons_of_mem _ hx))
    obtain ⟨k, v⟩ := kv
    simp only [List.map_cons, parseValuesLoop, h1]
    simp only [show (none : Option Nat) = some i ↔ False by simp, if_false, ne_eq, hne,
      not_false_eq_true, if_true, decodeLoop, foldPairs]
    cases parseKeys k (Value.str v) o true with
    | error e => rfl
    | ok newObj =>
      simp only []
      cases Merge o (Value.obj acc) newObj <;> simp only [ih]

/-- The splitter of `parseValues` on a text free of `%` whose at most 1001 parts
are the texts of readable pairs; with ThrowOnLimitExceeded on there are at most
1000 of them. -/
theorem parseValues_parts (o : ParseOptions) (hs : StdSplit o) {q : Str} (h37 : 37 ∉ q)
    {parts : List (Str × Str)} (hsplit : splitN q [38] 1001 = parts.map pairText)
    (throw : o.ThrowOnLimitExceeded = false ∨ parts.length ≤ 1000)
    (hok : ∀ kv ∈ parts, PartOK kv) (acc : Obj) :
    ∃ urlValues, parseValues q o = .ok urlValues ∧
      decodeLoop o acc urlValues = foldPairs o acc parts := by
  refine ⟨_, ?_, parseValuesLoop_pairs o o.Charset hs.entities parts 0 0 acc hok⟩
  have hw : wrapInt 1001 = 1001 := by decide
  have e1 : replaceAll q [37, 53, 66] (bytes "[") = q := replaceAll_absent 37 _ _ _ h37
  have e2 : replaceAll q [37, 53, 68] (bytes "]") = q := replaceAll_absent 37 _ _ _ h37
  have hthrow : ¬ (o.ThrowOnLimitExceeded = true ∧ ((parts.map pairText).length : Int) > 1000) := by
    rintro ⟨h1, h2⟩
    rcases throw with h | h
    · rw [h] at h1; cases h1
    · simp only [List.length_map] at h2; omega
  simp only [parseValues, hs.queryPrefix, hs.delimiter, hs.limit, hs.sentinel, hs.decoder,
    bytes_pct5B, bytes_pct5D, bytes_amp, Bool.false_eq_true, if_false, Option.getD_some,
    Option.map_none', show ((1000 : Int) = 0) ↔ False by decide,
    show ((1000 : Int) + 1) = 1001 by decide]
  rw [e1, e2, hw, hsplit, if_neg hthrow]

/-- The body of `DecodeQuery` on a query of well-formed pairs, in terms of the
pairs that the splitter reads. -/
theorem decodeBody_parts (opts : Option ParseOptions) (hs : StdSplit (normalizeParseOptions opts))
    {pairs : List (Str × Str)} (hne : pairs ≠ [])
    (hk : ∀ kv ∈ pairs, KeyOK kv.1) (hv : ∀ kv ∈ pairs, Alnum kv.2)
    {parts : List (Str × Str)} (hsplit : splitN (queryOf pairs) [38] 1001 = parts.map pairText)
    (throw : (normalizeParseOptions opts).ThrowOnLimitExceeded = false ∨ parts.length ≤ 1000)
    (hok : ∀ kv ∈ parts, PartOK kv) :
    decodeBody (queryOf pairs) opts =
      finish opts (foldPairs (normalizeParseOptions opts) [] parts) := by
  obtain ⟨u, hu, hd⟩ := parseValues_parts _ hs (queryOf_clean hk hv (by simp)) hsplit throw hok []
  simp only [decodeBody, EscapeQueryString_queryOf hne hk hv, queryOf_ne_nil hne, if_false, hu, hd,
    finish]

theorem splitN_queryOf {pairs : List (Str × Str)} (hne : pairs ≠ []) (hl : pairs.length ≤ 1001)
    (hk : ∀ kv ∈ pairs, KeyOK kv.1) (hv : ∀ kv ∈ pairs, Alnum kv.2) :
    splitN (queryOf pairs) [38] 1001 = pairs.map pairText := by
  rw [splitN]
  simp only [show ¬ ((1001 : Int) = 0) by decide, show ¬ ((1001 : Int) < 0) by decide, if_false]
  exact split_queryOf hne hk hv _ (by simpa using hl)

theorem decodeBody_queryOf (opts : Option ParseOptions) (hs : StdSplit (normalizeParseOptions opts))
    {pairs : List (Str × Str)} (hne : pairs ≠ []) (hl : pairs.length ≤ 1001)
    (throw : (normalizeParseOptions opts).ThrowOnLimitExceeded = false ∨ pairs.length ≤ 1000)
    (hk : ∀ kv ∈ pairs, KeyOK kv.1) (hv : ∀ kv ∈ pairs, Alnum kv.2) :
    decodeBody (queryOf pairs) opts =
      finish opts (foldPairs (normalizeParseOptions opts) [] pairs) :=
  decodeBody_parts opts hs hne hk hv (splitN_queryOf hne hl hk hv) throw
    (fun kv hkv => partOK_of_alnum (hk kv hkv) (hv kv hkv))

theorem trimTrailingNil_strs (xs : List Str) : trimTrailingNil (xs.map Value.str) = xs.map Value.str := by
  unfold trimTrailingNil
  rcases List.eq_nil_or_concat xs with rfl | ⟨ys, y, rfl⟩
  · rfl
  · simp [List.dropWhile, Value.isNull]

theorem compactEntries_eq : ∀ (m : Obj), (∀ kv ∈ m, Compact kv.2 = kv.2) → compactEntries m = m
  | [], _ => by simp [compactEntries]
  | (k, v) :: rest, h => by
    have h1 : Compact v = v := h (k, v) (by simp)
    simp [compactEntries, h1, compactEntries_eq rest (fun kv hkv => h kv (List.mem_cons_of_mem _ hkv))]

theorem Compact_settled {v : Value} (h : Settled v) : Compact v = v := by
  induction h with
  | str s => simp [Compact]
  | arr xs => simp [Compact, trimTrailingNil_strs]
  | obj kvs _ ih => simp [Compact, compactEntries_eq kvs ih]

theorem processItems_strs (o : Option ParseOptions) :
    ∀ xs : List Str, processItems o (xs.map Value.str) = .ok (xs.map Value.str)
  | [] => by simp [processItems]
  | x :: xs => by simp [processItems, processNestedStructures, processItems_strs o xs]

theorem needsToBeObject_strs (xs : List Str) : needsToBeObject (xs.map Value.str) = false := by
  simp [needsToBeObject, Value.isObj]

theorem processEntries_eq (o : Option ParseOptions) :
    ∀ (m : Obj), (∀ kv ∈ m, processNestedStructures o kv.2 = .ok kv.2) → processEntries o m = .ok m
  | [], _ => by simp [processEntries]
  | (k, v) :: rest, h => by
    have h1 : processNestedStructures o v = .ok v := h (k, v) (by simp)
    simp [processEntries, h1,
      processEntries_eq o rest (fun kv hkv => h kv (List.mem_cons_of_mem _ hkv))]

theorem shouldConvertToArray_settled (m : Obj) (h : ∀ kv ∈ m, Settled kv.2) :
    shouldConvertToArray m = false := by
  have hb : (m.any fun kv => kv.2.isTrueBool) = false := by
    rw [List.any_eq_false]
    intro kv hkv
    obtain ⟨k, v⟩ := kv
    have hv : Settled v := h (k, v) hkv
    cases hv <;> simp [Value.isTrueBool]
  simp only [shouldConvertToArray]
  rw [hb]
  simp

theorem processNested_settled (o : Option ParseOptions) {v : Value} (h : Settled v) :
    processNestedStructures o v = .ok v := by
  induction h with
  | str s => simp [processNestedStructures]
  | arr xs => simp [processNestedStructures, processItems_strs, needsToBeObject_strs]
  | obj kvs hs ih =>
    simp [processNestedStructures, processEntries_eq o kvs ih, shouldConvertToArray_settled kvs hs]

theorem PostProcess_settled (o : Option ParseOptions) (m : Obj) (h : ∀ kv ∈ m, Settled kv.2) :
    PostProcessParsedObject m o = .ok m := by
  simp [PostProcessParsedObject,
    processEntries_eq o m (fun kv hkv => processNested_settled o (h kv hkv)),
    shouldConvertToArray_settled m h]

theorem finish_settled (opts : Option ParseOptions) {obj : Obj} (hset : ∀ kv ∈ obj, Settled kv.2) :
    finish opts (.ok obj) = .ok obj := by
  have hc : Compact (.obj obj) = .obj obj := Compact_settled (Settled.obj obj hset)
  simp [finish, hc, PostProcess_settled opts obj hset]

/-- The decode of a query of well-formed pairs whose fold ends in settled values. -/
theorem DecodeQuery_queryOf (opts : Option ParseOptions) (hs : StdSplit (normalizeParseOptions opts))
    {pairs : List (Str × Str)}
    (throw : (normalizeParseOptions opts).ThrowOnLimitExceeded = false ∨ pairs.length ≤ 1000)
    (hne : pairs ≠ []) (hl : pairs.length ≤ 1001)
    (hk : ∀ kv ∈ pairs, KeyOK kv.1) (hv : ∀ kv ∈ pairs, Alnum kv.2) {obj : Obj}
    (hf : foldPairs (normalizeParseOptions opts) [] pairs = .ok obj)
    (hset : ∀ kv ∈ obj, Settled kv.2) :
    DecodeQuery (queryOf pairs) opts = (some obj, none) := by
  simp [DecodeQuery, decodeBody_queryOf opts hs hne hl throw hk hv, hf, finish_settled opts hset]

theorem DecodeQuery_queryOf_error (opts : Option ParseOptions)
    (hs : StdSplit (normalizeParseOptions opts)) {pairs : List (Str × Str)}
    (throw : (normalizeParseOptions opts).ThrowOnLimitExceeded = false ∨ pairs.length ≤ 1000)
    (hne : pairs ≠ []) (hl : pairs.length ≤ 1001)
    (hk : ∀ kv ∈ pairs, KeyOK kv.1) (hv : ∀ kv ∈ pairs, Alnum kv.2) {e : DecodeError}
    (hf : foldPairs (normalizeParseOptions opts) [] pairs = .error e) :
    DecodeQuery (queryOf pairs) opts = (none, some e) := by
  simp [DecodeQuery, decodeBody_queryOf opts hs hne hl throw hk hv, hf, finish]

/-! ## Numerals -/

theorem atoi_head_not_digit {c : Nat} (r : Str) (hd : isDigit c = false) (h43 : c ≠ 43)
    (h45 : c ≠ 45) : atoi (c :: r) = none := by
  simp [atoi, h43, h45, parseDigits, hd]

theorem atoi_letters {s : Str} (h : Letters s) : atoi s = none := by
  cases s with
  | nil => rfl
  | cons c r =>
    have hc : isLetter c = true := h c (by simp)
    have := isAlnum_facts (isLetter_alnum hc)
    exact atoi_head_not_digit r (isLetter_not_digit hc) (by omega) (by omega)

theorem parseDigits_append : ∀ (s t : Str) (a : Nat),
    parseDigits a (s ++ t) = (parseDigits a s).bind (fun m => parseDigits m t)
  | [], t, a => by simp [parseDigits]
  | c :: s, t, a => by
    by_cases hc : isDigit c = true
    · simp [parseDigits, hc, parseDigits_append s t]
    · simp [parseDigits, hc]

theorem itoaAux_append : ∀ (fuel n : Nat) (acc : Str), itoaAux fuel n acc = itoaAux fuel n [] ++ acc
  | 0, n, acc => by simp [itoaAux]
  | fuel + 1, n, acc => by
    by_cases h : n < 10
    · simp [itoaAux, h]
    · rw [itoaAux, if_neg h, itoaAux_append fuel (n / 10) ((48 + n % 10) :: acc), itoaAux, if_neg h,
        itoaAux_append fuel (n / 10) [48 + n % 10]]
      simp

theorem parseDigits_itoaAux : ∀ (fuel n : Nat), n < fuel →
    parseDigits 0 (itoaAux fuel n []) = some n
  | 0, n, h => by omega
  | fuel + 1, n, h => by
    by_cases h10 : n < 10
    · have hd : isDigit (48 + n) = true := by simp [isDigit]; omega
      simp [itoaAux, h10, parseDigits, hd]
    · have ih := parseDigits_itoaAux fuel (n / 10) (by omega)
      have hd : isDigit (48 + n % 10) = true := by simp [isDigit]; omega
      rw [itoaAux, if_neg h10, itoaAux_append, parseDigits_append, ih]
      simp only [Option.some_bind, parseDigits, hd, if_true]
      congr 1
      omega

theorem itoaAux_digits : ∀ (fuel n : Nat) (acc : Str), (∀ c ∈ acc, isDigit c = true) →
    ∀ c ∈ itoaAux fuel n acc, isDigit c = true
  | 0, n, acc, h => by simpa [itoaAux] using h
  | fuel + 1, n, acc, h => by
    by_cases h10 : n < 10
    · rw [itoaAux, if_pos h10]
      intro c hc
      rcases List.mem_cons.1 hc with rfl | hc
      · simp [isDigit]; omega
      · exact h c hc
    · rw [itoaAux, if_neg h10]
      apply itoaAux_digits fuel
      intro c hc
      rcases List.mem_cons.1 hc with rfl | hc
      · simp [isDigit]; omega
      · exact h c hc

theorem itoaAux_ne_nil : ∀ (fuel n : Nat) (acc : Str), 0 < fuel → itoaAux fuel n acc ≠ []
  | 0, n, acc, h => by omega
  | fuel + 1, n, acc, _ => by
    by_cases h10 : n < 10
    · simp [itoaAux, h10]
    · rw [itoaAux, if_neg h10, itoaAux_append]
      simp

theorem itoaNat_digits (n : Nat) : ∀ c ∈ itoaNat n, isDigit c = true :=
  itoaAux_digits (n + 1) n [] (by simp)

theorem itoaNat_ne_nil (n : Nat) : itoaNat n ≠ [] := itoaAux_ne_nil (n + 1) n [] (by omega)

theorem itoaNat_alnum (n : Nat) : Alnum (itoaNat n) := fun c hc => by
  simp [isAlnum, itoaNat_digits n c hc]

theorem atoi_itoaNat (n : Nat) (h : (n : Int) ≤ maxInt) : atoi (itoaNat n) = some (n : Int) := by
  have hp : parseDigits 0 (itoaNat n) = some n := parseDigits_itoaAux (n + 1) n (by omega)
  have hne := itoaNat_ne_nil n
  have hd := itoaNat_digits n
  cases hs : itoaNat n with
  | nil => exact absurd hs hne
  | cons c r =>
    rw [hs] at hp hd
    have hc : isDigit c = true := hd c (by simp)
    have h43 : c ≠ 43 := by simp [isDigit] at hc; omega
    have h45 : c ≠ 45 := by simp [isDigit] at hc; omega
    have hmin : minInt ≤ (n : Int) := by
      have : (0 : Int) ≤ n := Int.ofNat_nonneg n
      simp only [minInt]; omega
    simp [atoi, h43, h45, hp, hmin, h]

/-! ## Keys -/

theorem group_eq (g : Str) : group g = 91 :: (g ++ [93]) := by
  simp [group, bytes_open, bytes_close]

theorem groups_nil : groups [] = [] := rfl

theorem groups_cons (g : Str) (gs : List Str) : groups (g :: gs) = 91 :: (g ++ 93 :: groups gs) := by
  simp [groups, group_eq]

theorem closeLen_group : ∀ (g rest : Str), 91 ∉ g → 93 ∉ g →
    closeLen (g ++ 93 :: rest) = some (g.length + 1)
  | [], rest, _, _ => by simp [closeLen]
  | c :: g, rest, h1, h2 => by
    have a1 : c ≠ 91 := fun e => h1 (by simp [e])
    have a2 : c ≠ 93 := fun e => h2 (by simp [e])
    simp [closeLen, a1, a2, closeLen_group g rest (fun e => h1 (List.mem_cons_of_mem _ e))
      (fun e => h2 (List.mem_cons_of_mem _ e))]

theorem findBracket_absent : ∀ s : Str, 91 ∉ s → findBracket s = none
  | [], _ => rfl
  | c :: s, h => by
    have a1 : c ≠ 91 := fun e => h (by simp [e])
    simp [findBracket, a1, findBracket_absent s (fun e => h (List.mem_cons_of_mem _ e))]

theorem findBracket_group (g rest : Str) (h1 : 91 ∉ g) (h2 : 93 ∉ g) :
    findBracket (91 :: (g ++ 93 :: rest)) = some (0, g.length + 2) := by
  simp [findBracket, closeLen_group g rest h1 h2]

theorem findBracket_prefix : ∀ (pre g rest : Str), 91 ∉ pre → 91 ∉ g → 93 ∉ g →
    findBracket (pre ++ 91 :: (g ++ 93 :: rest)) = some (pre.length, pre.length + g.length + 2)
  | [], g, rest, _, h1, h2 => by simpa using findBracket_group g rest h1 h2
  | c :: pre, g, rest, h, h1, h2 => by
    have a1 : c ≠ 91 := fun e => h (by simp [e])
    have ih := findBracket_prefix pre g rest (fun e => h (List.mem_cons_of_mem _ e)) h1 h2
    rw [List.cons_append, findBracket, if_neg a1]
    simp only [ih, Option.map_some', List.length_cons]
    congr 2
    omega

theorem Alnum.groupName {g : Str} (h : Alnum g) : GroupName g := by
  refine ⟨fun e => ?_, fun e => ?_, fun e => ?_⟩
  · have := isAlnum_facts (h 91 e); omega
  · have := isAlnum_facts (h 93 e); omega
  · have := isAlnum_facts (h 95 (by rw [e, bytes_proto]; simp)); omega

theorem parseKeysLoop_step (o : ParseOptions) (n : Nat) (pre g rest : Str) (keys : List Str)
    (hpre : 91 ∉ pre) (hg : GroupName g) :
    parseKeysLoop o (n + 1) (pre ++ 91 :: (g ++ 93 :: rest)) keys =
      parseKeysLoop o n rest (keys ++ [group g]) := by
  have hf := findBracket_prefix pre g rest hpre hg.1 hg.2.1
  have hseg : ((pre ++ 91 :: (g ++ 93 :: rest)).take (pre.length + g.length + 2)).drop pre.length =
      group g := by
    have : pre.length + g.length + 2 = pre.length + (g.length + 2) := by omega
    rw [this, List.take_append, group_eq]
    simp [List.take_append]
  have hrest : (pre ++ 91 :: (g ++ 93 :: rest)).drop (pre.length + g.length + 2) = rest := by
    have : pre.length + g.length + 2 = pre.length + (g.length + 2) := by omega
    rw [this, List.drop_append]
    have h2 : g.length + 2 = (g.length + 1) + 1 := by omega
    rw [h2, List.drop_succ_cons]
    have h3 : g.length + 1 = g.length + 1 := rfl
    rw [List.drop_append]
    simp
  have hinner : ((group g).take ((group g).length - 1)).drop 1 = g := by
    simp [group_eq]
  simp only [parseKeysLoop, hf, hseg, hrest, hinner]
  simp [hg.2.2]

theorem parseKeysLoop_groups (o : ParseOptions) : ∀ (n : Nat) (gs : List Str) (keys : List Str),
    (∀ g ∈ gs, GroupName g) →
    parseKeysLoop o n (groups gs) keys = some (groups (gs.drop n), keys ++ (gs.take n).map group)
  | 0, gs, keys, _ => by simp [parseKeysLoop]
  | n + 1, [], keys, _ => by simp [parseKeysLoop, groups_nil, findBracket]
  | n + 1, g :: gs, keys, h => by
    have ih := parseKeysLoop_groups o n gs (keys ++ [group g])
      (fun x hx => h x (List.mem_cons_of_mem _ hx))
    have := parseKeysLoop_step o n [] g (groups gs) keys (by simp) (h g (by simp))
    rw [groups_cons]
    simp only [List.nil_append] at this
    rw [this, ih]
    simp

theorem findBracket_groups_isSome : ∀ (gs : List Str), (∀ g ∈ gs, GroupName g) →
    ((findBracket (groups gs)).isSome = true ↔ gs ≠ [])
  | [], _ => by simp [groups_nil, findBracket]
  | g :: gs, h => by
    rw [groups_cons, findBracket_group g _ (h g (by simp)).1 (h g (by simp)).2.1]
    simp

/-! ## Segments -/

theorem hasPrefix_group (g : Str) : hasPrefix (group g) (bytes "[") = true := by
  simp [hasPrefix, group_eq, bytes_open, List.isPrefixOf]

theorem hasSuffix_group (g : Str) : hasSuffix (group g) (bytes "]") = true := by
  simp [hasSuffix, group_eq, bytes_close, List.isPrefixOf]

theorem group_inner (g : Str) : ((group g).drop 1).take ((group g).length - 2) = g := by
  simp [group_eq]

theorem group_ne_empty {g : Str} (h : g ≠ []) : group g ≠ bytes "[]" := by
  rw [group_eq, bytes_empty]
  cases g with
  | nil => exact absurd rfl h
  | cons c r => simp

/-- The wrap of a bracket group around `leaf`, in terms of the name inside. -/
theorem wrapSegment_group (o : ParseOptions) (hdd : o.DecodeDotInKeys = false) (g : Str)
    (leaf : Value) (hne : g ≠ [] ∨ o.ParseArrays = false) :
    wrapSegment o (group g) leaf = placeSegment o g leaf := by
  have h1 : ¬ (group g = bytes "[]" ∧ o.ParseArrays = true) := by
    rcases hne with h | h
    · exact fun e => group_ne_empty h e.1
    · simp [h]
  simp only [wrapSegment, h1, if_false, hasPrefix_group, hasSuffix_group, and_self, if_true,
    group_inner, hdd, Bool.false_eq_true]

theorem wrapSegment_name (o : ParseOptions) (hdd : o.DecodeDotInKeys = false) {g : Str}
    (leaf : Value) (hne : g ≠ []) (hat : atoi g = none) (hp : g ≠ bytes "__proto__") :
    wrapSegment o (group g) leaf = .ok (.obj [(g, leaf)]) := by
  rw [wrapSegment_group o hdd g leaf (Or.inl hne), placeSegment, hat]
  simp [hp]

theorem wrapSegment_index (o : ParseOptions) (hdd : o.DecodeDotInKeys = false)
    (hpa : o.ParseArrays = true) (i : Nat) (leaf : Value) (hi : (i : Int) ≤ o.ArrayLimit)
    (hmax : (i : Int) < maxSliceLen) :
    wrapSegment o (group (itoaNat i)) leaf = .ok (.arr (List.replicate i Value.null ++ [leaf])) := by
  have hle : (i : Int) ≤ maxInt := by
    simp only [maxInt, maxSliceLen] at *
    omega
  rw [wrapSegment_group o hdd _ leaf (Or.inl (itoaNat_ne_nil i)), placeSegment,
    atoi_itoaNat i hle]
  have h0 : (i : Int) ≥ 0 := Int.ofNat_nonneg i
  have h1 : ¬ ((i : Int) + 1 > maxInt ∨ ifaceSize * ((i : Int) + 1) > maxAlloc) := by
    simp only [maxInt, maxSliceLen, ifaceSize, maxAlloc] at *
    omega
  simp [hpa, h0, hi, h1]

theorem wrapSegment_append (o : ParseOptions) (hpa : o.ParseArrays = true)
    (hea : o.AllowEmptyArrays = false) (v : Str) :
    wrapSegment o (group []) (.str v) = .ok (.arr [.str v]) := by
  have : group [] = bytes "[]" := by decide
  simp [wrapSegment, this, hpa, hea]

/-- The wrap of a segment that does not start with a bracket. -/
theorem wrapSegment_root (o : ParseOptions) (hdd : o.DecodeDotInKeys = false) {root : Str}
    (leaf : Value) (h91 : 91 ∉ root) (hat : atoi root = none) :
    wrapSegment o root leaf =
      if root ≠ bytes "__proto__" then .ok (.obj [(root, leaf)]) else .ok .null := by
  have h1 : root ≠ bytes "[]" := fun e => h91 (by rw [e, bytes_empty]; simp)
  have h2 : hasPrefix root (bytes "[") = false := by
    cases root with
    | nil => simp [hasPrefix, bytes_open, List.isPrefixOf]
    | cons c r =>
      have : c ≠ 91 := fun e => h91 (by simp [e])
      simp [hasPrefix, bytes_open, List.isPrefixOf, Ne.symm this]
  simp only [wrapSegment, h1, false_and, if_false, h2, Bool.false_eq_true, hdd, placeSegment, hat]

theorem wrapChain_append (o : ParseOptions) : ∀ (xs ys : List Str) (leaf : Value),
    wrapChain o (xs ++ ys) leaf =
      match wrapChain o ys leaf with
      | .error e => .error e
      | .ok inner => wrapChain o xs inner
  | [], ys, leaf => by cases h : wrapChain o ys leaf <;> simp [wrapChain, h]
  | x :: xs, ys, leaf => by
    rw [List.cons_append, wrapChain, wrapChain_append o xs ys leaf]
    cases wrapChain o ys leaf <;> simp [wrapChain]

theorem wrapChain_names (o : ParseOptions) (hdd : o.DecodeDotInKeys = false) :
    ∀ (gs : List Str) (leaf : Value), (∀ g ∈ gs, g ≠ [] ∧ atoi g = none ∧ g ≠ bytes "__proto__") →
      wrapChain o (gs.map group) leaf = .ok (nest gs leaf)
  | [], leaf, _ => rfl
  | g :: gs, leaf, h => by
    have ih := wrapChain_names o hdd gs leaf (fun x hx => h x (List.mem_cons_of_mem _ hx))
    obtain ⟨h1, h2, h3⟩ := h g (by simp)
    simp [wrapChain, ih, wrapSegment_name o hdd _ h1 h2 h3, nest]

/-! ## `parseKeys` on a root followed by bracket groups -/

theorem parseObject_parsed (chain : List Str) (val : Value) (o : ParseOptions) :
    parseObject chain val o true = wrapChain o chain val := by
  simp [parseObject]

theorem parseKeysLoop_absent (o : ParseOptions) (n : Nat) (key : Str) (keys : List Str)
    (h : 91 ∉ key) : parseKeysLoop o n key keys = some (key, keys) := by
  cases n with
  | zero => rfl
  | succ n => simp [parseKeysLoop, findBracket_absent key h]

theorem groups_ne_nil {gs : List Str} (h : gs ≠ []) : groups gs ≠ [] := by
  cases gs with
  | nil => exact absurd rfl h
  | cons g gs => simp [groups_cons]

theorem parseKeys_groups (o : ParseOptions) (hdots : o.AllowDots = false) (root : Str)
    (gs : List Str) (v : Value) (hr : RootOK o root) (hgs : ∀ g ∈ gs, GroupName g) :
    parseKeys (root ++ groups gs) v o true =
      if gs.drop o.Depth.toNat = [] then wrapChain o (root :: gs.map group) v
      else if o.StrictDepth then .error (.depthExceeded o.Depth)
      else if o.Depth.toNat = 0 then wrapChain o [root, group (root ++ groups gs)] v
      else wrapChain o (root :: (gs.take o.Depth.toNat).map group ++
        [group (groups (gs.drop o.Depth.toNat))]) v := by
  have hkey : root ++ groups gs ≠ [] := by simp [hr.ne]
  have hparent : keyParent (root ++ groups gs) = root := by
    cases gs with
    | nil => simp [keyParent, groups_nil, findBracket_absent root hr.noOpen]
    | cons g gs =>
      rw [keyParent, groups_cons,
        findBracket_prefix root g _ hr.noOpen (hgs g (by simp)).1 (hgs g (by simp)).2.1]
      simp
  have hguard : (o.PlainObjects = false ∧ root = bytes "__proto__" ∧ o.AllowPrototypes = false) ↔
      False := by
    refine ⟨?_, False.elim⟩
    rintro ⟨h1, h2, h3⟩
    rcases hr.guard with h | h | h
    · exact h h2
    · simp [h] at h1
    · simp [h] at h3
  have hne := hr.ne
  simp only [parseKeys, hkey, if_false, hdots, Bool.false_eq_true, hparent, hne, ne_eq,
    not_false_eq_true, if_true, parseObject_parsed, Bool.not_eq_true', true_and, hguard]
  cases hn : o.Depth.toNat with
  | zero =>
    simp only [parseKeysLoop, List.drop_zero]
    cases gs with
    | nil => simp [groups_nil, findBracket_absent root hr.noOpen]
    | cons g gs =>
      have hf : (findBracket (root ++ groups (g :: gs))).isSome = true := by
        rw [groups_cons, findBracket_prefix root g _ hr.noOpen (hgs g (by simp)).1
          (hgs g (by simp)).2.1]
        rfl
      simp [hf, hr.ne, group_eq, bytes_open, bytes_close]
  | succ n =>
    cases gs with
    | nil =>
      simp [groups_nil, parseKeysLoop_absent o (n + 1) root [root] hr.noOpen,
        findBracket_absent root hr.noOpen]
    | cons g gs =>
      have hgs2 : ∀ x ∈ gs, GroupName x := fun x hx => hgs x (List.mem_cons_of_mem _ hx)
      rw [groups_cons, parseKeysLoop_step o n root g (groups gs) [root] hr.noOpen (hgs g (by simp)),
        parseKeysLoop_groups o n gs _ hgs2]
      have hd : ∀ x ∈ gs.drop n, GroupName x := fun x hx => hgs2 x (List.mem_of_mem_drop hx)
      by_cases hrem : gs.drop n = []
      · have : gs.take n = gs := by
          have := List.take_append_drop n gs
          rw [hrem, List.append_nil] at this
          exact this
        simp [hrem, groups_nil, findBracket, this]
      · have hs := (findBracket_groups_isSome (gs.drop n) hd).2 hrem
        have hl : 0 < (groups (gs.drop n)).length :=
          List.length_pos.2 (groups_ne_nil hrem)
        simp [hrem, hs, hl, group_eq, bytes_open, bytes_close]

/-! ## Merging -/

theorem Merge_null (o : ParseOptions) (t : Value) : Merge o t .null = t := by
  simp [Merge]

theorem Merge_obj_obj (o : ParseOptions) (mt s : Obj) :
    Merge o (.obj mt) (.obj s) = .obj (mergeEntries o mt s) := by
  simp [Merge]

theorem Merge_str_str (o : ParseOptions) (a b : Str) :
    Merge o (.str a) (.str b) = .arr [.str a, .str b] := by
  simp [Merge]

theorem Merge_arr_str (o : ParseOptions) (t : List Value) (b : Str) :
    Merge o (.arr t) (.str b) = .arr (t ++ [.str b]) := by
  simp [Merge]

theorem Merge_arr_arr (o : ParseOptions) (t s : List Value) :
    Merge o (.arr t) (.arr s) = .arr (mergeItems o t 0 s) := by
  simp [Merge]

theorem mergeEntries_single_none (o : ParseOptions) (mt : Obj) (k : Str) (v : Value)
    (hv : v.isNull = false) (h : mapGet mt k = none) :
    mergeEntries o mt [(k, v)] = mapSet mt k v := by
  simp only [mergeEntries, hv, Bool.false_eq_true, if_false, h]

theorem mergeEntries_single_some (o : ParseOptions) (mt : Obj) (k : Str) (v x : Value)
    (hv : v.isNull = false) (h : mapGet mt k = some x) :
    mergeEntries o mt [(k, v)] = mapSet mt k (Merge o x v) := by
  simp only [mergeEntries, hv, Bool.false_eq_true, if_false, h]

theorem mapGet_absent : ∀ (m : Obj) (k : Str), k ∉ m.map Prod.fst → mapGet m k = none
  | [], _, _ => rfl
  | (k2, v) :: rest, k, h => by
    have h1 : k2 ≠ k := fun e => h (by simp [e])
    simp [mapGet, h1, mapGet_absent rest k (fun e => h (by simp at e ⊢; exact Or.inr e))]

theorem mapSet_absent : ∀ (m : Obj) (k : Str) (v : Value), k ∉ m.map Prod.fst →
    mapSet m k v = m ++ [(k, v)]
  | [], _, _, _ => rfl
  | (k2, w) :: rest, k, v, h => by
    have h1 : k2 ≠ k := fun e => h (by simp [e])
    simp [mapSet, h1, mapSet_absent rest k v (fun e => h (by simp at e ⊢; exact Or.inr e))]

theorem mapGet_head (k : Str) (v : Value) (rest : Obj) : mapGet ((k, v) :: rest) k = some v := by
  simp [mapGet]

theorem mapSet_head (k : Str) (v w : Value) (rest : Obj) :
    mapSet ((k, v) :: rest) k w = (k, w) :: rest := by
  simp [mapSet]

/-- A new key with a non-nil value is added behind the entries of the target. -/
theorem Merge_insert (o : ParseOptions) (mt : Obj) (k : Str) (v : Value) (hv : v.isNull = false)
    (hk : k ∉ mt.map Prod.fst) : Merge o (.obj mt) (.obj [(k, v)]) = .obj (mt ++ [(k, v)]) := by
  rw [Merge_obj_obj, mergeEntries_single_none o mt k v hv (mapGet_absent mt k hk),
    mapSet_absent mt k v hk]

/-- An entry for the one key of the target is merged into its value. -/
theorem Merge_same_key (o : ParseOptions) (k : Str) (x v : Value) (hv : v.isNull = false) :
    Merge o (.obj [(k, x)]) (.obj [(k, v)]) = .obj [(k, Merge o x v)] := by
  rw [Merge_obj_obj, mergeEntries_single_some o _ k v x hv (mapGet_head k x []), mapSet_head]

/-- A sparse slice with one string is appended to the target, whatever its index. -/
theorem mergeItems_sparse (o : ParseOptions) (x : Str) : ∀ (j i : Nat) (t : List Value),
    mergeItems o t i (List.replicate j Value.null ++ [.str x]) = t ++ [.str x]
  | 0, i, t => by
    simp only [List.replicate, List.nil_append, mergeItems, Value.isNull, Bool.false_eq_true,
      if_false, Value.isMap, Bool.and_false]
    cases t.get? i <;> rfl
  | j + 1, i, t => by
    simp only [List.replicate, List.cons_append, mergeItems, Value.isNull, if_true]
    exact mergeItems_sparse o x j (i + 1) t

theorem nest_not_null (k : Str) (ks : List Str) (leaf : Value) : (nest (k :: ks) leaf).isNull = false :=
  rfl

theorem Settled_nest : ∀ (ks : List Str) (v : Str), Settled (nest ks (.str v))
  | [], v => Settled.str v
  | k :: ks, v => Settled.obj _ (by
      intro kv hkv
      simp only [List.mem_singleton] at hkv
      subst hkv
      exact Settled_nest ks v)

/-! ## More pairs than the parameter limit -/

theorem splitAux_zero (c : Nat) : ∀ s : Str, splitAux [c] 0 0 s = [s]
  | [] => by simp [splitAux]
  | x :: xs => by simp [splitAux, splitAux_zero c xs, consHead]

theorem splitAux_join_limit (c : Nat) : ∀ (cuts : Nat) (parts : List Str), cuts < parts.length →
    (∀ p ∈ parts, c ∉ p) →
    splitAux [c] 0 cuts (join [c] parts) = parts.take cuts ++ [join [c] (parts.drop cuts)]
  | 0, parts, _, _ => by simp [splitAux_zero]
  | cuts + 1, [], h, _ => by simp at h
  | cuts + 1, [p], h, _ => by simp at h
  | cuts + 1, p :: q :: rest, h, hp => by
    have ih := splitAux_join_limit c cuts (q :: rest) (by simp at h ⊢; omega)
      (fun r hr => hp r (List.mem_cons_of_mem _ hr))
    simp only [join, List.append_assoc, List.singleton_append]
    rw [splitAux_cut c cuts _ p (hp p (by simp)), ih]
    simp

theorem pairText_lumpPair : ∀ (ps : List (Str × Str)), ps ≠ [] → pairText (lumpPair ps) = queryOf ps
  | [], h => absurd rfl h
  | [kv], _ => by simp [lumpPair, queryOf, join]
  | (k, v) :: kv :: rest, _ => by
    simp [lumpPair, queryOf, join, pairText, bytes_amp]

theorem splitN_overflow {pairs : List (Str × Str)} (hl : 1000 < pairs.length)
    (hk : ∀ kv ∈ pairs, KeyOK kv.1) (hv : ∀ kv ∈ pairs, Alnum kv.2) :
    splitN (queryOf pairs) [38] 1001 = (lumpPairs pairs).map pairText := by
  rw [splitN]
  simp only [show ¬ ((1001 : Int) = 0) by decide, show ¬ ((1001 : Int) < 0) by decide, if_false]
  have h := splitAux_join_limit 38 1000 (pairs.map pairText) (by simpa using hl) (by
    intro p hp
    obtain ⟨kv, hkv, rfl⟩ := List.mem_map.1 hp
    exact pairText_no_amp (hk kv hkv) (hv kv hkv))
  have hd : pairs.drop 1000 ≠ [] := by
    intro e
    have := congrArg List.length e
    simp at this
    omega
  have e : (1001 : Int).toNat - 1 = 1000 := by decide
  rw [e, queryOf, bytes_amp, h, lumpPairs, List.map_append, List.map_take, List.map_singleton,
    pairText_lumpPair _ hd, queryOf, bytes_amp, List.map_drop]

theorem partOK_lumpPair : ∀ (ps : List (Str × Str)), ps ≠ [] → (∀ kv ∈ ps, KeyOK kv.1) →
    (∀ kv ∈ ps, Alnum kv.2) →
    ((∀ kv ∈ ps, 93 ∉ kv.1) ∨ ∀ kv ∈ ps, kv.1.getLast? = some 93) → PartOK (lumpPair ps)
  | [], h, _, _, _ => absurd rfl h
  | [kv], _, hk, hv, _ => partOK_of_alnum (hk kv (by simp)) (hv kv (by simp))
  | (k, v) :: kv :: rest, _, hk, hv, h93 => by
    have hk2 : ∀ x ∈ kv :: rest, KeyOK x.1 := fun x hx => hk x (List.mem_cons_of_mem _ hx)
    have hv2 : ∀ x ∈ kv :: rest, Alnum x.2 := fun x hx => hv x (List.mem_cons_of_mem _ hx)
    have hv1 : Alnum v := hv (k, v) (by simp)
    refine ⟨hk (k, v) (by simp), ?_, ?_, ?_⟩
    · intro e
      simp only [lumpPair, bytes_amp, List.mem_append, List.mem_singleton] at e
      rcases e with (e | e) | e
      · have := isAlnum_facts (hv1 37 e); omega
      · omega
      · exact queryOf_clean hk2 hv2 (by simp) e
    · intro e
      simp only [lumpPair, bytes_amp, List.mem_append, List.mem_singleton] at e
      rcases e with (e | e) | e
      · have := isAlnum_facts (hv1 43 e); omega
      · omega
      · exact queryOf_clean hk2 hv2 (by simp) e
    · rcases h93 with h | h
      · left
        intro e
        simp only [lumpPair, bytes_amp, List.mem_append, List.mem_singleton] at e
        rcases e with (e | e) | e
        · have := isAlnum_facts (hv1 93 e); omega
        · omega
        · rcases mem_join e with e | ⟨p, hp, hcp⟩
          · rw [bytes_amp] at e; simp at e
          · obtain ⟨x, hx, rfl⟩ := List.mem_map.1 hp
            rcases mem_pairText hcp with h1 | h1 | h1
            · exact h x (List.mem_cons_of_mem _ hx) h1
            · omega
            · have := isAlnum_facts (hv2 x hx 93 h1); omega
      · right
        exact h (k, v) (by simp)

/-- The body of `DecodeQuery` on a query of more than 1001 well-formed pairs:
the loop sees the first 1000 pairs and one pair that holds the rest as text. -/
theorem decodeBody_overflow (opts : Option ParseOptions)
    (hs : StdSplit (normalizeParseOptions opts))
    (throw : (normalizeParseOptions opts).ThrowOnLimitExceeded = false)
    (pairs : List (Str × Str)) (hl : 1000 < pairs.length)
    (hk : ∀ kv ∈ pairs, KeyOK kv.1) (hv : ∀ kv ∈ pairs, Alnum kv.2)
    (h93 : (∀ kv ∈ pairs, 93 ∉ kv.1) ∨ ∀ kv ∈ pairs, kv.1.getLast? = some 93) :
    decodeBody (queryOf pairs) opts =
      finish opts (foldPairs (normalizeParseOptions opts) [] (lumpPairs pairs)) := by
  have hne : pairs ≠ [] := by
    intro e
    subst e
    simp at hl
  have hd : pairs.drop 1000 ≠ [] := by
    intro e
    have := congrArg List.length e
    simp at this
    omega
  apply decodeBody_parts opts hs hne hk hv (splitN_overflow hl hk hv) (Or.inl throw)
  intro kv hkv
  rcases List.mem_append.1 hkv with h | h
  · have hm := List.mem_of_mem_take h
    exact partOK_of_alnum (hk kv hm) (hv kv hm)
  · simp only [List.mem_singleton] at h
    subst h
    exact partOK_lumpPair _ hd (fun x hx => hk x (List.mem_of_mem_drop hx))
      (fun x hx => hv x (List.mem_of_mem_drop hx))
      (h93.imp (fun g x hx => g x (List.mem_of_mem_drop hx))
        (fun g x hx => g x (List.mem_of_mem_drop hx)))

/-! ## C1: flat queries -/

theorem Alnum.keyOK {k : Str} (h : Alnum k) (hne : k ≠ []) : KeyOK k :=
  ⟨hne, fun c hc => by have := isAlnum_facts (h c hc); omega⟩

theorem Alnum.rootOK (o : ParseOptions) {k : Str} (h : Alnum k) (hne : k ≠ []) : RootOK o k :=
  ⟨hne, h.groupName.1, Or.inl h.groupName.2.2⟩

theorem startsWithLetter_ne_nil {k : Str} (h : startsWithLetter k = true) : k ≠ [] := by
  cases k with
  | nil => simp [startsWithLetter] at h
  | cons c r => simp

theorem atoi_startsWithLetter {k : Str} (h : startsWithLetter k = true) : atoi k = none := by
  cases k with
  | nil => rfl
  | cons c r =>
    have hc : isLetter c = true := h
    have := isAlnum_facts (isLetter_alnum hc)
    exact atoi_head_not_digit r (isLetter_not_digit hc) (by omega) (by omega)

/-- `parseKeys` on a key without brackets that is no numeral. -/
theorem parseKeys_flat (o : ParseOptions) (hdots : o.AllowDots = false)
    (hdd : o.DecodeDotInKeys = false) {k : Str} (v : Value) (hk : Alnum k)
    (hl : startsWithLetter k = true) :
    parseKeys k v o true = .ok (.obj [(k, v)]) := by
  have hne := startsWithLetter_ne_nil hl
  have h := parseKeys_groups o hdots k [] v (hk.rootOK o hne) (by simp)
  simp only [groups_nil, List.append_nil, List.drop_nil, if_true, List.map_nil] at h
  simp only [h, wrapChain, wrapSegment_root o hdd v hk.groupName.1 (atoi_startsWithLetter hl)]
  simp [hk.groupName.2.2]

theorem foldPairs_flat (o : ParseOptions) (hdots : o.AllowDots = false)
    (hdd : o.DecodeDotInKeys = false) : ∀ (pairs : List (Str × Str)) (acc : Obj),
    (∀ kv ∈ pairs, startsWithLetter kv.1 = true ∧ Alnum kv.1) →
    (acc.map Prod.fst ++ pairs.map Prod.fst).Nodup →
    foldPairs o acc pairs = .ok (acc ++ flatMapping pairs)
  | [], acc, _, _ => by simp [foldPairs, flatMapping]
  | (k, v) :: rest, acc, hk, hd => by
    have h1 := parseKeys_flat o hdots hdd (.str v) (hk (k, v) (by simp)).2 (hk (k, v) (by simp)).1
    have hnot : k ∉ acc.map Prod.fst := by
      intro hm
      have := List.nodup_append.1 hd
      exact (List.disjoint_left.1 this.2.2) hm (by simp)
    have hd2 : ((acc ++ [(k, Value.str v)]).map Prod.fst ++ rest.map Prod.fst).Nodup := by
      simpa using hd
    have ih := foldPairs_flat o hdots hdd rest (acc ++ [(k, .str v)])
      (fun kv hkv => hk kv (List.mem_cons_of_mem _ hkv)) hd2
    simp only [foldPairs, h1, Merge_insert o acc k (.str v) rfl hnot, ih]
    simp [flatMapping]

theorem Settled_flatMapping (pairs : List (Str × Str)) : ∀ kv ∈ flatMapping pairs, Settled kv.2 := by
  intro kv hkv
  obtain ⟨p, _, rfl⟩ := List.mem_map.1 hkv
  exact Settled.str _

theorem DecodeQuery_nil (opts : Option ParseOptions) : DecodeQuery [] opts = (some [], none) := by
  have : EscapeQueryString [] = [] := by decide
  simp [DecodeQuery, decodeBody, this]

theorem DecodeQuery_flat (opts : Option ParseOptions) (hs : StdSplit (normalizeParseOptions opts))
    (throw : (normalizeParseOptions opts).ThrowOnLimitExceeded = false)
    (hdots : (normalizeParseOptions opts).AllowDots = false)
    (hdd : (normalizeParseOptions opts).DecodeDotInKeys = false)
    (pairs : List (Str × Str)) (hn : pairs.length ≤ 1001)
    (hkey : ∀ kv ∈ pairs, startsWithLetter kv.1 = true ∧ Alnum kv.1)
    (hval : ∀ kv ∈ pairs, Alnum kv.2) (hdistinct : (pairs.map Prod.fst).Nodup) :
    DecodeQuery (queryOf pairs) opts = (some (flatMapping pairs), none) := by
  by_cases hne : pairs = []
  · subst hne
    exact DecodeQuery_nil opts
  · have hf := foldPairs_flat _ hdots hdd pairs [] hkey (by simpa using hdistinct)
    exact DecodeQuery_queryOf opts hs (Or.inl throw) hne hn
      (fun kv hkv => (hkey kv hkv).2.keyOK (startsWithLetter_ne_nil (hkey kv hkv).1)) hval
      (by simpa using hf) (Settled_flatMapping pairs)

theorem stdSplit_nil : StdSplit (normalizeParseOptions none) := by
  constructor <;> rfl

theorem stdSplit_defaults : StdSplit (normalizeParseOptions (some defaults)) := by
  constructor <;> rfl

theorem stdSplit_test : StdSplit (normalizeParseOptions (some testOptions)) := by
  constructor <;> rfl

/-- C1: a query `k1=v1&...&kn=vn` of at most ParameterLimit (1000) pairs with
pairwise distinct alphanumeric keys that start with a letter and alphanumeric,
possibly empty, values decodes, under no options, under the default options and
under the options of the test, to the flat mapping `{k1: v1, ..., kn: vn}` with
a nil error; for n = 0 the query is the empty string and the mapping is empty. -/
theorem C1_flat_query (pairs : List (Str × Str)) (hn : pairs.length ≤ 1000)
    (hkey : ∀ kv ∈ pairs, startsWithLetter kv.1 = true ∧ Alnum kv.1)
    (hval : ∀ kv ∈ pairs, Alnum kv.2) (hdistinct : (pairs.map Prod.fst).Nodup) :
    DecodeQuery (queryOf pairs) none = (some (flatMapping pairs), none) ∧
    DecodeQuery (queryOf pairs) (some defaults) = (some (flatMapping pairs), none) ∧
    DecodeQuery (queryOf pairs) (some testOptions) = (some (flatMapping pairs), none) :=
  ⟨DecodeQuery_flat none stdSplit_nil rfl rfl rfl pairs (by omega) hkey hval hdistinct,
   DecodeQuery_flat (some defaults) stdSplit_defaults rfl rfl rfl pairs (by omega) hkey hval hdistinct,
   DecodeQuery_flat (some testOptions) stdSplit_test rfl rfl rfl pairs (by omega) hkey hval hdistinct⟩

/-- C1 at the queries of the test: the empty query, `a=1&b=hello&c=true` and `empty=`. -/
theorem C1_flat_query_witness :
    (DecodeQuery (queryOf []) (some testOptions) = (some [], none)) ∧
    (DecodeQuery (bytes "a=1&b=hello&c=true") (some testOptions) =
      (some [(bytes "a", .str (bytes "1")), (bytes "b", .str (bytes "hello")),
        (bytes "c", .str (bytes "true"))], none)) ∧
    (DecodeQuery (bytes "empty=") (some testOptions) = (some [(bytes "empty", .str [])], none)) :=
  ⟨(C1_flat_query [] (by decide) (by decide) (by decide) (by decide)).2.2,
   (C1_flat_query [(bytes "a", bytes "1"), (bytes "b", bytes "hello"), (bytes "c", bytes "true")]
      (by decide) (by decide) (by decide) (by decide)).2.2,
   (C1_flat_query [(bytes "empty", [])] (by decide) (by decide) (by decide) (by decide)).2.2⟩

/-! ## C2: bracketed names -/

theorem sameResult_refl (r : Option Obj × Option DecodeError) : sameResult r r = true := by
  obtain ⟨a, e⟩ := r
  cases a with
  | none => simp [sameResult]
  | some m => simp [sameResult, Value.beqObj_refl m]

theorem sameResult_sound {r s : Option Obj × Option DecodeError} (h : sameResult r s = true) :
    r = s := by
  obtain ⟨a, e⟩ := r
  obtain ⟨b, f⟩ := s
  cases a <;> cases b <;> simp [sameResult] at h ⊢
  · exact h
  · exact ⟨Value.beqObj_sound _ _ h.1, h.2⟩

theorem ne_of_sameResult_false {r s : Option Obj × Option DecodeError}
    (h : sameResult r s = false) : r ≠ s := by
  intro e
  rw [e, sameResult_refl] at h
  cases h

theorem groups_single (g : Str) : groups [g] = group g := by
  simp [groups]

theorem Letters.ne_proto {g : Str} (h : Letters g) : g ≠ bytes "__proto__" :=
  h.alnum.groupName.2.2

/-- `parseKeys` on `u[f]` with at least one level of depth. -/
theorem parseKeys_field (o : ParseOptions) (hdots : o.AllowDots = false)
    (hdd : o.DecodeDotInKeys = false) (hdepth : 1 ≤ o.Depth) {u f : Str} (v : Value)
    (hu : Letters u) (hune : u ≠ []) (hf : Letters f) (hfne : f ≠ []) :
    parseKeys (u ++ group f) v o true = .ok (nest [u, f] v) := by
  have h := parseKeys_groups o hdots u [f] v (hu.alnum.rootOK o hune)
    (by intro g hg; simp at hg; subst hg; exact hf.alnum.groupName)
  have hn : [f].drop o.Depth.toNat = [] := by
    apply List.drop_eq_nil_of_le
    simp; omega
  rw [groups_single, hn] at h
  simp only [if_true, List.map_cons, List.map_nil] at h
  rw [h]
  simp only [wrapChain, wrapSegment_name o hdd v hfne (atoi_letters hf) hf.ne_proto,
    wrapSegment_root o hdd _ hu.alnum.groupName.1 (atoi_letters hu)]
  simp [hu.ne_proto, nest]

theorem foldPairs_fields (o : ParseOptions) (hdots : o.AllowDots = false)
    (hdd : o.DecodeDotInKeys = false) (hdepth : 1 ≤ o.Depth) {u : Str} (hu : Letters u)
    (hune : u ≠ []) : ∀ (fields : List (Str × Str)) (acc : Obj),
    (∀ fv ∈ fields, fv.1 ≠ [] ∧ Letters fv.1) →
    (acc.map Prod.fst ++ fields.map Prod.fst).Nodup →
    foldPairs o [(u, .obj acc)] (fieldPairs u fields) = .ok [(u, .obj (acc ++ flatMapping fields))]
  | [], acc, _, _ => by simp [foldPairs, fieldPairs, flatMapping]
  | (f, v) :: rest, acc, hk, hd => by
    have h1 := parseKeys_field o hdots hdd hdepth (.str v) hu hune (hk (f, v) (by simp)).2
      (hk (f, v) (by simp)).1
    have hnot : f ∉ acc.map Prod.fst := by
      intro hm
      have := List.nodup_append.1 hd
      exact (List.disjoint_left.1 this.2.2) hm (by simp)
    have hd2 : ((acc ++ [(f, Value.str v)]).map Prod.fst ++ rest.map Prod.fst).Nodup := by
      simpa using hd
    have ih := foldPairs_fields o hdots hdd hdepth hu hune rest (acc ++ [(f, .str v)])
      (fun kv hkv => hk kv (List.mem_cons_of_mem _ hkv)) hd2
    have hm : Merge o (.obj [(u, .obj acc)]) (nest [u, f] (.str v)) =
        .obj [(u, .obj (acc ++ [(f, .str v)]))] := by
      rw [nest, nest, nest, Merge_same_key o u (.obj acc) (.obj [(f, .str v)]) rfl,
        Merge_insert o acc f (.str v) rfl hnot]
    rw [fieldPairs, List.map_cons, foldPairs]
    simp only [h1, hm]
    rw [← fieldPairs, ih]
    simp [flatMapping]

theorem KeyOK_field {u f : Str} (hu : Letters u) (hf : Alnum f) : KeyOK (u ++ group f) := by
  refine ⟨by simp [group_eq], ?_⟩
  intro c hc
  rw [group_eq] at hc
  simp only [List.mem_append, List.mem_cons, List.mem_singleton, List.not_mem_nil, or_false] at hc
  rcases hc with h | h | h | h
  · have := isAlnum_facts (hu.alnum c h); omega
  · omega
  · have := isAlnum_facts (hf c h); omega
  · omega

/-- The fold of `DecodeQuery` over the pairs `u[f1]=v1, ..., u[fn]=vn`. -/
theorem foldPairs_fields_all (o : ParseOptions) (hdots : o.AllowDots = false)
    (hdd : o.DecodeDotInKeys = false) (hdepth : 1 ≤ o.Depth) {u : Str} (hu : Letters u)
    (hune : u ≠ []) (fields : List (Str × Str)) (hne : fields ≠ [])
    (hf : ∀ fv ∈ fields, fv.1 ≠ [] ∧ Letters fv.1) (hdistinct : (fields.map Prod.fst).Nodup) :
    foldPairs o [] (fieldPairs u fields) = .ok [(u, .obj (flatMapping fields))] := by
  obtain ⟨⟨f, v⟩, rest, rfl⟩ := List.exists_cons_of_ne_nil hne
  have h1 := parseKeys_field o hdots hdd hdepth (.str v) hu hune (hf (f, v) (by simp)).2
    (hf (f, v) (by simp)).1
  have ih := foldPairs_fields o hdots hdd hdepth hu hune rest [(f, .str v)]
    (fun kv hkv => hf kv (List.mem_cons_of_mem _ hkv)) (by simpa using hdistinct)
  have hm : Merge o (.obj []) (nest [u, f] (.str v)) = .obj [(u, .obj [(f, .str v)])] := by
    rw [nest, nest, nest, Merge_insert _ [] u (.obj [(f, .str v)]) rfl (by simp)]
    rfl
  rw [fieldPairs, List.map_cons, foldPairs]
  simp only [h1, hm]
  rw [← fieldPairs, ih]
  simp [flatMapping]

theorem Settled_fields (u : Str) (fields : List (Str × Str)) :
    ∀ kv ∈ [(u, Value.obj (flatMapping fields))], Settled kv.2 := by
  intro kv hkv
  simp only [List.mem_singleton] at hkv
  subst hkv
  exact Settled.obj _ (Settled_flatMapping _)

theorem KeyOK_fieldPairs {u : Str} (hu : Letters u) {fields : List (Str × Str)}
    (hf : ∀ fv ∈ fields, Alnum fv.1) : ∀ kv ∈ fieldPairs u fields, KeyOK kv.1 := by
  intro kv hkv
  obtain ⟨fv, hfv, rfl⟩ := List.mem_map.1 hkv
  exact KeyOK_field hu (hf fv hfv)

theorem Alnum_fieldPairs {u : Str} {fields : List (Str × Str)}
    (hv : ∀ fv ∈ fields, Alnum fv.2) : ∀ kv ∈ fieldPairs u fields, Alnum kv.2 := by
  intro kv hkv
  obtain ⟨fv, hfv, rfl⟩ := List.mem_map.1 hkv
  exact hv fv hfv

theorem DecodeQuery_fields (opts : Option ParseOptions)
    (hs : StdSplit (normalizeParseOptions opts))
    (throw : (normalizeParseOptions opts).ThrowOnLimitExceeded = false)
    (hdots : (normalizeParseOptions opts).AllowDots = false)
    (hdd : (normalizeParseOptions opts).DecodeDotInKeys = false)
    (hdepth : 1 ≤ (normalizeParseOptions opts).Depth)
    {u : Str} (hu : Letters u) (hune : u ≠ []) (fields : List (Str × Str)) (hne : fields ≠ [])
    (hn : fields.length ≤ 1001) (hf : ∀ fv ∈ fields, fv.1 ≠ [] ∧ Letters fv.1)
    (hv : ∀ fv ∈ fields, Alnum fv.2) (hdistinct : (fields.map Prod.fst).Nodup) :
    DecodeQuery (queryOf (fieldPairs u fields)) opts =
      (some [(u, .obj (flatMapping fields))], none) :=
  DecodeQuery_queryOf opts hs (Or.inl throw) (by simpa [fieldPairs] using hne)
    (by simpa [fieldPairs] using hn) (KeyOK_fieldPairs hu (fun fv h => (hf fv h).2.alnum))
    (Alnum_fieldPairs hv) (foldPairs_fields_all _ hdots hdd hdepth hu hune fields hne hf hdistinct)
    (Settled_fields u fields)

/-- C2, as amended: for a root name `u` and at most ParameterLimit + 1 = 1001
pairwise distinct field names (all non-empty ASCII-letter strings) with
alphanumeric values, the query `u[f1]=v1&...&u[fn]=vn` decodes, with ParseArrays
on and Depth at least 1, to `{u: {f1: v1, ..., fn: vn}}` with a nil error. -/
theorem C2_nested_mapping (d : Int) (hd : 1 ≤ d) (u : Str) (hu : Letters u) (hune : u ≠ [])
    (fields : List (Str × Str)) (hne : fields ≠ []) (hn : fields.length ≤ 1001)
    (hf : ∀ fv ∈ fields, fv.1 ≠ [] ∧ Letters fv.1) (hv : ∀ fv ∈ fields, Alnum fv.2)
    (hdistinct : (fields.map Prod.fst).Nodup) :
    DecodeQuery (queryOf (fieldPairs u fields))
        (some { defaults with ParseArrays := true, Depth := d }) =
      (some [(u, .obj (flatMapping fields))], none) :=
  DecodeQuery_fields (some { defaults with ParseArrays := true, Depth := d })
    (by constructor <;> rfl) rfl rfl rfl hd hu hune fields hne hn hf hv hdistinct

/-- C2 at the query of the test, `user[name]=Alice&user[age]=30`. -/
theorem C2_nested_mapping_witness :
    DecodeQuery (bytes "user[name]=Alice&user[age]=30")
        (some { defaults with ParseArrays := true, Depth := 10 }) =
      (some [(bytes "user", .obj [(bytes "name", .str (bytes "Alice")),
        (bytes "age", .str (bytes "30"))])], none) :=
  C2_nested_mapping 10 (by decide) (bytes "user") (by decide) (by decide)
    [(bytes "name", bytes "Alice"), (bytes "age", bytes "30")] (by decide) (by decide) (by decide)
    (by decide) (by decide)

theorem letterOf_isLetter (j : Nat) : isLetter (letterOf j) = true := by
  simp only [isLetter, letterOf, Bool.or_eq_true, Bool.and_eq_true, decide_eq_true_eq]
  split <;> omega

theorem letterOf_inj {i j : Nat} (h : letterOf i = letterOf j) : i % 52 = j % 52 := by
  simp only [letterOf] at h
  split at h <;> split at h <;> omega

theorem nameOf_letters (i : Nat) : Letters (nameOf i) := by
  intro c hc
  simp only [nameOf, List.mem_cons, List.mem_singleton, List.not_mem_nil, or_false] at hc
  rcases hc with rfl | rfl <;> exact letterOf_isLetter _

theorem nameOf_inj {i j : Nat} (hi : i < 2704) (hj : j < 2704) (h : nameOf i = nameOf j) :
    i = j := by
  simp only [nameOf, List.cons.injEq, and_true] at h
  have h1 := letterOf_inj h.1
  have h2 := letterOf_inj h.2
  omega

theorem manyFields_names (n : Nat) : (manyFields n).map Prod.fst = (List.range n).map nameOf := by
  simp [manyFields, List.map_map, Function.comp_def]

theorem manyFields_nodup (n : Nat) (hn : n ≤ 2704) : ((manyFields n).map Prod.fst).Nodup := by
  rw [manyFields_names]
  apply List.Nodup.map_on _ (List.nodup_range n)
  intro i hi j hj h
  exact nameOf_inj (by have := List.mem_range.1 hi; omega) (by have := List.mem_range.1 hj; omega) h

theorem manyFields_succ (n : Nat) : manyFields (n + 1) = manyFields n ++ [(nameOf n, bytes "1")] := by
  simp [manyFields, List.range_succ]

theorem manyFields_length (n : Nat) : (manyFields n).length = n := by
  simp [manyFields]

theorem manyFields_ok (n : Nat) : ∀ fv ∈ manyFields n, fv.1 ≠ [] ∧ Letters fv.1 ∧ Alnum fv.2 := by
  intro fv hfv
  obtain ⟨i, _, rfl⟩ := List.mem_map.1 hfv
  refine ⟨by simp [nameOf], nameOf_letters i, ?_⟩
  show Alnum (bytes "1")
  decide

theorem fieldPairs_last_93 (u : Str) (fields : List (Str × Str)) :
    ∀ kv ∈ fieldPairs u fields, kv.1.getLast? = some 93 := by
  intro kv hkv
  obtain ⟨fv, _, rfl⟩ := List.mem_map.1 hkv
  show (u ++ group fv.1).getLast? = some 93
  rw [group_eq, show u ++ 91 :: (fv.1 ++ [93]) = (u ++ 91 :: fv.1) ++ [93] by simp,
    List.getLast?_append]
  rfl

/-- The pairs that the splitter reads from the 1002 pairs `u[f]=1`. -/
theorem lumpPairs_manyFields :
    lumpPairs (fieldPairs (bytes "u") (manyFields 1002)) =
      fieldPairs (bytes "u") (manyFields 1000 ++ [(nameOf 1000, bytes "1&u[TN]=1")]) := by
  have h : manyFields 1002 = manyFields 1000 ++ [(nameOf 1000, bytes "1"), (nameOf 1001, bytes "1")] := by
    rw [manyFields_succ 1001, manyFields_succ 1000]
    simp
  have hl : (fieldPairs (bytes "u") (manyFields 1000)).length = 1000 := by
    simp [fieldPairs, manyFields_length]
  rw [h, fieldPairs, List.map_append, ← fieldPairs, lumpPairs, List.take_left' hl,
    List.drop_left' hl]
  simp only [fieldPairs, List.map_append]
  congr 1

/-- C2 fails as stated: 1002 pairs `u[f]=1` with pairwise distinct two-letter
field names, decoded under the default options (ParseArrays on, Depth 5), do
not give the mapping of the 1002 fields: `parseValues` splits into at most
ParameterLimit + 1 = 1001 parts, so the last field read gets the value
`1&u[TN]=1` and the field `TN` is missing. -/
theorem C2_counterexample :
    ((manyFields 1002).map Prod.fst).Nodup ∧
    (∀ fv ∈ manyFields 1002, fv.1 ≠ [] ∧ Letters fv.1 ∧ Alnum fv.2) ∧
    DecodeQuery (queryOf (fieldPairs (bytes "u") (manyFields 1002)))
        (some { defaults with ParseArrays := true, Depth := 5 }) =
      (some [(bytes "u", .obj (flatMapping
        (manyFields 1000 ++ [(nameOf 1000, bytes "1&u[TN]=1")])))], none) ∧
    DecodeQuery (queryOf (fieldPairs (bytes "u") (manyFields 1002)))
        (some { defaults with ParseArrays := true, Depth := 5 }) ≠
      (some [(bytes "u", .obj (flatMapping (manyFields 1002)))], none) := by
  have hs : StdSplit (normalizeParseOptions
      (some { defaults with ParseArrays := true, Depth := 5 })) := by constructor <;> rfl
  have hu : Letters (bytes "u") := by decide
  have hok := manyFields_ok 1002
  have hbody := decodeBody_overflow _ hs rfl (fieldPairs (bytes "u") (manyFields 1002))
    (by simp [fieldPairs, manyFields_length])
    (KeyOK_fieldPairs hu (fun fv h => (hok fv h).2.1.alnum))
    (Alnum_fieldPairs (fun fv h => (hok fv h).2.2)) (Or.inr (fieldPairs_last_93 _ _))
  have hnames : ((manyFields 1000 ++ [(nameOf 1000, bytes "1&u[TN]=1")]).map Prod.fst) =
      (manyFields 1001).map Prod.fst := by
    rw [manyFields_succ 1000]
    simp
  have hfold := foldPairs_fields_all (normalizeParseOptions
      (some { defaults with ParseArrays := true, Depth := 5 })) rfl rfl (by decide) hu (by decide)
    (manyFields 1000 ++ [(nameOf 1000, bytes "1&u[TN]=1")]) (by simp)
    (by
      intro fv hfv
      rcases List.mem_append.1 hfv with h | h
      · exact ⟨(manyFields_ok 1000 fv h).1, (manyFields_ok 1000 fv h).2.1⟩
      · simp only [List.mem_singleton] at h
        subst h
        exact ⟨by simp [nameOf], nameOf_letters 1000⟩)
    (by rw [hnames]; exact manyFields_nodup 1001 (by decide))
  have hres : DecodeQuery (queryOf (fieldPairs (bytes "u") (manyFields 1002)))
        (some { defaults with ParseArrays := true, Depth := 5 }) =
      (some [(bytes "u", .obj (flatMapping
        (manyFields 1000 ++ [(nameOf 1000, bytes "1&u[TN]=1")])))], none) := by
    rw [DecodeQuery, hbody, lumpPairs_manyFields, hfold, finish_settled _ (Settled_fields _ _)]
  refine ⟨manyFields_nodup 1002 (by decide), hok, hres, ?_⟩
  rw [hres]
  intro h
  have h2 : (flatMapping (manyFields 1000 ++ [(nameOf 1000, bytes "1&u[TN]=1")])).length =
      (flatMapping (manyFields 1002)).length := by
    simp only [Prod.mk.injEq, Option.some.injEq, List.cons.injEq, and_true, true_and,
      Value.obj.injEq] at h
    rw [h]
  simp [flatMapping, manyFields_length] at h2

/-! ## Sequences: explicit indices and the append marker -/

theorem slotName_alnum (s : Option Nat) : Alnum (slotName s) := by
  cases s with
  | none => intro c hc; simp [slotName] at hc
  | some i => exact itoaNat_alnum i

theorem groupName_nil : GroupName [] := by
  refine ⟨by simp, by simp, ?_⟩
  rw [bytes_proto]
  simp

/-- `parseKeys` on `a[]` and on `a[i]` for an index within the array limit. -/
theorem parseKeys_slot (o : ParseOptions) (ho : SlotOpts o) {a : Str} (ha : Letters a)
    (hane : a ≠ []) (s : Option Nat) (v : Str)
    (hs : ∀ i, s = some i → (i : Int) ≤ o.ArrayLimit ∧ (i : Int) < maxSliceLen) :
    parseKeys (a ++ group (slotName s)) (.str v) o true =
      .ok (.obj [(a, .arr (List.replicate (s.getD 0) Value.null ++ [.str v]))]) := by
  have h := parseKeys_groups o ho.dots a [slotName s] (.str v) (ha.alnum.rootOK o hane)
    (by
      intro g hg
      simp only [List.mem_singleton] at hg
      subst hg
      cases s with
      | none => exact groupName_nil
      | some i => exact (itoaNat_alnum i).groupName)
  have hn : [slotName s].drop o.Depth.toNat = [] := by
    apply List.drop_eq_nil_of_le
    have := ho.depth
    simp; omega
  rw [groups_single, hn] at h
  simp only [if_true, List.map_cons, List.map_nil] at h
  rw [h]
  have hseg : wrapSegment o (group (slotName s)) (.str v) =
      .ok (.arr (List.replicate (s.getD 0) Value.null ++ [.str v])) := by
    cases s with
    | none => exact wrapSegment_append o ho.arrays ho.emptyArrays v
    | some i =>
      exact wrapSegment_index o ho.decodeDots ho.arrays i _ (hs i rfl).1 (hs i rfl).2
  simp only [wrapChain, hseg, wrapSegment_root o ho.decodeDots _ ha.alnum.groupName.1
    (atoi_letters ha)]
  simp [ha.ne_proto]

/-- A pair for a slot of `a` is appended to the sequence under `a`. -/
theorem foldPairs_slots (o : ParseOptions) (ho : SlotOpts o) {a : Str} (ha : Letters a)
    (hane : a ≠ []) : ∀ (slots : List (Option Nat × Str)) (t : List Value),
    (∀ s ∈ slots, ∀ i, s.1 = some i → (i : Int) ≤ o.ArrayLimit ∧ (i : Int) < maxSliceLen) →
    foldPairs o [(a, .arr t)] (slotPairs a slots) =
      .ok [(a, .arr (t ++ slots.map (fun s => Value.str s.2)))]
  | [], t, _ => by simp [foldPairs, slotPairs, fieldPairs]
  | s :: rest, t, h => by
    have h1 := parseKeys_slot o ho ha hane s.1 s.2 (h s (by simp))
    have ih := foldPairs_slots o ho ha hane rest (t ++ [.str s.2])
      (fun x hx => h x (List.mem_cons_of_mem _ hx))
    have hm : Merge o (.obj [(a, .arr t)])
        (.obj [(a, .arr (List.replicate (s.1.getD 0) Value.null ++ [.str s.2]))]) =
        .obj [(a, .arr (t ++ [.str s.2]))] := by
      rw [Merge_same_key o a (.arr t) (.arr _) rfl, Merge_arr_arr, mergeItems_sparse]
    have hstep : slotPairs a (s :: rest) =
        (a ++ group (slotName s.1), s.2) :: slotPairs a rest := by
      simp [slotPairs, fieldPairs]
    rw [hstep, foldPairs]
    simp only [h1, hm]
    rw [ih]
    simp

/-- The fold of `DecodeQuery` over pairs for slots of `a`: the values in order
of appearance, behind the holes in front of the first explicit index. -/
theorem foldPairs_slots_all (o : ParseOptions) (ho : SlotOpts o) {a : Str} (ha : Letters a)
    (hane : a ≠ []) (s : Option Nat × Str) (rest : List (Option Nat × Str))
    (h : ∀ s2 ∈ s :: rest, ∀ i, s2.1 = some i → (i : Int) ≤ o.ArrayLimit ∧ (i : Int) < maxSliceLen) :
    foldPairs o [] (slotPairs a (s :: rest)) =
      .ok [(a, .arr (List.replicate (s.1.getD 0) Value.null ++
        (s :: rest).map (fun s => Value.str s.2)))] := by
  have h1 := parseKeys_slot o ho ha hane s.1 s.2 (h s (by simp))
  have ih := foldPairs_slots o ho ha hane rest (List.replicate (s.1.getD 0) Value.null ++ [.str s.2])
    (fun x hx => h x (List.mem_cons_of_mem _ hx))
  have hm : Merge o (.obj [])
      (.obj [(a, .arr (List.replicate (s.1.getD 0) Value.null ++ [.str s.2]))]) =
      .obj [(a, .arr (List.replicate (s.1.getD 0) Value.null ++ [.str s.2]))] := by
    rw [Merge_insert _ [] a (.arr _) rfl (by simp)]
    rfl
  have hstep : slotPairs a (s :: rest) =
      (a ++ group (slotName s.1), s.2) :: slotPairs a rest := by
    simp [slotPairs, fieldPairs]
  rw [hstep, foldPairs]
  simp only [h1, hm]
  rw [ih]
  simp

theorem KeyOK_slotPairs {a : Str} (ha : Letters a) (slots : List (Option Nat × Str)) :
    ∀ kv ∈ slotPairs a slots, KeyOK kv.1 := by
  apply KeyOK_fieldPairs ha
  intro fv hfv
  obtain ⟨s, _, rfl⟩ := List.mem_map.1 hfv
  exact slotName_alnum s.1

theorem Alnum_slotPairs {a : Str} {slots : List (Option Nat × Str)}
    (hv : ∀ s ∈ slots, Alnum s.2) : ∀ kv ∈ slotPairs a slots, Alnum kv.2 := by
  apply Alnum_fieldPairs
  intro fv hfv
  obtain ⟨s, hs, rfl⟩ := List.mem_map.1 hfv
  exact hv s hs

theorem slotPairs_length (a : Str) (slots : List (Option Nat × Str)) :
    (slotPairs a slots).length = slots.length := by
  simp [slotPairs, fieldPairs]

theorem Settled_strs (a : Str) (xs : List Str) :
    ∀ kv ∈ [(a, Value.arr (xs.map Value.str))], Settled kv.2 := by
  intro kv hkv
  simp only [List.mem_singleton] at hkv
  subst hkv
  exact Settled.arr xs

/-! ## C3: the append marker -/

theorem explicitSlots_values : ∀ (i : Nat) (xs : List Str),
    (explicitSlots i xs).map (fun s => Value.str s.2) = xs.map Value.str
  | _, [] => rfl
  | i, x :: xs => by simp [explicitSlots, explicitSlots_values (i + 1) xs]

theorem explicitSlots_index : ∀ (i : Nat) (xs : List Str), ∀ s ∈ explicitSlots i xs,
    ∀ j, s.1 = some j → j < i + xs.length
  | _, [], s, hs, _, _ => by simp [explicitSlots] at hs
  | i, x :: xs, s, hs, j, hj => by
    simp only [explicitSlots, List.mem_cons] at hs
    rcases hs with rfl | hs
    · simp only [Option.some.injEq] at hj
      simp; omega
    · have := explicitSlots_index (i + 1) xs s hs j hj
      simp; omega

theorem explicitSlots_alnum : ∀ (i : Nat) (xs : List Str), (∀ x ∈ xs, Alnum x) →
    ∀ s ∈ explicitSlots i xs, Alnum s.2
  | _, [], _, s, hs => by simp [explicitSlots] at hs
  | i, x :: xs, h, s, hs => by
    simp only [explicitSlots, List.mem_cons] at hs
    rcases hs with rfl | hs
    · exact h x (by simp)
    · exact explicitSlots_alnum (i + 1) xs (fun y hy => h y (List.mem_cons_of_mem _ hy)) s hs

theorem explicitSlots_length : ∀ (i : Nat) (xs : List Str), (explicitSlots i xs).length = xs.length
  | _, [] => rfl
  | i, x :: xs => by simp [explicitSlots, explicitSlots_length (i + 1) xs]

/-- The decode of the explicit pairs `a[0]=x0, ...` followed by the pairs `a[]=y1, ...`. -/
theorem DecodeQuery_slots (opts : Option ParseOptions)
    (hs : StdSplit (normalizeParseOptions opts)) (ho : SlotOpts (normalizeParseOptions opts))
    {a : Str} (ha : Letters a) (hane : a ≠ []) (xs ys : List Str)
    (throw : (normalizeParseOptions opts).ThrowOnLimitExceeded = false ∨
      xs.length + ys.length ≤ 1000)
    (hx : ∀ x ∈ xs, Alnum x) (hy : ∀ y ∈ ys, Alnum y) (hpos : 1 ≤ xs.length + ys.length)
    (hn : xs.length + ys.length ≤ 1001)
    (hL : (xs.length : Int) - 1 ≤ (normalizeParseOptions opts).ArrayLimit) :
    DecodeQuery (queryOf (slotPairs a (explicitSlots 0 xs ++ appendSlots ys))) opts =
      (some [(a, .arr ((xs ++ ys).map Value.str))], none) := by
  have hlen : (explicitSlots 0 xs ++ appendSlots ys).length = xs.length + ys.length := by
    simp [explicitSlots_length, appendSlots]
  have hidx : ∀ s ∈ explicitSlots 0 xs ++ appendSlots ys, ∀ i, s.1 = some i →
      (i : Int) ≤ (normalizeParseOptions opts).ArrayLimit ∧ (i : Int) < maxSliceLen := by
    intro s hs i hi
    rcases List.mem_append.1 hs with h | h
    · have := explicitSlots_index 0 xs s h i hi
      simp only [maxSliceLen]
      constructor <;> omega
    · obtain ⟨y, _, rfl⟩ := List.mem_map.1 h
      cases hi
  have hvals : (explicitSlots 0 xs ++ appendSlots ys).map (fun s => Value.str s.2) =
      (xs ++ ys).map Value.str := by
    simp [explicitSlots_values, appendSlots, Function.comp_def]
  have hfold : foldPairs (normalizeParseOptions opts) []
      (slotPairs a (explicitSlots 0 xs ++ appendSlots ys)) =
      .ok [(a, .arr ((xs ++ ys).map Value.str))] := by
    cases hsl : explicitSlots 0 xs ++ appendSlots ys with
    | nil =>
      rw [hsl] at hlen
      simp only [List.length_nil] at hlen
      omega
    | cons s rest =>
      rw [hsl] at hidx hvals
      rw [foldPairs_slots_all _ ho ha hane s rest hidx, hvals]
      have h0 : s.1.getD 0 = 0 := by
        cases xs with
        | nil =>
          simp only [explicitSlots, List.nil_append, appendSlots] at hsl
          cases ys with
          | nil => simp at hsl
          | cons y ys =>
            simp only [List.map_cons, List.cons.injEq] at hsl
            rw [← hsl.1]
            rfl
        | cons x xs =>
          simp only [explicitSlots, List.cons_append, List.cons.injEq] at hsl
          rw [← hsl.1]
          rfl
      rw [h0]
      rfl
  apply DecodeQuery_queryOf opts hs (by rw [slotPairs_length, hlen]; exact throw)
    (by
      intro e
      have := congrArg List.length e
      rw [slotPairs_length, hlen, List.length_nil] at this
      omega)
    (by rw [slotPairs_length, hlen]; exact hn) (KeyOK_slotPairs ha _) (Alnum_slotPairs _) hfold
    (Settled_strs a (xs ++ ys))
  intro s hs
  rcases List.mem_append.1 hs with h | h
  · exact explicitSlots_alnum 0 xs hx s h
  · obtain ⟨y, hy2, rfl⟩ := List.mem_map.1 h
    exact hy y hy2

/-- C3, as amended: for m + p between 1 and ParameterLimit + 1 = 1001, a
non-empty ASCII-letter name `a` and alphanumeric values, the m explicit pairs
`a[0]=x0, ..., a[m-1]=x(m-1)` in that order followed by the p pairs `a[]=y1, ...,
a[]=yp` decode, with ParseArrays on, ThrowOnLimitExceeded off, Depth at least 1
and m-1 at most ArrayLimit, to `{a: [x0, ..., x(m-1), y1, ..., yp]}`; the number p
is not bounded by ArrayLimit. -/
theorem C3_append_marker (d L : Int) (hd : 1 ≤ d) (a : Str) (ha : Letters a) (hane : a ≠ [])
    (xs ys : List Str) (hx : ∀ x ∈ xs, Alnum x) (hy : ∀ y ∈ ys, Alnum y)
    (hpos : 1 ≤ xs.length + ys.length) (hn : xs.length + ys.length ≤ 1001)
    (hL : (xs.length : Int) - 1 ≤ L) :
    DecodeQuery (queryOf (slotPairs a (explicitSlots 0 xs ++ appendSlots ys)))
        (some { defaults with
          ParseArrays := true, ThrowOnLimitExceeded := false, Depth := d, ArrayLimit := L }) =
      (some [(a, .arr ((xs ++ ys).map Value.str))], none) :=
  DecodeQuery_slots
    (some { defaults with
      ParseArrays := true, ThrowOnLimitExceeded := false, Depth := d, ArrayLimit := L })
    (by constructor <;> rfl) ⟨rfl, rfl, hd, rfl, rfl⟩ ha hane xs ys (Or.inl rfl) hx hy hpos hn hL

/-- C3 at `a[0]=1&a[1]=2&a[]=3` and, with ArrayLimit 1, at `a[]=1&a[]=2`. -/
theorem C3_append_marker_witness :
    DecodeQuery (bytes "a[0]=1&a[1]=2&a[]=3")
        (some { defaults with
          ParseArrays := true, ThrowOnLimitExceeded := false, Depth := 10, ArrayLimit := 20 }) =
      (some [(bytes "a", .arr [.str (bytes "1"), .str (bytes "2"), .str (bytes "3")])], none) ∧
    DecodeQuery (bytes "a[]=1&a[]=2")
        (some { defaults with
          ParseArrays := true, ThrowOnLimitExceeded := false, Depth := 5, ArrayLimit := 1 }) =
      (some [(bytes "a", .arr [.str (bytes "1"), .str (bytes "2")])], none) :=
  ⟨C3_append_marker 10 20 (by decide) (bytes "a") (by decide) (by decide)
      [bytes "1", bytes "2"] [bytes "3"] (by decide) (by decide) (by decide) (by decide) (by decide),
   C3_append_marker 5 1 (by decide) (bytes "a") (by decide) (by decide)
      [] [bytes "1", bytes "2"] (by decide) (by decide) (by decide) (by decide) (by decide)⟩

theorem slotPairs_last_93 (a : Str) (slots : List (Option Nat × Str)) :
    ∀ kv ∈ slotPairs a slots, kv.1.getLast? = some 93 :=
  fieldPairs_last_93 a _

/-- The pairs that the splitter reads from 1002 pairs `a[]=1`. -/
theorem lumpPairs_appendSlots :
    lumpPairs (slotPairs (bytes "a") (appendSlots (List.replicate 1002 (bytes "1")))) =
      slotPairs (bytes "a")
        (appendSlots (List.replicate 1000 (bytes "1") ++ [bytes "1&a[]=1"])) := by
  have h : List.replicate 1002 (bytes "1") =
      List.replicate 1000 (bytes "1") ++ [bytes "1", bytes "1"] := by
    rw [show 1002 = 1000 + 2 by rfl, List.replicate_add]
    rfl
  have hl : (slotPairs (bytes "a") (appendSlots (List.replicate 1000 (bytes "1")))).length =
      1000 := by
    rw [slotPairs_length]
    simp only [appendSlots, List.length_map, List.length_replicate]
  have e1 : ∀ (xs ys : List Str), slotPairs (bytes "a") (appendSlots (xs ++ ys)) =
      slotPairs (bytes "a") (appendSlots xs) ++ slotPairs (bytes "a") (appendSlots ys) := by
    intro xs ys
    simp [slotPairs, fieldPairs, appendSlots]
  rw [h, e1, lumpPairs, List.take_left' hl, List.drop_left' hl, e1]
  congr 1

/-- C3 fails as stated: 1002 pairs `a[]=1` (m = 0, p = 1002), decoded under the
default options, do not give the sequence of 1002 elements: `parseValues`
splits into at most ParameterLimit + 1 = 1001 parts, so the sequence has 1001
elements, the last of them the text `1&a[]=1`. -/
theorem C3_counterexample :
    DecodeQuery
        (queryOf (slotPairs (bytes "a")
          (explicitSlots 0 [] ++ appendSlots (List.replicate 1002 (bytes "1")))))
        (some { defaults with
          ParseArrays := true, ThrowOnLimitExceeded := false, Depth := 5, ArrayLimit := 20 }) =
      (some [(bytes "a", .arr
        ((List.replicate 1000 (bytes "1") ++ [bytes "1&a[]=1"]).map Value.str))], none) ∧
    DecodeQuery
        (queryOf (slotPairs (bytes "a")
          (explicitSlots 0 [] ++ appendSlots (List.replicate 1002 (bytes "1")))))
        (some { defaults with
          ParseArrays := true, ThrowOnLimitExceeded := false, Depth := 5, ArrayLimit := 20 }) ≠
      (some [(bytes "a", .arr (([] ++ List.replicate 1002 (bytes "1")).map Value.str))], none) := by
  have hs : StdSplit (normalizeParseOptions (some { defaults with
      ParseArrays := true, ThrowOnLimitExceeded := false, Depth := 5, ArrayLimit := 20 })) := by
    constructor <;> rfl
  have ho : SlotOpts (normalizeParseOptions (some { defaults with
      ParseArrays := true, ThrowOnLimitExceeded := false, Depth := 5, ArrayLimit := 20 })) :=
    ⟨rfl, rfl, by decide, rfl, rfl⟩
  have ha : Letters (bytes "a") := by decide
  have hbody := decodeBody_overflow _ hs rfl
    (slotPairs (bytes "a") (appendSlots (List.replicate 1002 (bytes "1"))))
    (by
      rw [slotPairs_length]
      simp only [appendSlots, List.length_map, List.length_replicate]
      omega)
    (KeyOK_slotPairs ha _)
    (Alnum_slotPairs (by
      intro s hs
      obtain ⟨y, hy, rfl⟩ := List.mem_map.1 hs
      rw [List.eq_of_mem_replicate hy]
      decide))
    (Or.inr (slotPairs_last_93 _ _))
  have hfold := foldPairs_slots_all _ ho ha (by decide) (none, bytes "1")
    (appendSlots (List.replicate 999 (bytes "1") ++ [bytes "1&a[]=1"]))
    (by
      intro s hs i hi
      have hnone : s.1 = none := by
        rcases List.mem_cons.1 hs with rfl | h
        · rfl
        · obtain ⟨y, _, rfl⟩ := List.mem_map.1 h
          rfl
      rw [hnone] at hi
      cases hi)
  have hcons : appendSlots (List.replicate 1000 (bytes "1") ++ [bytes "1&a[]=1"]) =
      (none, bytes "1") :: appendSlots (List.replicate 999 (bytes "1") ++ [bytes "1&a[]=1"]) := by
    rw [show 1000 = 999 + 1 by rfl, List.replicate_succ]
    rfl
  have hres : DecodeQuery
        (queryOf (slotPairs (bytes "a")
          (explicitSlots 0 [] ++ appendSlots (List.replicate 1002 (bytes "1")))))
        (some { defaults with
          ParseArrays := true, ThrowOnLimitExceeded := false, Depth := 5, ArrayLimit := 20 }) =
      (some [(bytes "a", .arr
        ((List.replicate 1000 (bytes "1") ++ [bytes "1&a[]=1"]).map Value.str))], none) := by
    rw [explicitSlots, List.nil_append, DecodeQuery, hbody, lumpPairs_appendSlots, hcons, hfold,
      ← hcons]
    have hv : (appendSlots (List.replicate 1000 (bytes "1") ++ [bytes "1&a[]=1"])).map
        (fun s => Value.str s.2) =
        (List.replicate 1000 (bytes "1") ++ [bytes "1&a[]=1"]).map Value.str := by
      simp only [appendSlots, List.map_map, Function.comp_def]
    simp only [Option.getD_none, List.replicate_zero, List.nil_append, hv]
    rw [finish_settled _ (Settled_strs _ _)]
  refine ⟨hres, ?_⟩
  rw [hres]
  intro h
  have h2 : ((List.replicate 1000 (bytes "1") ++ [bytes "1&a[]=1"]).map Value.str).length =
      (([] ++ List.replicate 1002 (bytes "1")).map Value.str).length := by
    simp only [Prod.mk.injEq, Option.some.injEq, List.cons.injEq, and_true, true_and,
      Value.arr.injEq] at h
    rw [h]
  simp only [List.length_map, List.length_append, List.length_replicate, List.length_singleton,
    List.nil_append] at h2
  omega

/-! ## C4: explicit indices -/

theorem trimTrailingNil_concat_str (t : List Value) (x : Str) :
    trimTrailingNil (t ++ [.str x]) = t ++ [.str x] := by
  simp [trimTrailingNil, List.dropWhile, Value.isNull]

theorem processItems_holes (o : ParseOptions) (ho : o.AllowNilArrayValues = false)
    (rest : List Value) : ∀ i : Nat,
    processItems (some o) (List.replicate i Value.null ++ rest) = processItems (some o) rest
  | 0 => by simp
  | i + 1 => by
    simp only [List.replicate, List.cons_append, processItems, ho, Bool.not_false, if_true]
    exact processItems_holes o ho rest i

/-- The end of `DecodeQuery` on a sequence of strings behind holes: the holes go. -/
theorem finish_sparse (o : ParseOptions) (ho : o.AllowNilArrayValues = false) (a : Str) (i : Nat)
    (xs : List Str) (hne : xs ≠ []) :
    finish (some o) (.ok [(a, .arr (List.replicate i Value.null ++ xs.map Value.str))]) =
      .ok [(a, .arr (xs.map Value.str))] := by
  obtain ⟨ys, y, rfl⟩ : ∃ ys y, xs = ys ++ [y] := by
    rcases List.eq_nil_or_concat xs with h | ⟨ys, y, h⟩
    · exact absurd h hne
    · exact ⟨ys, y, by rw [h]; simp⟩
  have ht : trimTrailingNil (List.replicate i Value.null ++ (ys ++ [y]).map Value.str) =
      List.replicate i Value.null ++ (ys ++ [y]).map Value.str := by
    have := trimTrailingNil_concat_str (List.replicate i Value.null ++ ys.map Value.str) y
    simpa using this
  have hp : processNestedStructures (some o)
      (.arr (List.replicate i Value.null ++ (ys ++ [y]).map Value.str)) =
      .ok (.arr ((ys ++ [y]).map Value.str)) := by
    simp only [processNestedStructures, processItems_holes o ho, processItems_strs,
      needsToBeObject_strs, Bool.false_eq_true, if_false]
  have hsc : shouldConvertToArray [(a, Value.arr ((ys ++ [y]).map Value.str))] = false :=
    shouldConvertToArray_settled _ (Settled_strs a _)
  simp only [finish, Compact, compactEntries, ht, PostProcessParsedObject, processEntries, hp, hsc,
    Bool.false_eq_true, if_false]

/-- The decode of pairs `a[i1]=x1, ..., a[in]=xn` with indices within the array
limit: the values in order of appearance. -/
theorem DecodeQuery_indexSlots (o : ParseOptions) (hs : StdSplit (normalizeParseOptions (some o)))
    (throw : (normalizeParseOptions (some o)).ThrowOnLimitExceeded = false)
    (ho : SlotOpts (normalizeParseOptions (some o))) (hnil : o.AllowNilArrayValues = false)
    {a : Str} (ha : Letters a) (hane : a ≠ []) (ixs : List (Nat × Str)) (hne : ixs ≠ [])
    (hn : ixs.length ≤ 1001)
    (hi : ∀ ix ∈ ixs, (ix.1 : Int) ≤ (normalizeParseOptions (some o)).ArrayLimit ∧
      (ix.1 : Int) < maxSliceLen)
    (hv : ∀ ix ∈ ixs, Alnum ix.2) :
    DecodeQuery (queryOf (slotPairs a (indexSlots ixs))) (some o) =
      (some [(a, .arr (ixs.map (fun ix => Value.str ix.2)))], none) := by
  obtain ⟨ix, rest, rfl⟩ := List.exists_cons_of_ne_nil hne
  have hidx : ∀ s ∈ indexSlots (ix :: rest), ∀ i, s.1 = some i →
      (i : Int) ≤ (normalizeParseOptions (some o)).ArrayLimit ∧ (i : Int) < maxSliceLen := by
    intro s hs i hi2
    obtain ⟨jx, hjx, rfl⟩ := List.mem_map.1 hs
    simp only [Option.some.injEq] at hi2
    subst hi2
    exact hi jx hjx
  have hfold := foldPairs_slots_all _ ho ha hane (some ix.1, ix.2) (indexSlots rest) hidx
  have hvals : ((some ix.1, ix.2) :: indexSlots rest).map (fun s => Value.str s.2) =
      ((ix :: rest).map (fun jx => jx.2)).map Value.str := by
    simp [indexSlots, Function.comp_def]
  have hpairs : (slotPairs a (indexSlots (ix :: rest))).length = (ix :: rest).length := by
    simp [slotPairs_length, indexSlots]
  have hbody := decodeBody_queryOf (some o) hs
    (by
      intro e
      have := congrArg List.length e
      rw [hpairs] at this
      simp at this)
    (by rw [hpairs]; exact hn) (Or.inl throw) (KeyOK_slotPairs ha _)
    (Alnum_slotPairs (by
      intro s hs
      obtain ⟨jx, hjx, rfl⟩ := List.mem_map.1 hs
      exact hv jx hjx))
  have hfold2 : foldPairs (normalizeParseOptions (some o)) []
      (slotPairs a (indexSlots (ix :: rest))) =
      .ok [(a, .arr (List.replicate ix.1 Value.null ++
        ((ix :: rest).map (fun jx => jx.2)).map Value.str))] := by
    rw [← hvals]
    exact hfold
  rw [DecodeQuery, hbody, hfold2, finish_sparse o hnil a ix.1 _ (by simp)]
  simp [Function.comp_def]

/-- C4, as amended: for a non-empty ASCII-letter name `a`, indices i1..in
(each between 0 and ArrayLimit, written as canonical decimals, at most
ParameterLimit + 1 = 1001 of them, in any order) and alphanumeric values
x1..xn, the query `a[i1]=x1&...&a[in]=xn` decodes, with ParseArrays on,
AllowNilArrayValues off, Depth at least 1 and every index below 2^44 (the
largest length of a slice that `make` accepts), to `{a: [x1, ..., xn]}`: the
values in their order of appearance, whatever the indices. -/
theorem C4_index_order (d L : Int) (hd : 1 ≤ d) (a : Str) (ha : Letters a)
    (hane : a ≠ []) (ixs : List (Nat × Str)) (hne : ixs ≠ []) (hn : ixs.length ≤ 1001)
    (hi : ∀ ix ∈ ixs, (ix.1 : Int) ≤ L ∧ (ix.1 : Int) < maxSliceLen)
    (hv : ∀ ix ∈ ixs, Alnum ix.2) :
    DecodeQuery (queryOf (slotPairs a (indexSlots ixs)))
        (some { defaults with
          ParseArrays := true, AllowNilArrayValues := false, Depth := d, ArrayLimit := L }) =
      (some [(a, .arr (ixs.map (fun ix => Value.str ix.2)))], none) :=
  DecodeQuery_indexSlots
    { defaults with ParseArrays := true, AllowNilArrayValues := false, Depth := d, ArrayLimit := L }
    (by constructor <;> rfl) rfl ⟨rfl, rfl, hd, rfl, rfl⟩ rfl ha hane ixs hne hn hi hv

/-- C4 as amended at `a[1]=x&a[0]=y` and at the query of the test, `a[1]=1&a[2]=2&a[3]=3`. -/
theorem C4_index_order_witness :
    DecodeQuery (bytes "a[1]=x&a[0]=y")
        (some { defaults with
          ParseArrays := true, AllowNilArrayValues := false, Depth := 5, ArrayLimit := 20 }) =
      (some [(bytes "a", .arr [.str (bytes "x"), .str (bytes "y")])], none) ∧
    DecodeQuery (bytes "a[1]=1&a[2]=2&a[3]=3")
        (some { defaults with
          ParseArrays := true, AllowNilArrayValues := false, Depth := 5, ArrayLimit := 20 }) =
      (some [(bytes "a", .arr [.str (bytes "1"), .str (bytes "2"), .str (bytes "3")])], none) :=
  ⟨C4_index_order 5 20 (by decide) (bytes "a") (by decide) (by decide)
      [(1, bytes "x"), (0, bytes "y")] (by decide) (by decide) (by decide) (by decide),
   C4_index_order 5 20 (by decide) (bytes "a") (by decide) (by decide)
      [(1, bytes "1"), (2, bytes "2"), (3, bytes "3")] (by decide) (by decide) (by decide)
      (by decide)⟩

/-- C4 fails as stated: `a[1]=x&a[0]=y` under the default options (ParseArrays
on, AllowNilArrayValues off, Depth 5, ArrayLimit 20) decodes to `{a: ["x", "y"]}`,
the order of appearance, and not to `{a: ["y", "x"]}`, the order of the indices:
`Merge` appends an incoming element that is not a mapping. And with ArrayLimit
2^44 = 17592186044416 the index 17592186044416 is within the limit, but the
slice that `make` is asked for exceeds `maxAlloc`: `a[17592186044416]=x`
returns a nil result and an error. -/
theorem C4_counterexample :
    DecodeQuery (bytes "a[1]=x&a[0]=y")
        (some { defaults with
          ParseArrays := true, AllowNilArrayValues := false, Depth := 5, ArrayLimit := 20 }) =
      (some [(bytes "a", .arr [.str (bytes "x"), .str (bytes "y")])], none) ∧
    DecodeQuery (bytes "a[1]=x&a[0]=y")
        (some { defaults with
          ParseArrays := true, AllowNilArrayValues := false, Depth := 5, ArrayLimit := 20 }) ≠
      (some [(bytes "a", .arr [.str (bytes "y"), .str (bytes "x")])], none) ∧
    DecodeQuery (bytes "a[17592186044416]=x")
        (some { defaults with
          ParseArrays := true, AllowNilArrayValues := false, Depth := 5,
          ArrayLimit := 17592186044416 }) = (none, some .makesliceLen) := by
  have h : DecodeQuery (bytes "a[1]=x&a[0]=y")
        (some { defaults with
          ParseArrays := true, AllowNilArrayValues := false, Depth := 5, ArrayLimit := 20 }) =
      (some [(bytes "a", .arr [.str (bytes "x"), .str (bytes "y")])], none) :=
    DecodeQuery_indexSlots
      { defaults with
        ParseArrays := true, AllowNilArrayValues := false, Depth := 5, ArrayLimit := 20 }
      (by constructor <;> rfl) rfl ⟨rfl, rfl, by decide, rfl, rfl⟩ rfl
      (by decide : Letters (bytes "a")) (by decide)
      [(1, bytes "x"), (0, bytes "y")] (by decide) (by decide) (by decide) (by decide)
  refine ⟨h, ?_, by decide!⟩
  rw [h]
  decide!

/-! ## C5: a duplicated key -/

theorem Letters.startsWithLetter {k : Str} (h : Letters k) (hne : k ≠ []) :
    startsWithLetter k = true := by
  cases k with
  | nil => exact absurd rfl hne
  | cons c r => exact h c (by simp)

theorem foldPairs_dup (o : ParseOptions) (hdots : o.AllowDots = false)
    (hdd : o.DecodeDotInKeys = false) {k : Str} (hk : Letters k) (hne : k ≠ []) :
    ∀ (vs : List Str) (t : List Value),
      foldPairs o [(k, .arr t)] (dupPairs k vs) = .ok [(k, .arr (t ++ vs.map Value.str))]
  | [], t => by simp [foldPairs, dupPairs]
  | v :: vs, t => by
    have h1 := parseKeys_flat o hdots hdd (.str v) hk.alnum (hk.startsWithLetter hne)
    have ih := foldPairs_dup o hdots hdd hk hne vs (t ++ [.str v])
    have hm : Merge o (.obj [(k, .arr t)]) (.obj [(k, .str v)]) = .obj [(k, .arr (t ++ [.str v]))] := by
      rw [Merge_same_key o k (.arr t) (.str v) rfl, Merge_arr_str]
    rw [dupPairs, List.map_cons, foldPairs]
    simp only [h1, hm]
    rw [← dupPairs, ih]
    simp

/-- The fold of `DecodeQuery` over two or more pairs for one key. -/
theorem foldPairs_dup_all (o : ParseOptions) (hdots : o.AllowDots = false)
    (hdd : o.DecodeDotInKeys = false) {k : Str} (hk : Letters k) (hne : k ≠ [])
    (v w : Str) (vs : List Str) :
    foldPairs o [] (dupPairs k (v :: w :: vs)) = .ok [(k, .arr ((v :: w :: vs).map Value.str))] := by
  have h1 := fun x => parseKeys_flat o hdots hdd (.str x) hk.alnum (hk.startsWithLetter hne)
  have ih := foldPairs_dup o hdots hdd hk hne vs [.str v, .str w]
  have hm1 : Merge o (.obj []) (.obj [(k, .str v)]) = .obj [(k, .str v)] := by
    rw [Merge_insert _ [] k (.str v) rfl (by simp)]
    rfl
  have hm2 : Merge o (.obj [(k, .str v)]) (.obj [(k, .str w)]) =
      .obj [(k, .arr [.str v, .str w])] := by
    rw [Merge_same_key o k (.str v) (.str w) rfl, Merge_str_str]
  rw [dupPairs, List.map_cons, List.map_cons, foldPairs]
  simp only [h1, hm1]
  rw [foldPairs]
  simp only [h1, hm2]
  rw [← dupPairs, ih]
  simp

theorem dupPairs_ok {k : Str} (hk : Letters k) (hne : k ≠ []) (vs : List Str)
    (hv : ∀ v ∈ vs, Alnum v) :
    (∀ kv ∈ dupPairs k vs, KeyOK kv.1) ∧ (∀ kv ∈ dupPairs k vs, Alnum kv.2) ∧
      (∀ kv ∈ dupPairs k vs, 93 ∉ kv.1) := by
  refine ⟨?_, ?_, ?_⟩ <;> intro kv hkv <;> obtain ⟨v, hv2, rfl⟩ := List.mem_map.1 hkv
  · exact hk.alnum.keyOK hne
  · exact hv v hv2
  · exact hk.alnum.groupName.2.1

theorem DecodeQuery_dup (opts : Option ParseOptions) (hs : StdSplit (normalizeParseOptions opts))
    (throw : (normalizeParseOptions opts).ThrowOnLimitExceeded = false)
    (hdots : (normalizeParseOptions opts).AllowDots = false)
    (hdd : (normalizeParseOptions opts).DecodeDotInKeys = false)
    {k : Str} (hk : Letters k) (hne : k ≠ []) (vs : List Str) (h2 : 2 ≤ vs.length)
    (hn : vs.length ≤ 1001) (hv : ∀ v ∈ vs, Alnum v) :
    DecodeQuery (queryOf (dupPairs k vs)) opts = (some [(k, .arr (vs.map Value.str))], none) := by
  obtain ⟨v, w, rest, rfl⟩ : ∃ v w rest, vs = v :: w :: rest := by
    cases vs with
    | nil => simp at h2
    | cons v vs =>
      cases vs with
      | nil => simp at h2
      | cons w rest => exact ⟨v, w, rest, rfl⟩
  have hok := dupPairs_ok hk hne (v :: w :: rest) hv
  exact DecodeQuery_queryOf opts hs (Or.inl throw) (by simp [dupPairs])
    (by simpa [dupPairs] using hn) hok.1 hok.2.1
    (foldPairs_dup_all _ hdots hdd hk hne v w rest) (Settled_strs k _)

/-- C5, as amended: for a non-empty ASCII-letter key `k` and n alphanumeric,
possibly empty, values with 2 <= n <= ParameterLimit + 1 = 1001, the query
`k=v1&k=v2&...&k=vn` decodes, under nil options and under the default options,
to `{k: [v1, v2, ..., vn]}`, the values in order of appearance. -/
theorem C5_duplicate_key (k : Str) (hk : Letters k) (hne : k ≠ []) (vs : List Str)
    (h2 : 2 ≤ vs.length) (hn : vs.length ≤ 1001) (hv : ∀ v ∈ vs, Alnum v) :
    DecodeQuery (queryOf (dupPairs k vs)) none = (some [(k, .arr (vs.map Value.str))], none) ∧
    DecodeQuery (queryOf (dupPairs k vs)) (some defaults) =
      (some [(k, .arr (vs.map Value.str))], none) :=
  ⟨DecodeQuery_dup none stdSplit_nil rfl rfl rfl hk hne vs h2 hn hv,
   DecodeQuery_dup (some defaults) stdSplit_defaults rfl rfl rfl hk hne vs h2 hn hv⟩

/-- C5 as amended at `a=1&a=2`. -/
theorem C5_duplicate_key_witness :
    DecodeQuery (bytes "a=1&a=2") (some defaults) =
      (some [(bytes "a", .arr [.str (bytes "1"), .str (bytes "2")])], none) :=
  (C5_duplicate_key (bytes "a") (by decide) (by decide) [bytes "1", bytes "2"] (by decide)
    (by decide) (by decide)).2

/-- The pairs that the splitter reads from 1002 pairs `k=`. -/
theorem lumpPairs_dupPairs :
    lumpPairs (dupPairs (bytes "k") (List.replicate 1002 [])) =
      dupPairs (bytes "k") (List.replicate 1000 [] ++ [bytes "&k="]) := by
  have h : List.replicate 1002 ([] : Str) = List.replicate 1000 [] ++ [[], []] := by
    rw [show 1002 = 1000 + 2 by rfl, List.replicate_add]
    rfl
  have hl : (dupPairs (bytes "k") (List.replicate 1000 [])).length = 1000 := by
    simp only [dupPairs, List.length_map, List.length_replicate]
  have e1 : ∀ (xs ys : List Str), dupPairs (bytes "k") (xs ++ ys) =
      dupPairs (bytes "k") xs ++ dupPairs (bytes "k") ys := by
    intro xs ys
    simp only [dupPairs, List.map_append]
  rw [h, e1, lumpPairs, List.take_left' hl, List.drop_left' hl, e1]
  congr 1

/-- C5 fails as stated: 1002 pairs `k=` (the key `k` with 1002 empty values),
decoded under the default options, do not give the sequence of 1002 empty
strings: `parseValues` splits into at most ParameterLimit + 1 = 1001 parts, so
the sequence has 1001 elements, the last of them the text `&k=`. -/
theorem C5_counterexample :
    DecodeQuery (queryOf (dupPairs (bytes "k") (List.replicate 1002 []))) (some defaults) =
      (some [(bytes "k", .arr ((List.replicate 1000 [] ++ [bytes "&k="]).map Value.str))], none) ∧
    DecodeQuery (queryOf (dupPairs (bytes "k") (List.replicate 1002 []))) (some defaults) ≠
      (some [(bytes "k", .arr ((List.replicate 1002 []).map Value.str))], none) := by
  have hk : Letters (bytes "k") := by decide
  have hne : bytes "k" ≠ [] := by decide
  have hok := dupPairs_ok hk hne (List.replicate 1002 []) (by
    intro v hv
    rw [List.eq_of_mem_replicate hv]
    decide)
  have hbody := decodeBody_overflow (some defaults) stdSplit_defaults rfl
    (dupPairs (bytes "k") (List.replicate 1002 []))
    (by simp only [dupPairs, List.length_map, List.length_replicate]; omega)
    hok.1 hok.2.1 (Or.inl hok.2.2)
  have hcons : List.replicate 1000 ([] : Str) ++ [bytes "&k="] =
      [] :: [] :: (List.replicate 998 [] ++ [bytes "&k="]) := by
    rw [show 1000 = 998 + 1 + 1 by rfl, List.replicate_succ, List.replicate_succ]
    rfl
  have hfold := foldPairs_dup_all (normalizeParseOptions (some defaults)) rfl rfl hk hne [] []
    (List.replicate 998 [] ++ [bytes "&k="])
  have hres : DecodeQuery (queryOf (dupPairs (bytes "k") (List.replicate 1002 [])))
        (some defaults) =
      (some [(bytes "k", .arr ((List.replicate 1000 [] ++ [bytes "&k="]).map Value.str))],
        none) := by
    rw [DecodeQuery, hbody, lumpPairs_dupPairs, hcons, hfold, finish_settled _ (Settled_strs _ _)]
  refine ⟨hres, ?_⟩
  rw [hres]
  intro h
  have h2 : ((List.replicate 1000 ([] : Str) ++ [bytes "&k="]).map Value.str).length =
      ((List.replicate 1002 ([] : Str)).map Value.str).length := by
    simp only [Prod.mk.injEq, Option.some.injEq, List.cons.injEq, and_true, true_and,
      Value.arr.injEq] at h
    rw [h]
  simp only [List.length_map, List.length_append, List.length_replicate, List.length_singleton]
    at h2
  omega

/-! ## C6 and C7: nesting deeper than `Depth` -/

theorem atoi_groups {gs : List Str} (h : gs ≠ []) : atoi (groups gs) = none := by
  cases gs with
  | nil => exact absurd rfl h
  | cons g gs =>
    rw [groups_cons]
    exact atoi_head_not_digit _ (by decide) (by decide) (by decide)

theorem groups_ne_proto {gs : List Str} (h : gs ≠ []) : groups gs ≠ bytes "__proto__" := by
  cases gs with
  | nil => exact absurd rfl h
  | cons g gs =>
    rw [groups_cons, bytes_proto]
    simp

theorem mem_groups {c : Nat} : ∀ {gs : List Str}, c ∈ groups gs → c = 91 ∨ c = 93 ∨ ∃ g ∈ gs, c ∈ g
  | [], h => by simp [groups_nil] at h
  | g :: gs, h => by
    rw [groups_cons] at h
    simp only [List.mem_cons, List.mem_append] at h
    rcases h with h | h | h | h
    · exact Or.inl h
    · exact Or.inr (Or.inr ⟨g, by simp, h⟩)
    · exact Or.inr (Or.inl h)
    · rcases mem_groups h with h | h | ⟨g2, hg2, hc⟩
      · exact Or.inl h
      · exact Or.inr (Or.inl h)
      · exact Or.inr (Or.inr ⟨g2, List.mem_cons_of_mem _ hg2, hc⟩)

theorem KeyOK_groups {root : Str} {gs : List Str} (hroot : Letters root) (hrne : root ≠ [])
    (hgs : ∀ g ∈ gs, Letters g) : KeyOK (root ++ groups gs) := by
  refine ⟨by simp [hrne], ?_⟩
  intro c hc
  rcases List.mem_append.1 hc with h | h
  · have := isAlnum_facts (hroot.alnum c h); omega
  · rcases mem_groups h with h | h | ⟨g, hg, hcg⟩
    · omega
    · omega
    · have := isAlnum_facts ((hgs g hg).alnum c hcg); omega

/-- The chain of a root and of names in brackets, wrapped around a value. -/
theorem wrapChain_root_names (o : ParseOptions) (hdd : o.DecodeDotInKeys = false) {root : Str}
    (hroot : Letters root) (names : List Str) (v : Value)
    (hn : ∀ g ∈ names, g ≠ [] ∧ atoi g = none ∧ g ≠ bytes "__proto__") :
    wrapChain o (root :: names.map group) v = .ok (nest (root :: names) v) := by
  simp only [wrapChain, wrapChain_names o hdd names v hn,
    wrapSegment_root o hdd _ hroot.alnum.groupName.1 (atoi_letters hroot)]
  simp [hroot.ne_proto, nest]

theorem letters_name {g : Str} (h : g ≠ [] ∧ Letters g) :
    g ≠ [] ∧ atoi g = none ∧ g ≠ bytes "__proto__" :=
  ⟨h.1, atoi_letters h.2, h.2.ne_proto⟩

/-- `parseKeys` on `root[g1]...[gn]` for names of letters, StrictDepth off. -/
theorem parseKeys_fold (o : ParseOptions) (hdots : o.AllowDots = false)
    (hdd : o.DecodeDotInKeys = false) (hstrict : o.StrictDepth = false) (hdepth : 1 ≤ o.Depth)
    {root : Str} (hroot : Letters root) (hrne : root ≠ []) (gs : List Str)
    (hgs : ∀ g ∈ gs, g ≠ [] ∧ Letters g) (hn : o.Depth < gs.length) (v : Value) :
    parseKeys (root ++ groups gs) v o true =
      .ok (nest (root :: (gs.take o.Depth.toNat ++ [groups (gs.drop o.Depth.toNat)])) v) := by
  have hdrop : gs.drop o.Depth.toNat ≠ [] := by
    intro e
    have := congrArg List.length e
    simp only [List.length_drop, List.length_nil] at this
    omega
  have hn0 : o.Depth.toNat ≠ 0 := by omega
  rw [parseKeys_groups o hdots root gs v (hroot.alnum.rootOK o hrne)
    (fun g hg => (hgs g hg).2.alnum.groupName)]
  simp only [hdrop, if_false, hstrict, Bool.false_eq_true, hn0]
  have := wrapChain_root_names o hdd hroot (gs.take o.Depth.toNat ++ [groups (gs.drop o.Depth.toNat)]) v
    (by
      intro g hg
      rcases List.mem_append.1 hg with h | h
      · exact letters_name (hgs g (List.mem_of_mem_take h))
      · simp only [List.mem_singleton] at h
        subst h
        exact ⟨groups_ne_nil hdrop, atoi_groups hdrop, groups_ne_proto hdrop⟩)
  simpa using this

/-- `parseKeys` on `root[g1]...[gn]` when the groups fit into `Depth`. -/
theorem parseKeys_fit (o : ParseOptions) (hdots : o.AllowDots = false)
    (hdd : o.DecodeDotInKeys = false) {root : Str} (hroot : Letters root) (hrne : root ≠ [])
    (gs : List Str) (hgs : ∀ g ∈ gs, g ≠ [] ∧ Letters g) (hn : (gs.length : Int) ≤ o.Depth)
    (v : Value) :
    parseKeys (root ++ groups gs) v o true = .ok (nest (root :: gs) v) := by
  have hdrop : gs.drop o.Depth.toNat = [] := by
    apply List.drop_eq_nil_of_le
    omega
  rw [parseKeys_groups o hdots root gs v (hroot.alnum.rootOK o hrne)
    (fun g hg => (hgs g hg).2.alnum.groupName)]
  simp only [hdrop, if_true]
  exact wrapChain_root_names o hdd hroot gs v (fun g hg => letters_name (hgs g hg))

/-- `parseKeys` on `root[g1]...[gn]` with more groups than `Depth`, StrictDepth on. -/
theorem parseKeys_strict (o : ParseOptions) (hdots : o.AllowDots = false)
    (hstrict : o.StrictDepth = true) (hdepth : 0 ≤ o.Depth)
    {root : Str} (hroot : Letters root) (hrne : root ≠ []) (gs : List Str)
    (hgs : ∀ g ∈ gs, g ≠ [] ∧ Letters g) (hn : o.Depth < gs.length) (v : Value) :
    parseKeys (root ++ groups gs) v o true = .error (.depthExceeded o.Depth) := by
  have hdrop : gs.drop o.Depth.toNat ≠ [] := by
    intro e
    have := congrArg List.length e
    simp only [List.length_drop, List.length_nil] at this
    omega
  rw [parseKeys_groups o hdots root gs v (hroot.alnum.rootOK o hrne)
    (fun g hg => (hgs g hg).2.alnum.groupName)]
  simp only [hdrop, if_false, hstrict, if_true]

theorem queryOf_single (kv : Str × Str) : queryOf [kv] = pairText kv := rfl

/-- The decode of a single pair in terms of `parseKeys` on its key. -/
theorem DecodeQuery_single_ok (opts : Option ParseOptions)
    (hs : StdSplit (normalizeParseOptions opts)) {k v : Str} (hk : KeyOK k) (hv : Alnum v)
    {root : Str} {names : List Str}
    (hp : parseKeys k (.str v) (normalizeParseOptions opts) true =
      .ok (nest (root :: names) (.str v))) :
    DecodeQuery (queryOf [(k, v)]) opts = (some [(root, nest names (.str v))], none) := by
  have hfold : foldPairs (normalizeParseOptions opts) [] [(k, v)] =
      .ok [(root, nest names (.str v))] := by
    have hnn : (nest names (Value.str v)).isNull = false := by
      cases names <;> rfl
    rw [foldPairs]
    simp only [hp, nest, Merge_insert _ [] root _ hnn (by simp), foldPairs]
    rfl
  apply DecodeQuery_queryOf opts hs (Or.inr (by simp)) (by simp) (by simp) _ _ hfold
  · intro kv hkv
    simp only [List.mem_singleton] at hkv
    subst hkv
    exact Settled_nest names v
  · intro kv hkv
    simp only [List.mem_singleton] at hkv
    subst hkv
    exact hk
  · intro kv hkv
    simp only [List.mem_singleton] at hkv
    subst hkv
    exact hv

theorem DecodeQuery_single_error (opts : Option ParseOptions)
    (hs : StdSplit (normalizeParseOptions opts)) {k v : Str} (hk : KeyOK k) (hv : Alnum v)
    {e : DecodeError}
    (hp : parseKeys k (.str v) (normalizeParseOptions opts) true = .error e) :
    DecodeQuery (queryOf [(k, v)]) opts = (none, some e) := by
  have hfold : foldPairs (normalizeParseOptions opts) [] [(k, v)] = .error e := by
    rw [foldPairs]
    simp only [hp]
  apply DecodeQuery_queryOf_error opts hs (Or.inr (by simp)) (by simp) (by simp) _ _ hfold
  · intro kv hkv
    simp only [List.mem_singleton] at hkv
    subst hkv
    exact hk
  · intro kv hkv
    simp only [List.mem_singleton] at hkv
    subst hkv
    exact hv

/-- C6: for Depth d at least 1, a key `root[g1][g2]...[gn]` with n > d whose root
and group names are non-empty ASCII-letter strings, and an alphanumeric value
v, the query `root[g1]...[gn]=v` decodes, with StrictDepth off, to the nesting
root -> g1 -> ... -> gd whose innermost mapping has the single key
`[g(d+1)]...[gn]`, the literal text of the groups left over, with value v. -/
theorem C6_depth_overflow (d : Int) (hd : 1 ≤ d) (root : Str) (hroot : Letters root)
    (hrne : root ≠ []) (gs : List Str) (hgs : ∀ g ∈ gs, g ≠ [] ∧ Letters g)
    (hn : d < gs.length) (v : Str) (hv : Alnum v) :
    DecodeQuery (queryOf [(root ++ groups gs, v)])
        (some { defaults with Depth := d, StrictDepth := false }) =
      (some [(root, nest (gs.take d.toNat ++ [groups (gs.drop d.toNat)]) (.str v))], none) :=
  DecodeQuery_single_ok (some { defaults with Depth := d, StrictDepth := false })
    (by constructor <;> rfl) (KeyOK_groups hroot hrne (fun g hg => (hgs g hg).2)) hv
    (parseKeys_fold (normalizeParseOptions (some { defaults with Depth := d, StrictDepth := false }))
      rfl rfl rfl hd hroot hrne gs hgs hn (.str v))

/-- C6 at `a[b][c]=x` with Depth 1: `{a: {b: {"[c]": "x"}}}`. -/
theorem C6_depth_overflow_witness :
    DecodeQuery (bytes "a[b][c]=x") (some { defaults with Depth := 1, StrictDepth := false }) =
      (some [(bytes "a", .obj [(bytes "b", .obj [(bytes "[c]", .str (bytes "x"))])])], none) :=
  C6_depth_overflow 1 (by decide) (bytes "a") (by decide) (by decide) [bytes "b", bytes "c"]
    (by decide) (by decide) (bytes "x") (by decide)

/-- C7: for Depth d at least 0 and a single pair whose key is `root[g1]...[gn]`
(root and group names non-empty ASCII-letter strings, n at least 0, the value
alphanumeric), `DecodeQuery` with StrictDepth on and ThrowOnLimitExceeded off
returns the depth error together with a nil result when n > d, and a nil error,
with the full nesting, when n is at most d. -/
theorem C7_strict_depth (d : Int) (hd : 0 ≤ d) (root : Str) (hroot : Letters root)
    (hrne : root ≠ []) (gs : List Str) (hgs : ∀ g ∈ gs, g ≠ [] ∧ Letters g) (v : Str)
    (hv : Alnum v) :
    (d < gs.length →
      DecodeQuery (queryOf [(root ++ groups gs, v)])
          (some { defaults with Depth := d, StrictDepth := true, ThrowOnLimitExceeded := false }) =
        (none, some (.depthExceeded d))) ∧
    ((gs.length : Int) ≤ d →
      DecodeQuery (queryOf [(root ++ groups gs, v)])
          (some { defaults with Depth := d, StrictDepth := true, ThrowOnLimitExceeded := false }) =
        (some [(root, nest gs (.str v))], none)) :=
  ⟨fun hn => DecodeQuery_single_error
      (some { defaults with Depth := d, StrictDepth := true, ThrowOnLimitExceeded := false })
      (by constructor <;> rfl) (KeyOK_groups hroot hrne (fun g hg => (hgs g hg).2)) hv
      (parseKeys_strict (normalizeParseOptions
        (some { defaults with Depth := d, StrictDepth := true, ThrowOnLimitExceeded := false }))
        rfl rfl hd hroot hrne gs hgs hn (.str v)),
   fun hn => DecodeQuery_single_ok
      (some { defaults with Depth := d, StrictDepth := true, ThrowOnLimitExceeded := false })
      (by constructor <;> rfl) (KeyOK_groups hroot hrne (fun g hg => (hgs g hg).2)) hv
      (parseKeys_fit (normalizeParseOptions
        (some { defaults with Depth := d, StrictDepth := true, ThrowOnLimitExceeded := false }))
        rfl rfl hroot hrne gs hgs hn (.str v))⟩

/-- C7 at `a[b][c]=x`: the depth error with Depth 1, the full nesting with Depth 2. -/
theorem C7_strict_depth_witness :
    DecodeQuery (bytes "a[b][c]=x")
        (some { defaults with Depth := 1, StrictDepth := true, ThrowOnLimitExceeded := false }) =
      (none, some (.depthExceeded 1)) ∧
    DecodeQuery (bytes "a[b][c]=x")
        (some { defaults with Depth := 2, StrictDepth := true, ThrowOnLimitExceeded := false }) =
      (some [(bytes "a", .obj [(bytes "b", .obj [(bytes "c", .str (bytes "x"))])])], none) :=
  ⟨(C7_strict_depth 1 (by decide) (bytes "a") (by decide) (by decide) [bytes "b", bytes "c"]
      (by decide) (bytes "x") (by decide)).1 (by decide),
   (C7_strict_depth 2 (by decide) (bytes "a") (by decide) (by decide) [bytes "b", bytes "c"]
      (by decide) (bytes "x") (by decide)).2 (by decide)⟩

/-! ## C9 and C10: the protected name when allowed, the array limit -/

theorem atoi_proto : atoi (bytes "__proto__") = none := by decide

/-- `parseKeys` on `__proto__[x]` when prototype keys are allowed: the key gets
past the guard of `parseKeys`, and `parseObject` drops it. -/
theorem parseKeys_proto_allowed (o : ParseOptions) (hdots : o.AllowDots = false)
    (hdd : o.DecodeDotInKeys = false) (hdepth : 1 ≤ o.Depth) (hallow : o.AllowPrototypes = true)
    {x : Str} (hx : Letters x) (hxne : x ≠ []) (v : Value) :
    parseKeys (bytes "__proto__" ++ group x) v o true = .ok .null := by
  have h := parseKeys_groups o hdots (bytes "__proto__") [x] v
    ⟨by decide, by decide, Or.inr (Or.inr hallow)⟩
    (by intro g hg; simp at hg; subst hg; exact hx.alnum.groupName)
  have hn : [x].drop o.Depth.toNat = [] := by
    apply List.drop_eq_nil_of_le
    simp; omega
  rw [groups_single, hn] at h
  simp only [if_true, List.map_cons, List.map_nil] at h
  rw [h]
  simp only [wrapChain, wrapSegment_name o hdd v hxne (atoi_letters hx) hx.ne_proto,
    wrapSegment_root o hdd _ (by decide : 91 ∉ bytes "__proto__") atoi_proto]
  simp

theorem KeyOK_proto_field {x : Str} (hx : Letters x) : KeyOK (bytes "__proto__" ++ group x) := by
  refine ⟨by simp [group_eq], ?_⟩
  intro c hc
  rw [group_eq, bytes_proto] at hc
  simp only [List.mem_append, List.mem_cons, List.mem_singleton, List.not_mem_nil, or_false] at hc
  rcases hc with (h | h | h | h | h | h | h | h | h) | h | h | h
  all_goals first
    | omega
    | exact (fun hf => by omega) (isAlnum_facts (hx.alnum c h))

theorem DecodeQuery_proto_allowed (o : ParseOptions)
    (hs : StdSplit (normalizeParseOptions (some o)))
    (hdots : (normalizeParseOptions (some o)).AllowDots = false)
    (hdd : (normalizeParseOptions (some o)).DecodeDotInKeys = false)
    (hdepth : 1 ≤ (normalizeParseOptions (some o)).Depth)
    (hallow : (normalizeParseOptions (some o)).AllowPrototypes = true)
    {x : Str} (hx : Letters x) (hxne : x ≠ []) {v : Str} (hv : Alnum v) :
    DecodeQuery (queryOf [(bytes "__proto__" ++ group x, v)]) (some o) = (some [], none) := by
  have hp := parseKeys_proto_allowed _ hdots hdd hdepth hallow hx hxne (.str v)
  have hfold : foldPairs (normalizeParseOptions (some o)) [] [(bytes "__proto__" ++ group x, v)] =
      .ok [] := by
    rw [foldPairs]
    simp only [hp, Merge_null, foldPairs]
  apply DecodeQuery_queryOf (some o) hs (Or.inr (by simp)) (by simp) (by simp) _ _ hfold
  · intro kv hkv
    simp at hkv
  · intro kv hkv
    simp only [List.mem_singleton] at hkv
    subst hkv
    exact KeyOK_proto_field hx
  · intro kv hkv
    simp only [List.mem_singleton] at hkv
    subst hkv
    exact hv

/-- C9, as amended: for a non-empty ASCII-letter name `x` and an alphanumeric
value `v`, the query `__proto__[x]=v` decodes, with AllowPrototypes on, to the
empty mapping with a nil error: the key passes the guard of `parseKeys`, and
`parseObject` never writes the key `__proto__`. -/
theorem C9_proto_allowed (x : Str) (hx : Letters x) (hxne : x ≠ []) (v : Str) (hv : Alnum v) :
    DecodeQuery (queryOf [(bytes "__proto__" ++ group x, v)])
        (some { defaults with AllowPrototypes := true }) = (some [], none) :=
  DecodeQuery_proto_allowed { defaults with AllowPrototypes := true } (by constructor <;> rfl)
    rfl rfl (by decide) rfl hx hxne hv

/-- C9 as amended at `__proto__[x]=1`. -/
theorem C9_proto_allowed_witness :
    DecodeQuery (bytes "__proto__[x]=1") (some { defaults with AllowPrototypes := true }) =
      (some [], none) :=
  C9_proto_allowed (bytes "x") (by decide) (by decide) (bytes "1") (by decide)

/-- C9 fails as stated: with AllowPrototypes on, `__proto__[x]=1` decodes to the
empty mapping, so the result has no top-level key `__proto__`, let alone one
with the value `{x: "1"}`. -/
theorem C9_counterexample :
    DecodeQuery (bytes "__proto__[x]=1") (some { defaults with AllowPrototypes := true }) =
      (some [], none) ∧
    topLevel (DecodeQuery (bytes "__proto__[x]=1") (some { defaults with AllowPrototypes := true }))
      (bytes "__proto__") ≠ some (.obj [(bytes "x", .str (bytes "1"))]) := by
  have h : DecodeQuery (bytes "__proto__[x]=1") (some { defaults with AllowPrototypes := true }) =
      (some [], none) :=
    DecodeQuery_proto_allowed { defaults with AllowPrototypes := true } (by constructor <;> rfl)
      rfl rfl (by decide) rfl (by decide : Letters (bytes "x")) (by decide)
      (by decide : Alnum (bytes "1"))
  refine ⟨h, ?_⟩
  rw [h]
  simp [topLevel, mapGet]

/-- The decode of n pairs `a[]=v` never raises the array limit error, whatever
ArrayLimit and ThrowOnLimitExceeded are: `DecodeQuery` hands the values to
`parseKeys` as already parsed, so `parseArrayValue` is not called. -/
theorem DecodeQuery_append_no_limit (L : Int) (hL : 0 ≤ L) (t : Bool) {a : Str} (ha : Letters a)
    (hane : a ≠ [])
    (ys : List Str) (hy : ∀ y ∈ ys, Alnum y) (hpos : 1 ≤ ys.length) (hn : ys.length ≤ 1000) :
    DecodeQuery (queryOf (slotPairs a (explicitSlots 0 [] ++ appendSlots ys)))
        (some { defaults with ArrayLimit := L, ThrowOnLimitExceeded := t }) =
      (some [(a, .arr (([] ++ ys).map Value.str))], none) :=
  DecodeQuery_slots (some { defaults with ArrayLimit := L, ThrowOnLimitExceeded := t })
    (by constructor <;> rfl) ⟨rfl, rfl, (by decide : (1 : Int) ≤ 5), rfl, rfl⟩ ha hane [] ys
    (Or.inr (by simpa using hn)) (by simp) hy (by simpa using hpos) (by simp; omega)
    (by
      show ((([] : List Str).length : Nat) : Int) - 1 ≤ L
      simp only [List.length_nil]
      omega)

/-- C10, the code at the failing input: with ArrayLimit 1 and
ThrowOnLimitExceeded on, `a[]=1&a[]=2` decodes to `{a: ["1", "2"]}` with a nil
error; no array limit error is raised. -/
theorem C10_array_limit_not_enforced :
    DecodeQuery (bytes "a[]=1&a[]=2")
        (some { defaults with ArrayLimit := 1, ThrowOnLimitExceeded := true }) =
      (some [(bytes "a", .arr [.str (bytes "1"), .str (bytes "2")])], none) :=
  DecodeQuery_append_no_limit 1 (by decide) true (by decide : Letters (bytes "a")) (by decide)
    [bytes "1", bytes "2"] (by decide) (by decide) (by decide)

/-! ## C8: the protected name is never a key of the result -/

theorem noProtoEntries_iff : ∀ (m : Obj),
    NoProtoEntries m ↔ ∀ kv ∈ m, kv.1 ≠ bytes "__proto__" ∧ NoProto kv.2
  | [] => by simp [NoProtoEntries]
  | (k, v) :: rest => by simp [NoProtoEntries, noProtoEntries_iff rest, and_assoc]

theorem noProtoItems_iff : ∀ (xs : List Value), NoProtoItems xs ↔ ∀ v ∈ xs, NoProto v
  | [] => by simp [NoProtoItems]
  | v :: rest => by simp [NoProtoItems, noProtoItems_iff rest]

theorem noProtoSlots_iff : ∀ (m : List (Nat × Value)), NoProtoSlots m ↔ ∀ kv ∈ m, NoProto kv.2
  | [] => by simp [NoProtoSlots]
  | (k, v) :: rest => by simp [NoProtoSlots, noProtoSlots_iff rest]

theorem mapGet_mem : ∀ (m : Obj) (k : Str) (v : Value), mapGet m k = some v → (k, v) ∈ m
  | [], _, _, h => by simp [mapGet] at h
  | (k2, w) :: rest, k, v, h => by
    by_cases e : k2 = k
    · simp [mapGet, e] at h
      simp [e, h]
    · simp [mapGet, e] at h
      exact List.mem_cons_of_mem _ (mapGet_mem rest k v h)

theorem mem_mapSet : ∀ (m : Obj) (k : Str) (v : Value) (kv : Str × Value),
    kv ∈ mapSet m k v → kv = (k, v) ∨ kv ∈ m
  | [], k, v, kv, h => by simp [mapSet] at h; exact Or.inl h
  | (k2, w) :: rest, k, v, kv, h => by
    by_cases e : k2 = k
    · simp [mapSet, e] at h
      rcases h with h | h
      · exact Or.inl h
      · exact Or.inr (List.mem_cons_of_mem _ h)
    · simp [mapSet, e] at h
      rcases h with h | h
      · exact Or.inr (by simp [h])
      · rcases mem_mapSet rest k v kv h with h2 | h2
        · exact Or.inl h2
        · exact Or.inr (List.mem_cons_of_mem _ h2)

theorem noProtoEntries_mapSet {m : Obj} {k : Str} {v : Value} (hm : NoProtoEntries m)
    (hk : k ≠ bytes "__proto__") (hv : NoProto v) : NoProtoEntries (mapSet m k v) := by
  rw [noProtoEntries_iff] at hm ⊢
  intro kv hkv
  rcases mem_mapSet m k v kv hkv with rfl | h
  · exact ⟨hk, hv⟩
  · exact hm kv h

theorem itoaNat_ne_proto (n : Nat) : itoaNat n ≠ bytes "__proto__" :=
  (itoaNat_alnum n).groupName.2.2

theorem noProtoEntries_stringify_aux : ∀ (mt : List (Nat × Value)) (acc : Obj),
    NoProtoSlots mt → NoProtoEntries acc →
    NoProtoEntries (mt.foldl (fun result kv => mapSet result (itoaNat kv.1) kv.2) acc)
  | [], acc, _, h => h
  | (k, v) :: rest, acc, hm, h => by
    simp only [NoProtoSlots] at hm
    exact noProtoEntries_stringify_aux rest _ hm.2
      (noProtoEntries_mapSet h (itoaNat_ne_proto k) hm.1)

theorem noProtoEntries_stringify {mt : List (Nat × Value)} (h : NoProtoSlots mt) :
    NoProtoEntries (stringifyKeys mt) :=
  noProtoEntries_stringify_aux mt [] h (by simp [NoProtoEntries])

theorem noProtoSlots_arrayToObject : ∀ (xs : List Value) (i : Nat), NoProtoItems xs →
    NoProtoSlots (arrayToObjectFrom i xs)
  | [], _, _ => by simp [arrayToObjectFrom, NoProtoSlots]
  | v :: rest, i, h => by
    simp only [NoProtoItems] at h
    have ih := noProtoSlots_arrayToObject rest (i + 1) h.2
    cases v <;> simp [arrayToObjectFrom, NoProtoSlots, ih, NoProto] <;> exact h.1

theorem noProtoItems_append {xs ys : List Value} (hx : NoProtoItems xs) (hy : NoProtoItems ys) :
    NoProtoItems (xs ++ ys) := by
  rw [noProtoItems_iff] at hx hy ⊢
  intro v hv
  rcases List.mem_append.1 hv with h | h
  · exact hx v h
  · exact hy v h

theorem noProtoItems_set {xs : List Value} {i : Nat} {v : Value} (hx : NoProtoItems xs)
    (hv : NoProto v) : NoProtoItems (xs.set i v) := by
  rw [noProtoItems_iff] at hx ⊢
  intro w hw
  rcases List.mem_or_eq_of_mem_set hw with h | h
  · exact hx w h
  · rw [h]; exact hv

theorem noProto_arrayToObject_stringify {t : List Value} (p : Bool) (h : NoProtoItems t) :
    NoProtoEntries (stringifyKeys (ArrayToObject t p)) :=
  noProtoEntries_stringify (noProtoSlots_arrayToObject t 0 h)

mutual
/-- `Merge` keeps the key `__proto__` out when neither PlainObjects nor
AllowPrototypes is on. -/
theorem Merge_noProto (o : ParseOptions) (hf : (o.PlainObjects || o.AllowPrototypes) = false) :
    ∀ (target source : Value), NoProto target → NoProto source → NoProto (Merge o target source)
  | target, .null, ht, _ => by simpa [Merge] using ht
  | target, .str s, ht, _ => by
    cases target <;> simp [Merge, hf, NoProto, NoProtoItems] at ht ⊢ <;>
      first
        | assumption
        | exact noProtoItems_append ht (by simp [NoProtoItems, NoProto])
  | target, .bool b, ht, _ => by
    cases target <;> simp [Merge, hf, NoProto, NoProtoItems] at ht ⊢ <;>
      first
        | assumption
        | exact noProtoItems_append ht (by simp [NoProtoItems, NoProto])
  | target, .strs xs, ht, _ => by
    cases target <;> simp [Merge, NoProto, NoProtoItems] at ht ⊢ <;>
      first
        | assumption
        | exact noProto_arrayToObject_stringify _ ht
        | exact noProtoEntries_stringify ht
  | target, .iobj kvs, ht, hs => by
    cases target <;> simp [Merge, NoProto, NoProtoItems] at ht hs ⊢ <;>
      first
        | assumption
        | exact noProto_arrayToObject_stringify _ ht
        | exact noProtoEntries_stringify ht
  | target, .arr src, ht, hs => by
    cases target <;> simp [Merge, NoProto, NoProtoItems] at ht hs ⊢ <;>
      first
        | assumption
        | exact mergeItems_noProto o hf _ 0 src ht hs
        | exact noProtoEntries_stringify ht
  | target, .obj s, ht, hs => by
    cases target <;> simp [Merge, NoProto, NoProtoItems] at ht hs ⊢ <;>
      first
        | assumption
        | exact mergeEntries_noProto o hf _ s (noProto_arrayToObject_stringify _ ht) hs
        | exact mergeEntries_noProto o hf _ s ht hs
        | exact mergeEntries_noProto o hf _ s (noProtoEntries_stringify ht) hs
theorem mergeEntries_noProto (o : ParseOptions)
    (hf : (o.PlainObjects || o.AllowPrototypes) = false) :
    ∀ (mt s : Obj), NoProtoEntries mt → NoProtoEntries s → NoProtoEntries (mergeEntries o mt s)
  | mt, [], ht, _ => by simpa [mergeEntries] using ht
  | mt, (key, value) :: rest, ht, hs => by
    simp only [NoProtoEntries] at hs
    rw [mergeEntries]
    split
    · exact mergeEntries_noProto o hf mt rest ht hs.2.2
    · split
      · rename_i existingVal hget
        have hex : NoProto existingVal :=
          ((noProtoEntries_iff mt).1 ht _ (mapGet_mem mt key existingVal hget)).2
        exact mergeEntries_noProto o hf _ rest
          (noProtoEntries_mapSet ht hs.1 (Merge_noProto o hf existingVal value hex hs.2.1)) hs.2.2
      · exact mergeEntries_noProto o hf _ rest (noProtoEntries_mapSet ht hs.1 hs.2.1) hs.2.2
theorem mergeItems_noProto (o : ParseOptions)
    (hf : (o.PlainObjects || o.AllowPrototypes) = false) :
    ∀ (t : List Value) (i : Nat) (src : List Value), NoProtoItems t → NoProtoItems src →
      NoProtoItems (mergeItems o t i src)
  | t, i, [], ht, _ => by simpa [mergeItems] using ht
  | t, i, item :: rest, ht, hs => by
    simp only [NoProtoItems] at hs
    have happ : NoProtoItems (t ++ [item]) :=
      noProtoItems_append ht (by simp [NoProtoItems, hs.1])
    rw [mergeItems]
    split
    · exact mergeItems_noProto o hf t (i + 1) rest ht hs.2
    · split
      · rename_i targetItem hget
        have hti : NoProto targetItem :=
          (noProtoItems_iff t).1 ht _ (List.get?_mem hget)
        split
        · exact mergeItems_noProto o hf _ (i + 1) rest
            (noProtoItems_set ht (Merge_noProto o hf targetItem item hti hs.1)) hs.2
        · exact mergeItems_noProto o hf _ (i + 1) rest happ hs.2
      · exact mergeItems_noProto o hf _ (i + 1) rest happ hs.2
end

theorem noProtoItems_replicate_null (i : Nat) : NoProtoItems (List.replicate i Value.null) := by
  rw [noProtoItems_iff]
  intro v hv
  rw [List.eq_of_mem_replicate hv]
  simp [NoProto]

theorem placeSegment_noProto (o : ParseOptions) (name : Str) (leaf r : Value)
    (h : placeSegment o name leaf = .ok r) (hl : NoProto leaf) : NoProto r := by
  unfold placeSegment at h
  split at h
  · split at h
    · split at h
      · cases h
      · cases h
        exact noProtoItems_append (noProtoItems_replicate_null _) (by simp [NoProtoItems, hl])
    · split at h
      · rename_i hne
        cases h
        simp [NoProto, NoProtoEntries, hl, hne]
      · cases h
        simp [NoProto]
  · split at h
    · rename_i hne
      cases h
      simp [NoProto, NoProtoEntries, hl, hne]
    · cases h
      simp [NoProto]

theorem wrapSegment_noProto (o : ParseOptions) (root : Str) (leaf r : Value)
    (h : wrapSegment o root leaf = .ok r) (hl : NoProto leaf) : NoProto r := by
  unfold wrapSegment at h
  split at h
  · split at h
    · cases h
      simp [NoProto, NoProtoItems]
    · split at h
      · cases h
        exact hl
      · cases h
        simp [NoProto, NoProtoItems, hl]
  · exact placeSegment_noProto o _ leaf r h hl

theorem wrapChain_noProto (o : ParseOptions) : ∀ (chain : List Str) (leaf r : Value),
    wrapChain o chain leaf = .ok r → NoProto leaf → NoProto r
  | [], leaf, r, h, hl => by
    simp only [wrapChain, Except.ok.injEq] at h
    rw [← h]; exact hl
  | root :: rest, leaf, r, h, hl => by
    rw [wrapChain] at h
    split at h
    · cases h
    · rename_i inner hin
      exact wrapSegment_noProto o root inner r h (wrapChain_noProto o rest leaf inner hin hl)

theorem parseArrayValue_noProto (val : Str) (o : ParseOptions) (n : Int) (r : Value)
    (h : parseArrayValue val o n = .ok r) : NoProto r := by
  unfold parseArrayValue at h
  split at h
  · cases h; simp [NoProto]
  · split at h
    · cases h; simp [NoProto]
    · split at h
      · cases h
      · cases h; simp [NoProto]

theorem parseObject_noProto (chain : List Str) (val : Value) (o : ParseOptions) (p : Bool)
    (r : Value) (h : parseObject chain val o p = .ok r) (hv : NoProto val) : NoProto r := by
  unfold parseObject at h
  simp only at h
  split at h
  · cases h
  · rename_i leaf hleaf
    refine wrapChain_noProto o chain leaf r h ?_
    split at hleaf
    · cases hleaf; exact hv
    · split at hleaf
      · exact parseArrayValue_noProto _ _ _ _ hleaf
      · cases hleaf; exact hv

theorem parseKeys_cases (key : Str) (val : Value) (o : ParseOptions) (p : Bool) :
    parseKeys key val o p = .ok .null ∨ (∃ e, parseKeys key val o p = .error e) ∨
      ∃ chain, parseKeys key val o p = parseObject chain val o p := by
  unfold parseKeys
  simp only
  repeat' split
  all_goals first
    | exact Or.inl rfl
    | exact Or.inr (Or.inl ⟨_, rfl⟩)
    | exact Or.inr (Or.inr ⟨_, rfl⟩)

/-- Whatever the key and the options, `parseKeys` builds no mapping with the key `__proto__`. -/
theorem parseKeys_noProto (key : Str) (val : Value) (o : ParseOptions) (p : Bool) (r : Value)
    (h : parseKeys key val o p = .ok r) (hv : NoProto val) : NoProto r := by
  rcases parseKeys_cases key val o p with h1 | ⟨e, h1⟩ | ⟨chain, h1⟩
  · rw [h1] at h
    cases h
    simp [NoProto]
  · rw [h1] at h
    cases h
  · rw [h1] at h
    exact parseObject_noProto chain val o p r h hv

theorem decodeLoop_noProto (o : ParseOptions)
    (hf : (o.PlainObjects || o.AllowPrototypes) = false) :
    ∀ (urlValues : List (List Str)) (acc obj : Obj),
      decodeLoop o acc urlValues = .ok obj → NoProtoEntries acc → NoProtoEntries obj
  | [], acc, obj, h, ha => by
    simp only [decodeLoop, Except.ok.injEq] at h
    rw [← h]; exact ha
  | pair :: rest, acc, obj, h, ha => by
    unfold decodeLoop at h
    split at h
    · rename_i idx key value
      split at h
      · cases h
      · rename_i newObj hnew
        have hn : NoProto newObj := parseKeys_noProto key _ o true newObj hnew (by simp [NoProto])
        have hm := Merge_noProto o hf (.obj acc) newObj (by simpa [NoProto] using ha) hn
        split at h
        · rename_i m hmerge
          rw [hmerge] at hm
          exact decodeLoop_noProto o hf rest m obj h (by simpa [NoProto] using hm)
        · cases h
    · exact decodeLoop_noProto o hf rest acc obj h ha

theorem noProtoItems_trim {xs : List Value} (h : NoProtoItems xs) :
    NoProtoItems (trimTrailingNil xs) := by
  rw [noProtoItems_iff] at h ⊢
  intro v hv
  apply h v
  unfold trimTrailingNil at hv
  have h1 := List.mem_reverse.1 hv
  have h2 := (List.dropWhile_sublist Value.isNull).subset h1
  exact List.mem_reverse.1 h2

mutual
theorem Compact_noProto : ∀ (v : Value), NoProto v → NoProto (Compact v)
  | .null, h => by simpa [Compact] using h
  | .str _, h => by simpa [Compact] using h
  | .bool _, h => by simpa [Compact] using h
  | .strs _, h => by simpa [Compact] using h
  | .iobj _, h => by simpa [Compact] using h
  | .arr xs, h => by
    simp only [Compact, NoProto] at h ⊢
    exact noProtoItems_trim h
  | .obj m, h => by
    simp only [Compact, NoProto] at h ⊢
    exact compactEntries_noProto m h
theorem compactEntries_noProto : ∀ (m : Obj), NoProtoEntries m → NoProtoEntries (compactEntries m)
  | [], h => by simpa [compactEntries] using h
  | (k, v) :: rest, h => by
    simp only [NoProtoEntries, compactEntries] at h ⊢
    exact ⟨h.1, Compact_noProto v h.2.1, compactEntries_noProto rest h.2.2⟩
end

theorem convert_noProto {m : Obj} (h : NoProtoEntries m) :
    NoProtoItems (convertToQsArrayFormat m) := by
  have hfil : NoProtoEntries (m.filter (fun kv => isOperatorKey kv.1)) := by
    rw [noProtoEntries_iff] at h ⊢
    intro kv hkv
    exact h kv (List.mem_of_mem_filter hkv)
  have hstr : NoProtoItems
      ((m.filter (fun kv => (atoi kv.1).isSome && kv.2.isTrueBool)).map
        (fun kv => Value.str kv.1)) := by
    rw [noProtoItems_iff]
    intro v hv
    obtain ⟨kv, _, rfl⟩ := List.mem_map.1 hv
    simp [NoProto]
  unfold convertToQsArrayFormat
  simp only
  split
  · exact noProtoItems_append hstr (by simp [NoProtoItems, NoProto, hfil])
  · exact hstr

mutual
theorem processNested_noProto : ∀ (opts : Option ParseOptions) (v r : Value),
    processNestedStructures opts v = .ok r → NoProto v → NoProto r
  | opts, .null, r, h, _ => by
    simp only [processNestedStructures, Except.ok.injEq] at h
    rw [← h]; simp [NoProto]
  | opts, .str _, r, h, _ => by
    simp only [processNestedStructures, Except.ok.injEq] at h
    rw [← h]; simp [NoProto]
  | opts, .bool _, r, h, _ => by
    simp only [processNestedStructures, Except.ok.injEq] at h
    rw [← h]; simp [NoProto]
  | opts, .strs _, r, h, _ => by
    simp only [processNestedStructures, Except.ok.injEq] at h
    rw [← h]; simp [NoProto]
  | opts, .iobj _, r, h, hv => by
    simp only [processNestedStructures, Except.ok.injEq] at h
    rw [← h]; exact hv
  | opts, .obj m, r, h, hv => by
    rw [processNestedStructures] at h
    split at h
    · cases h
    · rename_i m2 hm2
      have hm := processEntries_noProto opts m m2 hm2 (by simpa [NoProto] using hv)
      split at h
      · cases h
        simp only [NoProto]
        exact convert_noProto hm
      · cases h
        simpa [NoProto] using hm
  | opts, .arr xs, r, h, hv => by
    rw [processNestedStructures] at h
    split at h
    · cases h
    · rename_i newArr hnew
      have hm := processItems_noProto opts xs newArr hnew (by simpa [NoProto] using hv)
      split at h
      · cases h
        simp only [NoProto]
        exact noProtoSlots_arrayToObject newArr 0 hm
      · cases h
        simpa [NoProto] using hm
theorem processEntries_noProto : ∀ (opts : Option ParseOptions) (m r : Obj),
    processEntries opts m = .ok r → NoProtoEntries m → NoProtoEntries r
  | opts, [], r, h, _ => by
    simp only [processEntries, Except.ok.injEq] at h
    rw [← h]; simp [NoProtoEntries]
  | opts, (k, v) :: rest, r, h, hm => by
    simp only [NoProtoEntries] at hm
    rw [processEntries] at h
    split at h
    · cases h
    · rename_i v2 hv2
      split at h
      · cases h
      · rename_i rest2 hrest2
        cases h
        simp only [NoProtoEntries]
        exact ⟨hm.1, processNested_noProto opts v v2 hv2 hm.2.1,
          processEntries_noProto opts rest rest2 hrest2 hm.2.2⟩
theorem processItems_noProto : ∀ (opts : Option ParseOptions) (xs r : List Value),
    processItems opts xs = .ok r → NoProtoItems xs → NoProtoItems r
  | opts, [], r, h, _ => by
    simp only [processItems, Except.ok.injEq] at h
    rw [← h]; simp [NoProtoItems]
  | opts, v :: rest, r, h, hm => by
    simp only [NoProtoItems] at hm
    unfold processItems at h
    split at h
    · split at h
      · cases h
      · split at h
        · exact processItems_noProto _ rest r h hm.2
        · split at h
          · cases h
          · rename_i rest2 hrest2
            cases h
            simp only [NoProtoItems]
            exact ⟨by simp [NoProto], processItems_noProto _ rest rest2 hrest2 hm.2⟩
    · split at h
      · cases h
      · rename_i v2 hv2
        split at h
        · cases h
        · rename_i rest2 hrest2
          cases h
          simp only [NoProtoItems]
          exact ⟨processNested_noProto opts v v2 hv2 hm.1,
            processItems_noProto opts rest rest2 hrest2 hm.2⟩
end

theorem PostProcess_noProto (obj : Obj) (opts : Option ParseOptions) (r : Obj)
    (h : PostProcessParsedObject obj opts = .ok r) (hm : NoProtoEntries obj) :
    NoProtoEntries r := by
  unfold PostProcessParsedObject at h
  split at h
  · cases h
  · rename_i m2 hm2
    have h2 := processEntries_noProto opts obj m2 hm2 hm
    split at h
    · rename_i m3 hm3
      cases h
      split at hm3
      · cases hm3
      · cases hm3
        exact h2
    · cases h
      exact h2

/-- With PlainObjects and AllowPrototypes off, no mapping of a successful result
of `DecodeQuery` has the key `__proto__`, whatever the query and the other options. -/
theorem DecodeQuery_noProto (str : Str) (opts : Option ParseOptions)
    (hf : ((normalizeParseOptions opts).PlainObjects ||
      (normalizeParseOptions opts).AllowPrototypes) = false)
    (m : Obj) (h : (DecodeQuery str opts).1 = some m) : NoProto (.obj m) := by
  unfold DecodeQuery at h
  split at h
  · rename_i processed hbody
    simp only [Option.some.injEq] at h
    subst h
    unfold decodeBody at hbody
    simp only at hbody
    split at hbody
    · cases hbody
      simp [NoProto, NoProtoEntries]
    · split at hbody
      · cases hbody
      · rename_i urlValues _
        split at hbody
        · cases hbody
        · rename_i obj hloop
          have h1 := decodeLoop_noProto _ hf urlValues [] obj hloop (by simp [NoProtoEntries])
          have h2 := Compact_noProto (.obj obj) (by simpa [NoProto] using h1)
          split at hbody
          · rename_i compacted hc
            rw [hc] at h2
            simp only [NoProto] at h2 ⊢
            exact PostProcess_noProto compacted opts processed hbody h2
          · cases hbody
  · cases h

/-! ## The protected name: dropped pairs -/

theorem parseKeysLoop_proto_step (o : ParseOptions) (hp : o.PlainObjects = false)
    (ha : o.AllowPrototypes = false) (n : Nat) (pre rest : Str) (keys : List Str)
    (hpre : 91 ∉ pre) :
    parseKeysLoop o (n + 1) (pre ++ 91 :: (bytes "__proto__" ++ 93 :: rest)) keys = none := by
  have hg1 : 91 ∉ bytes "__proto__" := by decide
  have hg2 : 93 ∉ bytes "__proto__" := by decide
  have hf := findBracket_prefix pre (bytes "__proto__") rest hpre hg1 hg2
  have hseg : ((pre ++ 91 :: (bytes "__proto__" ++ 93 :: rest)).take
      (pre.length + (bytes "__proto__").length + 2)).drop pre.length = group (bytes "__proto__") := by
    have : pre.length + (bytes "__proto__").length + 2 =
        pre.length + ((bytes "__proto__").length + 2) := by omega
    rw [this, List.take_append, group_eq]
    simp [List.take_append]
  have hinner : ((group (bytes "__proto__")).take ((group (bytes "__proto__")).length - 1)).drop 1 =
      bytes "__proto__" := by decide
  have hlen : (group (bytes "__proto__")).length > 2 := by decide
  simp only [parseKeysLoop, hf, hseg, hinner]
  simp [hp, ha, hlen]

theorem parseKeysLoop_proto (o : ParseOptions) (hp : o.PlainObjects = false)
    (ha : o.AllowPrototypes = false) : ∀ (n : Nat) (gs : List Str) (keys : List Str) (i : Nat),
    (∀ g ∈ gs, 91 ∉ g ∧ 93 ∉ g) → i < n → gs.get? i = some (bytes "__proto__") →
    parseKeysLoop o n (groups gs) keys = none
  | 0, _, _, _, _, hi, _ => by omega
  | n + 1, [], _, i, _, _, hget => by simp at hget
  | n + 1, g :: gs, keys, i, h, hi, hget => by
    rw [groups_cons]
    by_cases hg : g = bytes "__proto__"
    · subst hg
      exact parseKeysLoop_proto_step o hp ha n [] (groups gs) keys (by simp)
    · have hgn : GroupName g := ⟨(h g (by simp)).1, (h g (by simp)).2, hg⟩
      have hstep := parseKeysLoop_step o n [] g (groups gs) keys (by simp) hgn
      simp only [List.nil_append] at hstep
      rw [hstep]
      cases i with
      | zero =>
        simp only [List.get?_cons_zero, Option.some.injEq] at hget
        exact absurd hget hg
      | succ j =>
        simp only [List.get?_cons_succ] at hget
        exact parseKeysLoop_proto o hp ha n gs _ j
          (fun x hx => h x (List.mem_cons_of_mem _ hx)) (by omega) hget

/-- With PlainObjects and AllowPrototypes off, `parseKeys` returns nil for a key whose
root is `__proto__` or one of whose first Depth bracket groups is `[__proto__]`. -/
theorem parseKeys_proto (o : ParseOptions) (hdots : o.AllowDots = false)
    (hp : o.PlainObjects = false) (ha : o.AllowPrototypes = false) (root : Str) (gs : List Str)
    (v : Value) (b : Bool) (hroot : 91 ∉ root) (hgs : ∀ g ∈ gs, 91 ∉ g ∧ 93 ∉ g)
    (hproto : root = bytes "__proto__" ∨
      ∃ i, i < o.Depth.toNat ∧ gs.get? i = some (bytes "__proto__")) :
    parseKeys (root ++ groups gs) v o b = .ok .null := by
  have hparent : keyParent (root ++ groups gs) = root := by
    cases gs with
    | nil => simp [keyParent, groups_nil, findBracket_absent root hroot]
    | cons g gs =>
      rw [keyParent, groups_cons,
        findBracket_prefix root g _ hroot (hgs g (by simp)).1 (hgs g (by simp)).2]
      simp
  by_cases hkey : root ++ groups gs = []
  · simp [parseKeys, hkey]
  · simp only [parseKeys, hkey, if_false, hdots, Bool.false_eq_true, hparent, ne_eq,
      Bool.not_eq_true', hp, ha, true_and, and_true]
    by_cases hr : root = bytes "__proto__"
    · have hne : root ≠ [] := by rw [hr]; decide
      simp [hr, hne]
      intro hbad
      rw [hr] at hne
      exact absurd hbad hne
    · have hguard : ¬ (¬ root = [] ∧ root = bytes "__proto__") := fun h => hr h.2
      simp only [hguard, if_false]
      rcases hproto with h1 | ⟨i, hi, hget⟩
      · exact absurd h1 hr
      · cases gs with
        | nil => simp at hget
        | cons g gs =>
          obtain ⟨n, hn⟩ : ∃ n, o.Depth.toNat = n + 1 := ⟨o.Depth.toNat - 1, by omega⟩
          rw [hn, groups_cons]
          by_cases hg : g = bytes "__proto__"
          · subst hg
            rw [parseKeysLoop_proto_step o hp ha n root (groups gs) _ hroot]
          · have hgn : GroupName g := ⟨(hgs g (by simp)).1, (hgs g (by simp)).2, hg⟩
            rw [parseKeysLoop_step o n root g (groups gs) _ hroot hgn]
            cases i with
            | zero =>
              simp only [List.get?_cons_zero, Option.some.injEq] at hget
              exact absurd hget hg
            | succ j =>
              simp only [List.get?_cons_succ] at hget
              rw [parseKeysLoop_proto o hp ha n gs _ j
                (fun x hx => hgs x (List.mem_cons_of_mem _ hx)) (by omega) hget]

theorem foldPairs_drop (o : ParseOptions) (key v : Str)
    (hnull : parseKeys key (.str v) o true = .ok .null) :
    ∀ (ps1 ps2 : List (Str × Str)) (acc : Obj),
      foldPairs o acc (ps1 ++ (key, v) :: ps2) = foldPairs o acc (ps1 ++ ps2)
  | [], ps2, acc => by
    simp [foldPairs, hnull, Merge]
  | (k, w) :: ps1, ps2, acc => by
    simp only [List.cons_append, foldPairs]
    cases parseKeys k (.str w) o true with
    | error e => rfl
    | ok newObj =>
      simp only
      cases Merge o (.obj acc) newObj with
      | obj m => exact foldPairs_drop o key v hnull ps1 ps2 m
      | null => rfl
      | str _ => rfl
      | bool _ => rfl
      | strs _ => rfl
      | arr _ => rfl
      | iobj _ => rfl

theorem DecodeQuery_empty (opts : Option ParseOptions) : DecodeQuery [] opts = (some [], none) := by
  have : EscapeQueryString [] = [] := by decide
  simp [DecodeQuery, decodeBody, this]

/-- A pair that `parseKeys` answers with nil is dropped: the decode of the query is
the decode of the query without the pair. -/
theorem DecodeQuery_drop (opts : Option ParseOptions) (hs : StdSplit (normalizeParseOptions opts))
    (ps1 ps2 : List (Str × Str)) (key v : Str)
    (hl : (ps1 ++ (key, v) :: ps2).length ≤ 1000)
    (hk : ∀ kv ∈ ps1 ++ (key, v) :: ps2, KeyOK kv.1)
    (hv : ∀ kv ∈ ps1 ++ (key, v) :: ps2, Alnum kv.2)
    (hnull : parseKeys key (.str v) (normalizeParseOptions opts) true = .ok .null) :
    DecodeQuery (queryOf (ps1 ++ (key, v) :: ps2)) opts = DecodeQuery (queryOf (ps1 ++ ps2)) opts := by
  have hlen : (ps1 ++ (key, v) :: ps2).length = (ps1 ++ ps2).length + 1 := by simp; omega
  have h1 := decodeBody_queryOf opts hs (by simp : ps1 ++ (key, v) :: ps2 ≠ []) (by omega)
    (Or.inr hl) hk hv
  rw [foldPairs_drop _ key v hnull ps1 ps2 []] at h1
  by_cases hne : ps1 ++ ps2 = []
  · rw [DecodeQuery, h1, hne]
    have : queryOf [] = [] := rfl
    rw [this, DecodeQuery_empty]
    simp [foldPairs, finish, Compact, compactEntries, PostProcessParsedObject, processEntries,
      shouldConvertToArray]
  · have hk2 : ∀ kv ∈ ps1 ++ ps2, KeyOK kv.1 := by
      intro kv hkv
      apply hk kv
      rcases List.mem_append.1 hkv with h | h
      · exact List.mem_append_left _ h
      · exact List.mem_append_right _ (List.mem_cons_of_mem _ h)
    have hv2 : ∀ kv ∈ ps1 ++ ps2, Alnum kv.2 := by
      intro kv hkv
      apply hv kv
      rcases List.mem_append.1 hkv with h | h
      · exact List.mem_append_left _ h
      · exact List.mem_append_right _ (List.mem_cons_of_mem _ h)
    have h2 := decodeBody_queryOf opts hs hne (by omega) (Or.inr (by omega)) hk2 hv2
    rw [DecodeQuery, DecodeQuery, h1, h2]

/-! ## The protected name beyond Depth -/

theorem parseKeysLoop_exact (o : ParseOptions) : ∀ (gs : List Str) (rest : Str) (keys : List Str),
    (∀ g ∈ gs, GroupName g) →
    parseKeysLoop o gs.length (groups gs ++ rest) keys = some (rest, keys ++ gs.map group)
  | [], rest, keys, _ => by simp [parseKeysLoop, groups_nil]
  | g :: gs, rest, keys, h => by
    have hform : groups (g :: gs) ++ rest = [] ++ 91 :: (g ++ 93 :: (groups gs ++ rest)) := by
      simp [groups_cons]
    rw [hform, List.length_cons, parseKeysLoop_step o gs.length [] g _ keys (by simp) (h g (by simp)),
      parseKeysLoop_exact o gs _ _ (fun x hx => h x (List.mem_cons_of_mem _ hx))]
    simp

/-- When exactly Depth groups of letters stand in front of it, a group
`[__proto__]` is not examined: `parseKeys` folds it into the key `[__proto__]`. -/
theorem parseKeys_beyond (o : ParseOptions) (hdots : o.AllowDots = false)
    (hdd : o.DecodeDotInKeys = false) (hstrict : o.StrictDepth = false)
    {root : Str} (hroot : Letters root) (hrne : root ≠ []) (g : Str) (gs : List Str)
    (hgs : ∀ x ∈ g :: gs, x ≠ [] ∧ Letters x) (hn : o.Depth.toNat = gs.length + 1) (v : Value) :
    parseKeys (root ++ (groups (g :: gs) ++ group (bytes "__proto__"))) v o true =
      .ok (nest (root :: (g :: gs ++ [group (bytes "__proto__")])) v) := by
  have hgn : ∀ x ∈ g :: gs, GroupName x := fun x hx => (hgs x hx).2.alnum.groupName
  have hr := hroot.alnum.rootOK o hrne
  have hform : root ++ (groups (g :: gs) ++ group (bytes "__proto__")) =
      root ++ 91 :: (g ++ 93 :: (groups gs ++ group (bytes "__proto__"))) := by
    simp [groups_cons]
  have hkey : root ++ 91 :: (g ++ 93 :: (groups gs ++ group (bytes "__proto__"))) ≠ [] := by
    simp [hrne]
  have hparent : keyParent (root ++ 91 :: (g ++ 93 :: (groups gs ++ group (bytes "__proto__")))) =
      root := by
    rw [keyParent, findBracket_prefix root g _ hr.noOpen (hgn g (by simp)).1 (hgn g (by simp)).2.1]
    simp
  have hguard : (o.PlainObjects = false ∧ root = bytes "__proto__" ∧ o.AllowPrototypes = false) ↔
      False := by
    refine ⟨?_, False.elim⟩
    rintro ⟨_, h2, _⟩
    exact hroot.ne_proto h2
  have hfb : (findBracket (group (bytes "__proto__"))).isSome = true := by decide
  have hlen : (group (bytes "__proto__")).length > 0 := by decide
  rw [hform]
  simp only [parseKeys, hkey, if_false, hdots, Bool.false_eq_true, hparent, hrne, ne_eq,
    not_false_eq_true, if_true, parseObject_parsed, Bool.not_eq_true', true_and, hguard, hn]
  rw [parseKeysLoop_step o gs.length root g _ [root] hr.noOpen (hgn g (by simp)),
    parseKeysLoop_exact o gs _ _ (fun x hx => hgn x (List.mem_cons_of_mem _ hx))]
  simp only [hfb, hlen, and_self, if_true, hstrict, Bool.false_eq_true, if_false]
  have := wrapChain_root_names o hdd hroot (g :: gs ++ [group (bytes "__proto__")]) v
    (by
      intro x hx
      rcases List.mem_append.1 hx with h | h
      · exact letters_name (hgs x h)
      · simp only [List.mem_singleton] at h
        subst h
        exact ⟨by decide, by decide, by decide⟩)
  simpa [group] using this

/-! ## C8: the claim -/

/-- C8, as amended: with PlainObjects and AllowPrototypes off, (1) for every query
string, no mapping at any depth of a successful `DecodeQuery` result has the key
`__proto__`, whatever the other options are; (2) with the default splitter and
AllowDots off, a pair whose key `root[g1]...[gn]` has the root `__proto__`, or has
`__proto__` as one of its first Depth bracket groups, is dropped: among at
most 1000 well-formed pairs the query decodes as the query without that pair
does, errors included; (3) under nil options `__proto__[x]=1` decodes to the
empty mapping and `a[__proto__]=1&b=2` to `{b: "2"}`. A group `[__proto__]`
behind the first Depth groups is not examined and is kept in the folded key. -/
theorem C8_proto_guard (opts : Option ParseOptions)
    (hp : (normalizeParseOptions opts).PlainObjects = false)
    (ha : (normalizeParseOptions opts).AllowPrototypes = false) :
    (∀ (str : Str) (m : Obj), (DecodeQuery str opts).1 = some m → NoProto (.obj m)) ∧
    (StdSplit (normalizeParseOptions opts) → (normalizeParseOptions opts).AllowDots = false →
      ∀ (ps1 ps2 : List (Str × Str)) (root : Str) (gs : List Str) (v : Str),
        (ps1 ++ (root ++ groups gs, v) :: ps2).length ≤ 1000 →
        (∀ kv ∈ ps1 ++ (root ++ groups gs, v) :: ps2, KeyOK kv.1) →
        (∀ kv ∈ ps1 ++ (root ++ groups gs, v) :: ps2, Alnum kv.2) →
        91 ∉ root → (∀ g ∈ gs, 91 ∉ g ∧ 93 ∉ g) →
        (root = bytes "__proto__" ∨
          ∃ i, i < (normalizeParseOptions opts).Depth.toNat ∧
            gs.get? i = some (bytes "__proto__")) →
        DecodeQuery (queryOf (ps1 ++ (root ++ groups gs, v) :: ps2)) opts =
          DecodeQuery (queryOf (ps1 ++ ps2)) opts) ∧
    DecodeQuery (bytes "__proto__[x]=1") none = (some [], none) ∧
    DecodeQuery (bytes "a[__proto__]=1&b=2") none =
      (some [(bytes "b", .str (bytes "2"))], none) := by
  refine ⟨?_, ?_, ?_, ?_⟩
  · intro str m h
    exact DecodeQuery_noProto str opts (by simp [hp, ha]) m h
  · intro hs hdots ps1 ps2 root gs v hl hk hv hroot hgs hproto
    exact DecodeQuery_drop opts hs ps1 ps2 _ v hl hk hv
      (parseKeys_proto _ hdots hp ha root gs (.str v) true hroot hgs hproto)
  · have hq : bytes "__proto__[x]=1" =
        queryOf ([] ++ (bytes "__proto__" ++ groups [bytes "x"], bytes "1") :: []) := by decide
    have hk : ∀ kv ∈ ([] : List (Str × Str)) ++
        (bytes "__proto__" ++ groups [bytes "x"], bytes "1") :: [], KeyOK kv.1 := by
      intro kv hkv
      simp only [List.nil_append, List.mem_singleton] at hkv
      subst hkv
      exact ⟨by decide, by decide⟩
    have hv : ∀ kv ∈ ([] : List (Str × Str)) ++
        (bytes "__proto__" ++ groups [bytes "x"], bytes "1") :: [], Alnum kv.2 := by
      intro kv hkv
      simp only [List.nil_append, List.mem_singleton] at hkv
      subst hkv
      decide
    rw [hq, DecodeQuery_drop none stdSplit_nil [] [] _ _ (by decide) hk hv
      (parseKeys_proto _ rfl rfl rfl (bytes "__proto__") [bytes "x"] _ true (by decide)
        (by decide) (Or.inl rfl))]
    exact DecodeQuery_empty none
  · have hq : bytes "a[__proto__]=1&b=2" =
        queryOf ([] ++ (bytes "a" ++ groups [bytes "__proto__"], bytes "1") ::
          [(bytes "b", bytes "2")]) := by decide
    have hk : ∀ kv ∈ ([] : List (Str × Str)) ++
        (bytes "a" ++ groups [bytes "__proto__"], bytes "1") :: [(bytes "b", bytes "2")],
        KeyOK kv.1 := by
      intro kv hkv
      simp only [List.nil_append, List.mem_cons, List.mem_singleton, List.not_mem_nil,
        or_false] at hkv
      rcases hkv with h | h <;> subst h <;> exact ⟨by decide, by decide⟩
    have hv : ∀ kv ∈ ([] : List (Str × Str)) ++
        (bytes "a" ++ groups [bytes "__proto__"], bytes "1") :: [(bytes "b", bytes "2")],
        Alnum kv.2 := by
      intro kv hkv
      simp only [List.nil_append, List.mem_cons, List.mem_singleton, List.not_mem_nil,
        or_false] at hkv
      rcases hkv with h | h <;> subst h <;> decide
    rw [hq, DecodeQuery_drop none stdSplit_nil [] [(bytes "b", bytes "2")] _ _ (by decide) hk hv
      (parseKeys_proto _ rfl rfl rfl (bytes "a") [bytes "__proto__"] _ true (by decide)
        (by decide) (Or.inr ⟨0, by decide, rfl⟩))]
    exact DecodeQuery_flat none stdSplit_nil rfl rfl rfl [(bytes "b", bytes "2")] (by decide)
      (by decide) (by decide) (by decide)

/-- C8 as amended at nil options: no result has the key `__proto__` in a mapping,
and `a[__proto__]=1&b=2` decodes as `b=2` does. -/
theorem C8_proto_guard_witness :
    (∀ (str : Str) (m : Obj), (DecodeQuery str none).1 = some m → NoProto (.obj m)) ∧
    DecodeQuery (queryOf [(bytes "a" ++ groups [bytes "__proto__"], bytes "1"),
        (bytes "b", bytes "2")]) none =
      DecodeQuery (queryOf [(bytes "b", bytes "2")]) none :=
  ⟨(C8_proto_guard none rfl rfl).1,
   (C8_proto_guard none rfl rfl).2.1 (by constructor <;> rfl) rfl [] [(bytes "b", bytes "2")]
     (bytes "a") [bytes "__proto__"] (bytes "1") (by decide)
     (by
       intro kv hkv
       simp only [List.nil_append, List.mem_cons, List.mem_singleton, List.not_mem_nil,
         or_false] at hkv
       rcases hkv with h | h <;> subst h <;> exact ⟨by decide, by decide⟩)
     (by
       intro kv hkv
       simp only [List.nil_append, List.mem_cons, List.mem_singleton, List.not_mem_nil,
         or_false] at hkv
       rcases hkv with h | h <;> subst h <;> decide)
     (by decide) (by decide) (Or.inr ⟨0, by decide, rfl⟩)⟩

/-- C8 fails as stated: under nil options (Depth 5) the pair
`a[b][c][d][e][f][__proto__]=1` has the bracket group `__proto__` and is not
dropped: it decodes to `{a: {b: {c: {d: {e: {f: {"[__proto__]": "1"}}}}}}}`, not
to the empty mapping that the query without the pair gives. -/
theorem C8_counterexample :
    DecodeQuery (queryOf [(bytes "a" ++ groups [bytes "b", bytes "c", bytes "d", bytes "e",
        bytes "f", bytes "__proto__"], bytes "1")]) none =
      (some [(bytes "a", nest [bytes "b", bytes "c", bytes "d", bytes "e", bytes "f",
        bytes "[__proto__]"] (.str (bytes "1")))], none) ∧
    queryOf [(bytes "a" ++ groups [bytes "b", bytes "c", bytes "d", bytes "e",
        bytes "f", bytes "__proto__"], bytes "1")] = bytes "a[b][c][d][e][f][__proto__]=1" ∧
    DecodeQuery (queryOf [(bytes "a" ++ groups [bytes "b", bytes "c", bytes "d", bytes "e",
        bytes "f", bytes "__proto__"], bytes "1")]) none ≠ DecodeQuery (queryOf []) none := by
  have hform : bytes "a" ++ groups [bytes "b", bytes "c", bytes "d", bytes "e",
      bytes "f", bytes "__proto__"] =
      bytes "a" ++ (groups (bytes "b" :: [bytes "c", bytes "d", bytes "e", bytes "f"]) ++
        group (bytes "__proto__")) := by decide
  have hk : KeyOK (bytes "a" ++ groups [bytes "b", bytes "c", bytes "d", bytes "e",
      bytes "f", bytes "__proto__"]) := ⟨by decide, by decide⟩
  have hpk := parseKeys_beyond (normalizeParseOptions none) rfl rfl rfl
    (by decide : Letters (bytes "a")) (by decide) (bytes "b")
    [bytes "c", bytes "d", bytes "e", bytes "f"] (by decide) (by decide) (.str (bytes "1"))
  rw [← hform] at hpk
  have h := DecodeQuery_single_ok none stdSplit_nil hk (by decide : Alnum (bytes "1")) hpk
  have hg : group (bytes "__proto__") = bytes "[__proto__]" := by decide
  refine ⟨?_, by decide, ?_⟩
  · rw [h]
    simp [hg]
  · rw [h]
    have : queryOf [] = [] := rfl
    rw [this, DecodeQuery_empty]
    simp

/-! ## C20: `Merge` with a scalar source -/

/-- C20, as amended: for every target and every string source, `Merge` returns the
target with the source appended when the target is a sequence; the target with
the entry `AsString(source) -> true` written when the target is a string-keyed
mapping and PlainObjects or AllowPrototypes is on; the target unchanged when it
is a string-keyed mapping and neither option is on; and the two-element
sequence `[target, source]` in every other case (the target is nil, a string,
a boolean or of another type). -/
theorem C20_merge_scalar (o : ParseOptions) (target : Value) (s : Str) :
    (∀ t, target = .arr t → Merge o target (.str s) = .arr (t ++ [.str s])) ∧
    (∀ t, target = .obj t → (o.PlainObjects = true ∨ o.AllowPrototypes = true) →
      Merge o target (.str s) = .obj (mapSet t (AsString (.str s)) (.bool true))) ∧
    (∀ t, target = .obj t → o.PlainObjects = false → o.AllowPrototypes = false →
      Merge o target (.str s) = target) ∧
    ((∀ t, target ≠ .arr t) → (∀ t, target ≠ .obj t) →
      Merge o target (.str s) = .arr [target, .str s]) := by
  refine ⟨?_, ?_, ?_, ?_⟩
  · intro t ht
    subst ht
    simp [Merge]
  · intro t ht hf
    subst ht
    rcases hf with h | h <;> simp [Merge, h]
  · intro t ht h1 h2
    subst ht
    simp [Merge, h1, h2]
  · intro h1 h2
    cases target with
    | arr t => exact absurd rfl (h1 t)
    | obj t => exact absurd rfl (h2 t)
    | null => simp [Merge]
    | str _ => simp [Merge]
    | bool _ => simp [Merge]
    | strs _ => simp [Merge]
    | iobj _ => simp [Merge]

/-- C20 as amended at the four kinds of target, the source being the string `b`. -/
theorem C20_merge_scalar_witness :
    Merge defaults (.arr [.str (bytes "a")]) (.str (bytes "b")) =
      .arr ([.str (bytes "a")] ++ [.str (bytes "b")]) ∧
    Merge { defaults with AllowPrototypes := true } (.obj [(bytes "a", .str (bytes "1"))])
        (.str (bytes "b")) =
      .obj (mapSet [(bytes "a", .str (bytes "1"))] (AsString (.str (bytes "b"))) (.bool true)) ∧
    Merge defaults (.obj [(bytes "a", .str (bytes "1"))]) (.str (bytes "b")) =
      .obj [(bytes "a", .str (bytes "1"))] ∧
    Merge defaults (.str (bytes "a")) (.str (bytes "b")) =
      .arr [.str (bytes "a"), .str (bytes "b")] :=
  ⟨(C20_merge_scalar defaults (.arr [.str (bytes "a")]) (bytes "b")).1 _ rfl,
   (C20_merge_scalar { defaults with AllowPrototypes := true }
      (.obj [(bytes "a", .str (bytes "1"))]) (bytes "b")).2.1 _ rfl (Or.inr rfl),
   (C20_merge_scalar defaults (.obj [(bytes "a", .str (bytes "1"))]) (bytes "b")).2.2.1 _ rfl
      rfl rfl,
   (C20_merge_scalar defaults (.str (bytes "a")) (bytes "b")).2.2.2
      (fun _ h => by cases h) (fun _ h => by cases h)⟩

/-- C20 fails as stated: under the default options (PlainObjects and
AllowPrototypes off) the mapping `{a: "1"}` merged with the string `b` is the
mapping unchanged, not the two-element sequence `[{a: "1"}, "b"]`. -/
theorem C20_counterexample :
    Merge defaults (.obj [(bytes "a", .str (bytes "1"))]) (.str (bytes "b")) =
      .obj [(bytes "a", .str (bytes "1"))] ∧
    Merge defaults (.obj [(bytes "a", .str (bytes "1"))]) (.str (bytes "b")) ≠
      .arr [.obj [(bytes "a", .str (bytes "1"))], .str (bytes "b")] := by
  have h : Merge defaults (.obj [(bytes "a", .str (bytes "1"))]) (.str (bytes "b")) =
      .obj [(bytes "a", .str (bytes "1"))] := by
    simp [Merge, defaults]
  refine ⟨h, ?_⟩
  rw [h]
  intro e
  cases e

/-! ## C14: no input raises when the limits are not enforced -/

theorem placeSegment_ok (o : ParseOptions) (hL : o.ArrayLimit < maxSliceLen) (name : Str)
    (leaf : Value) : ∃ r, placeSegment o name leaf = .ok r := by
  unfold placeSegment
  split
  · rename_i index _
    split
    · rename_i h
      have : ¬ (index + 1 > maxInt ∨ ifaceSize * (index + 1) > maxAlloc) := by
        have := h.2.2
        simp only [maxInt, maxSliceLen, ifaceSize, maxAlloc] at *
        omega
      simp only [this, if_false]
      exact ⟨_, rfl⟩
    · split <;> exact ⟨_, rfl⟩
  · split <;> exact ⟨_, rfl⟩

theorem wrapSegment_ok (o : ParseOptions) (hL : o.ArrayLimit < maxSliceLen) (root : Str)
    (leaf : Value) : ∃ r, wrapSegment o root leaf = .ok r := by
  unfold wrapSegment
  split
  · split
    · exact ⟨_, rfl⟩
    · split <;> exact ⟨_, rfl⟩
  · exact placeSegment_ok o hL _ leaf

theorem wrapChain_ok (o : ParseOptions) (hL : o.ArrayLimit < maxSliceLen) :
    ∀ (chain : List Str) (leaf : Value), ∃ r, wrapChain o chain leaf = .ok r
  | [], leaf => ⟨leaf, rfl⟩
  | root :: rest, leaf => by
    obtain ⟨inner, hin⟩ := wrapChain_ok o hL rest leaf
    rw [wrapChain, hin]
    exact wrapSegment_ok o hL root inner

/-- With StrictDepth off and an ArrayLimit below 2^44, `parseKeys`
returns, whatever the key. -/
theorem parseKeys_ok (o : ParseOptions) (hs : o.StrictDepth = false) (hL : o.ArrayLimit < maxSliceLen)
    (key : Str) (val : Value) : ∃ r, parseKeys key val o true = .ok r := by
  unfold parseKeys
  simp only [hs, Bool.false_eq_true, if_false, parseObject_parsed]
  repeat' split
  all_goals first
    | exact ⟨_, rfl⟩
    | exact wrapChain_ok o hL _ val

/-- A string-keyed mapping merged with any value is a string-keyed mapping. -/
theorem Merge_obj_isObj (o : ParseOptions) (t : Obj) (s : Value) :
    ∃ m, Merge o (.obj t) s = .obj m := by
  cases s with
  | null => exact ⟨t, by simp [Merge]⟩
  | str x =>
    cases h : (o.PlainObjects || o.AllowPrototypes) with
    | true => exact ⟨mapSet t (AsString (.str x)) (.bool true), by simp only [Merge, h, if_true]⟩
    | false => exact ⟨t, by simp [Merge, h]⟩
  | bool b =>
    cases h : (o.PlainObjects || o.AllowPrototypes) with
    | true => exact ⟨mapSet t (AsString (.bool b)) (.bool true), by simp only [Merge, h, if_true]⟩
    | false => exact ⟨t, by simp [Merge, h]⟩
  | strs xs => exact ⟨t, by simp [Merge]⟩
  | iobj kvs => exact ⟨t, by simp [Merge]⟩
  | arr xs => exact ⟨t, by simp [Merge]⟩
  | obj s => exact ⟨mergeEntries o t s, by simp only [Merge]⟩

theorem decodeLoop_ok (o : ParseOptions) (hs : o.StrictDepth = false)
    (hL : o.ArrayLimit < maxSliceLen) :
    ∀ (urlValues : List (List Str)) (acc : Obj), ∃ obj, decodeLoop o acc urlValues = .ok obj
  | [], acc => ⟨acc, rfl⟩
  | pair :: rest, acc => by
    unfold decodeLoop
    split
    · rename_i idx key value
      obtain ⟨newObj, hn⟩ := parseKeys_ok o hs hL key (.str value)
      obtain ⟨m, hm⟩ := Merge_obj_isObj o acc newObj
      simp only [hn, hm]
      exact decodeLoop_ok o hs hL rest m
    · exact decodeLoop_ok o hs hL rest acc

theorem parseValues_ok (o : ParseOptions) (ht : o.ThrowOnLimitExceeded = false) (str : Str) :
    ∃ u, parseValues str o = .ok u := by
  unfold parseValues
  simp only [ht, Bool.false_eq_true, false_and, if_false]
  exact ⟨_, rfl⟩

mutual
theorem processNested_ok (o : ParseOptions) : ∀ (v : Value),
    ∃ r, processNestedStructures (some o) v = .ok r
  | .null => ⟨.null, by simp only [processNestedStructures]⟩
  | .str s => ⟨.str s, by simp only [processNestedStructures]⟩
  | .bool b => ⟨.str (AsString (.bool b)), by simp only [processNestedStructures]⟩
  | .strs xs => ⟨.strs xs, by simp only [processNestedStructures]⟩
  | .iobj kvs => ⟨.iobj kvs, by simp only [processNestedStructures]⟩
  | .obj m => by
    obtain ⟨m2, h⟩ := processEntries_ok o m
    rw [processNestedStructures, h]
    simp only
    split <;> exact ⟨_, rfl⟩
  | .arr xs => by
    obtain ⟨ys, h⟩ := processItems_ok o xs
    rw [processNestedStructures, h]
    simp only
    split <;> exact ⟨_, rfl⟩
theorem processEntries_ok (o : ParseOptions) : ∀ (m : Obj),
    ∃ r, processEntries (some o) m = .ok r
  | [] => ⟨[], rfl⟩
  | (k, v) :: rest => by
    obtain ⟨v2, h1⟩ := processNested_ok o v
    obtain ⟨r2, h2⟩ := processEntries_ok o rest
    rw [processEntries, h1]
    simp only [h2]
    exact ⟨_, rfl⟩
theorem processItems_ok (o : ParseOptions) : ∀ (xs : List Value),
    ∃ r, processItems (some o) xs = .ok r
  | [] => ⟨[], rfl⟩
  | v :: rest => by
    obtain ⟨r2, h2⟩ := processItems_ok o rest
    obtain ⟨v2, h1⟩ := processNested_ok o v
    unfold processItems
    split
    · simp only [h2]
      split <;> exact ⟨_, rfl⟩
    · simp only [h1, h2]
      exact ⟨_, rfl⟩
end

theorem PostProcess_ok (o : ParseOptions) (obj : Obj) :
    ∃ r, PostProcessParsedObject obj (some o) = .ok r := by
  obtain ⟨m2, h⟩ := processEntries_ok o obj
  unfold PostProcessParsedObject
  simp only [h]
  split <;> exact ⟨_, rfl⟩

/-- The loop and the end of `DecodeQuery` never raise for non-nil options with
StrictDepth off and an ArrayLimit below 2^44. -/
theorem finish_decodeLoop_ok (o : ParseOptions)
    (hs : (normalizeParseOptions (some o)).StrictDepth = false)
    (hL : (normalizeParseOptions (some o)).ArrayLimit < maxSliceLen) (urlValues : List (List Str)) :
    ∃ m, finish (some o) (decodeLoop (normalizeParseOptions (some o)) [] urlValues) = .ok m := by
  obtain ⟨obj, h1⟩ := decodeLoop_ok _ hs hL urlValues []
  rw [h1]
  simp only [finish, Compact]
  exact PostProcess_ok o _

theorem decodeBody_nil (str : Str) (opts : Option ParseOptions)
    (h : EscapeQueryString str = []) : decodeBody str opts = .ok [] := by
  simp [decodeBody, h]

theorem decodeBody_of_error (str : Str) (opts : Option ParseOptions)
    (h : EscapeQueryString str ≠ []) {e : DecodeError}
    (hp : parseValues (EscapeQueryString str) (normalizeParseOptions opts) = .error e) :
    decodeBody str opts = .error e := by
  simp [decodeBody, h, hp]

theorem decodeBody_of_ok (str : Str) (opts : Option ParseOptions)
    (h : EscapeQueryString str ≠ []) {u : List (List Str)}
    (hp : parseValues (EscapeQueryString str) (normalizeParseOptions opts) = .ok u) :
    decodeBody str opts = finish opts (decodeLoop (normalizeParseOptions opts) [] u) := by
  cases hd : decodeLoop (normalizeParseOptions opts) [] u <;>
    simp [decodeBody, h, hp, finish, hd]

/-- C14, as amended: for every input string and every non-nil options value with
StrictDepth off, ThrowOnLimitExceeded off and an ArrayLimit below 2^44 =
17592186044416 (so that a slice of ArrayLimit + 1 elements is within `maxAlloc`,
the bound of `make`), whatever the decoder function, `DecodeQuery` returns a
mapping and a nil error. -/
theorem C14_never_raises (str : Str) (o : ParseOptions) (hs : o.StrictDepth = false)
    (ht : o.ThrowOnLimitExceeded = false) (hL : o.ArrayLimit < maxSliceLen) :
    ∃ m, DecodeQuery str (some o) = (some m, none) := by
  have hbody : ∃ m, decodeBody str (some o) = .ok m := by
    by_cases h : EscapeQueryString str = []
    · exact ⟨[], decodeBody_nil str _ h⟩
    · obtain ⟨u, hu⟩ := parseValues_ok (normalizeParseOptions (some o)) ht (EscapeQueryString str)
      rw [decodeBody_of_ok str _ h hu]
      exact finish_decodeLoop_ok o hs hL u
  obtain ⟨m, hm⟩ := hbody
  exact ⟨m, by simp [DecodeQuery, hm]⟩

/-- C14 at a query with a bad percent-escape, an unmatched bracket, an index above
the limit and a protected name, under the default options. -/
theorem C14_never_raises_witness :
    ∃ m, DecodeQuery (bytes "a%zz=1&b[=2&c[99]=3&__proto__[x]=4&d[e") (some defaults) =
      (some m, none) :=
  C14_never_raises (bytes "a%zz=1&b[=2&c[99]=3&__proto__[x]=4&d[e") defaults rfl rfl (by decide)

/-- C14 fails as stated: with ArrayLimit 2^44 = 17592186044416, for which
ArrayLimit + 1 does not overflow, StrictDepth off and ThrowOnLimitExceeded off,
`a[17592186044416]=x` returns a nil result and an error: the index is within
the limit, the slice of `index+1` elements that `make` is asked for exceeds
`maxAlloc`, and `DecodeQuery` recovers the panic. -/
theorem C14_counterexample :
    (17592186044416 : Int) + 1 ≤ maxInt ∧
    DecodeQuery (bytes "a[17592186044416]=x") (some { defaults with
        ArrayLimit := 17592186044416, StrictDepth := false, ThrowOnLimitExceeded := false }) =
      (none, some .makesliceLen) ∧
    ¬ (∃ m, DecodeQuery (bytes "a[17592186044416]=x") (some { defaults with
        ArrayLimit := 17592186044416, StrictDepth := false, ThrowOnLimitExceeded := false }) =
      (some m, none)) := by
  have h : DecodeQuery (bytes "a[17592186044416]=x") (some { defaults with
        ArrayLimit := 17592186044416, StrictDepth := false, ThrowOnLimitExceeded := false }) =
      (none, some .makesliceLen) := by decide!
  refine ⟨by decide, h, ?_⟩
  rintro ⟨m, hm⟩
  rw [h] at hm
  cases hm

/-! ## Queries of a single part -/

theorem split_one (q : Str) (h38 : 38 ∉ q) : split q (bytes "&") = [q] := by
  rw [split, splitN, bytes_amp]
  simp only [show ¬ ((-1 : Int) = 0) by decide, show ((-1 : Int) < 0) by decide, if_true, if_false]
  exact splitAux_absent 38 _ q h38

theorem EscapeQueryString_one (q : Str) (h9 : 9 ∉ q) (h10 : 10 ∉ q) (h38 : 38 ∉ q) :
    EscapeQueryString q = escapePart q := by
  rw [EscapeQueryString, bytes_tab, bytes_nl, replaceAll_absent 9 [] [] _ h9,
    replaceAll_absent 10 [] [] _ h10, split_one q h38]
  rfl

/-- The splitter of `parseValues` on a text without `%` and `&`: one part. -/
theorem parseValues_one (o : ParseOptions) (hs : StdSplit o) (q : Str) (h37 : 37 ∉ q)
    (h38 : 38 ∉ q) :
    parseValues q o = .ok (parseValuesLoop o defaultDecoder o.Charset none 0 0 [q]) := by
  have hw : wrapInt 1001 = 1001 := by decide
  have e1 : replaceAll q [37, 53, 66] (bytes "[") = q := replaceAll_absent 37 _ _ _ h37
  have e2 : replaceAll q [37, 53, 68] (bytes "]") = q := replaceAll_absent 37 _ _ _ h37
  have hsplit : splitN q [38] 1001 = [q] := by
    rw [splitN]
    simp only [show ¬ ((1001 : Int) = 0) by decide, show ¬ ((1001 : Int) < 0) by decide, if_false]
    exact splitAux_absent 38 _ q h38
  simp only [parseValues, hs.queryPrefix, hs.delimiter, hs.limit, hs.sentinel, hs.decoder,
    bytes_pct5B, bytes_pct5D, bytes_amp, Bool.false_eq_true, if_false, Option.getD_some,
    Option.map_none', show ((1000 : Int) = 0) ↔ False by decide,
    show ((1000 : Int) + 1) = 1001 by decide]
  rw [e1, e2, hw, hsplit]
  simp

theorem parseValuesLoop_one (o : ParseOptions) (cs q : Str) :
    parseValuesLoop o defaultDecoder cs none 0 0 [q] =
      if (parsePart o defaultDecoder cs q).1 ≠ [] then
        [[itoaNat 0, (parsePart o defaultDecoder cs q).1, (parsePart o defaultDecoder cs q).2]]
      else [] := by
  simp only [parseValuesLoop]
  simp

theorem finish_nil (opts : Option ParseOptions) : finish opts (.ok []) = .ok [] := by
  simp [finish, Compact, compactEntries, PostProcessParsedObject, processEntries,
    shouldConvertToArray]

/-! ## C12: a key without `=` -/

theorem escapePart_bare (k : Str) (h61 : 61 ∉ k) : escapePart k = k := by
  simp [escapePart, bytes_eq, index_absent 61 [] k h61]

theorem parsePart_bare (o : ParseOptions) (cs : Str) {k : Str} (hk : KeyOK k) (h93 : 93 ∉ k) :
    parsePart o defaultDecoder cs k = (k, []) := by
  have hk37 : 37 ∉ k := fun e => by have := hk.2 37 e; omega
  have hk43 : 43 ∉ k := fun e => by have := hk.2 43 e; omega
  have hk61 : 61 ∉ k := fun e => by have := hk.2 61 e; omega
  have hpos : splitPos k = none := by
    simp [splitPos, bytes_brEq, bytes_eq, index_absent 93 [61] k h93, index_absent 61 [] k hk61]
  simp only [parsePart, hpos, defaultDecoder, Decode_plain _ hk37 hk43]
  cases o.StrictNullHandling <;> simp [Value.isNull, AsString]

/-- A query that is one key of letters and digits, without `=`: the key with
the empty string, whether StrictNullHandling is on or off. -/
theorem DecodeQuery_bare_key (opts : Option ParseOptions)
    (hs : StdSplit (normalizeParseOptions opts))
    (hdots : (normalizeParseOptions opts).AllowDots = false)
    (hdd : (normalizeParseOptions opts).DecodeDotInKeys = false)
    {k : Str} (hk : Alnum k) (hl : startsWithLetter k = true) :
    DecodeQuery k opts = (some [(k, .str [])], none) := by
  have hne := startsWithLetter_ne_nil hl
  have hok : KeyOK k := ⟨hne, fun c hc => by have := isAlnum_facts (hk c hc); omega⟩
  have h9 : 9 ∉ k := fun e => by have := hok.2 9 e; omega
  have h10 : 10 ∉ k := fun e => by have := hok.2 10 e; omega
  have h37 : 37 ∉ k := fun e => by have := hok.2 37 e; omega
  have h38 : 38 ∉ k := fun e => by have := hok.2 38 e; omega
  have h61 : 61 ∉ k := fun e => by have := hok.2 61 e; omega
  have h93 : 93 ∉ k := fun e => by have := isAlnum_facts (hk 93 e); omega
  have hesc : EscapeQueryString k = k := by
    rw [EscapeQueryString_one k h9 h10 h38, escapePart_bare k h61]
  have hbody : decodeBody k opts = .ok [(k, .str [])] := by
    rw [decodeBody_of_ok k opts (by rw [hesc]; exact hne)
      (by rw [hesc]; exact parseValues_one _ hs k h37 h38),
      parseValuesLoop_one, parsePart_bare _ _ hok h93]
    simp only [ne_eq, hne, not_false_eq_true, if_true, decodeLoop,
      parseKeys_flat _ hdots hdd (.str []) hk hl,
      Merge_insert _ [] k (.str []) rfl (by simp)]
    exact finish_settled opts (by
      intro kv hkv
      have hkv2 : kv = (k, Value.str []) := by simpa [mapSet] using hkv
      rw [hkv2]
      exact Settled.str _)
  simp [DecodeQuery, hbody]

/-- C12, the code at the failing input: with StrictNullHandling on, under the
options of the test and under the defaults with the flag set, the bare key
`empty` decodes to `{empty: ""}`, and not to `{empty: nil}`: `parseValues` sets
the value to nil and then stores the empty text for it. -/
theorem C12_bare_key_strict_null :
    DecodeQuery (bytes "empty") (some testOptions) =
      (some [(bytes "empty", .str [])], none) ∧
    DecodeQuery (bytes "empty") (some { defaults with StrictNullHandling := true }) =
      (some [(bytes "empty", .str [])], none) ∧
    DecodeQuery (bytes "empty") (some { defaults with StrictNullHandling := true }) ≠
      (some [(bytes "empty", .null)], none) := by
  have h1 := DecodeQuery_bare_key (some testOptions) stdSplit_test rfl rfl
    (by decide : Alnum (bytes "empty")) (by decide)
  have h2 := DecodeQuery_bare_key (some { defaults with StrictNullHandling := true })
    (by constructor <;> rfl) rfl rfl (by decide : Alnum (bytes "empty")) (by decide)
  refine ⟨h1, h2, ?_⟩
  rw [h2]
  intro e
  cases e

/-! ## C18: a key with a malformed percent-escape -/

theorem escapePart_bad_key {k v : Str} (h61 : 61 ∉ k) (hbad : queryUnescape k = none)
    (hv : Alnum v) : escapePart (k ++ 61 :: v) = 61 :: v := by
  have hv37 : 37 ∉ v := fun e => by have := isAlnum_facts (hv 37 e); omega
  have hv43 : 43 ∉ v := fun e => by have := isAlnum_facts (hv 43 e); omega
  have hun : ∀ c ∈ v, isUnreserved c = true := fun c hc => by simp [isUnreserved, hv c hc]
  have hidx : index [61] (k ++ 61 :: v) = some k.length := index_single 61 k v h61
  simp only [escapePart, bytes_eq, hidx, List.take_left', List.drop_left', hbad]
  simp [queryUnescape_plain v hv37 hv43, queryEscape_unreserved v hun]

theorem parsePart_empty_key (o : ParseOptions) (cs : Str) {v : Str} (hv : Alnum v) :
    (parsePart o defaultDecoder cs (61 :: v)).1 = [] := by
  have h93 : 93 ∉ v := fun e => by have := isAlnum_facts (hv 93 e); omega
  have hpos : splitPos (61 :: v) = some 0 := by
    have := splitPos_pair [] v (by simp) h93
    simpa using this
  have hd : Decode [] = [] := by decide
  simp [parsePart, hpos, defaultDecoder, hd]

/-- A pair whose key text has a malformed percent-escape is dropped:
`EscapeQueryString` replaces the key by the empty text, and `parseValues` skips
a part with an empty key. -/
theorem DecodeQuery_bad_key_escape (opts : Option ParseOptions)
    (hs : StdSplit (normalizeParseOptions opts)) {k v : Str}
    (hk : ∀ c ∈ k, c ≠ 9 ∧ c ≠ 10 ∧ c ≠ 38 ∧ c ≠ 61) (hbad : queryUnescape k = none)
    (hv : Alnum v) :
    DecodeQuery (k ++ 61 :: v) opts = (some [], none) := by
  have hq : ∀ c ∈ k ++ 61 :: v, c ≠ 9 ∧ c ≠ 10 ∧ c ≠ 38 := by
    intro c hc
    rcases List.mem_append.1 hc with h | h
    · have := hk c h; omega
    · rcases List.mem_cons.1 h with h | h
      · omega
      · have := isAlnum_facts (hv c h); omega
  have h9 : 9 ∉ k ++ 61 :: v := fun e => by have := hq 9 e; omega
  have h10 : 10 ∉ k ++ 61 :: v := fun e => by have := hq 10 e; omega
  have h38 : 38 ∉ k ++ 61 :: v := fun e => by have := hq 38 e; omega
  have h61 : 61 ∉ k := fun e => by have := hk 61 e; omega
  have hv37 : 37 ∉ 61 :: v := fun e => by
    rcases List.mem_cons.1 e with h | h
    · omega
    · have := isAlnum_facts (hv 37 h); omega
  have hv38 : 38 ∉ 61 :: v := fun e => by
    rcases List.mem_cons.1 e with h | h
    · omega
    · have := isAlnum_facts (hv 38 h); omega
  have hesc : EscapeQueryString (k ++ 61 :: v) = 61 :: v := by
    rw [EscapeQueryString_one _ h9 h10 h38, escapePart_bad_key h61 hbad hv]
  have hbody : decodeBody (k ++ 61 :: v) opts = .ok [] := by
    rw [decodeBody_of_ok _ opts (by rw [hesc]; simp)
      (by rw [hesc]; exact parseValues_one _ hs _ hv37 hv38),
      parseValuesLoop_one]
    simp only [parsePart_empty_key _ _ hv, ne_eq, not_true_eq_false, if_false, decodeLoop]
    exact finish_nil opts
  simp [DecodeQuery, hbody]

/-- C18, the code at the failing input: under the default options the query
`a%zz=1`, whose key has a malformed percent-escape, decodes to the empty
mapping with a nil error: the pair is dropped, the key `a%zz` is not kept. -/
theorem C18_bad_escape_key_dropped :
    DecodeQuery (bytes "a%zz=1") (some defaults) = (some [], none) ∧
    DecodeQuery (bytes "a%zz=1") (some defaults) ≠
      (some [(bytes "a%zz", .str (bytes "1"))], none) := by
  have h : DecodeQuery (bytes "a%zz" ++ 61 :: bytes "1") (some defaults) = (some [], none) :=
    DecodeQuery_bad_key_escape (some defaults) stdSplit_defaults (by decide) (by decide)
      (by decide)
  have hq : bytes "a%zz" ++ 61 :: bytes "1" = bytes "a%zz=1" := by decide
  rw [hq] at h
  refine ⟨h, ?_⟩
  rw [h]
  intro e
  cases e

/-! ## C17: a delimiter other than `&` -/

/-- C17, the code at the failing input: with Delimiter `;` (the other options at
their defaults) the query `a=1;b=2` decodes to `{a: "1;b=2"}`, one pair, and not
to `{a: "1", b: "2"}`. `EscapeQueryString` splits on the constant `&` and
percent-encodes the value `1;b=2` of the one part it finds, so `parseValues`
finds no `;` to split on. With the default delimiter the same pairs are read
as two: `a=1&b=2` decodes to `{a: "1", b: "2"}`. -/
theorem C17_delimiter_not_honoured :
    DecodeQuery (bytes "a=1;b=2") (some { defaults with Delimiter := bytes ";" }) =
      (some [(bytes "a", .str (bytes "1;b=2"))], none) ∧
    DecodeQuery (bytes "a=1;b=2") (some { defaults with Delimiter := bytes ";" }) ≠
      (some [(bytes "a", .str (bytes "1")), (bytes "b", .str (bytes "2"))], none) ∧
    EscapeQueryString (bytes "a=1;b=2") = bytes "a=1%3Bb%3D2" ∧
    DecodeQuery (bytes "a=1&b=2") (some { defaults with Delimiter := bytes "&" }) =
      (some [(bytes "a", .str (bytes "1")), (bytes "b", .str (bytes "2"))], none) := by
  refine ⟨by decide!, by decide!, by decide!, by decide!⟩

/-! ## C13: an explicit index against the array limit -/

theorem atoi_itoaNat_large (n : Nat) (h : maxInt < (n : Int)) : atoi (itoaNat n) = none := by
  have hp : parseDigits 0 (itoaNat n) = some n := parseDigits_itoaAux (n + 1) n (by omega)
  have hne := itoaNat_ne_nil n
  have hd := itoaNat_digits n
  cases hs : itoaNat n with
  | nil => exact absurd hs hne
  | cons c r =>
    rw [hs] at hp hd
    have hc : isDigit c = true := hd c (by simp)
    have h43 : c ≠ 43 := by simp [isDigit] at hc; omega
    have h45 : c ≠ 45 := by simp [isDigit] at hc; omega
    have hmax : ¬ ((n : Int) ≤ maxInt) := by omega
    simp [atoi, h43, h45, hp, hmax]

/-- The numeral of an index is a mapping key when ParseArrays is off or the
index is above ArrayLimit. -/
theorem placeSegment_key (o : ParseOptions) (n : Nat) (leaf : Value)
    (h : o.ParseArrays = false ∨ o.ArrayLimit < (n : Int)) :
    placeSegment o (itoaNat n) leaf = .ok (.obj [(itoaNat n, leaf)]) := by
  have hp := itoaNat_ne_proto n
  by_cases hmax : (n : Int) ≤ maxInt
  · have hcond : ¬ (o.ParseArrays = true ∧ (n : Int) ≥ 0 ∧ (n : Int) ≤ o.ArrayLimit) := by
      rintro ⟨h1, _, h3⟩
      rcases h with h | h
      · rw [h] at h1; cases h1
      · omega
    simp only [placeSegment, atoi_itoaNat n hmax, hcond, if_false, ne_eq, hp, not_false_eq_true,
      if_true]
  · simp only [placeSegment, atoi_itoaNat_large n (by omega), ne_eq, hp, not_false_eq_true,
      if_true]

theorem parseKeys_index_key (o : ParseOptions) (hdots : o.AllowDots = false)
    (hdd : o.DecodeDotInKeys = false) (hdepth : 1 ≤ o.Depth) {a : Str} (ha : Letters a)
    (hane : a ≠ []) (n : Nat) (v : Value)
    (h : o.ParseArrays = false ∨ o.ArrayLimit < (n : Int)) :
    parseKeys (a ++ group (itoaNat n)) v o true = .ok (nest [a, itoaNat n] v) := by
  have hg := parseKeys_groups o hdots a [itoaNat n] v (ha.alnum.rootOK o hane)
    (by intro g hg; simp at hg; subst hg; exact (itoaNat_alnum n).groupName)
  have hn : [itoaNat n].drop o.Depth.toNat = [] := by
    apply List.drop_eq_nil_of_le
    simp; omega
  rw [groups_single, hn] at hg
  simp only [if_true, List.map_cons, List.map_nil] at hg
  rw [hg]
  simp only [wrapChain, wrapSegment_group o hdd _ v (Or.inl (itoaNat_ne_nil n)),
    placeSegment_key o n v h, wrapSegment_root o hdd _ ha.alnum.groupName.1 (atoi_letters ha)]
  simp [ha.ne_proto, nest]

/-- C13, as amended: for ArrayLimit L >= 0, Depth at least 1, a canonical decimal
numeral N >= 0, a non-empty ASCII-letter name `a` and an alphanumeric value v,
the query `a[N]=v` decodes (AllowNilArrayValues off, other options at their
defaults) to `{a: [v]}` when ParseArrays is on, N <= L and N is below 2^44 (the
largest length of a slice that `make` accepts), and to the mapping
`{a: {"N": v}}` when N > L or ParseArrays is off. -/
theorem C13_index_classification (L d : Int) (_hL0 : 0 ≤ L) (hd : 1 ≤ d)
    (pa : Bool) (N : Nat) (a : Str) (ha : Letters a) (hane : a ≠ []) (v : Str) (hv : Alnum v) :
    (pa = true ∧ (N : Int) ≤ L ∧ (N : Int) < maxSliceLen →
      DecodeQuery (queryOf [(a ++ group (itoaNat N), v)])
          (some { defaults with
            ArrayLimit := L, Depth := d, ParseArrays := pa, AllowNilArrayValues := false }) =
        (some [(a, .arr [.str v])], none)) ∧
    (pa = false ∨ L < (N : Int) →
      DecodeQuery (queryOf [(a ++ group (itoaNat N), v)])
          (some { defaults with
            ArrayLimit := L, Depth := d, ParseArrays := pa, AllowNilArrayValues := false }) =
        (some [(a, .obj [(itoaNat N, .str v)])], none)) := by
  constructor
  · rintro ⟨hpa, hN, hmax⟩
    subst hpa
    exact DecodeQuery_indexSlots
      { defaults with
        ArrayLimit := L, Depth := d, ParseArrays := true, AllowNilArrayValues := false }
      (by constructor <;> rfl) rfl ⟨rfl, rfl, hd, rfl, rfl⟩ rfl ha hane [(N, v)] (by simp)
      (by simp)
      (by
        intro ix hix
        simp only [List.mem_singleton] at hix
        subst hix
        exact ⟨hN, hmax⟩)
      (by simpa using hv)
  · intro h
    exact DecodeQuery_single_ok
      (some { defaults with
        ArrayLimit := L, Depth := d, ParseArrays := pa, AllowNilArrayValues := false })
      (by constructor <;> rfl) (KeyOK_field ha (itoaNat_alnum N)) hv
      (parseKeys_index_key _ rfl rfl hd ha hane N (.str v) h)

/-- C13 as amended with ArrayLimit 20: `a[3]=x` and `a[21]=x` with ParseArrays on,
`a[3]=x` with ParseArrays off. -/
theorem C13_index_classification_witness :
    DecodeQuery (bytes "a[3]=x") (some { defaults with
        ArrayLimit := 20, Depth := 5, ParseArrays := true, AllowNilArrayValues := false }) =
      (some [(bytes "a", .arr [.str (bytes "x")])], none) ∧
    DecodeQuery (bytes "a[21]=x") (some { defaults with
        ArrayLimit := 20, Depth := 5, ParseArrays := true, AllowNilArrayValues := false }) =
      (some [(bytes "a", .obj [(bytes "21", .str (bytes "x"))])], none) ∧
    DecodeQuery (bytes "a[3]=x") (some { defaults with
        ArrayLimit := 20, Depth := 5, ParseArrays := false, AllowNilArrayValues := false }) =
      (some [(bytes "a", .obj [(bytes "3", .str (bytes "x"))])], none) :=
  ⟨(C13_index_classification 20 5 (by decide) (by decide) true 3 (bytes "a")
      (by decide) (by decide) (bytes "x") (by decide)).1 ⟨rfl, by decide, by decide⟩,
   (C13_index_classification 20 5 (by decide) (by decide) true 21 (bytes "a")
      (by decide) (by decide) (bytes "x") (by decide)).2 (Or.inr (by decide)),
   (C13_index_classification 20 5 (by decide) (by decide) false 3 (bytes "a")
      (by decide) (by decide) (bytes "x") (by decide)).2 (Or.inl rfl)⟩

/-- C13 fails as stated: with ArrayLimit 2^44 = 17592186044416 and ParseArrays on,
the index N = 17592186044416 is within the limit, and `a[17592186044416]=x`
does not decode to `{a: ["x"]}`: the slice of `index+1` elements that `make` is
asked for exceeds `maxAlloc`, the panic is recovered, and `DecodeQuery` returns
a nil result with an error. The same happens with ArrayLimit and N the largest
int, 9223372036854775807, where the length `index+1` overflows. -/
theorem C13_counterexample :
    DecodeQuery (bytes "a[17592186044416]=x") (some { defaults with
        ArrayLimit := 17592186044416, Depth := 5, ParseArrays := true,
        AllowNilArrayValues := false }) = (none, some .makesliceLen) ∧
    DecodeQuery (bytes "a[17592186044416]=x") (some { defaults with
        ArrayLimit := 17592186044416, Depth := 5, ParseArrays := true,
        AllowNilArrayValues := false }) ≠ (some [(bytes "a", .arr [.str (bytes "x")])], none) ∧
    DecodeQuery (bytes "a[9223372036854775807]=x") (some { defaults with
        ArrayLimit := 9223372036854775807, Depth := 5, ParseArrays := true,
        AllowNilArrayValues := false }) = (none, some .makesliceLen) ∧
    DecodeQuery (bytes "a[9223372036854775807]=x") (some { defaults with
        ArrayLimit := 9223372036854775807, Depth := 5, ParseArrays := true,
        AllowNilArrayValues := false }) ≠ (some [(bytes "a", .arr [.str (bytes "x")])], none) := by
  refine ⟨by decide!, by decide!, by decide!, by decide!⟩

/-! ## C11: counting the segments of a query -/

theorem splitAux_ne_nil (sep : Str) : ∀ (s : Str) (skip cuts : Nat), splitAux sep skip cuts s ≠ []
  | [], _, _ => by simp [splitAux]
  | _ :: cs, skip + 1, cuts => by
    rw [splitAux]
    exact splitAux_ne_nil sep cs skip cuts
  | c :: cs, 0, cuts => by
    rw [splitAux]
    split
    · simp
    · cases h : splitAux sep 0 cuts cs with
      | nil => simp [consHead]
      | cons p ps => simp [consHead]

theorem length_consHead (c : Nat) {ps : List Str} (h : ps ≠ []) :
    (consHead c ps).length = ps.length := by
  cases ps with
  | nil => exact absurd rfl h
  | cons p ps => rfl

/-- The number of pieces of `strings.SplitN` on a one-byte separator. -/
theorem length_splitAux (c : Nat) : ∀ (s : Str) (cuts : Nat),
    (splitAux [c] 0 cuts s).length = min (s.count c) cuts + 1
  | [], cuts => by simp [splitAux]
  | x :: xs, cuts => by
    rw [splitAux]
    by_cases hx : x = c
    · subst hx
      by_cases hc : 0 < cuts
      · have hpre : ([x].isPrefixOf (x :: xs)) = true := by simp [List.isPrefixOf]
        have e : splitAux [x] ([x].length - 1) (cuts - 1) xs = splitAux [x] 0 (cuts - 1) xs := rfl
        rw [if_pos ⟨hc, hpre⟩, e, List.length_cons, length_splitAux x xs (cuts - 1),
          List.count_cons_self]
        omega
      · have h0 : cuts = 0 := by omega
        subst h0
        simp only [lt_self_iff_false, false_and, if_false,
          length_consHead x (splitAux_ne_nil [x] xs 0 0), length_splitAux x xs 0]
        simp
    · have hpre : ([c].isPrefixOf (x :: xs)) = false := by
        simp [List.isPrefixOf, Ne.symm hx]
      simp only [hpre, Bool.false_eq_true, and_false, if_false,
        length_consHead x (splitAux_ne_nil [c] xs 0 cuts), length_splitAux c xs cuts]
      rw [List.count_cons_of_ne (Ne.symm hx)]

theorem length_split (s : Str) : (split s (bytes "&")).length = s.count 38 + 1 := by
  rw [split, splitN, bytes_amp]
  simp only [show ¬ ((-1 : Int) = 0) by decide, show ((-1 : Int) < 0) by decide, if_true, if_false]
  rw [length_splitAux]
  have : s.count 38 ≤ s.length := List.count_le_length 38 s
  omega

theorem segments_eq (s : Str) : segments s = s.count 38 + 1 := length_split s

/-- The scan of `strings.ReplaceAll` leaves the number of a byte alone that occurs
neither in `old` nor in `new`. -/
theorem count_replaceAllAux (c : Nat) (old new : Str) (hne : old ≠ []) (ho : c ∉ old)
    (hn : c ∉ new) : ∀ (s : Str) (skip : Nat), (∀ x ∈ s.take skip, x ≠ c) →
    (replaceAllAux old new skip s).count c = s.count c
  | [], _, _ => by simp [replaceAllAux]
  | x :: xs, skip + 1, h => by
    have hx : x ≠ c := h x (by simp)
    rw [replaceAllAux, List.count_cons_of_ne (Ne.symm hx)]
    exact count_replaceAllAux c old new hne ho hn xs skip
      (fun y hy => h y (by simp [hy]))
  | x :: xs, 0, _ => by
    rw [replaceAllAux]
    split
    · rename_i hpre
      obtain ⟨rest, hrest⟩ := List.isPrefixOf_iff_prefix.1 hpre
      obtain ⟨o1, orest, rfl⟩ := List.exists_cons_of_ne_nil hne
      simp only [List.cons_append, List.cons.injEq] at hrest
      obtain ⟨h1, h2⟩ := hrest
      subst h1
      have hskip : ∀ y ∈ xs.take ((o1 :: orest).length - 1), y ≠ c := by
        intro y hy e
        subst e
        rw [← h2] at hy
        simp only [List.length_cons, Nat.add_sub_cancel, List.take_left'] at hy
        exact ho (List.mem_cons_of_mem _ hy)
      have ho1 : o1 ≠ c := fun e => ho (by simp [e])
      rw [List.count_append, List.count_eq_zero_of_not_mem hn, Nat.zero_add,
        count_replaceAllAux c (o1 :: orest) new hne ho hn xs _ hskip,
        List.count_cons_of_ne (Ne.symm ho1)]
    · by_cases hx : x = c
      · subst hx
        rw [List.count_cons_self, List.count_cons_self,
          count_replaceAllAux x old new hne ho hn xs 0 (by simp)]
      · rw [List.count_cons_of_ne (Ne.symm hx), List.count_cons_of_ne (Ne.symm hx),
          count_replaceAllAux c old new hne ho hn xs 0 (by simp)]

theorem count_replaceAll (c : Nat) (s old new : Str) (hne : old ≠ []) (ho : c ∉ old)
    (hn : c ∉ new) : (replaceAll s old new).count c = s.count c :=
  count_replaceAllAux c old new hne ho hn s 0 (by simp)

theorem count_join_ge (c : Nat) : ∀ (ps : List Str), ps.length ≤ (join [c] ps).count c + 1
  | [] => by simp
  | [p] => by simp
  | p :: q :: rest => by
    have ih := count_join_ge c (q :: rest)
    simp only [join, List.count_append, List.count_cons_self, List.count_nil, List.length_cons]
      at ih ⊢
    omega

theorem count_join_eq (c : Nat) : ∀ (ps : List Str), ps ≠ [] → (∀ p ∈ ps, c ∉ p) →
    (join [c] ps).count c + 1 = ps.length
  | [], h, _ => absurd rfl h
  | [p], _, h => by simp [join, List.count_eq_zero_of_not_mem (h p (by simp))]
  | p :: q :: rest, _, h => by
    have ih := count_join_eq c (q :: rest) (by simp) (fun x hx => h x (List.mem_cons_of_mem _ hx))
    simp only [join, List.count_append, List.count_cons_self, List.count_nil, List.length_cons,
      List.count_eq_zero_of_not_mem (h p (by simp))] at ih ⊢
    omega

/-- The text that `EscapeQueryString` returns has at least as many segments as
the query: a part can gain a `&`, from an escape in its key, and none is lost. -/
theorem segments_escape_ge (str : Str) : segments str ≤ segments (EscapeQueryString str) := by
  rw [segments_eq, segments_eq, EscapeQueryString, bytes_tab, bytes_nl, bytes_amp]
  have h1 : (replaceAll (replaceAll str [9] []) [10] []).count 38 = str.count 38 := by
    rw [count_replaceAll 38 _ [10] [] (by simp) (by simp) (by simp),
      count_replaceAll 38 _ [9] [] (by simp) (by simp) (by simp)]
  have h2 := count_join_ge 38
    ((split (replaceAll (replaceAll str [9] []) [10] []) [38]).map escapePart)
  have h3 := length_split (replaceAll (replaceAll str [9] []) [10] [])
  rw [bytes_amp] at h3
  simp only [List.length_map, h3, h1] at h2
  omega

theorem wrapInt_id (x : Int) (h1 : minInt ≤ x) (h2 : x ≤ maxInt) : wrapInt x = x := by
  simp only [wrapInt, minInt, maxInt] at *
  omega

theorem wrapInt_overflow : wrapInt (maxInt + 1) = minInt := by decide

/-- The number of parts that `parseValues` gets from `SplitN` with `limit+1`
exceeds the limit exactly when the text has more segments than the limit. -/
theorem length_splitN_limit (s : Str) (L : Int) (hL : 1 ≤ L) (hmax : L ≤ maxInt) :
    ((splitN s [38] (wrapInt (L + 1))).length : Int) > L ↔ L < (s.count 38 + 1 : Nat) := by
  by_cases h : L = maxInt
  · subst h
    rw [wrapInt_overflow, splitN]
    simp only [show ¬ (minInt = 0) by decide, show (minInt < 0) by decide, if_true, if_false,
      length_splitAux]
    have : s.count 38 ≤ s.length := List.count_le_length 38 s
    have e2 : min (s.count 38) s.length = s.count 38 := Nat.min_eq_left this
    constructor
    · intro hh
      rw [e2] at hh
      exact hh
    · intro hh
      rw [e2]
      exact hh
  · have hlt : L < maxInt := lt_of_le_of_ne hmax h
    have hw : wrapInt (L + 1) = L + 1 := wrapInt_id _ (by simp only [minInt]; omega) (by omega)
    rw [hw, splitN]
    have h0 : ¬ (L + 1 = 0) := by omega
    have hneg : ¬ (L + 1 < 0) := by omega
    simp only [h0, hneg, if_false, length_splitAux]
    have e : (L + 1).toNat - 1 = L.toNat := by omega
    rw [e]
    constructor
    · intro hh
      have : L.toNat ≤ s.count 38 := by
        by_contra hc
        have : min (s.count 38) L.toNat = s.count 38 := Nat.min_eq_left (by omega)
        omega
      omega
    · intro hh
      have : min (s.count 38) L.toNat = L.toNat := Nat.min_eq_right (by omega)
      omega

theorem parseValues_limit (o : ParseOptions) (L : Int) (ho : LimitOpts o L) (hL : 1 ≤ L)
    (hmax : L ≤ maxInt) (q : Str) :
    (L < (segments q : Int) → parseValues q o = .error (.parameterLimitExceeded L)) ∧
    ((segments q : Int) ≤ L → ∃ u, parseValues q o = .ok u) := by
  have hc : (replaceAll (replaceAll q (bytes "%5B") (bytes "[")) (bytes "%5D") (bytes "]")).count 38 =
      q.count 38 := by
    rw [count_replaceAll 38 _ _ _ (by decide) (by decide) (by decide),
      count_replaceAll 38 _ _ _ (by decide) (by decide) (by decide)]
  have hl0 : ¬ (L = 0) := by omega
  have hiff := length_splitN_limit
    (replaceAll (replaceAll q (bytes "%5B") (bytes "[")) (bytes "%5D") (bytes "]")) L hL hmax
  rw [hc, ← segments_eq] at hiff
  simp only [parseValues, ho.queryPrefix, ho.delimiter, ho.limit, ho.throw, Bool.false_eq_true,
    if_false, hl0, bytes_amp, true_and]
  constructor
  · intro h
    rw [if_pos (hiff.2 h)]
  · intro h
    rw [if_neg (fun hh => by have := hiff.1 hh; omega)]
    exact ⟨_, rfl⟩

theorem mem_replaceAllAux_nil (old : Str) {x : Nat} : ∀ (s : Str) (skip : Nat),
    x ∈ replaceAllAux old [] skip s → x ∈ s
  | [], _, h => by simp [replaceAllAux] at h
  | c :: cs, skip + 1, h => by
    rw [replaceAllAux] at h
    exact List.mem_cons_of_mem _ (mem_replaceAllAux_nil old cs skip h)
  | c :: cs, 0, h => by
    rw [replaceAllAux] at h
    split at h
    · simp only [List.nil_append] at h
      exact List.mem_cons_of_mem _ (mem_replaceAllAux_nil old cs _ h)
    · rcases List.mem_cons.1 h with h | h
      · simp [h]
      · exact List.mem_cons_of_mem _ (mem_replaceAllAux_nil old cs 0 h)

theorem mem_consHead {c : Nat} {p : Str} : ∀ {ps : List Str}, p ∈ consHead c ps →
    p = [c] ∨ (∃ q ∈ ps, p = c :: q) ∨ p ∈ ps
  | [], h => by
    simp only [consHead, List.mem_singleton] at h
    exact Or.inl h
  | q :: qs, h => by
    simp only [consHead, List.mem_cons] at h
    rcases h with h | h
    · exact Or.inr (Or.inl ⟨q, by simp, h⟩)
    · exact Or.inr (Or.inr (List.mem_cons_of_mem _ h))

/-- The pieces of a split hold bytes of the text only. -/
theorem mem_splitAux (sep : Str) {x : Nat} : ∀ (s : Str) (skip cuts : Nat) (p : Str),
    p ∈ splitAux sep skip cuts s → x ∈ p → x ∈ s
  | [], _, _, p, hp, hx => by
    simp only [splitAux, List.mem_singleton] at hp
    subst hp
    exact hx
  | c :: cs, skip + 1, cuts, p, hp, hx => by
    rw [splitAux] at hp
    exact List.mem_cons_of_mem _ (mem_splitAux sep cs skip cuts p hp hx)
  | c :: cs, 0, cuts, p, hp, hx => by
    rw [splitAux] at hp
    split at hp
    · rcases List.mem_cons.1 hp with h | h
      · subst h
        simp at hx
      · exact List.mem_cons_of_mem _ (mem_splitAux sep cs _ _ p h hx)
    · rcases mem_consHead hp with h | ⟨q, hq, h⟩ | h
      · subst h
        have hxc : x = c := by simpa using hx
        simp [hxc]
      · subst h
        rcases List.mem_cons.1 hx with h | h
        · simp [h]
        · exact List.mem_cons_of_mem _ (mem_splitAux sep cs 0 cuts q hq h)
      · exact List.mem_cons_of_mem _ (mem_splitAux sep cs 0 cuts p h hx)

/-- The pieces of a split with enough cuts are free of the separator byte. -/
theorem not_mem_splitAux (c : Nat) : ∀ (s : Str) (cuts : Nat), s.count c ≤ cuts →
    ∀ p ∈ splitAux [c] 0 cuts s, c ∉ p
  | [], _, _, p, hp => by
    simp only [splitAux, List.mem_singleton] at hp
    subst hp
    simp
  | x :: xs, cuts, hc, p, hp => by
    rw [splitAux] at hp
    by_cases hx : x = c
    · subst hx
      rw [List.count_cons_self] at hc
      have hpre : ([x].isPrefixOf (x :: xs)) = true := by simp [List.isPrefixOf]
      have e : splitAux [x] ([x].length - 1) (cuts - 1) xs = splitAux [x] 0 (cuts - 1) xs := rfl
      rw [if_pos ⟨by omega, hpre⟩, e] at hp
      rcases List.mem_cons.1 hp with h | h
      · subst h
        simp
      · exact not_mem_splitAux x xs (cuts - 1) (by omega) p h
    · rw [List.count_cons_of_ne (Ne.symm hx)] at hc
      have hpre : ([c].isPrefixOf (x :: xs)) = false := by
        simp [List.isPrefixOf, Ne.symm hx]
      simp only [hpre, Bool.false_eq_true, and_false, if_false] at hp
      rcases mem_consHead hp with h | ⟨q, hq, h⟩ | h
      · subst h
        simpa using Ne.symm hx
      · subst h
        intro hm
        rcases List.mem_cons.1 hm with h | h
        · exact hx h.symm
        · exact not_mem_splitAux c xs cuts hc q hq h
      · exact not_mem_splitAux c xs cuts hc p h

theorem unescapeAux_no_pct : ∀ s : Str, 37 ∉ s →
    unescapeAux 0 s = some (s.map (fun c => if c = 43 then 32 else c))
  | [], _ => rfl
  | c :: cs, h => by
    have hc : c ≠ 37 := fun e => h (by simp [e])
    have ih := unescapeAux_no_pct cs (fun e => h (List.mem_cons_of_mem _ e))
    by_cases h43 : c = 43
    · simp [unescapeAux, hc, h43, ih]
    · simp [unescapeAux, hc, h43, ih]

theorem upperhex_ne_amp (n : Nat) (h : n < 16) : upperhex n ≠ 38 := by
  unfold upperhex
  split <;> omega

theorem not_mem_queryEscape : ∀ s : Str, 38 ∉ queryEscape s
  | [] => by simp [queryEscape]
  | c :: cs => by
    have ih := not_mem_queryEscape cs
    rw [queryEscape]
    split
    · rename_i hu
      intro hm
      rcases List.mem_cons.1 hm with h | h
      · subst h
        simp [isUnreserved, isAlnum, isLetter, isDigit] at hu
      · exact ih h
    · split
      · intro hm
        rcases List.mem_cons.1 hm with h | h
        · omega
        · exact ih h
      · intro hm
        simp only [List.mem_cons] at hm
        rcases hm with h | h | h | h
        · omega
        · exact upperhex_ne_amp _ (Nat.mod_lt _ (by omega)) h.symm
        · exact upperhex_ne_amp _ (Nat.mod_lt _ (by omega)) h.symm
        · exact ih h

theorem escapePart_no_amp {p : Str} (h37 : 37 ∉ p) (h38 : 38 ∉ p) : 38 ∉ escapePart p := by
  unfold escapePart
  split
  · rename_i idx _
    have hk37 : 37 ∉ p.take idx := fun e => h37 (List.mem_of_mem_take e)
    have hk38 : 38 ∉ p.take idx := fun e => h38 (List.mem_of_mem_take e)
    simp only [unescapeAux_no_pct _ hk37, queryUnescape, Option.getD_some, bytes_eq]
    intro hm
    simp only [List.mem_append, List.mem_map, List.mem_singleton] at hm
    rcases hm with (⟨c, hc, hcm⟩ | h) | h
    · by_cases h43 : c = 43
      · simp [h43] at hcm
      · simp only [h43, if_false] at hcm
        subst hcm
        exact hk38 hc
    · omega
    · exact not_mem_queryEscape _ h
  · exact h38

/-- A query without `%` keeps its number of segments under `EscapeQueryString`. -/
theorem segments_escape_eq (str : Str) (h37 : 37 ∉ str) :
    segments (EscapeQueryString str) = segments str := by
  have hclean : ∀ x, x ∈ replaceAll (replaceAll str [9] []) [10] [] → x ∈ str := fun x hx =>
    mem_replaceAllAux_nil _ _ _ (mem_replaceAllAux_nil _ _ _ hx)
  have h1 : (replaceAll (replaceAll str [9] []) [10] []).count 38 = str.count 38 := by
    rw [count_replaceAll 38 _ [10] [] (by simp) (by simp) (by simp),
      count_replaceAll 38 _ [9] [] (by simp) (by simp) (by simp)]
  have h3 := length_split (replaceAll (replaceAll str [9] []) [10] [])
  rw [bytes_amp] at h3
  have hparts : ∀ p ∈ split (replaceAll (replaceAll str [9] []) [10] []) [38],
      37 ∉ p ∧ 38 ∉ p := by
    intro p hp
    rw [split, splitN] at hp
    simp only [show ¬ ((-1 : Int) = 0) by decide, show ((-1 : Int) < 0) by decide, if_true,
      if_false] at hp
    exact ⟨fun e => h37 (hclean 37 (mem_splitAux [38] _ 0 _ p hp e)),
      not_mem_splitAux 38 _ _ (List.count_le_length 38 _) p hp⟩
  have h2 := count_join_eq 38
    ((split (replaceAll (replaceAll str [9] []) [10] []) [38]).map escapePart)
    (by
      intro e
      have := congrArg List.length e
      simp only [List.length_map, h3, List.length_nil] at this
      omega)
    (by
      intro q hq
      obtain ⟨p, hp, rfl⟩ := List.mem_map.1 hq
      exact escapePart_no_amp (hparts p hp).1 (hparts p hp).2)
  rw [segments_eq, segments_eq, EscapeQueryString, bytes_tab, bytes_nl, bytes_amp]
  simp only [List.length_map, h3, h1] at h2
  omega

/-! ## C11: the limit on the escaped text -/

theorem DecodeQuery_limit (o : ParseOptions) (L : Int)
    (ho : LimitOpts (normalizeParseOptions (some o)) L)
    (hs : (normalizeParseOptions (some o)).StrictDepth = false)
    (hA : (normalizeParseOptions (some o)).ArrayLimit < maxSliceLen)
    (hL : 1 ≤ L) (hmax : L ≤ maxInt) (str : Str) :
    (L < (segments (EscapeQueryString str) : Int) →
      DecodeQuery str (some o) = (none, some (.parameterLimitExceeded L))) ∧
    ((segments (EscapeQueryString str) : Int) ≤ L →
      ∃ m, DecodeQuery str (some o) = (some m, none)) := by
  have hpv := parseValues_limit _ L ho hL hmax (EscapeQueryString str)
  constructor
  · intro h
    have hne : EscapeQueryString str ≠ [] := by
      intro e
      rw [e] at h
      have : segments [] = 1 := rfl
      rw [this] at h
      omega
    simp [DecodeQuery, decodeBody_of_error str _ hne (hpv.1 h)]
  · intro h
    by_cases hne : EscapeQueryString str = []
    · exact ⟨[], by simp [DecodeQuery, decodeBody_nil str _ hne]⟩
    · obtain ⟨u, hu⟩ := hpv.2 h
      obtain ⟨m, hm⟩ := finish_decodeLoop_ok o hs hA u
      exact ⟨m, by simp [DecodeQuery, decodeBody_of_ok str _ hne hu, hm]⟩

/-- The parameter limit on a query string: for every ParameterLimit L >= 1 (an
int), `DecodeQuery` with ThrowOnLimitExceeded on, StrictDepth off and Delimiter
`&` (other options at their defaults) returns the error
ParameterLimitExceeded(L) and a nil result when the query string has more than
L segments on `&`; it returns a mapping and a nil error when the text that
`parseValues` splits, `EscapeQueryString(query)`, has at most L segments. That
text never has fewer segments than the query, and has as many when the query
holds no `%`, so the limit is the limit on the segments of every query string
without `%`. -/
theorem DecodeQuery_parameter_limit (L : Int) (hL : 1 ≤ L) (hmax : L ≤ maxInt) (str : Str) :
    (L < (segments str : Int) →
      DecodeQuery str (some { defaults with
          ParameterLimit := L, ThrowOnLimitExceeded := true, StrictDepth := false,
          Delimiter := bytes "&" }) = (none, some (.parameterLimitExceeded L))) ∧
    ((segments (EscapeQueryString str) : Int) ≤ L →
      ∃ m, DecodeQuery str (some { defaults with
          ParameterLimit := L, ThrowOnLimitExceeded := true, StrictDepth := false,
          Delimiter := bytes "&" }) = (some m, none)) ∧
    segments str ≤ segments (EscapeQueryString str) ∧
    (37 ∉ str → segments (EscapeQueryString str) = segments str) := by
  have h := DecodeQuery_limit { defaults with
      ParameterLimit := L, ThrowOnLimitExceeded := true, StrictDepth := false,
      Delimiter := bytes "&" } L (by constructor <;> rfl) rfl
    (by show (20 : Int) < maxSliceLen; decide) hL hmax str
  have hge := segments_escape_ge str
  refine ⟨fun hlt => h.1 (by omega), h.2, hge, segments_escape_eq str⟩

/-- With ParameterLimit 2 three pairs raise, two pairs do not. -/
theorem DecodeQuery_parameter_limit_pairs :
    DecodeQuery (bytes "a=1&b=2&c=3") (some { defaults with
        ParameterLimit := 2, ThrowOnLimitExceeded := true, StrictDepth := false,
        Delimiter := bytes "&" }) = (none, some (.parameterLimitExceeded 2)) ∧
    ∃ m, DecodeQuery (bytes "a=1&b=2") (some { defaults with
        ParameterLimit := 2, ThrowOnLimitExceeded := true, StrictDepth := false,
        Delimiter := bytes "&" }) = (some m, none) :=
  ⟨(DecodeQuery_parameter_limit 2 (by decide) (by decide) (bytes "a=1&b=2&c=3")).1 (by decide),
   (DecodeQuery_parameter_limit 2 (by decide) (by decide) (bytes "a=1&b=2")).2.1 (by decide)⟩

/-- C11, the code at the failing input: the query `a%26b=1` splits on `&` into
one segment, which is within ParameterLimit 1, yet `DecodeQuery` with
ThrowOnLimitExceeded on returns a nil result and the parameter limit error,
where the claim says a nil error. `EscapeQueryString` decodes the key to `a&b`
and does not escape it again, so `parseValues` finds two parts. An escaped `&`
in a value is escaped again by the same loop and does not count: `a=1%26b`
decodes under the same options to `{a: "1&b"}`. -/
theorem C11_escaped_amp_in_key_counts :
    segments (bytes "a%26b=1") = 1 ∧
    EscapeQueryString (bytes "a%26b=1") = bytes "a&b=1" ∧
    DecodeQuery (bytes "a%26b=1") (some { defaults with
        ParameterLimit := 1, ThrowOnLimitExceeded := true, StrictDepth := false,
        Delimiter := bytes "&" }) = (none, some (.parameterLimitExceeded 1)) ∧
    segments (bytes "a=1%26b") = 1 ∧
    EscapeQueryString (bytes "a=1%26b") = bytes "a=1%26b" ∧
    DecodeQuery (bytes "a=1%26b") (some { defaults with
        ParameterLimit := 1, ThrowOnLimitExceeded := true, StrictDepth := false,
        Delimiter := bytes "&" }) = (some [(bytes "a", .str (bytes "1&b"))], none) := by
  refine ⟨by decide, by decide, by decide!, by decide, by decide, by decide!⟩

/-! ## C16: the option AllowDots is read by `parseKeys` only -/

theorem parseKeysLoop_dots (o : ParseOptions) (b : Bool) : ∀ (n : Nat) (key : Str) (keys : List Str),
    parseKeysLoop { o with AllowDots := b } n key keys = parseKeysLoop o n key keys
  | 0, _, _ => rfl
  | n + 1, key, keys => by
    simp only [parseKeysLoop]
    cases findBracket key with
    | none => rfl
    | some seg =>
      simp only
      split
      · rfl
      · exact parseKeysLoop_dots o b n _ _

theorem wrapSegment_dots (o : ParseOptions) (b : Bool) (root : Str) (leaf : Value) :
    wrapSegment { o with AllowDots := b } root leaf = wrapSegment o root leaf := rfl

theorem wrapChain_dots (o : ParseOptions) (b : Bool) : ∀ (chain : List Str) (leaf : Value),
    wrapChain { o with AllowDots := b } chain leaf = wrapChain o chain leaf
  | [], _ => rfl
  | root :: rest, leaf => by
    simp only [wrapChain, wrapChain_dots o b rest leaf, wrapSegment_dots]

theorem parseObject_dots (o : ParseOptions) (b : Bool) (chain : List Str) (val : Value)
    (p : Bool) : parseObject chain val { o with AllowDots := b } p = parseObject chain val o p := by
  have h : ∀ (s : Str) (n : Int),
      parseArrayValue s { o with AllowDots := b } n = parseArrayValue s o n := fun _ _ => rfl
  simp only [parseObject, wrapChain_dots, h]

theorem dotsAux_eq_nil : ∀ (s : Str), dotsAux false s = [] ↔ s = []
  | [] => by simp [dotsAux]
  | c :: cs => by
    simp only [dotsAux, Bool.false_eq_true, false_and, if_false, List.nil_append]
    split <;> simp

/-- The core of C16: `parseKeys` with AllowDots on is `parseKeys` with AllowDots
off on the key rewritten by `dotsToBrackets`, for every key, value and flag. -/
theorem parseKeys_dots (o : ParseOptions) (k : Str) (val : Value) (p : Bool) :
    parseKeys k val { o with AllowDots := true } p =
      parseKeys (dotsToBrackets k) val { o with AllowDots := false } p := by
  have hnil : (dotsToBrackets k = []) = (k = []) := propext (dotsAux_eq_nil k)
  simp only [parseKeys, parseKeysLoop_dots, parseObject_dots, hnil, if_true, Bool.false_eq_true,
    if_false]

mutual
theorem Merge_dots (o : ParseOptions) (b : Bool) : ∀ (target source : Value),
    Merge { o with AllowDots := b } target source = Merge o target source
  | target, .null => by simp only [Merge]
  | target, .str s => by cases target <;> simp only [Merge]
  | target, .bool c => by cases target <;> simp only [Merge]
  | target, .strs xs => by cases target <;> simp only [Merge]
  | target, .iobj kvs => by cases target <;> simp only [Merge]
  | target, .arr src => by
    cases target <;> simp only [Merge, mergeItems_dots o b]
  | target, .obj s => by
    cases target <;> simp only [Merge, mergeEntries_dots o b]
theorem mergeEntries_dots (o : ParseOptions) (b : Bool) : ∀ (mt s : Obj),
    mergeEntries { o with AllowDots := b } mt s = mergeEntries o mt s
  | mt, [] => by simp only [mergeEntries]
  | mt, (key, value) :: rest => by
    rw [mergeEntries, mergeEntries]
    split
    · exact mergeEntries_dots o b mt rest
    · split
      · rw [Merge_dots o b _ value]
        exact mergeEntries_dots o b _ rest
      · exact mergeEntries_dots o b _ rest
theorem mergeItems_dots (o : ParseOptions) (b : Bool) : ∀ (t : List Value) (i : Nat)
    (src : List Value), mergeItems { o with AllowDots := b } t i src = mergeItems o t i src
  | t, i, [] => by simp only [mergeItems]
  | t, i, item :: rest => by
    rw [mergeItems, mergeItems]
    split
    · exact mergeItems_dots o b t (i + 1) rest
    · split
      · split
        · rw [Merge_dots o b _ item]
          exact mergeItems_dots o b _ (i + 1) rest
        · exact mergeItems_dots o b _ (i + 1) rest
      · exact mergeItems_dots o b _ (i + 1) rest
end

mutual
theorem processNested_dots (o : ParseOptions) (b : Bool) : ∀ (v : Value),
    processNestedStructures (some { o with AllowDots := b }) v =
      processNestedStructures (some o) v
  | .null => by simp only [processNestedStructures]
  | .str _ => by simp only [processNestedStructures]
  | .bool _ => by simp only [processNestedStructures]
  | .strs _ => by simp only [processNestedStructures]
  | .iobj _ => by simp only [processNestedStructures]
  | .obj m => by simp only [processNestedStructures, processEntries_dots o b m]
  | .arr xs => by simp only [processNestedStructures, processItems_dots o b xs]
theorem processEntries_dots (o : ParseOptions) (b : Bool) : ∀ (m : Obj),
    processEntries (some { o with AllowDots := b }) m = processEntries (some o) m
  | [] => by simp only [processEntries]
  | (k, v) :: rest => by
    simp only [processEntries, processNested_dots o b v, processEntries_dots o b rest]
theorem processItems_dots (o : ParseOptions) (b : Bool) : ∀ (xs : List Value),
    processItems (some { o with AllowDots := b }) xs = processItems (some o) xs
  | [] => by simp only [processItems]
  | v :: rest => by
    have ih := processItems_dots o b rest
    have ihv := processNested_dots o b v
    cases v <;> simp only [processItems, ih, ihv]
end

theorem finish_dots (o : ParseOptions) (b : Bool) (r : Except DecodeError Obj) :
    finish (some { o with AllowDots := b }) r = finish (some o) r := by
  cases r with
  | error e => rfl
  | ok obj =>
    simp only [finish, PostProcessParsedObject, processEntries_dots]

theorem foldPairs_dots (o : ParseOptions) : ∀ (pairs : List (Str × Str)) (acc : Obj),
    foldPairs { o with AllowDots := true } acc pairs =
      foldPairs { o with AllowDots := false } acc
        (pairs.map (fun kv => (dotsToBrackets kv.1, kv.2)))
  | [], _ => rfl
  | (k, v) :: rest, acc => by
    simp only [List.map_cons, foldPairs, parseKeys_dots, Merge_dots]
    cases parseKeys (dotsToBrackets k) (.str v) { o with AllowDots := false } true with
    | error e => rfl
    | ok newObj =>
      simp only
      cases Merge o (.obj acc) newObj <;> simp only [foldPairs_dots o rest]

theorem mem_dotsAux {x : Nat} : ∀ (s : Str) (b : Bool), x ∈ dotsAux b s →
    x ∈ s ∨ x = 91 ∨ x = 93
  | [], b, h => by
    cases b <;> simp [dotsAux] at h
    exact Or.inr (Or.inr h)
  | c :: cs, b, h => by
    have ih := fun (b2 : Bool) (hx : x ∈ dotsAux b2 cs) => mem_dotsAux cs b2 hx
    have lift : x ∈ cs ∨ x = 91 ∨ x = 93 → x ∈ c :: cs ∨ x = 91 ∨ x = 93 := by
      rintro (h | h | h)
      · exact Or.inl (List.mem_cons_of_mem _ h)
      · exact Or.inr (Or.inl h)
      · exact Or.inr (Or.inr h)
    rw [dotsAux] at h
    split at h
    · rcases List.mem_cons.1 h with h | h
      · exact Or.inl (by simp [h])
      · exact lift (ih _ h)
    · split at h
      · rcases List.mem_append.1 h with h | h
        · right; right
          cases b <;> simp at h
          exact h
        · rcases List.mem_cons.1 h with h | h
          · exact Or.inr (Or.inl h)
          · exact lift (ih _ h)
      · rcases List.mem_append.1 h with h | h
        · right; right
          cases b <;> simp at h
          exact h
        · rcases List.mem_cons.1 h with h | h
          · exact Or.inl (by simp [h])
          · exact lift (ih _ h)

theorem KeyOK_dots {k : Str} (hk : KeyOK k) : KeyOK (dotsToBrackets k) := by
  refine ⟨fun e => hk.1 ((dotsAux_eq_nil k).1 e), ?_⟩
  intro c hc
  rcases mem_dotsAux k false hc with h | h | h
  · exact hk.2 c h
  · omega
  · omega

/-- On a key without `[` the rewriting of the source is the rewriting that the
specification describes. -/
theorem specDotsAux_eq : ∀ (s : Str) (inRun : Bool), 91 ∉ s →
    specDotsAux false inRun s = dotsAux inRun s
  | [], _, _ => rfl
  | c :: cs, inRun, h => by
    have hc : c ≠ 91 := fun e => h (by simp [e])
    have ih := fun b => specDotsAux_eq cs b (fun e => h (List.mem_cons_of_mem _ e))
    simp only [specDotsAux, dotsAux, Bool.false_eq_true, if_false, hc, decide_False, ih]

theorem StdSplit.dots {o : ParseOptions} (hs : StdSplit (normalizeParseOptions (some o)))
    (b : Bool) : StdSplit (normalizeParseOptions (some { o with AllowDots := b })) :=
  ⟨hs.delimiter, hs.decoder, hs.sentinel, hs.queryPrefix, hs.entities, hs.limit⟩

theorem DecodeQuery_dots (o : ParseOptions) (hs : StdSplit (normalizeParseOptions (some o)))
    {k v : Str} (hk : KeyOK k) (hv : Alnum v) :
    DecodeQuery (queryOf [(k, v)]) (some { o with AllowDots := true }) =
      DecodeQuery (queryOf [(dotsToBrackets k, v)]) (some { o with AllowDots := false }) := by
  have h1 := decodeBody_queryOf (some { o with AllowDots := true }) (hs.dots true)
    (by simp : [(k, v)] ≠ []) (by simp) (Or.inr (by simp))
    (by intro kv hkv; simp only [List.mem_singleton] at hkv; subst hkv; exact hk)
    (by intro kv hkv; simp only [List.mem_singleton] at hkv; subst hkv; exact hv)
  have h2 := decodeBody_queryOf (some { o with AllowDots := false }) (hs.dots false)
    (by simp : [(dotsToBrackets k, v)] ≠ []) (by simp) (Or.inr (by simp))
    (by intro kv hkv; simp only [List.mem_singleton] at hkv; subst hkv; exact KeyOK_dots hk)
    (by intro kv hkv; simp only [List.mem_singleton] at hkv; subst hkv; exact hv)
  have hf := foldPairs_dots (normalizeParseOptions (some o)) [(k, v)] []
  simp only [List.map_cons, List.map_nil] at hf
  have hL : decodeBody (queryOf [(k, v)]) (some { o with AllowDots := true }) =
      finish (some o) (foldPairs { normalizeParseOptions (some o) with AllowDots := false } []
        [(dotsToBrackets k, v)]) := by
    rw [h1, finish_dots, ← hf]
    rfl
  have hR : decodeBody (queryOf [(dotsToBrackets k, v)]) (some { o with AllowDots := false }) =
      finish (some o) (foldPairs { normalizeParseOptions (some o) with AllowDots := false } []
        [(dotsToBrackets k, v)]) := by
    rw [h2, finish_dots]
    rfl
  rw [DecodeQuery, DecodeQuery, hL, hR]

/-- C16, as amended: for every key (free of `%`, `&`, `+`, `=`, tab and line feed)
and alphanumeric value, `DecodeQuery` with AllowDots on gives the same result as
`DecodeQuery` with AllowDots off on the key in which every `.token` (a dot
followed by a non-empty run of bytes other than `.` and `[`) has been replaced
by `[token]`, wherever the dot stands, inside bracket groups too; `parseKeys`
does so for every key and value. On a key without `[` this is the rewriting of
the specification, which leaves bracket groups untouched. So `a.b=x` decodes as
`a[b]=x` to `{a: {b: "x"}}`, and `a[b.c]=x` decodes as `a[b[c]]=x` to
`{"a[b": {c: "x"}}`. -/
theorem C16_dot_rewriting (o : ParseOptions) (hs : StdSplit (normalizeParseOptions (some o)))
    (k v : Str) (hk : KeyOK k) (hv : Alnum v) :
    DecodeQuery (queryOf [(k, v)]) (some { o with AllowDots := true }) =
      DecodeQuery (queryOf [(dotsToBrackets k, v)]) (some { o with AllowDots := false }) ∧
    (∀ (val : Value) (p : Bool), parseKeys k val { o with AllowDots := true } p =
      parseKeys (dotsToBrackets k) val { o with AllowDots := false } p) ∧
    (91 ∉ k → dotsToBrackets k = specDotsToBrackets k) ∧
    DecodeQuery (bytes "a.b=x") (some { defaults with AllowDots := true }) =
      (some [(bytes "a", .obj [(bytes "b", .str (bytes "x"))])], none) ∧
    DecodeQuery (bytes "a[b.c]=x") (some { defaults with AllowDots := true }) =
      (some [(bytes "a[b", .obj [(bytes "c", .str (bytes "x"))])], none) :=
  ⟨DecodeQuery_dots o hs hk hv, fun val p => parseKeys_dots o k val p,
    fun h => (specDotsAux_eq k false h).symm, by decide!, by decide!⟩

/-- C16 as amended at the keys `a.b` and `a[b.c]` under the default options. -/
theorem C16_dot_rewriting_witness :
    DecodeQuery (queryOf [(bytes "a.b", bytes "x")]) (some { defaults with AllowDots := true }) =
      DecodeQuery (queryOf [(dotsToBrackets (bytes "a.b"), bytes "x")])
        (some { defaults with AllowDots := false }) ∧
    DecodeQuery (queryOf [(bytes "a[b.c]", bytes "x")])
        (some { defaults with AllowDots := true }) =
      DecodeQuery (queryOf [(dotsToBrackets (bytes "a[b.c]"), bytes "x")])
        (some { defaults with AllowDots := false }) ∧
    dotsToBrackets (bytes "a.b") = bytes "a[b]" ∧
    dotsToBrackets (bytes "a[b.c]") = bytes "a[b[c]]" :=
  ⟨(C16_dot_rewriting defaults stdSplit_defaults (bytes "a.b") (bytes "x")
      ⟨by decide, by decide⟩ (by decide)).1,
   (C16_dot_rewriting defaults stdSplit_defaults (bytes "a[b.c]") (bytes "x")
      ⟨by decide, by decide⟩ (by decide)).1,
   by decide, by decide⟩

/-- C16 fails as stated: the rewriting of the source does not leave the dots
inside a bracket group alone. The key `a[b.c]` is rewritten to `a[b[c]]`, not
kept as the specification has it, and with AllowDots on `a[b.c]=x` decodes to
`{"a[b": {c: "x"}}`, whereas with AllowDots off the key of the specification,
`a[b.c]`, decodes to `{a: {"b.c": "x"}}`. -/
theorem C16_counterexample :
    specDotsToBrackets (bytes "a[b.c]") = bytes "a[b.c]" ∧
    dotsToBrackets (bytes "a[b.c]") = bytes "a[b[c]]" ∧
    DecodeQuery (bytes "a[b.c]=x") (some { defaults with AllowDots := true }) =
      (some [(bytes "a[b", .obj [(bytes "c", .str (bytes "x"))])], none) ∧
    DecodeQuery (bytes "a[b.c]=x") (some { defaults with AllowDots := false }) =
      (some [(bytes "a", .obj [(bytes "b.c", .str (bytes "x"))])], none) ∧
    DecodeQuery (bytes "a[b.c]=x") (some { defaults with AllowDots := true }) ≠
      DecodeQuery (bytes "a[b.c]=x") (some { defaults with AllowDots := false }) :=
  ⟨by decide, by decide, by decide!, by decide!, by decide!⟩

/-! ## C15: the shape of the result -/

theorem rawEntries_iff (nils : Bool) : ∀ (m : Obj),
    RawEntries nils m ↔ ∀ kv ∈ m, (kv.2.isNull = true → nils = true) ∧ Raw nils kv.2
  | [] => by simp [RawEntries]
  | (k, v) :: rest => by simp [RawEntries, rawEntries_iff nils rest, and_assoc]

theorem rawItems_iff (nils : Bool) : ∀ (xs : List Value), RawItems nils xs ↔ ∀ v ∈ xs, Raw nils v
  | [] => by simp [RawItems]
  | v :: rest => by simp [RawItems, rawItems_iff nils rest]

theorem rawEntries_mapSet {nils : Bool} : ∀ {m : Obj} {k : Str} {v : Value}, RawEntries nils m →
    (v.isNull = true → nils = true) → Raw nils v → RawEntries nils (mapSet m k v)
  | [], k, v, _, h1, h2 => by
    simp only [mapSet, RawEntries]
    exact ⟨h1, h2, trivial⟩
  | (k2, v2) :: rest, k, v, hm, h1, h2 => by
    simp only [RawEntries] at hm
    rw [mapSet]
    split
    · exact ⟨h1, h2, hm.2.2⟩
    · exact ⟨hm.1, hm.2.1, rawEntries_mapSet hm.2.2 h1 h2⟩

theorem rawItems_append {nils : Bool} {xs ys : List Value} (h1 : RawItems nils xs)
    (h2 : RawItems nils ys) : RawItems nils (xs ++ ys) := by
  rw [rawItems_iff] at h1 h2 ⊢
  intro v hv
  rcases List.mem_append.1 hv with h | h
  · exact h1 v h
  · exact h2 v h

theorem rawItems_set {nils : Bool} {xs : List Value} {i : Nat} {v : Value}
    (h : RawItems nils xs) (hv : Raw nils v) : RawItems nils (xs.set i v) := by
  rw [rawItems_iff] at h ⊢
  intro w hw
  rcases List.mem_or_eq_of_mem_set hw with h2 | h2
  · exact h w h2
  · rw [h2]; exact hv

/-- The entries that `ArrayToObject` makes of the elements of a sequence are
not nil. -/
theorem raw_arrayToObject (nils : Bool) : ∀ (t : List Value) (i : Nat), RawItems nils t →
    ∀ kv ∈ arrayToObjectFrom i t, kv.2.isNull = false ∧ Raw nils kv.2
  | [], _, _, kv, h => by simp [arrayToObjectFrom] at h
  | v :: rest, i, ht, kv, h => by
    simp only [RawItems] at ht
    have ih := raw_arrayToObject nils rest (i + 1) ht.2 kv
    cases v with
    | null => exact ih (by simpa [arrayToObjectFrom] using h)
    | bool b =>
      simp only [arrayToObjectFrom, List.mem_cons] at h
      rcases h with h | h
      · subst h
        simp [Value.isNull, Raw]
      · exact ih h
    | str s =>
      simp only [arrayToObjectFrom, List.mem_cons] at h
      rcases h with h | h
      · subst h
        simp [Value.isNull, Raw]
      · exact ih h
    | strs xs => exact absurd ht.1 (by simp [Raw])
    | iobj kvs => exact absurd ht.1 (by simp [Raw])
    | arr xs =>
      simp only [arrayToObjectFrom, List.mem_cons] at h
      rcases h with h | h
      · subst h
        exact ⟨rfl, ht.1⟩
      · exact ih h
    | obj m =>
      simp only [arrayToObjectFrom, List.mem_cons] at h
      rcases h with h | h
      · subst h
        exact ⟨rfl, ht.1⟩
      · exact ih h

theorem rawEntries_stringify_aux (nils : Bool) : ∀ (mt : List (Nat × Value)) (acc : Obj),
    (∀ kv ∈ mt, kv.2.isNull = false ∧ Raw nils kv.2) → RawEntries nils acc →
    RawEntries nils (mt.foldl (fun result kv => mapSet result (itoaNat kv.1) kv.2) acc)
  | [], acc, _, h => h
  | (k, v) :: rest, acc, hm, h => by
    have hv := hm (k, v) (by simp)
    exact rawEntries_stringify_aux nils rest _ (fun kv hkv => hm kv (List.mem_cons_of_mem _ hkv))
      (rawEntries_mapSet h (fun e => by simp [hv.1] at e) hv.2)

theorem raw_arrayToObject_stringify {nils : Bool} {t : List Value} (p : Bool)
    (h : RawItems nils t) : RawEntries nils (stringifyKeys (ArrayToObject t p)) :=
  rawEntries_stringify_aux nils _ [] (raw_arrayToObject nils t 0 h) (by simp [RawEntries])

/-- A merge with a source that is not nil is not nil. -/
theorem Merge_not_null (o : ParseOptions) (t s : Value) (hs : s.isNull = false) :
    (Merge o t s).isNull = false := by
  cases s with
  | null => simp [Value.isNull] at hs
  | str x =>
    cases t <;> simp only [Merge] <;> first
      | rfl
      | (split <;> rfl)
  | bool b =>
    cases t <;> simp only [Merge] <;> first
      | rfl
      | (split <;> rfl)
  | strs xs => cases t <;> simp only [Merge] <;> rfl
  | iobj kvs => cases t <;> simp only [Merge] <;> rfl
  | arr xs => cases t <;> simp only [Merge] <;> rfl
  | obj m => cases t <;> simp only [Merge] <;> rfl

mutual
/-- `Merge` keeps the values of the loop of `DecodeQuery` in their raw form. -/
theorem Merge_raw (o : ParseOptions) (nils : Bool) : ∀ (target source : Value),
    Raw nils target → Raw nils source → Raw nils (Merge o target source)
  | target, .null, ht, _ => by simpa [Merge] using ht
  | target, .str s, ht, _ => by
    cases target with
    | arr t =>
      simp only [Merge, Raw] at ht ⊢
      exact rawItems_append ht (by simp [RawItems, Raw])
    | obj t =>
      simp only [Merge, Raw] at ht ⊢
      split
      · simp only [Raw]
        exact rawEntries_mapSet ht (by simp [Value.isNull]) (by simp [Raw])
      · simpa [Raw] using ht
    | null => simp [Merge, Raw, RawItems]
    | str _ => simp [Merge, Raw, RawItems]
    | bool _ => simp [Merge, Raw, RawItems]
    | strs _ => exact absurd ht (by simp [Raw])
    | iobj _ => exact absurd ht (by simp [Raw])
  | target, .bool b, ht, _ => by
    cases target with
    | arr t =>
      simp only [Merge, Raw] at ht ⊢
      exact rawItems_append ht (by simp [RawItems, Raw])
    | obj t =>
      simp only [Merge, Raw] at ht ⊢
      split
      · simp only [Raw]
        exact rawEntries_mapSet ht (by simp [Value.isNull]) (by simp [Raw])
      · simpa [Raw] using ht
    | null => simp [Merge, Raw, RawItems]
    | str _ => simp [Merge, Raw, RawItems]
    | bool _ => simp [Merge, Raw, RawItems]
    | strs _ => exact absurd ht (by simp [Raw])
    | iobj _ => exact absurd ht (by simp [Raw])
  | _, .strs _, _, hs => absurd hs (by simp [Raw])
  | _, .iobj _, _, hs => absurd hs (by simp [Raw])
  | target, .arr src, ht, hs => by
    cases target with
    | arr t =>
      simp only [Merge, Raw] at ht hs ⊢
      exact mergeItems_raw o nils t 0 src ht hs
    | obj t => simpa [Merge] using ht
    | null => simpa [Merge, Raw, RawItems] using hs
    | str _ => simpa [Merge, Raw, RawItems] using hs
    | bool _ => simpa [Merge, Raw, RawItems] using hs
    | strs _ => exact absurd ht (by simp [Raw])
    | iobj _ => exact absurd ht (by simp [Raw])
  | target, .obj s, ht, hs => by
    cases target with
    | arr t =>
      simp only [Merge, Raw] at ht hs ⊢
      exact mergeEntries_raw o nils _ s (raw_arrayToObject_stringify _ ht) hs
    | obj t =>
      simp only [Merge, Raw] at ht hs ⊢
      exact mergeEntries_raw o nils t s ht hs
    | null => simpa [Merge, Raw, RawItems] using hs
    | str _ => simpa [Merge, Raw, RawItems] using hs
    | bool _ => simpa [Merge, Raw, RawItems] using hs
    | strs _ => exact absurd ht (by simp [Raw])
    | iobj _ => exact absurd ht (by simp [Raw])
theorem mergeEntries_raw (o : ParseOptions) (nils : Bool) : ∀ (mt s : Obj),
    RawEntries nils mt → RawEntries nils s → RawEntries nils (mergeEntries o mt s)
  | mt, [], ht, _ => by simpa [mergeEntries] using ht
  | mt, (key, value) :: rest, ht, hs => by
    simp only [RawEntries] at hs
    rw [mergeEntries]
    split
    · exact mergeEntries_raw o nils mt rest ht hs.2.2
    · rename_i hnn
      have hvn : value.isNull = false := by simpa using hnn
      split
      · rename_i existingVal hget
        have hex : Raw nils existingVal :=
          ((rawEntries_iff nils mt).1 ht _ (mapGet_mem mt key existingVal hget)).2
        exact mergeEntries_raw o nils _ rest
          (rawEntries_mapSet ht
            (fun e => by simp [Merge_not_null o existingVal value hvn] at e)
            (Merge_raw o nils existingVal value hex hs.2.1)) hs.2.2
      · exact mergeEntries_raw o nils _ rest
          (rawEntries_mapSet ht (fun e => by simp [hvn] at e) hs.2.1) hs.2.2
theorem mergeItems_raw (o : ParseOptions) (nils : Bool) : ∀ (t : List Value) (i : Nat)
    (src : List Value), RawItems nils t → RawItems nils src → RawItems nils (mergeItems o t i src)
  | t, i, [], ht, _ => by simpa [mergeItems] using ht
  | t, i, item :: rest, ht, hs => by
    simp only [RawItems] at hs
    have happ : RawItems nils (t ++ [item]) :=
      rawItems_append ht (by simp [RawItems, hs.1])
    rw [mergeItems]
    split
    · exact mergeItems_raw o nils t (i + 1) rest ht hs.2
    · split
      · rename_i targetItem hget
        have hti : Raw nils targetItem :=
          (rawItems_iff nils t).1 ht _ (List.get?_mem hget)
        split
        · exact mergeItems_raw o nils _ (i + 1) rest
            (rawItems_set ht (Merge_raw o nils targetItem item hti hs.1)) hs.2
        · exact mergeItems_raw o nils _ (i + 1) rest happ hs.2
      · exact mergeItems_raw o nils _ (i + 1) rest happ hs.2
end

theorem wrapSegment_named (o : ParseOptions) (root : Str) (leaf : Value)
    (h : ¬ (root = bytes "[]" ∧ o.ParseArrays = true)) :
    wrapSegment o root leaf = placeSegment o (segmentName o root) leaf := by
  simp only [wrapSegment, h, if_false, segmentName]

theorem rawItems_replicate_null (nils : Bool) (i : Nat) :
    RawItems nils (List.replicate i Value.null) := by
  rw [rawItems_iff]
  intro v hv
  rw [List.eq_of_mem_replicate hv]
  simp [Raw]

/-- A segment whose name is not `__proto__` wraps a value that is not nil into
a value that is not nil. -/
theorem wrapSegment_raw (o : ParseOptions) (nils : Bool) (root : Str) (leaf r : Value)
    (hname : nils = true ∨ segmentName o root ≠ bytes "__proto__")
    (hl : Raw nils leaf) (hnn : nils = true ∨ leaf.isNull = false)
    (h : wrapSegment o root leaf = .ok r) :
    Raw nils r ∧ (nils = true ∨ r.isNull = false) := by
  have hentry : leaf.isNull = true → nils = true := by
    intro e
    rcases hnn with h1 | h1
    · exact h1
    · rw [h1] at e; cases e
  by_cases happ : root = bytes "[]" ∧ o.ParseArrays = true
  · simp only [wrapSegment, happ, and_self, if_true] at h
    split at h
    · cases h
      exact ⟨by simp [Raw, RawItems], Or.inr rfl⟩
    · split at h
      · cases h
        exact ⟨hl, Or.inr rfl⟩
      · cases h
        exact ⟨by simp [Raw, RawItems, hl], Or.inr rfl⟩
  · rw [wrapSegment_named o root leaf happ] at h
    unfold placeSegment at h
    split at h
    · split at h
      · split at h
        · cases h
        · cases h
          exact ⟨by
            simp only [Raw]
            exact rawItems_append (rawItems_replicate_null nils _) (by simp [RawItems, hl]),
            Or.inr rfl⟩
      · split at h
        · cases h
          exact ⟨by simp only [Raw, RawEntries]; exact ⟨hentry, hl, trivial⟩, Or.inr rfl⟩
        · rename_i hp
          cases h
          refine ⟨by simp [Raw], ?_⟩
          rcases hname with h1 | h1
          · exact Or.inl h1
          · exact absurd (not_not.1 hp) h1
    · split at h
      · cases h
        exact ⟨by simp only [Raw, RawEntries]; exact ⟨hentry, hl, trivial⟩, Or.inr rfl⟩
      · rename_i hp
        cases h
        refine ⟨by simp [Raw], ?_⟩
        rcases hname with h1 | h1
        · exact Or.inl h1
        · exact absurd (not_not.1 hp) h1

theorem wrapChain_raw (o : ParseOptions) (nils : Bool) : ∀ (chain : List Str) (leaf r : Value),
    (nils = true ∨ ∀ root ∈ chain, segmentName o root ≠ bytes "__proto__") →
    Raw nils leaf → (nils = true ∨ leaf.isNull = false) → wrapChain o chain leaf = .ok r →
    Raw nils r ∧ (nils = true ∨ r.isNull = false)
  | [], leaf, r, _, hl, hnn, h => by
    simp only [wrapChain, Except.ok.injEq] at h
    rw [← h]
    exact ⟨hl, hnn⟩
  | root :: rest, leaf, r, hc, hl, hnn, h => by
    rw [wrapChain] at h
    split at h
    · cases h
    · rename_i inner hin
      have ih := wrapChain_raw o nils rest leaf inner
        (hc.imp id (fun hh x hx => hh x (List.mem_cons_of_mem _ hx))) hl hnn hin
      exact wrapSegment_raw o nils root inner r
        (hc.imp id (fun hh => hh root (by simp))) ih.1 ih.2 h

/-! ### The segments that `parseKeys` collects -/

theorem closeLen_some : ∀ (s : Str) (n : Nat), closeLen s = some n →
    ∃ g rest, s = g ++ 93 :: rest ∧ n = g.length + 1 ∧ 91 ∉ g ∧ 93 ∉ g
  | [], _, h => by simp [closeLen] at h
  | c :: cs, n, h => by
    rw [closeLen] at h
    split at h
    · rename_i hc
      simp only [Option.some.injEq] at h
      exact ⟨[], cs, by simp [hc], by simp [← h], by simp, by simp⟩
    · rename_i hc
      split at h
      · cases h
      · rename_i hc2
        cases hcl : closeLen cs with
        | none => simp [hcl] at h
        | some m =>
          simp only [hcl, Option.map_some', Option.some.injEq] at h
          obtain ⟨g, rest, h1, h2, h3, h4⟩ := closeLen_some cs m hcl
          refine ⟨c :: g, rest, by simp [h1], by simp [← h, h2], ?_, ?_⟩
          · intro e
            rcases List.mem_cons.1 e with e | e
            · exact hc2 e.symm
            · exact h3 e
          · intro e
            rcases List.mem_cons.1 e with e | e
            · exact hc e.symm
            · exact h4 e

/-- A match of the bracket expression is a group `[g]` in the key. -/
theorem findBracket_some : ∀ (key : Str) (seg : Nat × Nat), findBracket key = some seg →
    ∃ pre g rest, key = pre ++ (group g ++ rest) ∧ seg = (pre.length, pre.length + g.length + 2)
  | [], _, h => by simp [findBracket] at h
  | c :: cs, seg, h => by
    rw [findBracket] at h
    split at h
    · rename_i n hn
      simp only [Option.some.injEq] at h
      by_cases hc : c = 91
      · simp only [hc, if_true] at hn
        obtain ⟨g, rest, h1, h2, _, _⟩ := closeLen_some cs n hn
        refine ⟨[], g, rest, by simp [hc, h1, group_eq], ?_⟩
        rw [← h, h2]
        simp
      · simp [hc] at hn
    · cases hf : findBracket cs with
      | none => simp [hf] at h
      | some seg2 =>
        simp only [hf, Option.map_some', Option.some.injEq] at h
        obtain ⟨pre, g, rest, h1, h2⟩ := findBracket_some cs seg2 hf
        refine ⟨c :: pre, g, rest, by simp [h1], ?_⟩
        rw [← h, h2]
        simp
        omega

theorem take_drop_group (pre g rest : Str) :
    ((pre ++ (group g ++ rest)).take (pre.length + g.length + 2)).drop pre.length = group g := by
  have : pre.length + g.length + 2 = pre.length + (group g).length := by
    simp [group_eq]
    omega
  rw [this, List.take_append, List.drop_left, List.take_left]

theorem findBracket_group_append (g rest : Str) (h1 : 91 ∉ g) (h2 : 93 ∉ g) :
    findBracket (group g ++ rest) = some (0, g.length + 2) := by
  have := findBracket_prefix [] g rest (by simp) h1 h2
  simpa [group_eq] using this

/-- The text in front of the first bracket group is not itself a bracket group. -/
theorem keyParent_ne_group (key g : Str) (h1 : 91 ∉ g) (h2 : 93 ∉ g) :
    keyParent key ≠ group g := by
  intro e
  unfold keyParent at e
  split at e
  · rename_i seg hf
    obtain ⟨pre, g2, rest, hk, hs⟩ := findBracket_some key seg hf
    rw [hs, hk] at e
    simp only [List.take_left] at e
    rw [hk, e, findBracket_group_append g _ h1 h2] at hf
    simp only [Option.some.injEq] at hf
    rw [hs, e] at hf
    simp [group_eq] at hf
  · rename_i hf
    rw [e, ← List.append_nil (group g), findBracket_group_append g [] h1 h2] at hf
    cases hf

theorem replaceAllAux_dot : ∀ (s : Str), 46 ∉ replaceAllAux [37, 50, 69] [46] 0 s →
    replaceAllAux [37, 50, 69] [46] 0 s = s
  | [], _ => rfl
  | c :: cs, h => by
    rw [replaceAllAux] at h ⊢
    split
    · rename_i hp
      simp [hp] at h
    · rename_i hp
      simp only [hp, Bool.false_eq_true, if_false, List.mem_cons, not_or] at h
      rw [replaceAllAux_dot cs h.2]

theorem bytes_pct2E : bytes "%2E" = [37, 50, 69] := by decide

theorem bytes_dot : bytes "." = [46] := by decide

/-- A segment that both starts with `[` and ends with `]` is a bracket group. -/
theorem eq_group_of_brackets (root : Str) (hp : hasPrefix root (bytes "[") = true)
    (hs : hasSuffix root (bytes "]") = true) :
    root = group ((root.drop 1).take (root.length - 2)) := by
  rw [hasPrefix, bytes_open] at hp
  rw [hasSuffix, bytes_close] at hs
  obtain ⟨tl, htl⟩ := List.isPrefixOf_iff_prefix.1 hp
  obtain ⟨ini, hini⟩ := List.isPrefixOf_iff_prefix.1 hs
  have hrev : root = ini.reverse ++ [93] := by
    have := congrArg List.reverse hini
    simpa using this.symm
  cases hi : ini.reverse with
  | nil =>
    rw [hi] at hrev
    rw [hrev] at htl
    simp at htl
  | cons x mid =>
    rw [hi] at hrev
    have hx : x = 91 := by
      rw [hrev] at htl
      simp at htl
      exact htl.1.symm
    subst hx
    rw [hrev]
    simp [group_eq]

theorem segmentName_eq_proto (o : ParseOptions) (root : Str)
    (h : segmentName o root = bytes "__proto__") :
    root = bytes "__proto__" ∨ root = group (bytes "__proto__") := by
  have hclean : (if hasPrefix root (bytes "[") = true ∧ hasSuffix root (bytes "]") = true then
      (root.drop 1).take (root.length - 2) else root) = bytes "__proto__" := by
    unfold segmentName at h
    simp only at h
    split at h
    · have h46 : 46 ∉ replaceAllAux [37, 50, 69] [46] 0
          (if hasPrefix root (bytes "[") = true ∧ hasSuffix root (bytes "]") = true then
            (root.drop 1).take (root.length - 2) else root) := by
        rw [replaceAll, bytes_pct2E, bytes_dot] at h
        rw [h]
        decide
      rw [replaceAll, bytes_pct2E, bytes_dot, replaceAllAux_dot _ h46] at h
      exact h
    · exact h
  split at hclean
  · rename_i hb
    right
    rw [eq_group_of_brackets root hb.1 hb.2, hclean]
  · exact Or.inl hclean

/-- With PlainObjects and AllowPrototypes off, the loop of `parseKeys` collects
no segment with the name `__proto__`. -/
theorem parseKeysLoop_names (o : ParseOptions) (hp : o.PlainObjects = false)
    (ha : o.AllowPrototypes = false) : ∀ (n : Nat) (key : Str) (keys : List Str) (key2 : Str)
    (keys2 : List Str), parseKeysLoop o n key keys = some (key2, keys2) →
    (∀ r ∈ keys, segmentName o r ≠ bytes "__proto__") →
    ∀ r ∈ keys2, segmentName o r ≠ bytes "__proto__"
  | 0, key, keys, key2, keys2, h, hk => by
    simp only [parseKeysLoop, Option.some.injEq, Prod.mk.injEq] at h
    rw [← h.2]
    exact hk
  | n + 1, key, keys, key2, keys2, h, hk => by
    rw [parseKeysLoop] at h
    split at h
    · simp only [Option.some.injEq, Prod.mk.injEq] at h
      rw [← h.2]
      exact hk
    · rename_i seg hf
      obtain ⟨pre, g, rest, hkey, hseg⟩ := findBracket_some key seg hf
      have hsegment : (key.take seg.2).drop seg.1 = group g := by
        rw [hkey, hseg]
        exact take_drop_group pre g rest
      simp only [hsegment] at h
      split at h
      · cases h
      · rename_i hguard
        apply parseKeysLoop_names o hp ha n _ _ key2 keys2 h
        intro r hr
        rcases List.mem_append.1 hr with hr | hr
        · exact hk r hr
        · simp only [List.mem_singleton] at hr
          subst hr
          intro e
          rcases segmentName_eq_proto o _ e with e2 | e2
          · rw [group_eq, bytes_proto] at e2
            simp at e2
          · have hg : g = bytes "__proto__" := by
              rw [group_eq, group_eq] at e2
              simpa using e2
            apply hguard
            subst hg
            refine ⟨by simp [hp], by decide, by decide, by simp [ha]⟩

theorem group_ne_proto (g : Str) : group g ≠ bytes "__proto__" := by
  rw [group_eq, bytes_proto]
  simp

theorem group_inj {g h : Str} (e : group g = group h) : g = h := by
  rw [group_eq, group_eq] at e
  simpa using e

/-- The value that `parseKeys` builds for a string is raw; with PlainObjects and
AllowPrototypes off no entry of its mappings is nil. -/
theorem parseKeys_raw (o : ParseOptions) (key v : Str) (r : Value)
    (h : parseKeys key (.str v) o true = .ok r) :
    Raw (o.PlainObjects || o.AllowPrototypes) r := by
  cases hn : (o.PlainObjects || o.AllowPrototypes) with
  | true =>
    rcases parseKeys_cases key (.str v) o true with h1 | ⟨e, h1⟩ | ⟨chain, h1⟩
    · rw [h1] at h
      cases h
      simp [Raw]
    · rw [h1] at h
      cases h
    · rw [h1, parseObject_parsed] at h
      exact (wrapChain_raw o true chain (.str v) r (Or.inl rfl) (by simp [Raw]) (Or.inl rfl) h).1
  | false =>
    have hp : o.PlainObjects = false := by
      cases h1 : o.PlainObjects
      · rfl
      · simp [h1] at hn
    have ha : o.AllowPrototypes = false := by
      cases h1 : o.AllowPrototypes
      · rfl
      · simp [h1] at hn
    unfold parseKeys at h
    simp only [parseObject_parsed, hp, ha, Bool.not_false, true_and, and_true] at h
    split at h
    · cases h
      simp [Raw]
    · generalize (if o.AllowDots = true then dotsToBrackets key else key) = k at h
      split at h
      · cases h
        simp [Raw]
      · rename_i hguard
        have hparent : ∀ x ∈ (if keyParent k ≠ [] then [keyParent k] else []),
            segmentName o x ≠ bytes "__proto__" := by
          intro x hx
          split at hx
          · rename_i hne
            simp only [List.mem_singleton] at hx
            subst hx
            intro e
            rcases segmentName_eq_proto o _ e with e2 | e2
            · exact hguard ⟨hne, e2⟩
            · exact keyParent_ne_group k _ (by decide) (by decide) e2
          · simp at hx
        split at h
        · cases h
          simp [Raw]
        · rename_i key2 keys2 hloop
          have hnames := parseKeysLoop_names o hp ha _ _ _ key2 keys2 hloop hparent
          split at h
          · rename_i hrem
            split at h
            · cases h
            · refine (wrapChain_raw o false _ (.str v) r (Or.inr ?_) (by simp [Raw])
                (Or.inr rfl) h).1
              intro x hx
              rcases List.mem_append.1 hx with hx | hx
              · exact hnames x hx
              · simp only [List.mem_singleton] at hx
                subst hx
                intro e
                have hgrp : bytes "[" ++ key2 ++ bytes "]" = group key2 := rfl
                rw [hgrp] at e
                rcases segmentName_eq_proto o _ e with e2 | e2
                · exact group_ne_proto _ e2
                · have := group_inj e2
                  rw [this] at hrem
                  exact absurd hrem.1 (by decide)
          · exact (wrapChain_raw o false _ (.str v) r (Or.inr hnames) (by simp [Raw])
              (Or.inr rfl) h).1

theorem decodeLoop_raw (o : ParseOptions) :
    ∀ (urlValues : List (List Str)) (acc obj : Obj),
      decodeLoop o acc urlValues = .ok obj →
      RawEntries (o.PlainObjects || o.AllowPrototypes) acc →
      RawEntries (o.PlainObjects || o.AllowPrototypes) obj
  | [], acc, obj, h, ha => by
    simp only [decodeLoop, Except.ok.injEq] at h
    rw [← h]; exact ha
  | pair :: rest, acc, obj, h, ha => by
    unfold decodeLoop at h
    split at h
    · rename_i idx key value
      split at h
      · cases h
      · rename_i newObj hnew
        have hn := parseKeys_raw o key value newObj hnew
        have hm := Merge_raw o _ (.obj acc) newObj (by simpa [Raw] using ha) hn
        split at h
        · rename_i m hmerge
          rw [hmerge] at hm
          exact decodeLoop_raw o rest m obj h (by simpa [Raw] using hm)
        · cases h
    · exact decodeLoop_raw o rest acc obj h ha

theorem rawItems_trim {nils : Bool} {xs : List Value} (h : RawItems nils xs) :
    RawItems nils (trimTrailingNil xs) := by
  rw [rawItems_iff] at h ⊢
  intro v hv
  apply h v
  unfold trimTrailingNil at hv
  have h1 := List.mem_reverse.1 hv
  have h2 := (List.dropWhile_sublist Value.isNull).subset h1
  exact List.mem_reverse.1 h2

theorem Compact_isNull (v : Value) : (Compact v).isNull = v.isNull := by
  cases v <;> simp [Compact, Value.isNull]

mutual
theorem Compact_raw (nils : Bool) : ∀ (v : Value), Raw nils v → Raw nils (Compact v)
  | .null, h => by simpa [Compact] using h
  | .str _, h => by simpa [Compact] using h
  | .bool _, h => by simpa [Compact] using h
  | .strs _, h => by simpa [Compact] using h
  | .iobj _, h => by simpa [Compact] using h
  | .arr xs, h => by
    simp only [Compact, Raw] at h ⊢
    exact rawItems_trim h
  | .obj m, h => by
    simp only [Compact, Raw] at h ⊢
    exact compactEntries_raw nils m h
theorem compactEntries_raw (nils : Bool) : ∀ (m : Obj), RawEntries nils m →
    RawEntries nils (compactEntries m)
  | [], h => by simpa [compactEntries] using h
  | (k, v) :: rest, h => by
    simp only [RawEntries, compactEntries] at h ⊢
    exact ⟨by rw [Compact_isNull]; exact h.1, Compact_raw nils v h.2.1,
      compactEntries_raw nils rest h.2.2⟩
end

theorem shaped_no_trueBool (nils : Bool) : ∀ (m : Obj), ShapedEntries nils m →
    m.any (fun kv => kv.2.isTrueBool) = false
  | [], _ => rfl
  | (k, v) :: rest, h => by
    simp only [ShapedEntries] at h
    have ih := shaped_no_trueBool nils rest h.2.2
    have hv : v.isTrueBool = false := by
      cases v with
      | bool b => exact absurd h.2.1 (by simp [Shaped])
      | null => rfl
      | str _ => rfl
      | strs _ => rfl
      | arr _ => rfl
      | obj _ => rfl
      | iobj _ => rfl
    simp [List.any_cons, hv, ih]

theorem shouldConvertToArray_shaped (nils : Bool) (m : Obj) (h : ShapedEntries nils m) :
    shouldConvertToArray m = false := by
  simp [shouldConvertToArray, shaped_no_trueBool nils m h]

theorem shaped_arrayToObject (nils : Bool) : ∀ (xs : List Value) (i : Nat),
    ShapedItems nils xs → ShapedSlots nils (arrayToObjectFrom i xs)
  | [], _, _ => by simp [arrayToObjectFrom, ShapedSlots]
  | v :: rest, i, h => by
    simp only [ShapedItems] at h
    have ih := shaped_arrayToObject nils rest (i + 1) h.2.2
    cases v with
    | null => exact absurd h.1 (by simp [Value.isNull])
    | bool b => exact absurd h.2.1 (by simp [Shaped])
    | str s => simp only [arrayToObjectFrom, ShapedSlots]; exact ⟨rfl, h.2.1, ih⟩
    | strs xs => exact absurd h.2.1 (by simp [Shaped])
    | arr xs => simp only [arrayToObjectFrom, ShapedSlots]; exact ⟨rfl, h.2.1, ih⟩
    | obj m => simp only [arrayToObjectFrom, ShapedSlots]; exact ⟨rfl, h.2.1, ih⟩
    | iobj kvs => simp only [arrayToObjectFrom, ShapedSlots]; exact ⟨rfl, h.2.1, ih⟩

mutual
/-- Post-processing turns a raw value into a value of the shape of a result. -/
theorem processNested_shaped (o : ParseOptions) (hnil : o.AllowNilArrayValues = false)
    (nils : Bool) : ∀ (v r : Value), processNestedStructures (some o) v = .ok r → Raw nils v →
    Shaped nils r ∧ r.isNull = v.isNull
  | .null, r, h, _ => by
    simp only [processNestedStructures, Except.ok.injEq] at h
    rw [← h]
    exact ⟨by simp [Shaped], rfl⟩
  | .str _, r, h, _ => by
    simp only [processNestedStructures, Except.ok.injEq] at h
    rw [← h]
    exact ⟨by simp [Shaped], rfl⟩
  | .bool _, r, h, _ => by
    simp only [processNestedStructures, Except.ok.injEq] at h
    rw [← h]
    exact ⟨by simp [Shaped], rfl⟩
  | .strs _, _, _, hv => absurd hv (by simp [Raw])
  | .iobj _, _, _, hv => absurd hv (by simp [Raw])
  | .obj m, r, h, hv => by
    rw [processNestedStructures] at h
    split at h
    · cases h
    · rename_i m2 hm2
      have hm := processEntries_shaped o hnil nils m m2 hm2 (by simpa [Raw] using hv)
      rw [shouldConvertToArray_shaped nils m2 hm] at h
      simp only [Bool.false_eq_true, if_false, Except.ok.injEq] at h
      rw [← h]
      exact ⟨by simpa [Shaped] using hm, rfl⟩
  | .arr xs, r, h, hv => by
    rw [processNestedStructures] at h
    split at h
    · cases h
    · rename_i newArr hnew
      have hm := processItems_shaped o hnil nils xs newArr hnew (by simpa [Raw] using hv)
      split at h
      · cases h
        exact ⟨by simp only [Shaped, ArrayToObject]; exact shaped_arrayToObject nils newArr 0 hm,
          rfl⟩
      · cases h
        exact ⟨by simpa [Shaped] using hm, rfl⟩
theorem processEntries_shaped (o : ParseOptions) (hnil : o.AllowNilArrayValues = false)
    (nils : Bool) : ∀ (m r : Obj), processEntries (some o) m = .ok r → RawEntries nils m →
    ShapedEntries nils r
  | [], r, h, _ => by
    simp only [processEntries, Except.ok.injEq] at h
    rw [← h]; simp [ShapedEntries]
  | (k, v) :: rest, r, h, hm => by
    simp only [RawEntries] at hm
    rw [processEntries] at h
    split at h
    · cases h
    · rename_i v2 hv2
      split at h
      · cases h
      · rename_i rest2 hrest2
        cases h
        have hv := processNested_shaped o hnil nils v v2 hv2 hm.2.1
        simp only [ShapedEntries]
        exact ⟨by rw [hv.2]; exact hm.1, hv.1,
          processEntries_shaped o hnil nils rest rest2 hrest2 hm.2.2⟩
theorem processItems_shaped (o : ParseOptions) (hnil : o.AllowNilArrayValues = false)
    (nils : Bool) : ∀ (xs r : List Value), processItems (some o) xs = .ok r → RawItems nils xs →
    ShapedItems nils r
  | [], r, h, _ => by
    simp only [processItems, Except.ok.injEq] at h
    rw [← h]; simp [ShapedItems]
  | v :: rest, r, h, hm => by
    simp only [RawItems] at hm
    unfold processItems at h
    split at h
    · simp only [hnil, Bool.not_false, if_true] at h
      exact processItems_shaped o hnil nils rest r h hm.2
    · rename_i hnn
      split at h
      · cases h
      · rename_i v2 hv2
        split at h
        · cases h
        · rename_i rest2 hrest2
          cases h
          have hv := processNested_shaped o hnil nils v v2 hv2 hm.1
          simp only [ShapedItems]
          refine ⟨?_, hv.1, processItems_shaped o hnil nils rest rest2 hrest2 hm.2⟩
          rw [hv.2]
          cases v with
          | null => exact absurd rfl (hnn)
          | str _ => rfl
          | bool _ => rfl
          | strs _ => rfl
          | arr _ => rfl
          | obj _ => rfl
          | iobj _ => rfl
end

theorem PostProcess_shaped (o : ParseOptions) (hnil : o.AllowNilArrayValues = false)
    (nils : Bool) (obj r : Obj) (h : PostProcessParsedObject obj (some o) = .ok r)
    (hm : RawEntries nils obj) : ShapedEntries nils r := by
  unfold PostProcessParsedObject at h
  split at h
  · cases h
  · rename_i m2 hm2
    have h2 := processEntries_shaped o hnil nils obj m2 hm2 hm
    rw [shouldConvertToArray_shaped nils m2 h2] at h
    simp only [Bool.false_eq_true, if_false, Except.ok.injEq] at h
    rw [← h]
    exact h2

/-- The shape of every successful result of `DecodeQuery` with non-nil options
and AllowNilArrayValues off. -/
theorem DecodeQuery_shaped (str : Str) (o : ParseOptions) (hnil : o.AllowNilArrayValues = false)
    (m : Obj) (h : (DecodeQuery str (some o)).1 = some m) :
    ShapedEntries (o.PlainObjects || o.AllowPrototypes) m := by
  unfold DecodeQuery at h
  split at h
  · rename_i processed hbody
    simp only [Option.some.injEq] at h
    subst h
    unfold decodeBody at hbody
    simp only at hbody
    split at hbody
    · cases hbody
      simp [ShapedEntries]
    · split at hbody
      · cases hbody
      · rename_i urlValues _
        split at hbody
        · cases hbody
        · rename_i obj hloop
          have h1 := decodeLoop_raw _ urlValues [] obj hloop (by simp [RawEntries])
          have h2 := Compact_raw _ (.obj obj) (by simpa [Raw] using h1)
          split at hbody
          · rename_i compacted hc
            rw [hc] at h2
            simp only [Raw] at h2
            exact PostProcess_shaped o hnil _ compacted processed hbody h2
          · cases hbody
  · cases h

/-- C15, as amended: for every query string and every non-nil options value with
AllowNilArrayValues off, every node of a successful `DecodeQuery` result is a
string, a mapping with string keys, a sequence, or a mapping keyed by integers,
recursively; no node is a boolean, and no element of a sequence or of an
integer-keyed mapping is nil. A nil is the value of a mapping entry only when
PlainObjects or AllowPrototypes is on. -/
theorem C15_result_shape (o : ParseOptions) (hnil : o.AllowNilArrayValues = false) (str : Str)
    (m : Obj) (h : (DecodeQuery str (some o)).1 = some m) :
    Shaped (o.PlainObjects || o.AllowPrototypes) (.obj m) := by
  simp only [Shaped]
  exact DecodeQuery_shaped str o hnil m h

/-- C15 as amended at `a[]=1&a[]=2&b[c]=d` under the default options. -/
theorem C15_result_shape_witness :
    Shaped (defaults.PlainObjects || defaults.AllowPrototypes)
      (.obj [(bytes "a", .arr [.str (bytes "1"), .str (bytes "2")]),
        (bytes "b", .obj [(bytes "c", .str (bytes "d"))])]) :=
  C15_result_shape defaults rfl (bytes "a[]=1&a[]=2&b[c]=d") _ (by decide!)

/-- C15 fails as stated: under the default options `a[0][contains]=x` decodes to
`{a: {0: {contains: "x"}}}`, where the value of `a` is a mapping keyed by the
integer 0: `processNestedStructures` replaces a sequence that holds a mapping
with a key `contains` by `ArrayToObject` of it. With AllowPrototypes on,
`a[b][__proto__]=x` decodes to `{a: {b: nil}}`, where a node is nil. -/
theorem C15_counterexample :
    DecodeQuery (bytes "a[0][contains]=x") (some defaults) =
      (some [(bytes "a", .iobj [(0, .obj [(bytes "contains", .str (bytes "x"))])])], none) ∧
    topLevel (DecodeQuery (bytes "a[0][contains]=x") (some defaults)) (bytes "a") =
      some (.iobj [(0, .obj [(bytes "contains", .str (bytes "x"))])]) ∧
    DecodeQuery (bytes "a[b][__proto__]=x") (some { defaults with AllowPrototypes := true }) =
      (some [(bytes "a", .obj [(bytes "b", .null)])], none) :=
  ⟨by decide!, by decide!, by decide!⟩

/-! ## C19: encoding, then decoding -/

theorem upperhex_range {n : Nat} (h : n < 16) :
    (48 ≤ upperhex n ∧ upperhex n ≤ 57) ∨ (65 ≤ upperhex n ∧ upperhex n ≤ 70) := by
  unfold upperhex
  split <;> omega

theorem ishex_upperhex {n : Nat} (h : n < 16) : ishex (upperhex n) = true := by
  have := upperhex_range h
  simp only [ishex, Bool.or_eq_true, Bool.and_eq_true, decide_eq_true_eq]
  omega

theorem unhex_upperhex {n : Nat} (h : n < 16) : unhex (upperhex n) = n := by
  unfold upperhex unhex
  split
  · rename_i h10
    have h1 : 48 ≤ 48 + n ∧ 48 + n ≤ 57 := by omega
    simp only [h1, and_self, if_true]
    omega
  · rename_i h10
    have h1 : ¬ (48 ≤ 55 + n ∧ 55 + n ≤ 57) := by omega
    have h2 : ¬ (97 ≤ 55 + n ∧ 55 + n ≤ 102) := by omega
    have h3 : 65 ≤ 55 + n ∧ 55 + n ≤ 70 := by omega
    simp only [h1, h2, h3, and_self, if_true, if_false]
    omega

theorem upperhex_inj {m n : Nat} (hm : m < 16) (hn : n < 16) (h : upperhex m = upperhex n) :
    m = n := by
  rw [← unhex_upperhex hm, ← unhex_upperhex hn, h]

theorem hexTable_eq (c : Nat) : hexTable c = [37, upperhex (c / 16 % 16), upperhex (c % 16)] := by
  unfold hexTable
  split
  · rename_i h
    have h1 : c / 16 % 16 = 0 := by omega
    have h2 : c % 16 = c := by omega
    rw [h1, h2]
    rfl
  · rfl

theorem unreserved_facts {c : Nat} (h : isUnreserved c = true) :
    c ≠ 9 ∧ c ≠ 10 ∧ c ≠ 32 ∧ c ≠ 37 ∧ c ≠ 38 ∧ c ≠ 43 ∧ c ≠ 61 ∧ c ≠ 91 ∧ c ≠ 93 := by
  simp only [isUnreserved, isAlnum, isLetter, isDigit, Bool.or_eq_true, Bool.and_eq_true,
    decide_eq_true_eq] at h
  omega

theorem upperhex_facts {n : Nat} (h : n < 16) :
    upperhex n ≠ 9 ∧ upperhex n ≠ 10 ∧ upperhex n ≠ 32 ∧ upperhex n ≠ 37 ∧ upperhex n ≠ 38 ∧
      upperhex n ≠ 43 ∧ upperhex n ≠ 61 ∧ upperhex n ≠ 91 ∧ upperhex n ≠ 93 := by
  have := upperhex_range h
  omega

/-- A byte that none of the pieces `[c]`, `sp` and `%XX` holds is not in the
encoded text. -/
theorem not_mem_flatMap_escByte (x : Nat) (sp : Str) (keep : List Nat) (hsp : x ∉ sp)
    (hx : x = 9 ∨ x = 10 ∨ x = 38 ∨ x = 61) (hk : x ∉ keep) :
    ∀ v : Str, x ∉ v.flatMap (escByte sp keep)
  | [] => by simp
  | c :: cs => by
    have ih := not_mem_flatMap_escByte x sp keep hsp hx hk cs
    simp only [List.flatMap_cons, List.mem_append, not_or]
    refine ⟨?_, ih⟩
    unfold escByte
    split
    · rename_i hc
      simp only [List.mem_singleton]
      rcases hc with hc | hc
      · have := unreserved_facts hc
        omega
      · intro e
        rw [e] at hk
        exact hk hc
    · split
      · exact hsp
      · rw [hexTable_eq]
        have h1 := upperhex_facts (Nat.mod_lt (c / 16) (by omega : 16 > 0))
        have h2 := upperhex_facts (Nat.mod_lt c (by omega : 16 > 0))
        simp only [List.mem_cons, List.mem_singleton, List.not_mem_nil, or_false]
        omega

theorem queryEscape_flatMap : ∀ v : Str, queryEscape v = v.flatMap (escByte [43] [])
  | [] => rfl
  | c :: cs => by
    rw [queryEscape, List.flatMap_cons, ← queryEscape_flatMap cs, escByte, hexTable_eq]
    simp only [List.not_mem_nil, or_false]
    split
    · rfl
    · split <;> rfl

theorem decodeRune_ascii (c : Nat) (cs : Str) (h : c < 128) : decodeRune (c :: cs) = (c, 1) := by
  simp [decodeRune, h]

theorem encodeRune_ascii (c : Nat) (h : c < 128) :
    encodeRune (bytes "RFC3986") c = escByte (hexTable 32) [] c := by
  have hfmt : ¬ (bytes "RFC3986" = bytes "RFC1738") := by decide
  by_cases h32 : c = 32
  · subst h32
    decide
  · unfold encodeRune escByte
    by_cases hu : isUnreserved c = true
    · have hc : c = 45 ∨ c = 46 ∨ c = 95 ∨ c = 126 ∨ 48 ≤ c ∧ c ≤ 57 ∨ 65 ≤ c ∧ c ≤ 90 ∨
          97 ≤ c ∧ c ≤ 122 := by
        simp only [isUnreserved, isAlnum, isLetter, isDigit, Bool.or_eq_true, Bool.and_eq_true,
          decide_eq_true_eq] at hu
        omega
      simp [hfmt, hc, hu]
    · have hc : ¬ (c = 45 ∨ c = 46 ∨ c = 95 ∨ c = 126 ∨ 48 ≤ c ∧ c ≤ 57 ∨ 65 ≤ c ∧ c ≤ 90 ∨
          97 ≤ c ∧ c ≤ 122) := by
        simp only [isUnreserved, isAlnum, isLetter, isDigit, Bool.or_eq_true, Bool.and_eq_true,
          decide_eq_true_eq] at hu
        omega
      simp [hfmt, hc, hu, h, h32]

theorem encodeSegment_ascii : ∀ s : Str, (∀ c ∈ s, c < 128) →
    encodeSegment (bytes "RFC3986") 0 s = s.flatMap (escByte (hexTable 32) [])
  | [], _ => rfl
  | c :: cs, h => by
    have hc : c < 128 := h c (by simp)
    have e : encodeSegment (bytes "RFC3986") 0 (c :: cs) =
        encodeRune (bytes "RFC3986") c ++ encodeSegment (bytes "RFC3986") 0 cs := by
      rw [encodeSegment, decodeRune_ascii c cs hc]
      rfl
    rw [e, encodeRune_ascii c hc, List.flatMap_cons,
      encodeSegment_ascii cs (fun x hx => h x (List.mem_cons_of_mem _ hx))]

theorem encodeFrom_ascii : ∀ (fuel : Nat) (s : Str), s.length ≤ fuel → (∀ c ∈ s, c < 128) →
    encodeFrom (bytes "RFC3986") fuel s = s.flatMap (escByte (hexTable 32) [])
  | 0, s, hl, _ => by
    have : s = [] := List.length_eq_zero.1 (by omega)
    subst this
    rfl
  | fuel + 1, s, hl, h => by
    rw [encodeFrom]
    split
    · rename_i hs
      subst hs
      rfl
    · rename_i hs
      have hpos : 0 < s.length := List.length_pos.2 hs
      rw [encodeSegment_ascii _ (fun c hc => h c (List.mem_of_mem_take hc)),
        encodeFrom_ascii fuel (s.drop 1024) (by rw [List.length_drop]; omega)
          (fun c hc => h c (List.mem_of_mem_drop hc)),
        ← List.flatMap_append, List.take_append_drop]

/-- `Encode` in the format RFC3986 on ASCII text: every byte that is not
unreserved becomes `%XX`. -/
theorem Encode_ascii (s cs kind : Str) (h : ∀ c ∈ s, c < 128) :
    Encode s cs kind (bytes "RFC3986") = s.flatMap (escByte (hexTable 32) []) := by
  unfold Encode
  split
  · rename_i h0
    have : s = [] := List.length_eq_zero.1 h0
    subst this
    rfl
  · split
    · exact encodeFrom_ascii _ s (le_refl _) h
    · exact encodeSegment_ascii s h

/-- `url.QueryUnescape` reads an encoded text back. -/
theorem unescapeAux_flatMap (sp : Str) (keep : List Nat)
    (hsp : ∀ R, unescapeAux 0 (sp ++ R) = (unescapeAux 0 R).map (fun t => 32 :: t))
    (hkeep : ∀ k ∈ keep, k ≠ 37 ∧ k ≠ 43) : ∀ v : Str, (∀ c ∈ v, c < 256) →
    unescapeAux 0 (v.flatMap (escByte sp keep)) = some v
  | [], _ => rfl
  | c :: cs, h => by
    have ih := unescapeAux_flatMap sp keep hsp hkeep cs (fun x hx => h x (List.mem_cons_of_mem _ hx))
    have hc : c < 256 := h c (by simp)
    rw [List.flatMap_cons, escByte]
    split
    · rename_i hk
      have hne : c ≠ 37 ∧ c ≠ 43 := by
        rcases hk with hk | hk
        · have := unreserved_facts hk
          omega
        · exact hkeep c hk
      simp [unescapeAux, hne.1, hne.2, ih]
    · split
      · rename_i h32
        rw [hsp, ih, h32]
        rfl
      · have h1 : c / 16 % 16 < 16 := Nat.mod_lt _ (by omega)
        have h2 : c % 16 < 16 := Nat.mod_lt _ (by omega)
        have hval : c / 16 % 16 * 16 + c % 16 = c := by omega
        rw [hexTable_eq]
        simp [unescapeAux, ishex_upperhex h1, ishex_upperhex h2, unhex_upperhex h1,
          unhex_upperhex h2, ih, hval]

theorem replaceAllAux_miss (c0 c : Nat) (old new rest : Str) (h : c ≠ c0) :
    replaceAllAux (c0 :: old) new 0 (c :: rest) = c :: replaceAllAux (c0 :: old) new 0 rest := by
  simp [replaceAllAux, List.isPrefixOf, Ne.symm h]

theorem replaceAllAux_hit3 (a b d : Nat) (new rest : Str) :
    replaceAllAux [a, b, d] new 0 (a :: b :: d :: rest) =
      new ++ replaceAllAux [a, b, d] new 0 rest := by
  simp [replaceAllAux, List.isPrefixOf]

theorem replaceAllAux_miss3 (a b d x y : Nat) (new rest : Str) (h : ¬ (b = x ∧ d = y))
    (hx : x ≠ a) (hy : y ≠ a) :
    replaceAllAux [a, b, d] new 0 (a :: x :: y :: rest) =
      a :: x :: y :: replaceAllAux [a, b, d] new 0 rest := by
  have h1 : replaceAllAux [a, b, d] new 0 (a :: x :: y :: rest) =
      a :: replaceAllAux [a, b, d] new 0 (x :: y :: rest) := by
    by_cases e1 : b = x
    · have e2 : ¬ d = y := fun e2 => h ⟨e1, e2⟩
      simp [replaceAllAux, List.isPrefixOf, e1, e2]
    · simp [replaceAllAux, List.isPrefixOf, e1]
  rw [h1, replaceAllAux_miss a x _ _ _ hx, replaceAllAux_miss a y _ _ _ hy]

/-- The replacement of `%XX` by the byte `k` it stands for adds `k` to the bytes
that the encoded text keeps as they are. -/
theorem replaceAll_kept (k : Nat) (keep : List Nat) (hk : k < 256)
    (hk32 : k ≠ 32) (hkeep : 37 ∉ keep) :
    ∀ v : Str, (∀ c ∈ v, c < 256) →
    replaceAllAux (hexTable k) [k] 0 (v.flatMap (escByte [43] keep)) =
      v.flatMap (escByte [43] (k :: keep))
  | [], _ => rfl
  | c :: cs, h => by
    have ih := replaceAll_kept k keep hk hk32 hkeep cs
      (fun x hx => h x (List.mem_cons_of_mem _ hx))
    have hc : c < 256 := h c (by simp)
    have hc1 : c / 16 % 16 < 16 := Nat.mod_lt _ (by omega)
    have hc2 : c % 16 < 16 := Nat.mod_lt _ (by omega)
    have hk1 : k / 16 % 16 < 16 := Nat.mod_lt _ (by omega)
    have hk2 : k % 16 < 16 := Nat.mod_lt _ (by omega)
    have f1 := upperhex_facts hc1
    have f2 := upperhex_facts hc2
    rw [List.flatMap_cons, List.flatMap_cons, ← ih, escByte, escByte]
    by_cases hkc : isUnreserved c = true ∨ c ∈ keep
    · have hne : c ≠ 37 := by
        rcases hkc with hkc | hkc
        · have := unreserved_facts hkc
          omega
        · intro e
          rw [e] at hkc
          exact hkeep hkc
      have hkc2 : isUnreserved c = true ∨ c ∈ k :: keep :=
        hkc.imp id (fun hh => List.mem_cons_of_mem _ hh)
      rw [if_pos hkc, if_pos hkc2, hexTable_eq k, List.singleton_append,
        replaceAllAux_miss 37 c _ _ _ hne, List.singleton_append]
    · by_cases h32 : c = 32
      · have hkc2 : ¬ (isUnreserved c = true ∨ c ∈ k :: keep) := by
          rintro (hh | hh)
          · exact hkc (Or.inl hh)
          · rcases List.mem_cons.1 hh with hh | hh
            · exact hk32 (by omega)
            · exact hkc (Or.inr hh)
        rw [if_neg hkc, if_neg hkc2, if_pos h32, hexTable_eq k,
          List.singleton_append, replaceAllAux_miss 37 43 _ _ _ (by decide),
          List.singleton_append]
      · by_cases hck : c = k
        · subst hck
          have hkc2 : isUnreserved c = true ∨ c ∈ c :: keep := Or.inr (by simp)
          rw [if_neg hkc, if_pos hkc2, if_neg h32, hexTable_eq c]
          exact replaceAllAux_hit3 _ _ _ _ _
        · have hkc2 : ¬ (isUnreserved c = true ∨ c ∈ k :: keep) := by
            rintro (hh | hh)
            · exact hkc (Or.inl hh)
            · rcases List.mem_cons.1 hh with hh | hh
              · exact hck hh
              · exact hkc (Or.inr hh)
          have hmis : ¬ (upperhex (k / 16 % 16) = upperhex (c / 16 % 16) ∧
              upperhex (k % 16) = upperhex (c % 16)) := by
            rintro ⟨e1, e2⟩
            have := upperhex_inj hk1 hc1 e1
            have := upperhex_inj hk2 hc2 e2
            omega
          rw [if_neg hkc, if_neg hkc2, if_neg h32, hexTable_eq c, hexTable_eq k]
          exact replaceAllAux_miss3 _ _ _ _ _ _ _ hmis (by omega) (by omega)

/-- The replacement of `+` by a space in an encoded text. -/
theorem replaceAll_plus (keep : List Nat) (hkeep : 43 ∉ keep) : ∀ v : Str,
    replaceAllAux [43] [32] 0 (v.flatMap (escByte [43] keep)) = v.flatMap (escByte [32] keep)
  | [] => rfl
  | c :: cs => by
    have ih := replaceAll_plus keep hkeep cs
    have f1 := upperhex_facts (Nat.mod_lt (c / 16) (by omega : 16 > 0))
    have f2 := upperhex_facts (Nat.mod_lt c (by omega : 16 > 0))
    rw [List.flatMap_cons, List.flatMap_cons, escByte, escByte]
    split
    · rename_i hk
      have hne : c ≠ 43 := by
        rcases hk with hk | hk
        · have := unreserved_facts hk
          omega
        · intro e
          rw [e] at hk
          exact hkeep hk
      simp [replaceAllAux, List.isPrefixOf, Ne.symm hne, ih]
    · split
      · simp [replaceAllAux, List.isPrefixOf, ih]
      · have n1 : (43 == upperhex (c / 16 % 16)) = false := by
          simp only [beq_eq_false_iff_ne, ne_eq]
          omega
        have n2 : (43 == upperhex (c % 16)) = false := by
          simp only [beq_eq_false_iff_ne, ne_eq]
          omega
        rw [hexTable_eq]
        simp [replaceAllAux, List.isPrefixOf, n1, n2, ih]

theorem replaceAllAux_prefix (c0 : Nat) (old new : Str) : ∀ (pre rest : Str), c0 ∉ pre →
    replaceAllAux (c0 :: old) new 0 (pre ++ rest) = pre ++ replaceAllAux (c0 :: old) new 0 rest
  | [], _, _ => rfl
  | x :: xs, rest, h => by
    rw [List.cons_append, replaceAllAux_miss c0 x _ _ _ (fun e => h (by simp [e])),
      replaceAllAux_prefix c0 old new xs rest (fun e => h (List.mem_cons_of_mem _ e)),
      List.cons_append]

theorem index_brEq_tail : ∀ v : Str, 61 ∉ v → index [93, 61] v = none
  | [], _ => by simp [index, List.isPrefixOf]
  | x :: xs, h => by
    have ih := index_brEq_tail xs (fun e => h (List.mem_cons_of_mem _ e))
    have hp : List.isPrefixOf [93, 61] (x :: xs) = false := by
      cases xs with
      | nil => simp [List.isPrefixOf]
      | cons y ys =>
        have hy : y ≠ 61 := fun e => h (by simp [e])
        simp [List.isPrefixOf, Ne.symm hy]
    rw [index, hp, ih]
    rfl

theorem index_brEq_head : ∀ k w : Str, 93 ∉ k → index [93, 61] w = none →
    index [93, 61] (k ++ w) = none
  | [], _, _, hw => hw
  | x :: xs, w, h, hw => by
    have ih := index_brEq_head xs w (fun e => h (List.mem_cons_of_mem _ e)) hw
    have hx : x ≠ 93 := fun e => h (by simp [e])
    have hp : List.isPrefixOf [93, 61] (x :: (xs ++ w)) = false := by
      simp [List.isPrefixOf, Ne.symm hx]
    rw [List.cons_append, index, hp, ih]
    rfl

/-- The split point of a part whose key has no `]` and whose value has no `=`:
the `=` that follows the key. -/
theorem splitPos_closed (k v : Str) (h61 : 61 ∉ k) (h93 : 93 ∉ k) (hv : 61 ∉ v) :
    splitPos (k ++ 61 :: v) = some k.length := by
  have h0 : index [93, 61] (61 :: v) = none := by
    have hp : List.isPrefixOf [93, 61] (61 :: v) = false := by simp [List.isPrefixOf]
    rw [index, hp, index_brEq_tail v hv]
    rfl
  have h1 := index_brEq_head k _ h93 h0
  simp [splitPos, bytes_brEq, bytes_eq, h1, index_single 61 k v h61]

theorem hexTable_space : hexTable 32 = [37, 50, 48] := by decide

theorem hexTable_open : hexTable 91 = [37, 53, 66] := by decide

theorem hexTable_close : hexTable 93 = [37, 53, 68] := by decide

theorem unescapeAux_pct20 (R : Str) :
    unescapeAux 0 (hexTable 32 ++ R) = (unescapeAux 0 R).map (fun t => 32 :: t) := by
  rw [hexTable_space]
  simp [unescapeAux, ishex, unhex]

theorem unescapeAux_sp (R : Str) :
    unescapeAux 0 ([32] ++ R) = (unescapeAux 0 R).map (fun t => 32 :: t) := by
  simp [unescapeAux]

theorem unescapeAux_plus (R : Str) :
    unescapeAux 0 ([43] ++ R) = (unescapeAux 0 R).map (fun t => 32 :: t) := by
  simp [unescapeAux]

theorem Printable.lt {v : Str} (h : Printable v) : ∀ c ∈ v, c < 128 :=
  fun c hc => by have := h c hc; omega

theorem PlainKey.printable {t : Str} (h : PlainKey t) : Printable t :=
  fun c hc => ⟨(h c hc).1, (h c hc).2.1⟩

theorem PlainKey.not_mem {t : Str} (h : PlainKey t) (x : Nat)
    (hx : x = 9 ∨ x = 10 ∨ x = 37 ∨ x = 38 ∨ x = 43 ∨ x = 61 ∨ x = 91 ∨ x = 93) : x ∉ t :=
  fun e => by have := h x e; omega

/-- `url.QueryUnescape` on the text that `Encode` writes for printable ASCII. -/
theorem queryUnescape_encoded (s : Str) (h : Printable s) :
    queryUnescape (s.flatMap (escByte (hexTable 32) [])) = some s :=
  unescapeAux_flatMap (hexTable 32) [] unescapeAux_pct20 (by simp) s
    (fun c hc => by have := h c hc; omega)

theorem escapePart_pair (A B tk tv : Str) (h61 : 61 ∉ A) (hA : queryUnescape A = some tk)
    (hB : queryUnescape B = some tv) :
    escapePart (A ++ 61 :: B) = tk ++ 61 :: queryEscape tv := by
  have hidx := index_single 61 A B h61
  have htake : (A ++ 61 :: B).take A.length = A := by simp
  have hdrop : (A ++ 61 :: B).drop (A.length + 1) = B := by simp
  simp only [escapePart, bytes_eq, hidx, htake, hdrop, hA, hB, Option.getD_some]
  simp

/-- `EscapeQueryString` on an encoded pair: the key is decoded, the value is
decoded and escaped again. -/
theorem EscapeQueryString_encoded (t v : Str) (ht : Printable t) (hv : Printable v) :
    EscapeQueryString (t.flatMap (escByte (hexTable 32) []) ++ 61 ::
        v.flatMap (escByte (hexTable 32) [])) =
      t ++ 61 :: v.flatMap (escByte [43] []) := by
  have hsp : ∀ x, x = 9 ∨ x = 10 ∨ x = 38 ∨ x = 61 → x ∉ hexTable 32 := by
    intro x hx e
    rw [hexTable_space] at e
    simp at e
    omega
  have hno : ∀ x, x = 9 ∨ x = 10 ∨ x = 38 → x ∉ t.flatMap (escByte (hexTable 32) []) ++ 61 ::
      v.flatMap (escByte (hexTable 32) []) := by
    intro x hx e
    rcases List.mem_append.1 e with e | e
    · exact not_mem_flatMap_escByte x _ [] (hsp x (by omega)) (by omega) (by simp) t e
    · rcases List.mem_cons.1 e with e | e
      · omega
      · exact not_mem_flatMap_escByte x _ [] (hsp x (by omega)) (by omega) (by simp) v e
  have h61 : 61 ∉ t.flatMap (escByte (hexTable 32) []) :=
    not_mem_flatMap_escByte 61 _ [] (hsp 61 (by omega)) (by omega) (by simp) t
  rw [EscapeQueryString_one _ (hno 9 (by omega)) (hno 10 (by omega)) (hno 38 (by omega))]
  rw [escapePart_pair _ _ t v h61 (queryUnescape_encoded t ht) (queryUnescape_encoded v hv),
    queryEscape_flatMap]

/-- The splitter of `parseValues` on a text that is one part after the
replacement of `%5B` and `%5D`. -/
theorem parseValues_part (o : ParseOptions) (hs : StdSplit o) (q q2 : Str)
    (hq : replaceAll (replaceAll q [37, 53, 66] (bytes "[")) [37, 53, 68] (bytes "]") = q2)
    (h38 : 38 ∉ q2) :
    parseValues q o = .ok (parseValuesLoop o defaultDecoder o.Charset none 0 0 [q2]) := by
  have hw : wrapInt 1001 = 1001 := by decide
  have hsplit : splitN q2 [38] 1001 = [q2] := by
    rw [splitN]
    simp only [show ¬ ((1001 : Int) = 0) by decide, show ¬ ((1001 : Int) < 0) by decide, if_false]
    exact splitAux_absent 38 _ q2 h38
  simp only [parseValues, hs.queryPrefix, hs.delimiter, hs.limit, hs.sentinel, hs.decoder,
    bytes_pct5B, bytes_pct5D, bytes_amp, Bool.false_eq_true, if_false, Option.getD_some,
    Option.map_none', show ((1000 : Int) = 0) ↔ False by decide,
    show ((1000 : Int) + 1) = 1001 by decide]
  rw [hq, hw, hsplit]
  simp

/-- The replacements of `parseValues` on an escaped pair: the brackets of the
value come back. -/
theorem replaceAll_brackets (t v : Str) (ht : 37 ∉ t) (hv : Printable v) :
    replaceAll (replaceAll (t ++ 61 :: v.flatMap (escByte [43] [])) [37, 53, 66] (bytes "["))
        [37, 53, 68] (bytes "]") =
      t ++ 61 :: v.flatMap (escByte [43] [93, 91]) := by
  have hpre : 37 ∉ t ++ [61] := by
    intro e
    rcases List.mem_append.1 e with e | e
    · exact ht e
    · simp at e
  have hv256 : ∀ c ∈ v, c < 256 := fun c hc => by have := hv c hc; omega
  have e1 : t ++ 61 :: v.flatMap (escByte [43] []) =
      (t ++ [61]) ++ v.flatMap (escByte [43] []) := by simp
  have e2 : t ++ 61 :: v.flatMap (escByte [43] [93, 91]) =
      (t ++ [61]) ++ v.flatMap (escByte [43] [93, 91]) := by simp
  have k1 := replaceAll_kept 91 [] (by omega) (by omega) (by simp) v hv256
  have k2 := replaceAll_kept 93 [91] (by omega) (by omega) (by simp) v hv256
  rw [hexTable_open] at k1
  rw [hexTable_close] at k2
  rw [e1, e2, replaceAll, replaceAll, bytes_open, bytes_close,
    replaceAllAux_prefix 37 _ _ _ _ hpre, k1, replaceAllAux_prefix 37 _ _ _ _ hpre, k2]

/-- `Decode` on the escaped value that `parseValues` cuts out. -/
theorem Decode_escaped (v : Str) (hv : Printable v) :
    Decode (v.flatMap (escByte [43] [93, 91])) = v := by
  have h1 : replaceAll (v.flatMap (escByte [43] [93, 91])) (bytes "+") (bytes " ") =
      v.flatMap (escByte [32] [93, 91]) := by
    rw [replaceAll, bytes_plus, bytes_space]
    exact replaceAll_plus [93, 91] (by simp) v
  have h2 : queryUnescape (v.flatMap (escByte [32] [93, 91])) = some v :=
    unescapeAux_flatMap [32] [93, 91] unescapeAux_sp (by simp) v
      (fun c hc => by have := hv c hc; omega)
  simp [Decode, h1, h2]

theorem parsePart_escaped (o : ParseOptions) (cs : Str) (ho : o.InterpretNumericEntities = false)
    (t v : Str) (ht : PlainKey t) (htne : t ≠ []) (hv : Printable v) :
    parsePart o defaultDecoder cs (t ++ 61 :: v.flatMap (escByte [43] [93, 91])) = (t, v) := by
  have h61 : 61 ∉ v.flatMap (escByte [43] [93, 91]) :=
    not_mem_flatMap_escByte 61 [43] [93, 91] (by simp) (by omega) (by simp) v
  have hpos := splitPos_closed t _ (ht.not_mem 61 (by omega)) (ht.not_mem 93 (by omega)) h61
  have htake : (t ++ 61 :: v.flatMap (escByte [43] [93, 91])).take t.length = t := by simp
  have hdrop : (t ++ 61 :: v.flatMap (escByte [43] [93, 91])).drop (t.length + 1) =
      v.flatMap (escByte [43] [93, 91]) := by simp
  simp only [parsePart, hpos, htake, hdrop, defaultDecoder,
    Decode_plain _ (ht.not_mem 37 (by omega)) (ht.not_mem 43 (by omega)), Decode_escaped v hv, ho]
  simp [htne, Value.isNull, AsString]

/-- `parseKeys` on a key without brackets that `Atoi` does not parse. -/
theorem parseKeys_plain (o : ParseOptions) (hdots : o.AllowDots = false)
    (hdd : o.DecodeDotInKeys = false) {k : Str} (v : Value) (hne : k ≠ []) (h91 : 91 ∉ k)
    (hat : atoi k = none) (hproto : k ≠ bytes "__proto__") :
    parseKeys k v o true = .ok (.obj [(k, v)]) := by
  have h := parseKeys_groups o hdots k [] v ⟨hne, h91, Or.inl hproto⟩ (by simp)
  simp only [groups_nil, List.append_nil, List.drop_nil, if_true, List.map_nil] at h
  simp only [h, wrapChain, wrapSegment_root o hdd v h91 hat]
  simp [hproto]

/-- The decode of an encoded pair, under options that leave the splitter and
the dots at their defaults. -/
theorem DecodeQuery_encoded (opts : Option ParseOptions)
    (hs : StdSplit (normalizeParseOptions opts))
    (hdots : (normalizeParseOptions opts).AllowDots = false)
    (hdd : (normalizeParseOptions opts).DecodeDotInKeys = false)
    (t v : Str) (ht : PlainKey t) (htne : t ≠ []) (hat : atoi t = none)
    (hproto : t ≠ bytes "__proto__") (hv : Printable v) (cs kind : Str) :
    DecodeQuery (Encode t cs kind (bytes "RFC3986") ++ bytes "=" ++
        Encode v cs kind (bytes "RFC3986")) opts = (some [(t, .str v)], none) := by
  have hq : Encode t cs kind (bytes "RFC3986") ++ bytes "=" ++ Encode v cs kind (bytes "RFC3986") =
      t.flatMap (escByte (hexTable 32) []) ++ 61 :: v.flatMap (escByte (hexTable 32) []) := by
    rw [Encode_ascii t cs kind ht.printable.lt, Encode_ascii v cs kind hv.lt, bytes_eq]
    simp
  have hesc := EscapeQueryString_encoded t v ht.printable hv
  have hne : t ++ 61 :: v.flatMap (escByte [43] []) ≠ [] := by simp
  have h38 : 38 ∉ t ++ 61 :: v.flatMap (escByte [43] [93, 91]) := by
    intro e
    rcases List.mem_append.1 e with e | e
    · exact ht.not_mem 38 (by omega) e
    · rcases List.mem_cons.1 e with e | e
      · omega
      · exact not_mem_flatMap_escByte 38 [43] [93, 91] (by simp) (by omega) (by simp) v e
  have hbody : decodeBody (t.flatMap (escByte (hexTable 32) []) ++ 61 ::
      v.flatMap (escByte (hexTable 32) [])) opts = .ok [(t, .str v)] := by
    have hpv := parseValues_part _ hs _ _ (replaceAll_brackets t v (ht.not_mem 37 (by omega)) hv)
      h38
    rw [decodeBody_of_ok _ opts (by rw [hesc]; exact hne) (by rw [hesc]; exact hpv),
      parseValuesLoop_one, parsePart_escaped _ _ hs.entities t v ht htne hv]
    simp only [ne_eq, htne, not_false_eq_true, if_true, decodeLoop,
      parseKeys_plain _ hdots hdd (.str v) htne (ht.not_mem 91 (by omega)) hat hproto,
      Merge_insert _ [] t (.str v) rfl (by simp)]
    exact finish_settled opts (by
      intro kv hkv
      have hkv2 : kv = (t, Value.str v) := by simpa [mapSet] using hkv
      rw [hkv2]
      exact Settled.str _)
  rw [hq]
  simp [DecodeQuery, hbody]

/-! ## C19: the claim -/

/-- C19, amended: for every non-empty printable-ASCII key text `t` that contains
none of `[`, `]`, `.`, `%`, `&`, `+`, `=`, that `Atoi` does not parse and that
is not `__proto__`, and every printable-ASCII value text `v`, `DecodeQuery` on
`Encode(t) + "=" + Encode(v)` (format RFC3986, default options) returns exactly
`{t: v}` with a nil error. -/
theorem C19_round_trip (t v : Str) (ht : PlainKey t) (htne : t ≠ []) (hat : atoi t = none)
    (hproto : t ≠ bytes "__proto__") (hv : Printable v) (cs kind : Str) :
    DecodeQuery (Encode t cs kind (bytes "RFC3986") ++ bytes "=" ++
        Encode v cs kind (bytes "RFC3986")) (some defaults) = (some [(t, .str v)], none) :=
  DecodeQuery_encoded (some defaults) stdSplit_defaults rfl rfl t v ht htne hat hproto hv cs kind

theorem C19_round_trip_witness :
    Encode (bytes "full name") (bytes "utf-8") (bytes "key") (bytes "RFC3986") =
      bytes "full%20name" ∧
    Encode (bytes "a[b]=1&c=50% +d") (bytes "utf-8") (bytes "value") (bytes "RFC3986") =
      bytes "a%5Bb%5D%3D1%26c%3D50%25%20%2Bd" ∧
    DecodeQuery (Encode (bytes "full name") (bytes "utf-8") (bytes "key") (bytes "RFC3986") ++
        bytes "=" ++
        Encode (bytes "a[b]=1&c=50% +d") (bytes "utf-8") (bytes "key") (bytes "RFC3986"))
      (some defaults) = (some [(bytes "full name", .str (bytes "a[b]=1&c=50% +d"))], none) :=
  ⟨by decide, by decide,
    C19_round_trip (bytes "full name") (bytes "a[b]=1&c=50% +d") (by decide) (by decide)
      (by decide) (by decide) (by decide) (bytes "utf-8") (bytes "key")⟩

/-- C19, counterexample: keys that the claim admits (printable ASCII, without
`[`, `]` and `.`, no run of digits, not `__proto__`) and that do not come back.
`Encode` writes the key `a=b` as `a%3Db`; `EscapeQueryString` decodes it to
`a=b` before `parseValues` looks for the first `=`, so `a%3Db=1` decodes to
`{a: "b=1"}`. In the same way the key `a&b` gives `{a: "", b: "1"}`, the key
`a+b` gives `{"a b": "1"}` and the key `a%41` gives `{aA: "1"}`: the key is
decoded twice. The key `-0` is parsed by `Atoi` as the index 0, and the pair is
dropped. -/
theorem C19_counterexample :
    (∀ t ∈ [bytes "a=b", bytes "a&b", bytes "a+b", bytes "a%41", bytes "-0"],
      t ≠ [] ∧ (∀ c ∈ t, 32 ≤ c ∧ c ≤ 126 ∧ c ≠ 91 ∧ c ≠ 93 ∧ c ≠ 46) ∧
      ¬ (∀ c ∈ t, isDigit c = true) ∧ t ≠ bytes "__proto__") ∧
    (∀ t ∈ [bytes "a=b", bytes "a&b", bytes "a+b", bytes "a%41", bytes "-0"],
      DecodeQuery (Encode t [] [] (bytes "RFC3986") ++ bytes "=" ++
        Encode (bytes "1") [] [] (bytes "RFC3986")) (some defaults) ≠
      (some [(t, .str (bytes "1"))], none)) ∧
    Encode (bytes "a=b") [] [] (bytes "RFC3986") = bytes "a%3Db" ∧
    DecodeQuery (Encode (bytes "a=b") [] [] (bytes "RFC3986") ++ bytes "=" ++
        Encode (bytes "1") [] [] (bytes "RFC3986")) (some defaults) =
      (some [(bytes "a", .str (bytes "b=1"))], none) ∧
    DecodeQuery (Encode (bytes "a&b") [] [] (bytes "RFC3986") ++ bytes "=" ++
        Encode (bytes "1") [] [] (bytes "RFC3986")) (some defaults) =
      (some [(bytes "a", .str []), (bytes "b", .str (bytes "1"))], none) ∧
    DecodeQuery (Encode (bytes "a+b") [] [] (bytes "RFC3986") ++ bytes "=" ++
        Encode (bytes "1") [] [] (bytes "RFC3986")) (some defaults) =
      (some [(bytes "a b", .str (bytes "1"))], none) ∧
    DecodeQuery (Encode (bytes "a%41") [] [] (bytes "RFC3986") ++ bytes "=" ++
        Encode (bytes "1") [] [] (bytes "RFC3986")) (some defaults) =
      (some [(bytes "aA", .str (bytes "1"))], none) ∧
    DecodeQuery (Encode (bytes "-0") [] [] (bytes "RFC3986") ++ bytes "=" ++
        Encode (bytes "1") [] [] (bytes "RFC3986")) (some defaults) =
      (some [], none) := by
  refine ⟨by decide, by decide!, by decide!, by decide!, by decide!, by decide!, by decide!,
    by decide!⟩

/-! ## C23: no options and the default options -/

theorem normalize_none : normalizeParseOptions none = normalizeParseOptions (some defaults) := rfl

mutual
theorem processNested_none (o : ParseOptions) : ∀ (v : Value),
    processNestedStructures none v = processNestedStructures (some o) v ∨
      processNestedStructures none v = .error .nilDereference
  | .null => Or.inl (by simp only [processNestedStructures])
  | .str _ => Or.inl (by simp only [processNestedStructures])
  | .bool _ => Or.inl (by simp only [processNestedStructures])
  | .strs _ => Or.inl (by simp only [processNestedStructures])
  | .iobj _ => Or.inl (by simp only [processNestedStructures])
  | .obj m => by
    rcases processEntries_none o m with h | h
    · exact Or.inl (by simp only [processNestedStructures, h])
    · exact Or.inr (by simp only [processNestedStructures, h])
  | .arr xs => by
    rcases processItems_none o xs with h | h
    · exact Or.inl (by simp only [processNestedStructures, h])
    · exact Or.inr (by simp only [processNestedStructures, h])
theorem processEntries_none (o : ParseOptions) : ∀ (m : Obj),
    processEntries none m = processEntries (some o) m ∨
      processEntries none m = .error .nilDereference
  | [] => Or.inl (by simp only [processEntries])
  | (k, v) :: rest => by
    rcases processNested_none o v with h | h
    · rcases processEntries_none o rest with h2 | h2
      · exact Or.inl (by simp only [processEntries, h, h2])
      · cases hv : processNestedStructures (some o) v with
        | error e => exact Or.inl (by simp only [processEntries, h, hv])
        | ok w => exact Or.inr (by simp only [processEntries, h, hv, h2])
    · exact Or.inr (by simp only [processEntries, h])
theorem processItems_none (o : ParseOptions) : ∀ (xs : List Value),
    processItems none xs = processItems (some o) xs ∨
      processItems none xs = .error .nilDereference
  | [] => Or.inl (by simp only [processItems])
  | v :: rest => by
    have ih := processItems_none o rest
    have ihv := processNested_none o v
    cases v with
    | null => exact Or.inr (by simp only [processItems])
    | str s =>
      rcases ihv with h | h
      · rcases ih with h2 | h2
        · exact Or.inl (by simp only [processItems, h, h2])
        · cases hv : processNestedStructures (some o) (.str s) with
          | error e => exact Or.inl (by simp only [processItems, h, hv])
          | ok w => exact Or.inr (by simp only [processItems, h, hv, h2])
      · exact Or.inr (by simp only [processItems, h])
    | bool s =>
      rcases ihv with h | h
      · rcases ih with h2 | h2
        · exact Or.inl (by simp only [processItems, h, h2])
        · cases hv : processNestedStructures (some o) (.bool s) with
          | error e => exact Or.inl (by simp only [processItems, h, hv])
          | ok w => exact Or.inr (by simp only [processItems, h, hv, h2])
      · exact Or.inr (by simp only [processItems, h])
    | strs s =>
      rcases ihv with h | h
      · rcases ih with h2 | h2
        · exact Or.inl (by simp only [processItems, h, h2])
        · cases hv : processNestedStructures (some o) (.strs s) with
          | error e => exact Or.inl (by simp only [processItems, h, hv])
          | ok w => exact Or.inr (by simp only [processItems, h, hv, h2])
      · exact Or.inr (by simp only [processItems, h])
    | arr s =>
      rcases ihv with h | h
      · rcases ih with h2 | h2
        · exact Or.inl (by simp only [processItems, h, h2])
        · cases hv : processNestedStructures (some o) (.arr s) with
          | error e => exact Or.inl (by simp only [processItems, h, hv])
          | ok w => exact Or.inr (by simp only [processItems, h, hv, h2])
      · exact Or.inr (by simp only [processItems, h])
    | obj s =>
      rcases ihv with h | h
      · rcases ih with h2 | h2
        · exact Or.inl (by simp only [processItems, h, h2])
        · cases hv : processNestedStructures (some o) (.obj s) with
          | error e => exact Or.inl (by simp only [processItems, h, hv])
          | ok w => exact Or.inr (by simp only [processItems, h, hv, h2])
      · exact Or.inr (by simp only [processItems, h])
    | iobj s =>
      rcases ihv with h | h
      · rcases ih with h2 | h2
        · exact Or.inl (by simp only [processItems, h, h2])
        · cases hv : processNestedStructures (some o) (.iobj s) with
          | error e => exact Or.inl (by simp only [processItems, h, hv])
          | ok w => exact Or.inr (by simp only [processItems, h, hv, h2])
      · exact Or.inr (by simp only [processItems, h])
end

/-- The end of `DecodeQuery` under the nil pointer: what it is under a non-nil
pointer, or the nil dereference. -/
theorem finish_none (o : ParseOptions) (r : Except DecodeError Obj) :
    finish none r = finish (some o) r ∨ finish none r = .error .nilDereference := by
  cases r with
  | error e => exact Or.inl rfl
  | ok obj =>
    cases hc : Compact (.obj obj) with
    | obj compacted =>
      rcases processEntries_none o compacted with h | h
      · exact Or.inl (by simp only [finish, hc, PostProcessParsedObject, h])
      · exact Or.inr (by simp only [finish, hc, PostProcessParsedObject, h])
    | null => exact Or.inl (by simp only [finish, hc])
    | str _ => exact Or.inl (by simp only [finish, hc])
    | bool _ => exact Or.inl (by simp only [finish, hc])
    | strs _ => exact Or.inl (by simp only [finish, hc])
    | arr _ => exact Or.inl (by simp only [finish, hc])
    | iobj _ => exact Or.inl (by simp only [finish, hc])

theorem decodeBody_none (s : Str) :
    decodeBody s none = decodeBody s (some defaults) ∨
      decodeBody s none = .error .nilDereference := by
  by_cases h : EscapeQueryString s = []
  · exact Or.inl (by rw [decodeBody_nil s _ h, decodeBody_nil s _ h])
  · cases hp : parseValues (EscapeQueryString s) (normalizeParseOptions none) with
    | error e =>
      have hp2 : parseValues (EscapeQueryString s) (normalizeParseOptions (some defaults)) =
          .error e := hp
      exact Or.inl (by rw [decodeBody_of_error s _ h hp, decodeBody_of_error s _ h hp2])
    | ok u =>
      have hp2 : parseValues (EscapeQueryString s) (normalizeParseOptions (some defaults)) =
          .ok u := hp
      rw [decodeBody_of_ok s _ h hp, decodeBody_of_ok s _ h hp2, ← normalize_none]
      exact finish_none defaults _

/-- `DecodeQuery` under the nil pointer returns what it returns under a pointer
to the defaults, or the recovered nil dereference. -/
theorem DecodeQuery_none (s : Str) :
    DecodeQuery s none = DecodeQuery s (some defaults) ∨
      DecodeQuery s none = (none, some .nilDereference) := by
  rcases decodeBody_none s with h | h
  · exact Or.inl (by rw [DecodeQuery, DecodeQuery, h])
  · exact Or.inr (by rw [DecodeQuery, h])

/-- C23, the code at the failing input: `DecodeQuery("a[1]=x", nil)` returns a
nil result and an error, the recovered nil pointer dereference, where
`DecodeQuery("a[1]=x", &defaults)` returns `{a: ["x"]}` and a nil error.
`DecodeQuery` hands the pointer it was given to `PostProcessParsedObject`, and
`processNestedStructures` reads `options.AllowNilArrayValues` at the nil element
of the sparse slice. On every input the two calls return the same, unless the
call with nil returns this error; `a=1&b[]=2` is an input on which they agree. -/
theorem C23_nil_options_dereference :
    DecodeQuery (bytes "a[1]=x") none = (none, some .nilDereference) ∧
    DecodeQuery (bytes "a[1]=x") (some defaults) =
      (some [(bytes "a", .arr [.str (bytes "x")])], none) ∧
    DecodeQuery (bytes "a=1&b[]=2") none = DecodeQuery (bytes "a=1&b[]=2") (some defaults) ∧
    (∀ s : Str, DecodeQuery s none = DecodeQuery s (some defaults) ∨
      DecodeQuery s none = (none, some .nilDereference)) := by
  refine ⟨by decide!, by decide!, by decide!, DecodeQuery_none⟩

/-! ## C22: a numeral as a top-level key -/

/-- The wrap of a segment without `[`: `placeSegment` on the segment itself. -/
theorem wrapSegment_bare (o : ParseOptions) (hdd : o.DecodeDotInKeys = false) {root : Str}
    (leaf : Value) (h91 : 91 ∉ root) : wrapSegment o root leaf = placeSegment o root leaf := by
  have h1 : root ≠ bytes "[]" := fun e => h91 (by rw [e, bytes_empty]; simp)
  have h2 : hasPrefix root (bytes "[") = false := by
    cases root with
    | nil => simp [hasPrefix, bytes_open, List.isPrefixOf]
    | cons c r =>
      have : c ≠ 91 := fun e => h91 (by simp [e])
      simp [hasPrefix, bytes_open, List.isPrefixOf, Ne.symm this]
  simp only [wrapSegment, h1, false_and, if_false, h2, Bool.false_eq_true, hdd]

/-- `parseKeys` on a numeral without brackets: the numeral is classified as a
bracketed index is. -/
theorem parseKeys_numeral (o : ParseOptions) (hdots : o.AllowDots = false)
    (hdd : o.DecodeDotInKeys = false) (n : Nat) (v : Value) :
    parseKeys (itoaNat n) v o true = placeSegment o (itoaNat n) v := by
  have h := parseKeys_groups o hdots (itoaNat n) [] v
    ((itoaNat_alnum n).rootOK o (itoaNat_ne_nil n)) (by simp)
  simp only [groups_nil, List.append_nil, List.drop_nil, if_true, List.map_nil] at h
  simp only [h, wrapChain, wrapSegment_bare o hdd v (itoaNat_alnum n).groupName.1]

/-- A numeral within ArrayLimit as the key of a single pair: the pair is dropped. -/
theorem DecodeQuery_numeral_dropped (opts : Option ParseOptions)
    (hs : StdSplit (normalizeParseOptions opts))
    (hdots : (normalizeParseOptions opts).AllowDots = false)
    (hdd : (normalizeParseOptions opts).DecodeDotInKeys = false)
    (hpa : (normalizeParseOptions opts).ParseArrays = true)
    (n : Nat) (hn : (n : Int) ≤ (normalizeParseOptions opts).ArrayLimit)
    (hmax : (n : Int) < maxSliceLen) {v : Str} (hv : Alnum v) :
    DecodeQuery (queryOf [(itoaNat n, v)]) opts = (some [], none) := by
  have hp : parseKeys (itoaNat n) (.str v) (normalizeParseOptions opts) true =
      .ok (.arr (List.replicate n Value.null ++ [.str v])) := by
    have hle : (n : Int) ≤ maxInt := by
      simp only [maxInt, maxSliceLen] at *
      omega
    rw [parseKeys_numeral _ hdots hdd, placeSegment, atoi_itoaNat n hle]
    have h0 : (n : Int) ≥ 0 := Int.ofNat_nonneg n
    have h1 : ¬ ((n : Int) + 1 > maxInt ∨ ifaceSize * ((n : Int) + 1) > maxAlloc) := by
      simp only [maxInt, maxSliceLen, ifaceSize, maxAlloc] at *
      omega
    simp [hpa, h0, hn, h1]
  have hfold : foldPairs (normalizeParseOptions opts) [] [(itoaNat n, v)] = .ok [] := by
    rw [foldPairs]
    simp only [hp, Merge, foldPairs]
  exact DecodeQuery_queryOf opts hs (Or.inr (by simp)) (by simp) (by simp)
    (by
      intro kv hkv
      simp only [List.mem_singleton] at hkv
      subst hkv
      exact (itoaNat_alnum n).keyOK (itoaNat_ne_nil n))
    (by
      intro kv hkv
      simp only [List.mem_singleton] at hkv
      subst hkv
      exact hv)
    hfold (by simp)

/-- A numeral above ArrayLimit as the key of a single pair: a mapping key. -/
theorem DecodeQuery_numeral_kept (opts : Option ParseOptions)
    (hs : StdSplit (normalizeParseOptions opts))
    (hdots : (normalizeParseOptions opts).AllowDots = false)
    (hdd : (normalizeParseOptions opts).DecodeDotInKeys = false)
    (n : Nat) (hn : (normalizeParseOptions opts).ArrayLimit < (n : Int))
    {v : Str} (hv : Alnum v) :
    DecodeQuery (queryOf [(itoaNat n, v)]) opts = (some [(itoaNat n, .str v)], none) := by
  have hp : parseKeys (itoaNat n) (.str v) (normalizeParseOptions opts) true =
      .ok (nest [itoaNat n] (.str v)) := by
    rw [parseKeys_numeral _ hdots hdd, placeSegment_key _ n _ (Or.inr hn)]
    rfl
  exact DecodeQuery_single_ok opts hs ((itoaNat_alnum n).keyOK (itoaNat_ne_nil n)) hv hp

/-- C22, the code at the failing input: under the default options `0=x` and
`20=x` decode to the empty mapping, and in `a=1&0=x` the pair `0=x` is dropped,
where the claim says `{"0": "x"}`. `parseObject` classifies the key `0`, which
has no brackets, with `strconv.Atoi` as it classifies a bracketed index and
returns the slice `["x"]`; `Merge` has no case for a slice merged into the
mapping of the result and returns the mapping unchanged. A numeral above
ArrayLimit is kept: `21=x` decodes to `{"21": "x"}`. -/
theorem C22_numeral_key_dropped :
    DecodeQuery (bytes "0=x") (some defaults) = (some [], none) ∧
    DecodeQuery (bytes "0=x") (some defaults) ≠ (some [(bytes "0", .str (bytes "x"))], none) ∧
    DecodeQuery (bytes "20=x") (some defaults) = (some [], none) ∧
    DecodeQuery (bytes "a=1&0=x") (some defaults) =
      (some [(bytes "a", .str (bytes "1"))], none) ∧
    parseKeys (bytes "0") (.str (bytes "x")) (normalizeParseOptions (some defaults)) true =
      .ok (.arr [.str (bytes "x")]) ∧
    Merge (normalizeParseOptions (some defaults)) (.obj []) (.arr [.str (bytes "x")]) = .obj [] ∧
    DecodeQuery (bytes "21=x") (some defaults) =
      (some [(bytes "21", .str (bytes "x"))], none) := by
  refine ⟨by decide!, by decide!, by decide!, by decide!, ?_, rfl, by decide!⟩
  have h := parseKeys_numeral (normalizeParseOptions (some defaults)) rfl rfl 0 (.str (bytes "x"))
  have e : itoaNat 0 = bytes "0" := by decide
  rw [e] at h
  rw [h]
  rfl

/-! ## C21: Depth 0 -/

/-- `parseKeys` on `root[g1]...[gn]` with Depth 0 and StrictDepth off: the loop
does not run, `key` is still the whole key, and the whole key is the literal
final segment. -/
theorem parseKeys_depth_zero (o : ParseOptions) (hdots : o.AllowDots = false)
    (hdd : o.DecodeDotInKeys = false) (hstrict : o.StrictDepth = false) (hdepth : o.Depth = 0)
    {root : Str} (hroot : Letters root) (hrne : root ≠ []) (gs : List Str)
    (hgs : ∀ g ∈ gs, g ≠ [] ∧ Letters g) (hne : gs ≠ []) (v : Value) :
    parseKeys (root ++ groups gs) v o true = .ok (nest [root, root ++ groups gs] v) := by
  have hd : o.Depth.toNat = 0 := by rw [hdepth]; rfl
  have hstart : startsWithLetter (root ++ groups gs) = true := by
    cases root with
    | nil => exact absurd rfl hrne
    | cons c r => exact hroot c (by simp)
  have hproto : root ++ groups gs ≠ bytes "__proto__" := by
    intro e
    have h91 : 91 ∈ root ++ groups gs := by
      cases gs with
      | nil => exact absurd rfl hne
      | cons g gs =>
        rw [groups_cons]
        simp
    rw [e, bytes_proto] at h91
    simp at h91
  rw [parseKeys_groups o hdots root gs v (hroot.alnum.rootOK o hrne)
    (fun g hg => (hgs g hg).2.alnum.groupName)]
  simp only [hd, List.drop_zero, hne, if_false, hstrict, Bool.false_eq_true, if_true]
  have := wrapChain_root_names o hdd hroot [root ++ groups gs] v
    (by
      intro g hg
      simp only [List.mem_singleton] at hg
      subst hg
      exact ⟨by simp [hrne], atoi_startsWithLetter hstart, hproto⟩)
  simpa using this

/-- The decode of `root[g1]...[gn]=v` with Depth 0 and StrictDepth off: the
root, and under it the whole key as one literal name. -/
theorem DecodeQuery_depth_zero (root : Str) (hroot : Letters root) (hrne : root ≠ [])
    (gs : List Str) (hgs : ∀ g ∈ gs, g ≠ [] ∧ Letters g) (hne : gs ≠ []) (v : Str)
    (hv : Alnum v) :
    DecodeQuery (queryOf [(root ++ groups gs, v)])
        (some { defaults with Depth := 0, StrictDepth := false }) =
      (some [(root, .obj [(root ++ groups gs, .str v)])], none) :=
  DecodeQuery_single_ok (some { defaults with Depth := 0, StrictDepth := false })
    (by constructor <;> rfl) (KeyOK_groups hroot hrne (fun g hg => (hgs g hg).2)) hv
    (parseKeys_depth_zero
      (normalizeParseOptions (some { defaults with Depth := 0, StrictDepth := false }))
      rfl rfl rfl rfl hroot hrne gs hgs hne (.str v))

/-- C21, the code at the failing input: with Depth 0 and StrictDepth off `a[b]=x`
decodes to `{a: {"a[b]": "x"}}`, and not to `{a: {"[b]": "x"}}`, and
`a[b][c]=x` decodes to `{a: {"a[b][c]": "x"}}`: the name of the literal final
segment is the whole key, the root included. `parseKeys` cuts the root off `key`
only inside the loop over the bracket groups, which does not run when Depth is
0. With Depth 1 the loop runs once and the literal segment of `a[b][c]=x` is
the remainder `[c]` alone. -/
theorem C21_depth_zero_keeps_root :
    DecodeQuery (bytes "a[b]=x") (some { defaults with Depth := 0, StrictDepth := false }) =
      (some [(bytes "a", .obj [(bytes "a[b]", .str (bytes "x"))])], none) ∧
    DecodeQuery (bytes "a[b]=x") (some { defaults with Depth := 0, StrictDepth := false }) ≠
      (some [(bytes "a", .obj [(bytes "[b]", .str (bytes "x"))])], none) ∧
    DecodeQuery (bytes "a[b][c]=x") (some { defaults with Depth := 0, StrictDepth := false }) =
      (some [(bytes "a", .obj [(bytes "a[b][c]", .str (bytes "x"))])], none) ∧
    DecodeQuery (bytes "a[b][c]=x") (some { defaults with Depth := 1, StrictDepth := false }) =
      (some [(bytes "a", .obj [(bytes "b", .obj [(bytes "[c]", .str (bytes "x"))])])], none) := by
  refine ⟨by decide!, by decide!, by decide!, by decide!⟩

end GoQs
